import Mathlib

/-! ksdssp: Kabsch-Sander secondary structure assignment.

A shallow embedding of the inference engine of ksdssp (Model.cpp, Structure.cpp,
Residue.cpp, List.h, SquareArray.h) together with theorems about it.

Conventions of the embedding.

* C++ `int` residue indices and ladder coordinates are `Int` where the code
  subtracts them and `Nat` where they are loop counters and array indices.
  Residue indices are bounded by the residue count, far from the `int` range.
* Heap objects reached through pointers are held in an arena: `Model.ladders`
  holds every `Ladder` ever created with `new`, a `Ladder *` is the index of
  the object in the arena, `Model.ladderList_` is the `List<Ladder>` of
  pointers.  A `Sheet *` is the index of the sheet in `Model.sheetList_`
  (sheets are only ever appended).
* The process-wide statics (`minStrandLength`, `minHelixLength`,
  `checkBulges`, `hBondCutoff`) are the fields of `Config`.
* Loops whose termination is not structural take fuel and return `none`
  when it runs out; the entry points supply fuel and the theorems show that
  it suffices.
* `ListArray::operator()` returns a null pointer for an index outside the
  array.  Where the code dereferences the result of `residue(n)` for an index
  that is not a loop counter below the residue count (`helixClass`,
  `registerLadder`), the lookup is `Model.residueAt`, the function returns an
  `Option`, and `none` is the dereference of the null pointer.
-/

namespace Ksdssp

/-! ## Structure.h -/

/-- B_PARA of Structure.h. -/
def B_PARA : Int := 1

/-- B_ANTI of Structure.h. -/
def B_ANTI : Int := 2

/-- Class Helix: a residue range and the class for the HELIX record. -/
structure Helix where
  from_ : Int
  to_ : Int
  type_ : Int
deriving DecidableEq, Repr

/-- Class Ladder.  The arrays `start_[2]`, `end_[2]`, `neighbor_[2]` are spelled
out per side; `neighbor0`, `neighbor1` and `sheet_` are pointers (`none` is NULL). -/
structure Ladder where
  type_ : Int
  start0 : Int
  end0 : Int
  start1 : Int
  end1 : Int
  neighbor0 : Option Nat
  neighbor1 : Option Nat
  sheet_ : Option Nat
  isBulge_ : Bool
deriving DecidableEq, Repr, Inhabited

/-- Accessor `Ladder::start(n)`. -/
def Ladder.start (l : Ladder) (n : Nat) : Int := if n = 0 then l.start0 else l.start1

/-- Accessor `Ladder::end(n)`. -/
def Ladder.end_ (l : Ladder) (n : Nat) : Int := if n = 0 then l.end0 else l.end1

/-- Accessor `Ladder::neighbor(n)`. -/
def Ladder.neighbor (l : Ladder) (n : Nat) : Option Nat :=
  if n = 0 then l.neighbor0 else l.neighbor1

/-- Mutator `Ladder::setNeighbor(n, l)`. -/
def Ladder.setNeighbor (l : Ladder) (n : Nat) (o : Nat) : Ladder :=
  if n = 0 then { l with neighbor0 := some o } else { l with neighbor1 := some o }

/-- Mutator `Ladder::setSheet(s)`. -/
def Ladder.setSheet (l : Ladder) (s : Nat) : Ladder := { l with sheet_ := some s }

/-- Mutator `Ladder::setBulge()`. -/
def Ladder.setBulge (l : Ladder) : Ladder := { l with isBulge_ := true }

/-- Constructor `Ladder::Ladder(type, s1, e1, s2, e2)`: each strand is stored
with the smaller coordinate as its start. -/
def Ladder.new (type s1 e1 s2 e2 : Int) : Ladder :=
  { type_ := type
    start0 := if s1 < e1 then s1 else e1
    end0 := if s1 < e1 then e1 else s1
    start1 := if s2 < e2 then s2 else e2
    end1 := if s2 < e2 then e2 else s2
    neighbor0 := none
    neighbor1 := none
    sheet_ := none
    isBulge_ := false }

/-- Method `Ladder::overlaps(l, overlap)`: the first pair of sides `(i, j)`, in
the order (0,0), (0,1), (1,0), (1,1), whose residue ranges intersect; `none`
is the return value 0. -/
def Ladder.overlaps (self l : Ladder) : Option (Nat × Nat) :=
  if self.end_ 0 ≥ l.start 0 ∧ l.end_ 0 ≥ self.start 0 then some (0, 0)
  else if self.end_ 0 ≥ l.start 1 ∧ l.end_ 1 ≥ self.start 0 then some (0, 1)
  else if self.end_ 1 ≥ l.start 0 ∧ l.end_ 0 ≥ self.start 1 then some (1, 0)
  else if self.end_ 1 ≥ l.start 1 ∧ l.end_ 1 ≥ self.start 1 then some (1, 1)
  else none

/-- Method `Ladder::neighborCount()`. -/
def Ladder.neighborCount (l : Ladder) : Nat :=
  (if l.neighbor0.isSome then 1 else 0) + (if l.neighbor1.isSome then 1 else 0)

/-- Method `Ladder::otherNeighbor(l)`; the argument may be NULL. -/
def Ladder.otherNeighbor (self : Ladder) (l : Option Nat) : Option Nat :=
  if self.neighbor0 = l then self.neighbor1 else self.neighbor0

/-- Static method `Ladder::mergeBulge(l1, l2)`; `none` is the NULL result. -/
def Ladder.mergeBulge (l1 l2 : Ladder) : Option Ladder :=
  if l1.type_ ≠ l2.type_ then none
  else
    -- Make sure that l1 precedes l2
    let a := if l1.start 0 > l2.start 0 then l2 else l1
    let b := if l1.start 0 > l2.start 0 then l1 else l2
    let d0 := b.start 0 - a.end_ 0
    if d0 < 0 ∨ d0 > 4 then none
    else
      let d1 := if a.type_ = B_PARA then b.start 1 - a.end_ 1 else a.start 1 - b.end_ 1
      if d1 < 0 ∨ d1 > 4 then none
      else if d0 > 1 ∧ d1 > 1 then none
      else
        let s0 := a.start 0
        let e0 := b.end_ 0
        let s1 := if a.type_ = B_PARA then a.start 1 else b.start 1
        let e1 := if a.type_ = B_PARA then b.end_ 1 else a.end_ 1
        some (Ladder.new a.type_ s0 e0 s1 e1).setBulge

/-- Class Sheet: a name and the list of member ladders (pointers). -/
structure Sheet where
  name_ : Char
  ladderList_ : List Nat
deriving DecidableEq, Repr

/-- Method `Sheet::addLadder(l)`: `ladderList_.append(l)`. -/
def Sheet.addLadder (s : Sheet) (l : Nat) : Sheet :=
  { s with ladderList_ := s.ladderList_ ++ [l] }

/-! ## SquareArray.h -/

/-- Class `SquareArray<char>`: `dim_` and the flat cell array `array_`, a cell
being the code of a `char`.  `new T[dim_ * dim_]` does not initialise the
cells, so the contents of a fresh array are whatever `array_` holds. -/
structure SquareArray where
  dim_ : Nat
  array_ : List Nat
deriving DecidableEq, Repr

/-- Read through `operator()(row, col)`: the cell `array_[row * dim_ + col]`.
An index past the end of the allocation reads as 0. -/
def SquareArray.get (a : SquareArray) (row col : Nat) : Nat :=
  a.array_.getD (row * a.dim_ + col) 0

/-- Write through `operator()(row, col)`. -/
def SquareArray.set (a : SquareArray) (row col : Nat) (v : Nat) : SquareArray :=
  { a with array_ := a.array_.set (row * a.dim_ + col) v }

/-- Method `SquareArray::zero()`: memset of the `dim_ * dim_` cells. -/
def SquareArray.zero (a : SquareArray) : SquareArray :=
  { a with array_ := List.replicate (a.dim_ * a.dim_) 0 }

/-! ## Residue.h, Residue.cpp, misc.cpp -/

def R_3DONOR : Nat := 0x0001
def R_3ACCEPTOR : Nat := 0x0002
def R_3GAP : Nat := 0x0004
def R_3HELIX : Nat := 0x0008
def R_4DONOR : Nat := 0x0010
def R_4ACCEPTOR : Nat := 0x0020
def R_4GAP : Nat := 0x0040
def R_4HELIX : Nat := 0x0080
def R_PBRIDGE : Nat := 0x0100
def R_ABRIDGE : Nat := 0x0200
def R_TER : Nat := 0x8000

/-- A coordinate triple `float[3]`; `float` arithmetic is modelled by exact
rational arithmetic. -/
abbrev Coord := ℚ × ℚ × ℚ

/-- Class Atom: a name and a coordinate. -/
structure Atom where
  name_ : String
  coord_ : Coord
deriving DecidableEq, Repr

/-- Class Residue: the atom list and the flag word (the PDB identity of the
residue plays no part in the inference). -/
structure Residue where
  aList_ : List Atom
  flags_ : Nat
deriving DecidableEq, Repr

instance : Inhabited Residue := ⟨⟨[], 0⟩⟩

/-- Method `Residue::atom(name)`: the first atom of that name, `none` for NULL. -/
def Residue.atom (r : Residue) (name : String) : Option Atom :=
  r.aList_.find? (fun a => a.name_ == name)

/-- Method `Residue::flag(f)`: `flags_ & f`. -/
def Residue.flag (r : Residue) (f : Nat) : Nat := r.flags_ &&& f

/-- Method `Residue::setFlag(f)`: `flags_ |= f`. -/
def Residue.setFlag (r : Residue) (f : Nat) : Residue := { r with flags_ := r.flags_ ||| f }

/-- Function `distSquared(v1, v2)` of misc.cpp. -/
def distSquared (v1 v2 : Coord) : ℚ :=
  (v2.1 - v1.1) * (v2.1 - v1.1) + (v2.2.1 - v1.2.1) * (v2.2.1 - v1.2.1)
    + (v2.2.2 - v1.2.2) * (v2.2.2 - v1.2.2)

/-- Function `distance(v1, v2)` of misc.cpp, over a square root `sq`. -/
def distance (sq : ℚ → ℚ) (v1 v2 : Coord) : ℚ := sq (distSquared v1 v2)

/-- The energy `E` computed by `Residue::hBondedTo` from the four atoms. -/
def hBondEnergy (sq : ℚ → ℚ) (c o n h : Coord) : ℚ :=
  (42 / 100 : ℚ) * (20 / 100 : ℚ)
    * (1 / distance sq o n + 1 / distance sq c h - 1 / distance sq o h
        - 1 / sq (distSquared c n)) * 332

/-- Method `Residue::hBondedTo(other)`, with the static `hBondCutoff` and the
square root as parameters; the result is the C++ `int` 0 or 1. -/
def Residue.hBondedTo (sq : ℚ → ℚ) (hBondCutoff : ℚ) (self other : Residue) : Nat :=
  match self.atom " C", self.atom " O" with
  | some c, some o =>
    match other.atom " N", other.atom " H" with
    | some n, some h =>
      if distSquared c.coord_ n.coord_ > 49 then 0
      else if hBondEnergy sq c.coord_ o.coord_ n.coord_ h.coord_ < hBondCutoff then 1 else 0
    | _, _ => 0
  | _, _ => 0

/-- A square root on the rationals that is exact on squares of rationals, the
inputs on which the rounding of `sqrtf` plays no part. -/
def sqrtf (q : ℚ) : ℚ := (Nat.sqrt q.num.toNat : ℚ) / (Nat.sqrt q.den : ℚ)

/-! ## Model.h, Model.cpp -/

/-- The file-level statics of Model.cpp and Residue.cpp. -/
structure Config where
  minStrandLength : Int
  minHelixLength : Int
  checkBulges : Bool
  hBondCutoff : ℚ

/-- The initial values of the statics. -/
def Config.default : Config :=
  { minStrandLength := 3, minHelixLength := 3, checkBulges := true, hBondCutoff := -1 / 2 }

/-- Class Model.  `ladders` is the arena of all `Ladder` objects allocated so
far; a `Ladder *` is an index into it. -/
structure Model where
  rArray_ : List Residue
  hBond_ : SquareArray
  helixList_ : List Helix
  ladders : List Ladder
  ladderList_ : List Nat
  sheetList_ : List Sheet
deriving DecidableEq, Repr

/-- Dereference of a `Ladder *`. -/
def Model.ladder (m : Model) (p : Nat) : Ladder := m.ladders.getD p default

/-- Method `Model::residue(n)`, for an index inside the residue array (a loop counter below
the residue count, or an index stored from one); `Model.residueAt` is the lookup that can
return NULL. -/
def Model.residue (m : Model) (n : Nat) : Residue := m.rArray_.getD n default

/-- Method `Model::hBonded(i, j)`, as a truth value. -/
def Model.hBonded (m : Model) (i j : Nat) : Bool := m.hBond_.get i j != 0

/-- Update `residue(n)->setFlag(f)`. -/
def Model.setFlag (m : Model) (n : Nat) (f : Nat) : Model :=
  { m with rArray_ := m.rArray_.set n ((m.residue n).setFlag f) }

/-- The loop `for (i = lo; i < hi; i++) s = f(i, s)`. -/
def forLoop {σ : Type} (lo hi : Nat) (f : Nat → σ → σ) (s : σ) : σ :=
  (List.range' lo (hi - lo)).foldl (fun s i => f i s) s

/-- Method `Model::findHBonds()`. -/
def Model.findHBonds (sq : ℚ → ℚ) (cfg : Config) (m : Model) : Model :=
  let max := m.rArray_.length
  { m with hBond_ :=
      forLoop 0 max (fun i hb =>
        forLoop (i + 2) max (fun j hb =>
          (hb.set i j (Residue.hBondedTo sq cfg.hBondCutoff (m.residue i) (m.residue j))).set j i
            (Residue.hBondedTo sq cfg.hBondCutoff (m.residue j) (m.residue i))) hb) m.hBond_ }

/-- Method `Model::findTurns(n)`. -/
def Model.findTurns (n : Nat) (m : Model) : Model :=
  let donor := if n = 3 then R_3DONOR else R_4DONOR
  let acceptor := if n = 3 then R_3ACCEPTOR else R_4ACCEPTOR
  let gap := if n = 3 then R_3GAP else R_4GAP
  let max := m.rArray_.length - n
  forLoop 0 max (fun i m =>
    if m.hBonded i (i + n) then
      ((forLoop 1 n (fun j m => m.setFlag (i + j) gap) (m.setFlag i acceptor)).setFlag
        (i + n) donor)
    else m) m

/-- Method `Model::markHelices(n)`. -/
def Model.markHelices (n : Nat) (m : Model) : Model :=
  let acceptor := if n = 3 then R_3ACCEPTOR else R_4ACCEPTOR
  let helix := if n = 3 then R_3HELIX else R_4HELIX
  let max := m.rArray_.length - n
  forLoop 1 max (fun i m =>
    if (m.residue (i - 1)).flag acceptor ≠ 0 ∧ (m.residue i).flag acceptor ≠ 0 then
      forLoop 0 n (fun j m => m.setFlag (i + j) helix) m
    else m) m

/-- Method `Model::residue(n)` for an `int` index, as a pointer: `ListArray::operator()`
returns NULL (`none`) when `n < 0 || n >= size_`. -/
def Model.residueAt (m : Model) (n : Int) : Option Residue :=
  if n < 0 ∨ n ≥ (m.rArray_.length : Int) then none else some (m.residue n.toNat)

/-- Method `Model::helixClass(h)`, over the function `dihedral` of misc.cpp.  The four
lookups `residue(from + i)->atom(" CA")` are made in turn; `none` is the dereference of the
null pointer that `residue(n)` returns for an index outside the residue array. -/
def Model.helixClass (dihedral : Coord → Coord → Coord → Coord → ℚ) (m : Model) (h : Helix) :
    Option Int :=
  let from_ := h.from_
  match m.residueAt from_ with
  | none => none
  | some r =>
    match r.atom " CA" with
    | none => some 0
    | some ca0 =>
      match m.residueAt (from_ + 1) with
      | none => none
      | some r1 =>
        match r1.atom " CA" with
        | none => some 0
        | some ca1 =>
          match m.residueAt (from_ + 2) with
          | none => none
          | some r2 =>
            match r2.atom " CA" with
            | none => some 0
            | some ca2 =>
              match m.residueAt (from_ + 3) with
              | none => none
              | some r3 =>
                match r3.atom " CA" with
                | none => some 0
                | some ca3 =>
                  let angle := dihedral ca0.coord_ ca1.coord_ ca2.coord_ ca3.coord_
                  if angle > 0 then
                    if r.flag R_4HELIX ≠ 0 then some 1
                    else if r.flag R_3HELIX ≠ 0 then some 5
                    else some 0
                  else
                    if r.flag R_4HELIX ≠ 0 then some 6 else some 0

/-- The body of the loop of `Model::findHelices()` at the residue `i`: the state is the local
`first` and the helix list; `none` when `helixClass` dereferences a null pointer. -/
def Model.findHelicesStep (dihedral : Coord → Coord → Coord → Coord → ℚ) (cfg : Config)
    (m : Model) (i : Nat) (s : Int × List Helix) : Option (Int × List Helix) :=
  if (m.residue i).flag (R_3HELIX ||| R_4HELIX) ≠ 0 then
    some (if s.1 < 0 then ((i : Int), s.2) else s)
  else if s.1 ≥ 0 then
    (if (i : Int) - s.1 ≥ cfg.minHelixLength then
      (m.helixClass dihedral ⟨s.1, (i : Int) - 1, 0⟩).map (fun c =>
        (-1, s.2 ++ [{ from_ := s.1, to_ := (i : Int) - 1, type_ := c }]))
    else some (-1, s.2))
  else some s

/-- Method `Model::findHelices()`: the loop state is the local `first` and the
helix list; `none` when a call of `helixClass` dereferences a null pointer. -/
def Model.findHelices (dihedral : Coord → Coord → Coord → Coord → ℚ) (cfg : Config)
    (m : Model) : Option Model :=
  let max := m.rArray_.length
  (forLoop 0 max (fun i (s : Option (Int × List Helix)) =>
      s.bind (m.findHelicesStep dihedral cfg i))
    (some ((-1 : Int), m.helixList_))).map (fun r => { m with helixList_ := r.2 })

/-- The cell value `'P'` of the bridge matrix. -/
def charP : Nat := 80

/-- The cell value `'A'` of the bridge matrix. -/
def charA : Nat := 65

/-- The cell value `'p'` of the bridge matrix (a consumed parallel cell). -/
def charLowerP : Nat := 112

/-- The cell value `'a'` of the bridge matrix (a consumed antiparallel cell). -/
def charLowerA : Nat := 97

/-- First part of `Model::findBridges()`: construct the bridge matrix and mark
the bridges.  The state is the model (residue flags) and the local `bridge`. -/
def Model.markBridges (m : Model) : Model × SquareArray :=
  let max := m.rArray_.length
  forLoop 1 max (fun i s =>
    forLoop (i + 1) max (fun j (s : Model × SquareArray) =>
      if (s.1.hBonded (i - 1) j && s.1.hBonded j (i + 1))
          || (s.1.hBonded (j - 1) i && s.1.hBonded i (j + 1)) then
        ((s.1.setFlag i R_PBRIDGE).setFlag j R_PBRIDGE, s.2.set i j charP)
      else if (s.1.hBonded i j && s.1.hBonded j i)
          || (s.1.hBonded (i - 1) (j + 1) && s.1.hBonded (j - 1) (i + 1)) then
        ((s.1.setFlag i R_ABRIDGE).setFlag j R_ABRIDGE, s.2.set i j charA)
      else s) s) (m, SquareArray.zero ⟨max, []⟩)

/-- The walk `for (k = 0; bridge(i + k, j + k) == 'P'; k++) bridge(i + k, j + k) = 'p'`,
started at `k`; the result is the final `k` and the matrix.  The fuel bounds the
number of rows left: a read past the last row is not `'P'`. -/
def walkPara (i j : Nat) : Nat → Nat → SquareArray → Nat × SquareArray
  | 0, k, b => (k, b)
  | fuel + 1, k, b =>
    if b.get (i + k) (j + k) = charP then walkPara i j fuel (k + 1) (b.set (i + k) (j + k) charLowerP)
    else (k, b)

/-- The walk `for (k = 0; bridge(i + k, j - k) == 'A'; k++) bridge(i + k, j - k) = 'a'`.
The column `j - k` stays above the row `i + k` while the cell is marked, so the
subtraction never goes below 0. -/
def walkAnti (i j : Nat) : Nat → Nat → SquareArray → Nat × SquareArray
  | 0, k, b => (k, b)
  | fuel + 1, k, b =>
    if b.get (i + k) (j - k) = charA then walkAnti i j fuel (k + 1) (b.set (i + k) (j - k) charLowerA)
    else (k, b)

/-- Append a newly allocated ladder: `ladderList_.append(new Ladder(...))`. -/
def Model.appendLadder (m : Model) (l : Ladder) : Model :=
  { m with ladders := m.ladders ++ [l], ladderList_ := m.ladderList_ ++ [m.ladders.length] }

/-- Second part of `Model::findBridges()`: loop through the bridge matrix in
row-major order and find the ladders. -/
def Model.extractLadders (m : Model) (bridge : SquareArray) : Model × SquareArray :=
  let max := m.rArray_.length
  forLoop 0 max (fun i s =>
    forLoop (i + 1) max (fun j (s : Model × SquareArray) =>
      if s.2.get i j = charP then
        let w := walkPara i j (max + 1) 0 s.2
        let k : Int := (w.1 : Int) - 1
        (s.1.appendLadder (Ladder.new B_PARA i (i + k) j (j + k)), w.2)
      else if s.2.get i j = charA then
        let w := walkAnti i j (max + 1) 0 s.2
        let k : Int := (w.1 : Int) - 1
        (s.1.appendLadder (Ladder.new B_ANTI i (i + k) (j - k) j), w.2)
      else s) s) (m, bridge)

/-- The inner loop of `Model::findBetaBulge()`: the first ladder after `l1` in
the list that is not a bulge and merges with `l1`, with the merged ladder. -/
def findBetaBulgeInner (heap : List Ladder) (l1 : Ladder) : List Nat → Option (Nat × Ladder)
  | [] => none
  | p2 :: rest =>
    if (heap.getD p2 default).isBulge_ then findBetaBulgeInner heap l1 rest
    else
      match Ladder.mergeBulge l1 (heap.getD p2 default) with
      | some l => some (p2, l)
      | none => findBetaBulgeInner heap l1 rest

/-- The outer loop of `Model::findBetaBulge()`: the first pair that merges. -/
def findBetaBulgeScan (heap : List Ladder) : List Nat → Option (Nat × Nat × Ladder)
  | [] => none
  | p1 :: rest =>
    if (heap.getD p1 default).isBulge_ then findBetaBulgeScan heap rest
    else
      match findBetaBulgeInner heap (heap.getD p1 default) rest with
      | some (p2, l) => some (p1, p2, l)
      | none => findBetaBulgeScan heap rest

/-- Method `Model::findBetaBulge()`: `none` is the return value 0, `some m` the
return value 1 with the model after `remove(l1); remove(l2); append(l)`. -/
def Model.findBetaBulge (m : Model) : Option Model :=
  match findBetaBulgeScan m.ladders m.ladderList_ with
  | none => none
  | some (p1, p2, l) =>
    some { m with ladders := m.ladders ++ [l]
                  ladderList_ := ((m.ladderList_.erase p1).erase p2) ++ [m.ladders.length] }

/-- The loop `while (findBetaBulge()) continue;`. -/
def Model.mergeLoop : Nat → Model → Option Model
  | 0, _ => none
  | fuel + 1, m =>
    match m.findBetaBulge with
    | none => some m
    | some m1 => Model.mergeLoop fuel m1

/-- The test of the pruning loop: a ladder is too short on either strand. -/
def Ladder.tooShort (cfg : Config) (l : Ladder) : Bool :=
  l.end_ 0 - l.start 0 + 1 < cfg.minStrandLength || l.end_ 1 - l.start 1 + 1 < cfg.minStrandLength

/-- The `for` loop inside the pruning `do ... while`: the first ladder of the
list that is too short. -/
def pruneScan (cfg : Config) (heap : List Ladder) : List Nat → Option Nat
  | [] => none
  | p :: rest => if (heap.getD p default).tooShort cfg then some p else pruneScan cfg heap rest

/-- The pruning loop `do { pruned = 0; ... } while (pruned)` of findBridges:
remove the first too-short ladder and restart the scan. -/
def Model.pruneLoop (cfg : Config) : Nat → Model → Option Model
  | 0, _ => none
  | fuel + 1, m =>
    match pruneScan cfg m.ladders m.ladderList_ with
    | none => some m
    | some p => Model.pruneLoop cfg fuel { m with ladderList_ := m.ladderList_.erase p }

/-- Third part of `Model::findBridges()`: merge the ladders of beta-bulges
(when `checkBulges`), then get rid of any ladder that is too short. -/
def Model.mergeAndPrune (cfg : Config) (m : Model) : Option Model :=
  (if cfg.checkBulges then Model.mergeLoop (m.ladderList_.length + 1) m else some m).bind
    (fun m1 => Model.pruneLoop cfg (m1.ladderList_.length + 1) m1)

/-- Method `Model::findBridges()`. -/
def Model.findBridges (cfg : Config) (m : Model) : Option Model :=
  let s := m.markBridges
  Model.mergeAndPrune cfg (s.1.extractLadders s.2).1

/-- The first two statements of `Model::markLadder`:
`sheet->addLadder(ladder); ladder->setSheet(sheet)`. -/
def Model.assignSheet (m : Model) (ladder sheet : Nat) : Model :=
  { m with
    sheetList_ := m.sheetList_.modify (fun s => s.addLadder ladder) sheet
    ladders := m.ladders.modify (fun l => l.setSheet sheet) ladder }

/-- The two statements `l->setNeighbor(o0, ladder); ladder->setNeighbor(o1, l)`. -/
def Model.link (m : Model) (l o0 ladder o1 : Nat) : Model :=
  { m with
    ladders := (m.ladders.modify (fun x => x.setNeighbor o0 ladder) l).modify
      (fun x => x.setNeighbor o1 l) ladder }

/-- The `for` loop of `Model::markLadder` over the ladder list, `call` being the
recursive call `markLadder(l, sheet)`.  `reportOverlap` only prints. -/
def Model.markLoop (call : Model → Nat → Option Model) (ladder : Nat) :
    List Nat → Model → Option Model
  | [], m => some m
  | l :: rest, m =>
    if (m.ladder l).sheet_ ≠ none then Model.markLoop call ladder rest m
    else
      match (m.ladder l).overlaps (m.ladder ladder) with
      | none => Model.markLoop call ladder rest m
      | some (o0, o1) =>
        if (m.ladder l).neighbor o0 ≠ none then Model.markLoop call ladder rest m
        else if (m.ladder ladder).neighbor o1 ≠ none then Model.markLoop call ladder rest m
        else
          match call (m.link l o0 ladder o1) l with
          | none => none
          | some m1 => Model.markLoop call ladder rest m1

/-- Method `Model::markLadder(ladder, sheet)`; the fuel bounds the recursion depth. -/
def Model.markLadder (sheet : Nat) : Nat → Model → Nat → Option Model
  | 0, _, _ => none
  | fuel + 1, m, ladder =>
    Model.markLoop (Model.markLadder sheet fuel) ladder m.ladderList_ (m.assignSheet ladder sheet)

/-- The successor of the sheet name: `if (sName == 'Z') sName = 'A'; else sName++`. -/
def nextSheetName (sName : Char) : Char :=
  if sName = 'Z' then 'A' else Char.ofNat (sName.toNat + 1)

/-- The loop of `Model::findSheets()` over the ladder list; the state is the
model and the local `sName`. -/
def Model.findSheetsLoop : List Nat → Model → Char → Option Model
  | [], m, _ => some m
  | l :: rest, m, sName =>
    if (m.ladder l).sheet_ ≠ none then Model.findSheetsLoop rest m sName
    else
      match Model.markLadder m.sheetList_.length m.ladderList_.length
          { m with sheetList_ := m.sheetList_ ++ [⟨sName, []⟩] } l with
      | none => none
      | some m1 => Model.findSheetsLoop rest m1 (nextSheetName sName)

/-- Method `Model::findSheets()`. -/
def Model.findSheets (m : Model) : Option Model :=
  Model.findSheetsLoop m.ladderList_ m 'A'

/-- The part of `Model::defineSecondaryStructure()` that follows `findHBonds()`:
it reads the bond matrix `hBond_` and the residue flags only. -/
def Model.structureFromHBonds (dihedral : Coord → Coord → Coord → Coord → ℚ) (cfg : Config)
    (m : Model) : Option Model :=
  (((((m.findTurns 3).markHelices 3).findTurns 4).markHelices 4).findHelices dihedral
    cfg).bind (fun m1 => (m1.findBridges cfg).bind Model.findSheets)

/-! ## Amide hydrogens and the whole inference -/

/-- Function `magnitude(v)` of misc.cpp. -/
def magnitude (sq : ℚ → ℚ) (v : Coord) : ℚ := sq (v.1 * v.1 + v.2.1 * v.2.1 + v.2.2 * v.2.2)

/-- Function `normalize(r)` of misc.cpp, returning the normalized vector. -/
def normalize (sq : ℚ → ℚ) (r : Coord) : Coord :=
  (r.1 / magnitude sq r, r.2.1 / magnitude sq r, r.2.2 / magnitude sq r)

/-- Function `bisect(r, v1, v2)` of misc.cpp, returning `r`. -/
def bisect (sq : ℚ → ℚ) (v1 v2 : Coord) : Coord :=
  normalize sq ((v1.1 + v2.1) / 2, (v1.2.1 + v2.2.1) / 2, (v1.2.2 + v2.2.2) / 2)

/-- Method `Residue::addAtom(a)`. -/
def Residue.addAtom (r : Residue) (a : Atom) : Residue := { r with aList_ := r.aList_ ++ [a] }

/-- Method `Residue::addImideHydrogen(prev)`: the return value and the residue afterwards. -/
def Residue.addImideHydrogen (sq : ℚ → ℚ) (self : Residue) (prev : Option Residue) :
    Int × Residue :=
  match prev with
  | none => (0, self)
  | some prev =>
    if (self.atom " H").isSome then (0, self)
    else
      match self.atom " N" with
      | none => (-1, self)
      | some n =>
        match self.atom " CA" with
        | none => (-1, self)
        | some ca =>
          match prev.atom " C" with
          | none => (-1, self)
          | some c =>
            match prev.atom " O" with
            | none => (-1, self)
            | some o =>
              let v1 := normalize sq (ca.coord_.1 - n.coord_.1, ca.coord_.2.1 - n.coord_.2.1,
                ca.coord_.2.2 - n.coord_.2.2)
              let v2 := normalize sq (c.coord_.1 - n.coord_.1, c.coord_.2.1 - n.coord_.2.1,
                c.coord_.2.2 - n.coord_.2.2)
              let v3 := normalize sq (o.coord_.1 - c.coord_.1, o.coord_.2.1 - c.coord_.2.1,
                o.coord_.2.2 - c.coord_.2.2)
              let p1 := bisect sq v1 v2
              let hDir := bisect sq p1 v3
              let nhLength : ℚ := 101 / 100
              (0, self.addAtom ⟨" H", (n.coord_.1 - nhLength * hDir.1,
                n.coord_.2.1 - nhLength * hDir.2.1, n.coord_.2.2 - nhLength * hDir.2.2)⟩)

/-- Method `Model::addImideHydrogens()`.  The loop state is `prev` and the residues
processed so far.  (On an empty residue list the code dereferences a null `Pix`;
`defineSecondaryStructure` is only called on models with atoms.) -/
def Model.addImideHydrogens (sq : ℚ → ℚ) (m : Model) : Model :=
  match m.rArray_ with
  | [] => m
  | r0 :: rest =>
    { m with rArray_ :=
        (rest.foldl (fun (s : Option Residue × List Residue) r =>
          let r1 := (r.addImideHydrogen sq s.1).2
          (if r1.flag R_TER ≠ 0 then none else some r1, s.2 ++ [r1])) (some r0, [r0])).2 }

/-- Method `Model::defineSecondaryStructure()`. -/
def Model.defineSecondaryStructure (sq : ℚ → ℚ)
    (dihedral : Coord → Coord → Coord → Coord → ℚ) (cfg : Config) (m : Model) : Option Model :=
  ((m.addImideHydrogens sq).findHBonds sq cfg).structureFromHBonds dihedral cfg

/-! ## Vocabulary for the sheet assembly -/

/-- Every pointer of the ladder list points into the arena. -/
def Model.LaddersValid (m : Model) : Prop := ∀ p ∈ m.ladderList_, p < m.ladders.length

/-- The number of entries of the ladder list whose ladder has no sheet yet. -/
def Model.unsheeted (m : Model) : Nat :=
  (m.ladderList_.filter (fun p => (m.ladder p).sheet_.isNone)).length

/-- The two kinds of state change made by `findSheets` and `markLadder`, each taken
together with the assignment `sheet->addLadder(l); l->setSheet(sheet)` that follows it:
`start` is the creation of a new sheet for a ladder without a sheet (in `findSheets`), `link`
is the linking of a ladder `l` without a sheet to the ladder `ladder` being marked, followed
by the recursive call's assignment of `l` to the sheet (in `markLadder`). -/
inductive SheetStep : Model → Model → Prop
  | start (m : Model) (l : Nat) (sName : Char) :
      l ∈ m.ladderList_ → l < m.ladders.length → (m.ladder l).sheet_ = none →
      SheetStep m
        (Model.assignSheet { m with sheetList_ := m.sheetList_ ++ [⟨sName, []⟩] } l
          m.sheetList_.length)
  | link (m : Model) (l o0 ladder o1 sheet : Nat) :
      l ∈ m.ladderList_ → l < m.ladders.length → ladder ∈ m.ladderList_ →
      ladder < m.ladders.length →
      (m.ladder l).sheet_ = none → (m.ladder ladder).sheet_ = some sheet →
      (m.ladder l).overlaps (m.ladder ladder) = some (o0, o1) →
      (m.ladder l).neighbor o0 = none → (m.ladder ladder).neighbor o1 = none →
      SheetStep m ((m.link l o0 ladder o1).assignSheet l sheet)

/-- A run of `findSheets`: a sequence of such state changes. -/
def SheetSteps (m m1 : Model) : Prop := Relation.ReflTransGen SheetStep m m1

/-- What every step keeps: the ladder list, the size of the arena, the residues and the bond
matrix, and the sheet of a ladder that has one. -/
def StepFrame (m m1 : Model) : Prop :=
  m1.ladderList_ = m.ladderList_ ∧ m1.ladders.length = m.ladders.length
    ∧ ∀ p s, (m.ladder p).sheet_ = some s → (m1.ladder p).sheet_ = some s

/-- Membership is consistent with the sheet pointers: every member of the sheet at index `s`
is a ladder of the ladder list whose sheet pointer is `s`, and a ladder of the list whose sheet
pointer is `s` occurs exactly once among the members of the sheet at index `s`. -/
def Model.SheetsConsistent (m : Model) : Prop :=
  (∀ s sh, m.sheetList_[s]? = some sh → ∀ p ∈ sh.ladderList_,
      p ∈ m.ladderList_ ∧ (m.ladder p).sheet_ = some s)
  ∧ (∀ p ∈ m.ladderList_, ∀ s, (m.ladder p).sheet_ = some s →
      ∃ sh, m.sheetList_[s]? = some sh ∧ sh.ladderList_.count p = 1)

/-! ## The skeleton of a model -/

/-- A residue without its atoms: only the flag word is kept. -/
def Residue.erase (r : Residue) : Residue := { r with aList_ := [] }

/-- A helix without its class. -/
def Helix.erase (h : Helix) : Helix := { h with type_ := 0 }

/-- The skeleton of a model: residues without atoms, helices without class.  Apart from
`helixClass`, the inference reads the residues through their flags only, so it commutes with
taking the skeleton. -/
def Model.skeleton (m : Model) : Model :=
  { m with rArray_ := m.rArray_.map Residue.erase, helixList_ := m.helixList_.map Helix.erase }

/-- The turn and helix marking of `defineSecondaryStructure`:
`findTurns(3); markHelices(3); findTurns(4); markHelices(4)`. -/
def Model.markTurnsAndHelices (m : Model) : Model :=
  (((m.findTurns 3).markHelices 3).findTurns 4).markHelices 4

/-- The bond matrix of `n` residues that holds 1 in the cell `(i, j)` when `bonded i j` and 0
in every other cell, as `findHBonds` fills it over zeroed memory. -/
def bondMatrix (n : Nat) (bonded : Nat → Nat → Bool) : SquareArray :=
  ⟨n, (List.range (n * n)).map (fun k => if bonded (k / n) (k % n) then 1 else 0)⟩

/-- What the flag-setting phases keep: everything but the flag words. -/
def KeepsAllButFlags (m m1 : Model) : Prop :=
  m1.hBond_ = m.hBond_ ∧ m1.helixList_ = m.helixList_ ∧ m1.ladders = m.ladders
    ∧ m1.ladderList_ = m.ladderList_ ∧ m1.sheetList_ = m.sheetList_
    ∧ m1.rArray_.length = m.rArray_.length
    ∧ ∀ i, (m1.residue i).aList_ = (m.residue i).aList_

/-- An example input for Scenario A: twelve residues with one CA atom each, the last one
carrying the chain-terminator flag, and the 4-turn bond pattern in the bond matrix. -/
def helixModel12 : Model :=
  { rArray_ := (List.range 12).map (fun i =>
      ⟨[⟨" CA", ((i : ℚ), 0, 0)⟩], if i = 11 then R_TER else 0⟩)
    hBond_ := bondMatrix 12 (fun i j => decide (j = i + 4))
    helixList_ := []
    ladders := []
    ladderList_ := []
    sheetList_ := [] }

/-! ## Vocabulary for the bridge matrix -/

/-- The parallel bridge test of `findBridges` at the cell `(i, j)`. -/
def Model.paraTest (m : Model) (i j : Nat) : Bool :=
  (m.hBonded (i - 1) j && m.hBonded j (i + 1)) || (m.hBonded (j - 1) i && m.hBonded i (j + 1))

/-- The antiparallel bridge test of `findBridges` at the cell `(i, j)`. -/
def Model.antiTest (m : Model) (i j : Nat) : Bool :=
  (m.hBonded i j && m.hBonded j i) || (m.hBonded (i - 1) (j + 1) && m.hBonded (j - 1) (i + 1))

/-- The mark that the bridge test gives to the cell `(i, j)`. -/
def Model.bridgeValue (m : Model) (i j : Nat) : Nat :=
  if m.paraTest i j then charP else if m.antiTest i j then charA else 0

/-- The bond relation of Scenario B for the strands `a..a+4` and `b..b+4`:
`bonded(a+k, b+4-k)` and `bonded(b+4-k, a+k)` for `k = 0..4`, and no other bond.  The pair
`(i, j)` is one of these exactly when `i + j = a + b + 4` and one of the two lies in `a..a+4`. -/
def antiStrandBonds (a b i j : Nat) : Bool :=
  decide (i + j = a + b + 4 ∧ ((a ≤ i ∧ i ≤ a + 4) ∨ (a ≤ j ∧ j ≤ a + 4)))

/-- Strand `i` of `l` and strand `j` of `o` share a residue: the test
`e1 >= s2 && e2 >= s1` of `Ladder::overlaps`. -/
def Ladder.strandsIntersect (l o : Ladder) (i j : Nat) : Prop :=
  l.end_ i ≥ o.start j ∧ o.end_ j ≥ l.start i

/-- A ladder whose strands are stored start first, as the constructor `Ladder::Ladder`
leaves them. -/
def Ladder.WellFormed (l : Ladder) : Prop := l.start 0 ≤ l.end_ 0 ∧ l.start 1 ≤ l.end_ 1

/-- An example ladder list with a bulge: two antiparallel ladders one residue apart on both
strands, the one with the larger strand-0 start first in the list. -/
def bulgeModel : Model :=
  { rArray_ := []
    hBond_ := ⟨0, []⟩
    helixList_ := []
    ladders := [Ladder.new B_ANTI 4 5 6 9, Ladder.new B_ANTI 1 3 10 12]
    ladderList_ := [0, 1]
    sheetList_ := [] }

/-- The example ladder list after one call of findBetaBulge. -/
def bulgeModelMerged : Model :=
  { bulgeModel with
    ladders := bulgeModel.ladders ++ [(Ladder.new B_ANTI 1 5 6 12).setBulge]
    ladderList_ := [2] }

/-- The test `residue(i)->flag(R_3HELIX | R_4HELIX)` of findHelices. -/
def Model.helixFlagged (m : Model) (r : Nat) : Prop :=
  (m.residue r).flag (R_3HELIX ||| R_4HELIX) ≠ 0

/-- The residues `a..b` are a maximal run of consecutive residues flagged 3-helix or 4-helix. -/
def Model.MaximalRun (m : Model) (a b : Nat) : Prop :=
  a ≤ b ∧ b < m.rArray_.length ∧ (∀ r, a ≤ r → r ≤ b → m.helixFlagged r)
    ∧ (a = 0 ∨ ¬ m.helixFlagged (a - 1))
    ∧ (b + 1 = m.rArray_.length ∨ ¬ m.helixFlagged (b + 1))

/-- The invariant of the loop of findHelices before the residue `i`, on the state `s` (the
local `first` and the helix list): the helices appended so far are the maximal runs of
sufficient length that ended before `i`, each with the class that helixClass returned for it,
in increasing order, and `first` is the start of the run that reaches `i`, if there is one. -/
def Model.HelixLoopInv (dihedral : Coord → Coord → Coord → Coord → ℚ) (cfg : Config)
    (m : Model) (i : Nat) (s : Int × List Helix) : Prop :=
  ∃ created : List Helix, s.2 = m.helixList_ ++ created
    ∧ (∀ h ∈ created, ∃ a b : Nat, h.from_ = a ∧ h.to_ = b ∧ m.MaximalRun a b
        ∧ b + 1 < i ∧ (0 ≤ s.1 → (b : Int) + 1 < s.1)
        ∧ (b : Int) - a + 1 ≥ cfg.minHelixLength
        ∧ m.helixClass dihedral ⟨h.from_, h.to_, 0⟩ = some h.type_)
    ∧ (∀ a b : Nat, m.MaximalRun a b → b + 1 < i →
        (b : Int) - a + 1 ≥ cfg.minHelixLength →
        ∃ h ∈ created, h.from_ = a ∧ h.to_ = b)
    ∧ created.Pairwise (fun h1 h2 => h1.to_ < h2.from_)
    ∧ ((s.1 < 0 ∧ (i = 0 ∨ ¬ m.helixFlagged (i - 1)))
      ∨ (∃ first : Nat, s.1 = first ∧ first < i
          ∧ (∀ r, first ≤ r → r < i → m.helixFlagged r)
          ∧ (first = 0 ∨ ¬ m.helixFlagged (first - 1))))

/-- An example input for findHelices: seven residues, of which 1..4 are 4-helix flagged, as the
marking leaves them after two consecutive 4-turns. -/
def helixRun7 : Model :=
  { rArray_ := [⟨[], 0⟩, ⟨[], R_4HELIX⟩, ⟨[], R_4HELIX⟩, ⟨[], R_4HELIX⟩, ⟨[], R_4HELIX⟩,
                ⟨[], 0⟩, ⟨[], 0⟩]
    hBond_ := ⟨7, List.replicate 49 0⟩
    helixList_ := []
    ladders := []
    ladderList_ := []
    sheetList_ := [] }

/-- A neighbor link: ladder `q` is one of the two neighbors of ladder `p`. -/
def Model.Linked (m : Model) (p q : Nat) : Prop :=
  (m.ladder p).neighbor 0 = some q ∨ (m.ladder p).neighbor 1 = some q

/-- Links and sheets agree: every link joins two ladders of the ladder list that have the
same sheet, and every member of a sheet is reachable by links from the first member of the
sheet, the ladder for which `findSheets` created it. -/
def Model.SheetsConnected (m : Model) : Prop :=
  (∀ p q, m.Linked p q → p ∈ m.ladderList_ ∧ q ∈ m.ladderList_
      ∧ ∃ s, (m.ladder p).sheet_ = some s ∧ (m.ladder q).sheet_ = some s)
  ∧ (∀ (s : Nat) (sh : Sheet), m.sheetList_[s]? = some sh → ∃ c, sh.ladderList_.head? = some c
      ∧ ∀ p ∈ sh.ladderList_, Relation.ReflTransGen m.Linked c p)

/-- An example ladder list for findSheets: three ladders, the first two sharing the strand
10..14, the third apart. -/
def sheetModel3 : Model :=
  { rArray_ := []
    hBond_ := ⟨0, []⟩
    helixList_ := []
    ladders := [Ladder.new B_ANTI 1 5 10 14, Ladder.new B_ANTI 10 14 20 24,
      Ladder.new B_PARA 30 34 40 44]
    ladderList_ := [0, 1, 2]
    sheetList_ := [] }

/-- A diagonal run of bridge cells: the cells `(i + t, j + t)` (parallel) or `(i + t, j - t)`
(antiparallel) for `t = 0..k`, started at the cell `(i, j)` with last valid step `k`. -/
structure BridgeRun where
  para : Bool
  i : Nat
  j : Nat
  k : Nat
deriving DecidableEq, Repr, Inhabited

/-- The mark of the cells of a run in the bridge matrix. -/
def BridgeRun.mark (u : BridgeRun) : Nat := if u.para then charP else charA

/-- The column of step `t` of a run. -/
def BridgeRun.col (u : BridgeRun) (t : Nat) : Nat := if u.para then u.j + t else u.j - t

/-- The ladder that `findBridges` constructs for a run: `new Ladder(B_PARA, i, i + k, j, j + k)`
or `new Ladder(B_ANTI, i, i + k, j - k, j)`. -/
def BridgeRun.ladder (u : BridgeRun) : Ladder :=
  if u.para then Ladder.new B_PARA u.i ((u.i : Int) + (u.k : Int)) u.j ((u.j : Int) + (u.k : Int))
  else Ladder.new B_ANTI u.i ((u.i : Int) + (u.k : Int)) ((u.j : Int) - (u.k : Int)) u.j

/-- The cell `(r, c)` is one of the cells of the run. -/
def BridgeRun.hasCell (u : BridgeRun) (r c : Nat) : Prop :=
  u.i ≤ r ∧ r ≤ u.i + u.k ∧ (if u.para then c + u.i = r + u.j else r + c = u.i + u.j)

/-- The cell `(r, c)` lies in the ladder: its row is in the range of strand 0 and it is on the
diagonal of the ladder, the (+1,+1) diagonal through `(start(0), start(1))` for a parallel
ladder, the (+1,-1) diagonal through `(start(0), end(1))` for an antiparallel one. -/
def Ladder.hasCell (l : Ladder) (r c : Nat) : Prop :=
  l.start 0 ≤ r ∧ (r : Int) ≤ l.end_ 0
    ∧ (if l.type_ = B_PARA then (c : Int) - r = l.start 1 - l.start 0
       else (r : Int) + c = l.start 0 + l.end_ 1)

/-- The run is a maximal diagonal run of same-type cells of the `N` by `N` matrix `B`: it lies
above the diagonal inside the matrix, all its cells carry its mark, and the cells just before
its first and just after its last cell on the diagonal, when they are cells of the matrix, do
not carry that mark. -/
def BridgeRun.MaximalIn (u : BridgeRun) (B : SquareArray) (N : Nat) : Prop :=
  u.i < u.j ∧ u.j < N ∧ u.i + u.k < N
    ∧ (u.para = true → u.j + u.k < N) ∧ (u.para = false → u.i + u.k < u.j - u.k)
    ∧ (∀ t, t ≤ u.k → B.get (u.i + t) (u.col t) = u.mark)
    ∧ (1 ≤ u.i → (u.para = false → u.j + 1 < N) →
        B.get (u.i - 1) (if u.para then u.j - 1 else u.j + 1) ≠ u.mark)
    ∧ (u.i + u.k + 1 < N → (u.para = true → u.j + u.k + 1 < N) →
        B.get (u.i + u.k + 1) (u.col (u.k + 1)) ≠ u.mark)

/-- The state of the row-major scan of `findBridges` when it arrives at the cell `(i, j)`, for
the bridge matrix `B` and the model `x` at the start of the scan: the ladders appended so far
are those of a list of runs whose start cells come before `(i, j)`; the runs are maximal in `B`
and pairwise disjoint; the cells of the runs are the consumed cells, the other cells are as in
`B`; and every marked cell before `(i, j)` lies in a run. -/
def ScanState (x : Model) (B : SquareArray) (N i j : Nat) (s : Model × SquareArray)
    (runs : List BridgeRun) : Prop :=
  s.1.ladders = x.ladders ++ runs.map BridgeRun.ladder
    ∧ s.1.ladderList_ = x.ladderList_ ++ List.range' x.ladders.length runs.length
    ∧ s.2.dim_ = N ∧ s.2.array_.length = N * N
    ∧ (∀ u ∈ runs, u.MaximalIn B N ∧ (u.i < i ∨ (u.i = i ∧ u.j < j)))
    ∧ (∀ r c, r < N → c < N →
        ((∃ u ∈ runs, u.hasCell r c) → s.2.get r c ≠ charP ∧ s.2.get r c ≠ charA)
        ∧ ((¬ ∃ u ∈ runs, u.hasCell r c) → s.2.get r c = B.get r c))
    ∧ (∀ r c, r < N → c < N → (r < i ∨ (r = i ∧ c < j)) →
        (B.get r c = charP ∨ B.get r c = charA) → ∃ u ∈ runs, u.hasCell r c)
    ∧ runs.Pairwise (fun u v => ∀ r c, ¬ (u.hasCell r c ∧ v.hasCell r c))

/-- The bond test of `Residue::hBondedTo` without the distance shortcut
`if (rCN > 49.0) return 0`: the answer `E < hBondCutoff` of the full calculation. -/
def Residue.hBondedToFull (sq : ℚ → ℚ) (hBondCutoff : ℚ) (self other : Residue) : Nat :=
  match self.atom " C", self.atom " O" with
  | some c, some o =>
    match other.atom " N", other.atom " H" with
    | some n, some h =>
      if hBondEnergy sq c.coord_ o.coord_ n.coord_ h.coord_ < hBondCutoff then 1 else 0
    | _, _ => 0
  | _, _ => 0

/-- An example input for addImideHydrogens, in the shape that the constructor builds: two
residues, the first with C and O, the second with N and CA and no H; the second residue ends
the chain and carries the chain-terminator flag. -/
def terLastModel : Model :=
  { rArray_ := [⟨[⟨" C", (0, 0, 0)⟩, ⟨" O", (0, 1, 0)⟩], 0⟩,
      ⟨[⟨" N", (1, 0, 0)⟩, ⟨" CA", (2, 1, 0)⟩], R_TER⟩]
    hBond_ := ⟨2, [0, 0, 0, 0]⟩
    helixList_ := []
    ladders := []
    ladderList_ := []
    sheetList_ := [] }

/-- The number of residue indices strictly between the end `e` of the first ladder and the
start `s` of the second one on a strand (for `e < s`). -/
def extraResidues (e s : Int) : Int := s - e - 1

/-- The bulge definition of Kabsch and Sander quoted in the comment of `Ladder::mergeBulge`,
with the ladder of smaller start(0) taken as the first one: two ladders of the same type, the
first ending before or where the second starts on both strands, connected by at most one extra
residue on one strand and at most four on the other. -/
def Ladder.bulgeLinked (l1 l2 : Ladder) : Prop :=
  l1.type_ = l2.type_
    ∧ l1.end_ 0 ≤ l2.start 0
    ∧ (if l1.type_ = B_PARA then l1.end_ 1 ≤ l2.start 1 else l2.end_ 1 ≤ l1.start 1)
    ∧ ((extraResidues (l1.end_ 0) (l2.start 0) ≤ 1
          ∧ (if l1.type_ = B_PARA then extraResidues (l1.end_ 1) (l2.start 1)
              else extraResidues (l2.end_ 1) (l1.start 1)) ≤ 4)
        ∨ (extraResidues (l1.end_ 0) (l2.start 0) ≤ 4
          ∧ (if l1.type_ = B_PARA then extraResidues (l1.end_ 1) (l2.start 1)
              else extraResidues (l2.end_ 1) (l1.start 1)) ≤ 1))

/-- The cells of the bond matrix that the bridge test of `findBridges` reads at the cell
`(i, j)`, in evaluation order, with the short-circuit evaluation of `&&` and `||`. -/
def Model.bridgeTestReads (m : Model) (i j : Nat) : List (Nat × Nat) :=
  let a := [(i - 1, j)] ++ (if m.hBonded (i - 1) j then [(j, i + 1)] else [])
  if m.hBonded (i - 1) j && m.hBonded j (i + 1) then a
  else
    let b := a ++ [(j - 1, i)] ++ (if m.hBonded (j - 1) i then [(i, j + 1)] else [])
    if m.hBonded (j - 1) i && m.hBonded i (j + 1) then b
    else
      let c := b ++ [(i, j)] ++ (if m.hBonded i j then [(j, i)] else [])
      if m.hBonded i j && m.hBonded j i then c
      else c ++ [(i - 1, j + 1)] ++ (if m.hBonded (i - 1) (j + 1) then [(j - 1, i + 1)] else [])

/-- An example input for the bridge test at the last column: five residues and the bonds
bonded(3, 1) and bonded(2, 0) only. -/
def bridgeEdgeModel : Model :=
  { rArray_ := List.replicate 5 ⟨[], 0⟩
    hBond_ := bondMatrix 5 (fun i j => decide ((i = 3 ∧ j = 1) ∨ (i = 2 ∧ j = 0)))
    helixList_ := []
    ladders := []
    ladderList_ := []
    sheetList_ := [] }

/-- An example input for defineSecondaryStructure: four residues without atoms and a bond
matrix whose allocation holds non-zero bytes in the cells (1, 2) and (2, 1).  (The constructor
of SquareArray does not initialise the cells, and the matrix `hBond_` is never zeroed.) -/
def staleBondModel : Model :=
  { rArray_ := List.replicate 4 ⟨[], 0⟩
    hBond_ := ⟨4, [0, 0, 0, 0, 0, 0, 1, 0, 0, 1, 0, 0, 0, 0, 0, 0]⟩
    helixList_ := []
    ladders := []
    ladderList_ := []
    sheetList_ := [] }

/-- The conversion of an `int` to `char`, as in `return sid` of a function declared to return
`char`: the value modulo 256, in `-128..127` where `char` is signed and in `0..255` where it
is unsigned. -/
def toChar (signedChar : Bool) (v : Int) : Int :=
  if signedChar then (v + 128) % 256 - 128 else v % 256

/-- The sheet counter of `Model::printSheet(output, sid)`: the identifier numbers
`idCount = sid++` given to the sheets, in the order of the sheet list, and the value received
by the caller of `char printSheet(...)` from `return sid`. -/
def Model.printSheet (signedChar : Bool) (m : Model) (sid : Int) : List Int × Int :=
  let r := m.sheetList_.foldl (fun (s : Int × List Int) _ => (s.1 + 1, s.2 ++ [s.1])) (sid, [])
  (r.2, toChar signedChar r.1)

/-- An example model with one sheet of one ladder. -/
def sheetModel1 : Model :=
  { rArray_ := []
    hBond_ := ⟨0, []⟩
    helixList_ := []
    ladders := [(Ladder.new B_ANTI 1 5 10 14).setSheet 0]
    ladderList_ := [0]
    sheetList_ := [⟨'A', [0]⟩] }

/-- Function `dotProduct(v1, v2)` of misc.cpp. -/
def dotProduct (v1 v2 : Coord) : ℚ := v1.1 * v2.1 + v1.2.1 * v2.2.1 + v1.2.2 * v2.2.2

/-- Function `crossProduct(answer, v1, v2)` of misc.cpp, returning `answer`. -/
def crossProduct (v1 v2 : Coord) : Coord :=
  (v1.2.1 * v2.2.2 - v2.2.1 * v1.2.2, v1.2.2 * v2.1 - v2.2.2 * v1.1,
    v1.1 * v2.2.1 - v2.1 * v1.2.1)

/-- Function `angle(v1, v2)` of misc.cpp, over a square root `sq` and an arc cosine `acos`. -/
def angle (sq acos : ℚ → ℚ) (v1 v2 : Coord) : ℚ :=
  acos (dotProduct v1 v2 / magnitude sq v1 / magnitude sq v2)

/-- Function `dihedral(v1, v2, v3, v4)` of misc.cpp. -/
def dihedral (sq acos : ℚ → ℚ) (v1 v2 v3 v4 : Coord) : ℚ :=
  let d12 : Coord := (v1.1 - v2.1, v1.2.1 - v2.2.1, v1.2.2 - v2.2.2)
  let d32 : Coord := (v3.1 - v2.1, v3.2.1 - v2.2.1, v3.2.2 - v2.2.2)
  let d23 : Coord := (v2.1 - v3.1, v2.2.1 - v3.2.1, v2.2.2 - v3.2.2)
  let d43 : Coord := (v4.1 - v3.1, v4.2.1 - v3.2.1, v4.2.2 - v3.2.2)
  angle sq acos (crossProduct d12 d32) (crossProduct d23 d43)

/-- An arc cosine on the rationals with values in `[0, 4]`: the chord from `(-1, 3)` to
`(1, 0)`, constant outside `[-1, 1]`. -/
def acosChord (x : ℚ) : ℚ := if x < -1 then 3 else if 1 < x then 0 else 3 / 2 * (1 - x)

/-- An example model of four residues with CA atoms on a planar zigzag, flagged as a 4-helix. -/
def helixModel4 : Model :=
  { rArray_ := [⟨[⟨" CA", (0, 0, 0)⟩], R_4HELIX⟩, ⟨[⟨" CA", (1, 0, 0)⟩], R_4HELIX⟩,
                ⟨[⟨" CA", (1, 1, 0)⟩], R_4HELIX⟩, ⟨[⟨" CA", (0, 1, 0)⟩], R_4HELIX⟩]
    hBond_ := ⟨4, []⟩
    helixList_ := []
    ladders := []
    ladderList_ := []
    sheetList_ := [] }

/-- The call `r->hBondedTo(other)` with a pointer `other` that may be NULL: `other` is
dereferenced only after `r` was found to have its C and O atoms; `none` is the dereference of
a null pointer. -/
def Residue.hBondedToPtr (sq : ℚ → ℚ) (hBondCutoff : ℚ) (self : Residue)
    (other : Option Residue) : Option Nat :=
  match self.atom " C", self.atom " O" with
  | some _, some _ =>
    match other with
    | some o => some (Residue.hBondedTo sq hBondCutoff self o)
    | none => none
  | _, _ => some 0

/-- The fields of `PDB::Sheet` written by `Model::registerLadder`: `sense`, the residue whose
O atom is recorded in `atoms[1]` and the residue whose N atom is recorded in `atoms[0]`, both
as residue indices. -/
structure Registration where
  sense : Int
  oResidue : Int
  nResidue : Int
deriving DecidableEq, Repr

/-- Method `Model::registerLadder(l, sheet, prev)`: the registration written to `sheet`;
`none` is the dereference of a null residue pointer. -/
def Model.registerLadder (sq : ℚ → ℚ) (hBondCutoff : ℚ) (m : Model) (l : Ladder) (prev : Nat) :
    Option Registration :=
  let cur := 1 - prev
  if l.type_ = B_PARA then
    match m.residueAt (l.start prev) with
    | none => none
    | some r =>
      match r.hBondedToPtr sq hBondCutoff (m.residueAt (l.start cur + 1)) with
      | none => none
      | some b =>
        if b ≠ 0 then some ⟨1, l.start prev, l.start cur + 1⟩
        else
          match m.residueAt (l.start prev + 1), m.residueAt (l.start cur) with
          | some _, some _ => some ⟨1, l.start prev + 1, l.start cur⟩
          | _, _ => none
  else
    match m.residueAt (l.start prev) with
    | none => none
    | some r =>
      match r.hBondedToPtr sq hBondCutoff (m.residueAt (l.end_ cur)) with
      | none => none
      | some b =>
        if b ≠ 0 then some ⟨-1, l.start prev, l.end_ cur⟩
        else
          match m.residueAt (l.start prev + 1), m.residueAt (l.end_ cur - 1) with
          | some _, some _ => some ⟨-1, l.start prev + 1, l.end_ cur - 1⟩
          | _, _ => none

/-- A residue with the atoms of an acceptor site (C and O) at offset `a` on the x axis and the
atoms of a donor site (H and N) at offset `d`; a site is left out when its offset is `none`.
The C and O of a site at offset `x` are bonded to the H and N of the site at the same offset:
C at x, O at x + 1, H at x + 2, N at x + 3. -/
def siteResidue (a d : Option ℚ) : Residue :=
  ⟨(match a with
    | some x => [⟨" C", (x, 0, 0)⟩, ⟨" O", (x + 1, 0, 0)⟩]
    | none => [])
   ++ (match d with
    | some x => [⟨" H", (x + 2, 0, 0)⟩, ⟨" N", (x + 3, 0, 0)⟩]
    | none => []), 0⟩

/-- An example model of ten residues with the four hydrogen bonds 0 -> 6, 6 -> 2, 2 -> 8 and
8 -> 4 (acceptor -> donor) of a parallel ladder: the bond sites lie at the offsets 0, 100, 200
and 300. -/
def paraSheetModel : Model :=
  { rArray_ := [siteResidue (some 0) none, siteResidue none none,
                siteResidue (some 200) (some 100), siteResidue none none,
                siteResidue none (some 300), siteResidue none none,
                siteResidue (some 100) (some 0), siteResidue none none,
                siteResidue (some 300) (some 200), siteResidue none none]
    hBond_ := ⟨10, List.replicate 100 0⟩
    helixList_ := []
    ladders := []
    ladderList_ := []
    sheetList_ := [] }

/-- The number of entries of the ladder list whose ladder is not marked as a bulge. -/
def Model.nonBulgeCount (m : Model) : Nat :=
  (m.ladderList_.filter (fun p => !(m.ladder p).isBulge_)).length

/-- The calls `Ladder::mergeBulge(l1, l2)` made by the inner loop of `findBetaBulge` for the
ladder `p1`, as pairs of pointers in the order of the calls; the loop ends at the first call
that succeeds. -/
def findBetaBulgeInnerCalls (heap : List Ladder) (p1 : Nat) : List Nat → List (Nat × Nat)
  | [] => []
  | p2 :: rest =>
    if (heap.getD p2 default).isBulge_ then findBetaBulgeInnerCalls heap p1 rest
    else
      match Ladder.mergeBulge (heap.getD p1 default) (heap.getD p2 default) with
      | some _ => [(p1, p2)]
      | none => (p1, p2) :: findBetaBulgeInnerCalls heap p1 rest

/-- The calls `Ladder::mergeBulge(l1, l2)` made by one call of `findBetaBulge`. -/
def findBetaBulgeCalls (heap : List Ladder) : List Nat → List (Nat × Nat)
  | [] => []
  | p1 :: rest =>
    if (heap.getD p1 default).isBulge_ then findBetaBulgeCalls heap rest
    else
      match findBetaBulgeInner heap (heap.getD p1 default) rest with
      | some _ => findBetaBulgeInnerCalls heap p1 rest
      | none => findBetaBulgeInnerCalls heap p1 rest ++ findBetaBulgeCalls heap rest

/-- The generation property that the comment of `Ladder::mergeBulge` relies on
("start/end(0) < start/end(1)"), for a ladder stored start first. -/
def Ladder.Generated (l : Ladder) : Prop :=
  l.WellFormed ∧ l.start 0 < l.start 1 ∧ l.end_ 0 < l.end_ 1

/-- All four range endpoints of the ladder are residue indices of a model of `n` residues. -/
def Ladder.InRange (n : Nat) (l : Ladder) : Prop :=
  0 ≤ l.start 0 ∧ l.end_ 0 < (n : Int) ∧ 0 ≤ l.start 1 ∧ l.end_ 1 < (n : Int)

/-- The two ladders have the same type, strand ranges and bulge mark. -/
def Ladder.sameRanges (l o : Ladder) : Prop :=
  l.type_ = o.type_ ∧ l.start0 = o.start0 ∧ l.end0 = o.end0 ∧ l.start1 = o.start1
    ∧ l.end1 = o.end1 ∧ l.isBulge_ = o.isBulge_

/-- A ladder as the constructor leaves it: no sheet and no neighbor. -/
def Ladder.Unlinked (l : Ladder) : Prop :=
  l.sheet_ = none ∧ l.neighbor0 = none ∧ l.neighbor1 = none

/-- The state in which `defineSecondaryStructure` leaves a model before `findBridges`:
`addImideHydrogens(); findHBonds(); findTurns(3); markHelices(3); findTurns(4);
markHelices(4); findHelices()`. -/
def Model.helixStage (sq : ℚ → ℚ) (dihedral : Coord → Coord → Coord → Coord → ℚ)
    (cfg : Config) (m : Model) : Option Model :=
  (((m.addImideHydrogens sq).findHBonds sq cfg).markTurnsAndHelices).findHelices dihedral cfg

/-- An example model of seven residues with the two hydrogen bonds 0 -> 4 and 1 -> 5
(acceptor -> donor) of a helical turn pair: the bond sites lie at the offsets 0 and 100. -/
def helixSiteModel : Model :=
  { rArray_ := [siteResidue (some 0) none, siteResidue (some 100) none,
                siteResidue none none, siteResidue none none,
                siteResidue none (some 0), siteResidue none (some 100),
                siteResidue none none]
    hBond_ := ⟨7, List.replicate 49 0⟩
    helixList_ := []
    ladders := []
    ladderList_ := []
    sheetList_ := [] }

/-- The neighbor links of a model are well formed: whenever `q` is the neighbor of `p` on side
`a`, `q` is not `p` itself, both ladders have a sheet, `q` is the neighbor of `p` on no other
side, `p` is the neighbor of `q` on some side `b`, and strand `a` of `p` intersects strand `b`
of `q`. -/
def Model.LinksWellFormed (m : Model) : Prop :=
  ∀ p a q, (m.ladder p).neighbor a = some q →
    q ≠ p ∧ (m.ladder p).sheet_ ≠ none ∧ (m.ladder q).sheet_ ≠ none
      ∧ (∀ a', (m.ladder p).neighbor a' = some q → (a' = 0 ↔ a = 0))
      ∧ ∃ b, (m.ladder q).neighbor b = some p
          ∧ (m.ladder p).strandsIntersect (m.ladder q) a b

/-- The two neighbor slots of the ladder hold `a` and `b`, in either order. -/
def Ladder.NbrPair (l : Ladder) (a b : Option Nat) : Prop :=
  (l.neighbor 0 = a ∧ l.neighbor 1 = b) ∨ (l.neighbor 0 = b ∧ l.neighbor 1 = a)

/-- The first element of the list, or `next` for the empty list. -/
def headOr (next : Option Nat) : List Nat → Option Nat
  | [] => next
  | q :: _ => some q

/-- The last element of the list, or `prev` for the empty list. -/
def lastOr (prev : Option Nat) : List Nat → Option Nat
  | [] => prev
  | p :: rest => lastOr (some p) rest

/-- The ladders of the list form a segment of a path of neighbor links, entered from `prev`
and left to `next`: the two neighbors of each ladder are its predecessor and its successor. -/
def PathSeg (m : Model) : Option Nat → List Nat → Option Nat → Prop
  | _, [], _ => True
  | prev, p :: rest, next =>
    (m.ladder p).NbrPair prev (headOr next rest) ∧ PathSeg m (some p) rest next

/-- Every sheet is a simple path: a ladder without a sheet has no neighbor, and the members of
each sheet can be arranged, without repetition, in a list in which the neighbors of each
ladder are exactly the ladder before it and the ladder after it. -/
def Model.SheetsArePaths (m : Model) : Prop :=
  (∀ p, (m.ladder p).sheet_ = none →
      (m.ladder p).neighbor 0 = none ∧ (m.ladder p).neighbor 1 = none)
  ∧ (∀ (s : Nat) (sh : Sheet), m.sheetList_[s]? = some sh →
      ∃ path : List Nat, path ≠ [] ∧ path.Perm sh.ladderList_ ∧ path.Nodup
        ∧ PathSeg m none path none)

/-- Method `Sheet::firstLadder()`: the first member with exactly one neighbor, or the head of
the member list (NULL, `none`, for an empty list). -/
def Sheet.firstLadder (m : Model) (s : Sheet) : Option Nat :=
  match s.ladderList_.find? (fun p => (m.ladder p).neighborCount == 1) with
  | some p => some p
  | none => s.ladderList_.head?

/-- The walk of `printSheet` and `printSummary` over the ladders of a sheet:
`for (l = fl; l != NULL && !(l == fl && pl != NULL); spl = l, l = l->otherNeighbor(pl), pl = spl)
lList[i++] = l`.  The state is `l`, `pl` and the ladders stored so far; the result is the list
of ladders stored when the loop ends, `none` when the fuel runs out. -/
def sheetWalk (m : Model) (fl : Nat) : Nat → Option Nat → Option Nat → List Nat →
    Option (List Nat)
  | 0, _, _, _ => none
  | fuel + 1, l, pl, acc =>
    match l with
    | none => some acc
    | some p =>
      if p = fl ∧ pl ≠ none then some acc
      else sheetWalk m fl fuel ((m.ladder p).otherNeighbor pl) (some p) (acc ++ [p])

/-! # Theorems -/

/-! ## Pruning -/

theorem filter_erase_of_not {α : Type} [DecidableEq α] (q : α → Bool) (p : α) (hq : q p = false) :
    ∀ l : List α, (l.erase p).filter q = l.filter q := by
  intro l
  induction l with
  | nil => rfl
  | cons x xs ih =>
    by_cases hx : x = p
    · subst hx
      simp [hq]
    · rw [List.erase_cons_tail (by simpa using hx)]
      simp [List.filter_cons, ih]

theorem pruneScan_none (cfg : Config) (heap : List Ladder) :
    ∀ l : List Nat, pruneScan cfg heap l = none →
      l.filter (fun p => !(heap.getD p default).tooShort cfg) = l := by
  intro l
  induction l with
  | nil => intro _; rfl
  | cons x xs ih =>
    intro h
    unfold pruneScan at h
    split at h
    · exact absurd h (by simp)
    · rename_i hx
      have hx2 : (heap.getD x default).tooShort cfg = false := by simpa using hx
      rw [List.filter_cons, ih h]
      simp only [hx2, Bool.not_false, if_true]

theorem pruneScan_some (cfg : Config) (heap : List Ladder) :
    ∀ (l : List Nat) (p : Nat), pruneScan cfg heap l = some p →
      p ∈ l ∧ (heap.getD p default).tooShort cfg = true := by
  intro l
  induction l with
  | nil => intro p h; simp [pruneScan] at h
  | cons x xs ih =>
    intro p h
    unfold pruneScan at h
    split at h
    · rename_i hx
      cases h
      exact ⟨List.mem_cons_self _ _, hx⟩
    · have := ih p h
      exact ⟨List.mem_cons_of_mem _ this.1, this.2⟩

theorem pruneLoop_eq (cfg : Config) :
    ∀ (fuel : Nat) (m : Model), m.ladderList_.length < fuel →
      Model.pruneLoop cfg fuel m
        = some { m with ladderList_ := m.ladderList_.filter (fun p => !(m.ladder p).tooShort cfg) } := by
  intro fuel
  induction fuel with
  | zero => intro m h; omega
  | succ f ih =>
    intro m h
    unfold Model.pruneLoop
    cases hs : pruneScan cfg m.ladders m.ladderList_ with
    | none =>
      have := pruneScan_none cfg m.ladders m.ladderList_ hs
      simp only [Model.ladder]
      rw [this]
    | some p =>
      obtain ⟨hmem, hshort⟩ := pruneScan_some cfg m.ladders m.ladderList_ p hs
      simp only
      rw [ih]
      · simp only [Model.ladder]
        rw [filter_erase_of_not _ p (by simp only [hshort, Bool.not_true])]
      · simp only [List.length_erase_of_mem hmem]
        have : 0 < m.ladderList_.length := List.length_pos_of_mem hmem
        omega

/-- C2: the pruning loop of findBridges (remove the first too-short ladder, restart the scan)
returns, and leaves exactly the sub-list, in the original order, of the ladders whose two
strand lengths are at least minStrandLength: it equals one filter pass, and every ladder that
remains has both strand lengths at least the configured minimum. -/
theorem pruneLoop_eq_filter (cfg : Config) (m : Model) :
    Model.pruneLoop cfg (m.ladderList_.length + 1) m
        = some { m with ladderList_ := m.ladderList_.filter (fun p =>
            decide ((m.ladder p).end_ 0 - (m.ladder p).start 0 + 1 ≥ cfg.minStrandLength
              ∧ (m.ladder p).end_ 1 - (m.ladder p).start 1 + 1 ≥ cfg.minStrandLength)) }
      ∧ ∀ m1, Model.pruneLoop cfg (m.ladderList_.length + 1) m = some m1 →
          ∀ p ∈ m1.ladderList_,
            (m1.ladder p).end_ 0 - (m1.ladder p).start 0 + 1 ≥ cfg.minStrandLength
              ∧ (m1.ladder p).end_ 1 - (m1.ladder p).start 1 + 1 ≥ cfg.minStrandLength := by
  have key : (fun p => !(m.ladder p).tooShort cfg) = (fun p =>
      decide ((m.ladder p).end_ 0 - (m.ladder p).start 0 + 1 ≥ cfg.minStrandLength
        ∧ (m.ladder p).end_ 1 - (m.ladder p).start 1 + 1 ≥ cfg.minStrandLength)) := by
    funext p
    rw [Bool.eq_iff_iff]
    simp [Ladder.tooShort, not_or]
  have h := pruneLoop_eq cfg (m.ladderList_.length + 1) m (Nat.lt_succ_self _)
  rw [key] at h
  refine ⟨h, ?_⟩
  intro m1 h1 p hp
  rw [h] at h1
  cases h1
  simp only [List.mem_filter, decide_eq_true_eq] at hp
  exact hp.2

/-- C3: mergeBulge(l1, l2) returns a ladder if and only if the two ladders have the same type
and, after swapping so that l1.start(0) <= l2.start(0), d0 = l2.start(0) - l1.end(0) and d1
(parallel: l2.start(1) - l1.end(1); otherwise: l1.start(1) - l2.end(1)) satisfy 0 <= d0 <= 4,
0 <= d1 <= 4 and not (d0 > 1 and d1 > 1); it returns NULL otherwise, in particular for two
ladders of different types. -/
theorem mergeBulge_isSome_iff (l1 l2 : Ladder) :
    ((Ladder.mergeBulge l1 l2).isSome = true ↔
      l1.type_ = l2.type_ ∧
        (let a := if l1.start 0 ≤ l2.start 0 then l1 else l2
         let b := if l1.start 0 ≤ l2.start 0 then l2 else l1
         let d0 := b.start 0 - a.end_ 0
         let d1 := if a.type_ = B_PARA then b.start 1 - a.end_ 1 else a.start 1 - b.end_ 1
         0 ≤ d0 ∧ d0 ≤ 4 ∧ 0 ≤ d1 ∧ d1 ≤ 4 ∧ ¬ (d0 > 1 ∧ d1 > 1)))
      ∧ (l1.type_ ≠ l2.type_ → Ladder.mergeBulge l1 l2 = none) := by
  constructor
  · unfold Ladder.mergeBulge
    by_cases ht : l1.type_ = l2.type_
    · by_cases hs : l1.start 0 ≤ l2.start 0
      · have hs2 : ¬ l1.start 0 > l2.start 0 := by omega
        simp only [ht, hs, hs2, ne_eq, not_true_eq_false, if_false, if_true, true_and]
        split_ifs <;> simp <;> omega
      · have hs2 : l1.start 0 > l2.start 0 := by omega
        simp only [ht, hs, hs2, ne_eq, not_true_eq_false, if_false, if_true, true_and]
        split_ifs <;> simp <;> omega
    · simp [ht]
  · intro ht
    simp [Ladder.mergeBulge, ht]

/-! ## Loops -/

theorem forLoop_of_ge {σ : Type} (lo hi : Nat) (f : Nat → σ → σ) (s : σ) (h : hi ≤ lo) :
    forLoop lo hi f s = s := by
  unfold forLoop
  rw [Nat.sub_eq_zero_of_le h]
  rfl

theorem forLoop_step {σ : Type} (lo hi : Nat) (f : Nat → σ → σ) (s : σ) (h : lo < hi) :
    forLoop lo hi f s = forLoop (lo + 1) hi f (f lo s) := by
  unfold forLoop
  have : hi - lo = (hi - (lo + 1)) + 1 := by omega
  rw [this, List.range'_succ]
  rfl

/-- Invariant rule for the counted loop. -/
theorem forLoop_induct {σ : Type} (P : Nat → σ → Prop) (f : Nat → σ → σ) (hi : Nat) :
    ∀ (n lo : Nat) (s : σ), hi - lo = n → lo ≤ hi → P lo s →
      (∀ i s, lo ≤ i → i < hi → P i s → P (i + 1) (f i s)) → P hi (forLoop lo hi f s) := by
  intro n
  induction n with
  | zero =>
    intro lo s hn hle h0 _
    have : lo = hi := by omega
    subst this
    rw [forLoop_of_ge _ _ _ _ (le_refl _)]
    exact h0
  | succ k ih =>
    intro lo s hn hle h0 hstep
    rw [forLoop_step _ _ _ _ (by omega)]
    apply ih (lo + 1) (f lo s) (by omega) (by omega)
    · exact hstep lo s (le_refl _) (by omega) h0
    · intro i s1 h1 h2 h3
      exact hstep i s1 (by omega) h2 h3

/-- Invariant rule for the counted loop, for a property that does not mention the counter. -/
theorem forLoop_inv {σ : Type} (P : σ → Prop) (f : Nat → σ → σ) (lo hi : Nat) (s : σ)
    (h0 : P s) (hstep : ∀ i s, lo ≤ i → i < hi → P s → P (f i s)) : P (forLoop lo hi f s) := by
  by_cases hle : lo ≤ hi
  · exact forLoop_induct (fun _ s => P s) f hi (hi - lo) lo s rfl hle h0 hstep
  · rw [forLoop_of_ge _ _ _ _ (by omega)]
    exact h0

/-- Invariant rule for a counted loop whose body may fail: what holds of every result. -/
theorem forLoop_bind_induct {σ : Type} (P : Nat → σ → Prop) (f : Nat → σ → Option σ)
    (lo hi : Nat) (s : σ) (hle : lo ≤ hi) (h0 : P lo s)
    (hstep : ∀ i s t, lo ≤ i → i < hi → P i s → f i s = some t → P (i + 1) t) :
    ∀ r, forLoop lo hi (fun i (o : Option σ) => o.bind (f i)) (some s) = some r → P hi r := by
  have key := forLoop_induct (fun i (o : Option σ) => ∀ r, o = some r → P i r)
    (fun i (o : Option σ) => o.bind (f i)) hi (hi - lo) lo (some s) rfl hle
    (by
      intro r hr
      cases hr
      exact h0)
    (by
      intro i o h1 h2 ho t ht
      obtain ⟨s1, hs1, hf⟩ := Option.bind_eq_some.1 ht
      exact hstep i s1 t h1 h2 (ho s1 hs1) hf)
  exact key

/-- Invariant rule for a counted loop whose body may fail: the loop returns when the body
returns on every state that satisfies the invariant. -/
theorem forLoop_bind_total {σ : Type} (P : Nat → σ → Prop) (f : Nat → σ → Option σ)
    (lo hi : Nat) (s : σ) (hle : lo ≤ hi) (h0 : P lo s)
    (hstep : ∀ i s, lo ≤ i → i < hi → P i s → ∃ t, f i s = some t ∧ P (i + 1) t) :
    ∃ r, forLoop lo hi (fun i (o : Option σ) => o.bind (f i)) (some s) = some r ∧ P hi r := by
  have key := forLoop_induct (fun i (o : Option σ) => ∃ r, o = some r ∧ P i r)
    (fun i (o : Option σ) => o.bind (f i)) hi (hi - lo) lo (some s) rfl hle
    ⟨s, rfl, h0⟩
    (by
      rintro i o h1 h2 ⟨s1, rfl, hs1⟩
      obtain ⟨t, ht, hP⟩ := hstep i s1 h1 h2 hs1
      exact ⟨t, ht, hP⟩)
  exact key

/-- Two counted loops whose bodies may fail, run in step: when the first returns, so does the
second, in a related state. -/
theorem forLoop_bind_sim {σ τ : Type} (R : σ → τ → Prop) (f : Nat → σ → Option σ)
    (g : Nat → τ → Option τ) (hi : Nat)
    (hstep : ∀ i s t s1, R s t → f i s = some s1 → ∃ t1, g i t = some t1 ∧ R s1 t1) :
    ∀ (n lo : Nat) (s : σ) (t : τ), hi - lo = n → R s t →
      ∀ r, forLoop lo hi (fun i (o : Option σ) => o.bind (f i)) (some s) = some r →
        ∃ r1, forLoop lo hi (fun i (o : Option τ) => o.bind (g i)) (some t) = some r1
          ∧ R r r1 := by
  intro n
  induction n with
  | zero =>
    intro lo s t hn hR r hr
    rw [forLoop_of_ge _ _ _ _ (by omega)] at hr ⊢
    cases hr
    exact ⟨t, rfl, hR⟩
  | succ k ih =>
    intro lo s t hn hR r hr
    rw [forLoop_step _ _ _ _ (by omega)] at hr ⊢
    rw [Option.some_bind] at hr ⊢
    cases hf : f lo s with
    | none =>
      rw [hf] at hr
      have hnone : forLoop (lo + 1) hi (fun i (o : Option σ) => o.bind (f i)) none = none := by
        apply forLoop_inv (fun o => o = none)
        · rfl
        · intro i o _ _ ho
          rw [ho]
          rfl
      rw [hnone] at hr
      cases hr
    | some s1 =>
      rw [hf] at hr
      obtain ⟨t1, hg, hR1⟩ := hstep lo s t s1 hR hf
      rw [hg]
      exact ih (lo + 1) s1 t1 (by omega) hR1 r hr

/-! ## Helices -/

theorem residueAt_of_range (m : Model) (n : Int) (h0 : 0 ≤ n)
    (h1 : n < (m.rArray_.length : Int)) : m.residueAt n = some (m.residue n.toNat) := by
  unfold Model.residueAt
  rw [if_neg (by omega)]

/-- With its four residues in range, helixClass returns, with the class computed from the CA
atoms of the residues from..from+3 and the flags of the residue from. -/
theorem helixClass_of_range (d : Coord → Coord → Coord → Coord → ℚ) (m : Model) (h : Helix)
    (h0 : 0 ≤ h.from_) (hN : h.from_.toNat + 3 < m.rArray_.length) :
    m.helixClass d h = some
      (match (m.residue h.from_.toNat).atom " CA", (m.residue (h.from_.toNat + 1)).atom " CA",
          (m.residue (h.from_.toNat + 2)).atom " CA",
          (m.residue (h.from_.toNat + 3)).atom " CA" with
      | some ca0, some ca1, some ca2, some ca3 =>
        if d ca0.coord_ ca1.coord_ ca2.coord_ ca3.coord_ > 0 then
          (if (m.residue h.from_.toNat).flag R_4HELIX ≠ 0 then 1
           else if (m.residue h.from_.toNat).flag R_3HELIX ≠ 0 then 5 else 0)
        else (if (m.residue h.from_.toNat).flag R_4HELIX ≠ 0 then 6 else 0)
      | _, _, _, _ => 0) := by
  have e1 : (h.from_ + 1).toNat = h.from_.toNat + 1 := by omega
  have e2 : (h.from_ + 2).toNat = h.from_.toNat + 2 := by omega
  have e3 : (h.from_ + 3).toNat = h.from_.toNat + 3 := by omega
  unfold Model.helixClass
  simp only
  rw [residueAt_of_range m _ h0 (by omega), residueAt_of_range m _ (by omega) (by omega),
    residueAt_of_range m _ (by omega) (by omega), residueAt_of_range m _ (by omega) (by omega),
    e1, e2, e3]
  cases q0 : (m.residue h.from_.toNat).atom " CA" <;>
    cases q1 : (m.residue (h.from_.toNat + 1)).atom " CA" <;>
    cases q2 : (m.residue (h.from_.toNat + 2)).atom " CA" <;>
    cases q3 : (m.residue (h.from_.toNat + 3)).atom " CA"
  all_goals simp only [q0, q1, q2, q3]
  split_ifs <;> rfl

/-- When helixClass returns, its first lookup was in range. -/
theorem helixClass_from_range (d : Coord → Coord → Coord → Coord → ℚ) (m : Model) (h : Helix)
    (c : Int) (hc : m.helixClass d h = some c) :
    0 ≤ h.from_ ∧ h.from_ < (m.rArray_.length : Int) := by
  unfold Model.helixClass at hc
  simp only at hc
  cases hr : m.residueAt h.from_ with
  | none =>
    rw [hr] at hc
    cases hc
  | some r =>
    unfold Model.residueAt at hr
    split_ifs at hr with hcond
    omega

/-- A class other than 0 is returned by helixClass only after all four residue lookups. -/
theorem helixClass_range_of_ne_zero (d : Coord → Coord → Coord → Coord → ℚ) (m : Model)
    (h : Helix) (c : Int) (hc : m.helixClass d h = some c) (hne : c ≠ 0) :
    0 ≤ h.from_ ∧ h.from_.toNat + 3 < m.rArray_.length := by
  have hin : ∀ (n : Int) (r : Residue), m.residueAt n = some r →
      0 ≤ n ∧ n < (m.rArray_.length : Int) := by
    intro n r hr
    unfold Model.residueAt at hr
    split_ifs at hr with hcond
    omega
  have hz : ∀ x : Option Int, x = some c → x ≠ some 0 := by
    intro x hx h0
    rw [hx] at h0
    exact hne (Option.some.inj h0)
  unfold Model.helixClass at hc
  simp only at hc
  cases r0 : m.residueAt h.from_ with
  | none => simp only [r0] at hc; cases hc
  | some x0 =>
  cases a0 : x0.atom " CA" with
  | none => simp only [r0, a0] at hc; exact absurd rfl (hz _ hc)
  | some c0 =>
  cases r1 : m.residueAt (h.from_ + 1) with
  | none => simp only [r0, a0, r1] at hc; cases hc
  | some x1 =>
  cases a1 : x1.atom " CA" with
  | none => simp only [r0, a0, r1, a1] at hc; exact absurd rfl (hz _ hc)
  | some c1 =>
  cases r2 : m.residueAt (h.from_ + 2) with
  | none => simp only [r0, a0, r1, a1, r2] at hc; cases hc
  | some x2 =>
  cases a2 : x2.atom " CA" with
  | none => simp only [r0, a0, r1, a1, r2, a2] at hc; exact absurd rfl (hz _ hc)
  | some c2 =>
  cases r3 : m.residueAt (h.from_ + 3) with
  | none => simp only [r0, a0, r1, a1, r2, a2, r3] at hc; cases hc
  | some x3 =>
  have b0 := hin _ _ r0
  have b3 := hin _ _ r3
  omega

/-- Two maximal runs that end at the same residue start at the same residue. -/
theorem maximalRun_start_unique (m : Model) (a b first : Nat)
    (h : m.MaximalRun a b) (h1 : first ≤ b)
    (h2 : ∀ r, first ≤ r → r ≤ b → m.helixFlagged r)
    (h3 : first = 0 ∨ ¬ m.helixFlagged (first - 1)) : a = first := by
  obtain ⟨g1, _, g3, g4, _⟩ := h
  rcases Nat.lt_trichotomy a first with hlt | heq | hgt
  · rcases h3 with h3 | h3
    · omega
    · exact absurd (g3 (first - 1) (by omega) (by omega)) h3
  · exact heq
  · rcases g4 with g4 | g4
    · omega
    · exact absurd (h2 (a - 1) (by omega) (by omega)) g4

/-- The loop of findHelices keeps its invariant: one iteration that returns. -/
theorem findHelicesStep_inv (dihedral : Coord → Coord → Coord → Coord → ℚ) (cfg : Config)
    (m : Model) (i : Nat) (s t : Int × List Helix) (hi : i < m.rArray_.length)
    (hinv : m.HelixLoopInv dihedral cfg i s)
    (hst : m.findHelicesStep dihedral cfg i s = some t) :
    m.HelixLoopInv dihedral cfg (i + 1) t := by
  have hm1 : (-1 : Int) < 0 := by decide
  have hm2 : ¬ ((0 : Int) ≤ -1) := by decide
  obtain ⟨created, hc, hsound, hcompl, hord, hfirst⟩ := hinv
  unfold Model.findHelicesStep at hst
  by_cases hflag : (m.residue i).flag (R_3HELIX ||| R_4HELIX) ≠ 0
  · rw [if_pos hflag] at hst
    have hcompl1 : ∀ a b : Nat, m.MaximalRun a b → b + 1 < i + 1 →
        (b : Int) - a + 1 ≥ cfg.minHelixLength →
        ∃ h ∈ created, h.from_ = a ∧ h.to_ = b := by
      intro a b hrun hb hlen
      by_cases hbi : b + 1 = i
      · rcases hrun.2.2.2.2 with h | h
        · omega
        · rw [hbi] at h
          exact absurd hflag h
      · exact hcompl a b hrun (by omega) hlen
    by_cases hneg : s.1 < 0
    · rw [if_pos hneg] at hst
      cases hst
      rcases hfirst with ⟨_, h2⟩ | ⟨first, h1, _⟩
      swap
      · omega
      refine ⟨created, hc, ?_, hcompl1, hord, Or.inr ⟨i, rfl, by omega, ?_, ?_⟩⟩
      · intro h hh
        obtain ⟨a, b, e1, e2, e3, e4, _, e6, e7⟩ := hsound h hh
        exact ⟨a, b, e1, e2, e3, by omega, fun _ => by show (b : Int) + 1 < (i : Int); omega,
          e6, e7⟩
      · intro r hr1 hr2
        have : r = i := by omega
        subst this
        exact hflag
      · exact h2
    · rw [if_neg hneg] at hst
      cases hst
      rcases hfirst with ⟨h1, _⟩ | ⟨first, h1, h2, h3, h4⟩
      · exact absurd h1 hneg
      refine ⟨created, hc, ?_, hcompl1, hord, Or.inr ⟨first, h1, by omega, ?_, h4⟩⟩
      · intro h hh
        obtain ⟨a, b, e1, e2, e3, e4, e5, e6, e7⟩ := hsound h hh
        exact ⟨a, b, e1, e2, e3, by omega, e5, e6, e7⟩
      · intro r hr1 hr2
        by_cases hri : r = i
        · subst hri; exact hflag
        · exact h3 r hr1 (by omega)
  · rw [if_neg hflag] at hst
    by_cases hpos : s.1 ≥ 0
    · rw [if_pos hpos] at hst
      rcases hfirst with ⟨h1, _⟩ | ⟨first, h1, h2, h3, h4⟩
      · omega
      have hrun : m.MaximalRun first (i - 1) :=
        ⟨by omega, by omega, fun r hr1 hr2 => h3 r hr1 (by omega), h4,
          Or.inr (by rw [Nat.sub_add_cancel (by omega)]; exact hflag)⟩
      have huniq : ∀ a b : Nat, m.MaximalRun a b → b + 1 = i → a = first := by
        intro a b hab hb
        have hb1 : b = i - 1 := by omega
        subst hb1
        exact maximalRun_start_unique m a (i - 1) first hab (by omega)
          (fun r hr1 hr2 => h3 r hr1 (by omega)) h4
      by_cases hlen : (i : Int) - s.1 ≥ cfg.minHelixLength
      · rw [if_pos hlen] at hst
        obtain ⟨c, hcl, hst⟩ := Option.map_eq_some'.1 hst
        subst hst
        refine ⟨created ++ [_], by rw [hc, List.append_assoc], ?_, ?_, ?_,
          Or.inl ⟨hm1, Or.inr (by rw [Nat.add_sub_cancel]; exact hflag)⟩⟩
        · intro h hh
          rcases List.mem_append.1 hh with hh | hh
          · obtain ⟨a, b, e1, e2, e3, e4, e5, e6, e7⟩ := hsound h hh
            exact ⟨a, b, e1, e2, e3, by omega, fun hc => absurd hc hm2, e6, e7⟩
          · rw [List.mem_singleton] at hh
            subst hh
            refine ⟨first, i - 1, h1, by simp only; omega, hrun, by omega,
              fun hc => absurd hc hm2, ?_, hcl⟩
            rw [h1] at hlen
            omega
        · intro a b hab hb hl
          by_cases hbi : b + 1 = i
          · have := huniq a b hab hbi
            subst this
            refine ⟨_, List.mem_append.2 (Or.inr (List.mem_singleton.2 rfl)), h1, ?_⟩
            simp only
            omega
          · obtain ⟨h, hh, e⟩ := hcompl a b hab (by omega) hl
            exact ⟨h, List.mem_append.2 (Or.inl hh), e⟩
        · rw [List.pairwise_append]
          refine ⟨hord, List.pairwise_singleton _ _, ?_⟩
          intro x hx y hy
          rw [List.mem_singleton] at hy
          subst hy
          obtain ⟨a, b, e1, e2, e3, e4, e5, e6, _⟩ := hsound x hx
          have := e5 hpos
          simp only
          omega
      · rw [if_neg hlen] at hst
        cases hst
        refine ⟨created, hc, ?_, ?_, hord,
          Or.inl ⟨hm1, Or.inr (by rw [Nat.add_sub_cancel]; exact hflag)⟩⟩
        · intro h hh
          obtain ⟨a, b, e1, e2, e3, e4, e5, e6, e7⟩ := hsound h hh
          exact ⟨a, b, e1, e2, e3, by omega, fun hc => absurd hc hm2, e6, e7⟩
        · intro a b hab hb hl
          by_cases hbi : b + 1 = i
          · have := huniq a b hab hbi
            subst this
            rw [h1] at hlen
            omega
          · exact hcompl a b hab (by omega) hl
    · rw [if_neg hpos] at hst
      cases hst
      rcases hfirst with ⟨h1, h2⟩ | ⟨first, h1, _⟩
      swap
      · omega
      refine ⟨created, hc, ?_, ?_, hord,
        Or.inl ⟨h1, Or.inr (by rw [Nat.add_sub_cancel]; exact hflag)⟩⟩
      · intro h hh
        obtain ⟨a, b, e1, e2, e3, e4, e5, e6, e7⟩ := hsound h hh
        exact ⟨a, b, e1, e2, e3, by omega, e5, e6, e7⟩
      · intro a b hab hb hl
        by_cases hbi : b + 1 = i
        · rcases h2 with h2 | h2
          · omega
          · have : b = i - 1 := by omega
            subst this
            exact absurd (hab.2.2.1 (i - 1) hab.1 (Nat.le_refl _)) h2
        · exact hcompl a b hab (by omega) hl

/-- One iteration of the loop of findHelices returns when the run that ends before the
residue `i`, if it is long enough to make a helix, has its first four residues in range. -/
theorem findHelicesStep_some (dihedral : Coord → Coord → Coord → Coord → ℚ) (cfg : Config)
    (m : Model) (i : Nat) (s : Int × List Helix) (hi : i < m.rArray_.length)
    (hinv : m.HelixLoopInv dihedral cfg i s)
    (hsafe : ∀ a b : Nat, m.MaximalRun a b → b + 1 < m.rArray_.length →
      (b : Int) - a + 1 ≥ cfg.minHelixLength → a + 3 < m.rArray_.length) :
    ∃ t, m.findHelicesStep dihedral cfg i s = some t := by
  obtain ⟨created, _, _, _, _, hfirst⟩ := hinv
  unfold Model.findHelicesStep
  by_cases hflag : (m.residue i).flag (R_3HELIX ||| R_4HELIX) ≠ 0
  · rw [if_pos hflag]
    exact ⟨_, rfl⟩
  · rw [if_neg hflag]
    by_cases hpos : s.1 ≥ 0
    · rw [if_pos hpos]
      by_cases hlen : (i : Int) - s.1 ≥ cfg.minHelixLength
      · rw [if_pos hlen]
        rcases hfirst with ⟨h1, _⟩ | ⟨first, h1, h2, h3, h4⟩
        · omega
        have hrun : m.MaximalRun first (i - 1) :=
          ⟨by omega, by omega, fun r hr1 hr2 => h3 r hr1 (by omega), h4,
            Or.inr (by rw [Nat.sub_add_cancel (by omega)]; exact hflag)⟩
        have h5 := hsafe first (i - 1) hrun (by omega) (by rw [h1] at hlen; omega)
        rw [helixClass_of_range dihedral m _ (by show 0 ≤ s.1; omega)
          (by show s.1.toNat + 3 < m.rArray_.length; omega)]
        exact ⟨_, rfl⟩
      · rw [if_neg hlen]
        exact ⟨_, rfl⟩
    · rw [if_neg hpos]
      exact ⟨_, rfl⟩

theorem helixLoopInv_initial (dihedral : Coord → Coord → Coord → Coord → ℚ) (cfg : Config)
    (m : Model) : m.HelixLoopInv dihedral cfg 0 ((-1 : Int), m.helixList_) := by
  have hm1 : (-1 : Int) < 0 := by decide
  refine ⟨[], by simp, by simp, ?_, List.Pairwise.nil, Or.inl ⟨hm1, Or.inl rfl⟩⟩
  intro a b _ hb
  omega

/-- What findHelices returns: the model with, appended to its helix list, exactly one helix for
each maximal run of flagged residues that ends before the last residue and has at least
minHelixLength residues, each one with the class that helixClass returned for it, in
increasing residue order. -/
theorem findHelices_runs_aux (dihedral : Coord → Coord → Coord → Coord → ℚ) (cfg : Config)
    (m m1 : Model) (h1 : m.findHelices dihedral cfg = some m1) :
    ∃ created : List Helix,
      m1 = { m with helixList_ := m.helixList_ ++ created }
      ∧ (∀ h ∈ created, ∃ a b : Nat, h.from_ = a ∧ h.to_ = b ∧ m.MaximalRun a b
          ∧ b + 1 < m.rArray_.length ∧ (b : Int) - a + 1 ≥ cfg.minHelixLength
          ∧ m.helixClass dihedral ⟨h.from_, h.to_, 0⟩ = some h.type_)
      ∧ (∀ a b : Nat, m.MaximalRun a b → b + 1 < m.rArray_.length →
          (b : Int) - a + 1 ≥ cfg.minHelixLength →
          ∃ h ∈ created, h.from_ = a ∧ h.to_ = b)
      ∧ created.Pairwise (fun h1 h2 => h1.to_ < h2.from_) := by
  unfold Model.findHelices at h1
  obtain ⟨r, hr, hm⟩ := Option.map_eq_some'.1 h1
  obtain ⟨created, hc, hsound, hcompl, hord, _⟩ :=
    forLoop_bind_induct (m.HelixLoopInv dihedral cfg) (m.findHelicesStep dihedral cfg) 0
      m.rArray_.length ((-1 : Int), m.helixList_) (Nat.zero_le _)
      (helixLoopInv_initial dihedral cfg m)
      (fun i s t _ hi hinv hst => findHelicesStep_inv dihedral cfg m i s t hi hinv hst) r hr
  refine ⟨created, by rw [← hm, hc], ?_, hcompl, hord⟩
  intro h hh
  obtain ⟨a, b, e1, e2, e3, e4, _, e6, e7⟩ := hsound h hh
  exact ⟨a, b, e1, e2, e3, e4, e6, e7⟩

/-- The loop of findHelices returns when every maximal run of flagged residues that makes a
helix has its first four residues in range. -/
theorem findHelices_returns (dihedral : Coord → Coord → Coord → Coord → ℚ) (cfg : Config)
    (m : Model)
    (hsafe : ∀ a b : Nat, m.MaximalRun a b → b + 1 < m.rArray_.length →
      (b : Int) - a + 1 ≥ cfg.minHelixLength → a + 3 < m.rArray_.length) :
    ∃ m1, m.findHelices dihedral cfg = some m1 := by
  obtain ⟨r, hr, _⟩ :=
    forLoop_bind_total (m.HelixLoopInv dihedral cfg) (m.findHelicesStep dihedral cfg) 0
      m.rArray_.length ((-1 : Int), m.helixList_) (Nat.zero_le _)
      (helixLoopInv_initial dihedral cfg m)
      (fun i s _ hi hinv => by
        obtain ⟨t, ht⟩ := findHelicesStep_some dihedral cfg m i s hi hinv hsafe
        exact ⟨t, ht, findHelicesStep_inv dihedral cfg m i s t hi hinv ht⟩)
  unfold Model.findHelices
  simp only [hr, Option.map_some']
  exact ⟨_, rfl⟩

/-- With a minimum helix length of at least 3 (the default), findHelices returns. -/
theorem findHelices_returns_of_min (dihedral : Coord → Coord → Coord → Coord → ℚ)
    (cfg : Config) (m : Model) (hmin : 3 ≤ cfg.minHelixLength) :
    ∃ m1, m.findHelices dihedral cfg = some m1 :=
  findHelices_returns dihedral cfg m (fun a b _ hb hl => by omega)

/-- Apart from the helix list, findHelices keeps the model. -/
theorem findHelices_keeps (d : Coord → Coord → Coord → Coord → ℚ) (cfg : Config) (m m1 : Model)
    (h : m.findHelices d cfg = some m1) :
    m1.rArray_ = m.rArray_ ∧ m1.hBond_ = m.hBond_
      ∧ m1.ladders = m.ladders
      ∧ m1.ladderList_ = m.ladderList_
      ∧ m1.sheetList_ = m.sheetList_ := by
  unfold Model.findHelices at h
  obtain ⟨r, _, hm⟩ := Option.map_eq_some'.1 h
  subst hm
  exact ⟨rfl, rfl, rfl, rfl, rfl⟩

/-- C4: every Helix created by findHelices (the helices it appends to the helix list) has
length to - from + 1 >= minHelixLength, lies inside the residue array, and every residue in
from..to, in particular the two endpoints, carries the 3-helix or the 4-helix flag.
findHelices returns whenever the first four residues of every run that makes a helix are in
the residue array, which is always so with a minimum helix length of at least 3. -/
theorem findHelices_created (dihedral : Coord → Coord → Coord → Coord → ℚ) (cfg : Config)
    (m : Model) :
    (∀ m1, m.findHelices dihedral cfg = some m1 →
      ∃ created : List Helix,
        m1.helixList_ = m.helixList_ ++ created
        ∧ ∀ h ∈ created,
            h.to_ - h.from_ + 1 ≥ cfg.minHelixLength
            ∧ 0 ≤ h.from_ ∧ h.from_ ≤ h.to_ ∧ h.to_ < m.rArray_.length
            ∧ (m1.residue h.from_.toNat).flag (R_3HELIX ||| R_4HELIX) ≠ 0
            ∧ (m1.residue h.to_.toNat).flag (R_3HELIX ||| R_4HELIX) ≠ 0
            ∧ ∀ r : Nat, h.from_ ≤ r → (r : Int) ≤ h.to_ →
                (m1.residue r).flag (R_3HELIX ||| R_4HELIX) ≠ 0)
    ∧ ((∀ a b : Nat, m.MaximalRun a b → b + 1 < m.rArray_.length →
          (b : Int) - a + 1 ≥ cfg.minHelixLength → a + 3 < m.rArray_.length) →
        ∃ m1, m.findHelices dihedral cfg = some m1)
    ∧ (3 ≤ cfg.minHelixLength → ∃ m1, m.findHelices dihedral cfg = some m1) := by
  refine ⟨?_, findHelices_returns dihedral cfg m, findHelices_returns_of_min dihedral cfg m⟩
  intro m1 h1
  obtain ⟨created, hm, hsound, _⟩ := findHelices_runs_aux dihedral cfg m m1 h1
  have hres : ∀ r, m1.residue r = m.residue r := by
    intro r
    rw [hm]
    rfl
  refine ⟨created, by rw [hm], ?_⟩
  intro h hh
  obtain ⟨a, b, e1, e2, ⟨g1, g2, g3, _⟩, _, e5, _⟩ := hsound h hh
  simp only [hres]
  rw [e1, e2]
  refine ⟨e5, by omega, by omega, by omega, ?_, ?_, ?_⟩
  · rw [Int.toNat_ofNat]
    exact g3 a (le_refl _) g1
  · rw [Int.toNat_ofNat]
    exact g3 b g1 (le_refl _)
  · intro r hr1 hr2
    exact g3 r (by omega) (by omega)

/-- C4 (example): on seven residues of which 1..4 are flagged, with the default minimum helix
length, findHelices returns and what it creates is as stated. -/
theorem findHelices_created_witness :
    (helixRun7.findHelices (fun _ _ _ _ => 0) Config.default).map Model.helixList_
        = some [⟨1, 4, 0⟩]
    ∧ (∃ m1, helixRun7.findHelices (fun _ _ _ _ => 0) Config.default = some m1)
    ∧ ∀ m1, helixRun7.findHelices (fun _ _ _ _ => 0) Config.default = some m1 →
      ∃ created : List Helix,
        m1.helixList_ = helixRun7.helixList_ ++ created
        ∧ ∀ h ∈ created,
            h.to_ - h.from_ + 1 ≥ Config.default.minHelixLength
            ∧ 0 ≤ h.from_ ∧ h.from_ ≤ h.to_ ∧ h.to_ < helixRun7.rArray_.length
            ∧ (m1.residue h.from_.toNat).flag (R_3HELIX ||| R_4HELIX) ≠ 0
            ∧ (m1.residue h.to_.toNat).flag (R_3HELIX ||| R_4HELIX) ≠ 0
            ∧ ∀ r : Nat, h.from_ ≤ r → (r : Int) ≤ h.to_ →
                (m1.residue r).flag (R_3HELIX ||| R_4HELIX) ≠ 0 :=
  ⟨by decide!,
    (findHelices_created (fun _ _ _ _ => 0) Config.default helixRun7).2.2 (by decide),
    (findHelices_created (fun _ _ _ _ => 0) Config.default helixRun7).1⟩

/-- C5 (evaluation at the failing input): in a model of three residues whose bond matrix was
allocated over non-zero bytes, findHBonds writes only the cells (0,2) and (2,0); the diagonal
and the adjacent-residue cells keep their allocation-time contents, so bonded(0,0), bonded(0,1)
and bonded(1,0) are true after findHBonds. -/
theorem findHBonds_keeps_near_diagonal :
    ((Model.mk [⟨[], 0⟩, ⟨[], 0⟩, ⟨[], 0⟩] ⟨3, [1, 1, 1, 1, 1, 1, 1, 1, 1]⟩ [] [] [] []).findHBonds
        sqrtf Config.default).hBond_.array_ = [1, 1, 0, 1, 1, 1, 0, 1, 1]
    ∧ ((Model.mk [⟨[], 0⟩, ⟨[], 0⟩, ⟨[], 0⟩] ⟨3, [1, 1, 1, 1, 1, 1, 1, 1, 1]⟩ [] [] [] []).findHBonds
        sqrtf Config.default).hBonded 0 0 = true
    ∧ ((Model.mk [⟨[], 0⟩, ⟨[], 0⟩, ⟨[], 0⟩] ⟨3, [1, 1, 1, 1, 1, 1, 1, 1, 1]⟩ [] [] [] []).findHBonds
        sqrtf Config.default).hBonded 0 1 = true
    ∧ ((Model.mk [⟨[], 0⟩, ⟨[], 0⟩, ⟨[], 0⟩] ⟨3, [1, 1, 1, 1, 1, 1, 1, 1, 1]⟩ [] [] [] []).findHBonds
        sqrtf Config.default).hBonded 1 0 = true := by
  decide

/-- C8 (counterexample): with the cutoff set to 0.0 the pair of residues with C at (0,0,0) and
O at (1,0,0) on one side, N at (3,0,0) and H at (2,0,0) on the other is bonded: the distances
are r(O,N) = 2, r(C,H) = 2, r(O,H) = 1, r(C,N) = 3, the energy is negative, and hBondedTo
returns 1. -/
theorem hBondedTo_cutoff_zero_bonded :
    Residue.hBondedTo sqrtf 0
      ⟨[⟨" C", (0, 0, 0)⟩, ⟨" O", (1, 0, 0)⟩], 0⟩
      ⟨[⟨" N", (3, 0, 0)⟩, ⟨" H", (2, 0, 0)⟩], 0⟩ = 1 := by
  decide!

/-- C8 (amended): with the cutoff set to 0.0, hBondedTo returns 1 exactly for the pairs in which
the first residue has C and O, the second has N and H, the squared C-N distance is at most 49
and the energy E is below 0, and it returns 0 for every other pair. -/
theorem hBondedTo_cutoff_zero_iff (sq : ℚ → ℚ) (self other : Residue) :
    (Residue.hBondedTo sq 0 self other = 1 ↔
      ∃ c o n h, self.atom " C" = some c ∧ self.atom " O" = some o
        ∧ other.atom " N" = some n ∧ other.atom " H" = some h
        ∧ distSquared c.coord_ n.coord_ ≤ 49
        ∧ hBondEnergy sq c.coord_ o.coord_ n.coord_ h.coord_ < 0)
    ∧ (Residue.hBondedTo sq 0 self other ≠ 1 → Residue.hBondedTo sq 0 self other = 0) := by
  unfold Residue.hBondedTo
  cases hc : self.atom " C" <;> cases ho : self.atom " O" <;>
    cases hn : other.atom " N" <;> cases hh : other.atom " H" <;> simp
  rename_i c o n h
  by_cases hd : 49 < distSquared c.coord_ n.coord_
  · simp [hd]
  · simp only [hd, if_false]
    by_cases he : hBondEnergy sq c.coord_ o.coord_ n.coord_ h.coord_ < 0
    · simp [he, not_lt.1 hd]
    · simp only [he, if_false]
      simp
      intro _
      exact not_lt.1 he

/-! ## The square array -/

theorem SquareArray.set_dim (a : SquareArray) (r c v : Nat) : (a.set r c v).dim_ = a.dim_ := rfl

theorem SquareArray.set_length (a : SquareArray) (r c v : Nat) :
    (a.set r c v).array_.length = a.array_.length := by
  simp [SquareArray.set]

theorem SquareArray.get_zero (n r c : Nat) : (SquareArray.zero ⟨n, []⟩).get r c = 0 := by
  simp only [SquareArray.get, SquareArray.zero, List.getD_eq_getElem?_getD]
  by_cases h : r * n + c < n * n
  · rw [List.getElem?_eq_getElem (by simpa using h)]
    simp
  · rw [List.getElem?_eq_none (by simpa using h)]
    rfl

/-- In an allocated `n` by `n` array, a read at any flat position is either a read of an
in-range cell or reads past the end. -/
theorem SquareArray.get_eq_zero_of_cells (a : SquareArray) (n : Nat) (hd : a.dim_ = n)
    (hl : a.array_.length = n * n) (h : ∀ i j, i < n → j < n → a.get i j = 0) :
    ∀ r c, a.get r c = 0 := by
  intro r c
  by_cases hk : r * n + c < n * n
  · have hn : 0 < n := by
      rcases Nat.eq_zero_or_pos n with h0 | h0
      · subst h0; simp at hk
      · exact h0
    have h1 : (r * n + c) / n < n := by
      rw [Nat.div_lt_iff_lt_mul hn]; exact hk
    have h2 : (r * n + c) % n < n := Nat.mod_lt _ hn
    have h3 := h _ _ h1 h2
    simp only [SquareArray.get, hd] at h3 ⊢
    rw [Nat.div_add_mod'] at h3
    exact h3
  · simp only [SquareArray.get, hd, List.getD_eq_getElem?_getD]
    rw [List.getElem?_eq_none (by omega)]
    rfl


/-! ## A model without bonds -/

theorem findTurns_of_no_bond (n : Nat) (m : Model) (hb : ∀ i j, m.hBonded i j = false) :
    m.findTurns n = m := by
  unfold Model.findTurns
  apply forLoop_inv (fun s => s = m)
  · rfl
  · intro i s _ _ hs
    subst hs
    simp [hb]

theorem residue_flags_fresh (m : Model)
    (hf : ∀ r ∈ m.rArray_, r.flags_ = 0 ∨ r.flags_ = R_TER) (i : Nat) :
    (m.residue i).flags_ = 0 ∨ (m.residue i).flags_ = R_TER := by
  unfold Model.residue
  rw [List.getD_eq_getElem?_getD]
  by_cases h : i < m.rArray_.length
  · rw [List.getElem?_eq_getElem h]
    exact hf _ (List.getElem_mem _)
  · rw [List.getElem?_eq_none (by omega)]
    exact Or.inl rfl

theorem markHelices_of_fresh (n : Nat) (m : Model)
    (hf : ∀ r ∈ m.rArray_, r.flags_ = 0 ∨ r.flags_ = R_TER) : m.markHelices n = m := by
  unfold Model.markHelices
  apply forLoop_inv (fun s => s = m)
  · rfl
  · intro i s _ _ hs
    subst hs
    have h1 : (s.residue i).flag (if n = 3 then R_3ACCEPTOR else R_4ACCEPTOR) = 0 := by
      unfold Residue.flag
      rcases residue_flags_fresh s hf i with h | h <;> rw [h] <;> split_ifs <;> decide
    simp [h1]

theorem findHelices_of_fresh (dihedral : Coord → Coord → Coord → Coord → ℚ) (cfg : Config)
    (m : Model) (hf : ∀ r ∈ m.rArray_, r.flags_ = 0 ∨ r.flags_ = R_TER) :
    m.findHelices dihedral cfg = some m := by
  unfold Model.findHelices
  have key : forLoop 0 m.rArray_.length (fun i (s : Option (Int × List Helix)) =>
      s.bind (m.findHelicesStep dihedral cfg i)) (some ((-1 : Int), m.helixList_))
      = some ((-1 : Int), m.helixList_) := by
    apply forLoop_inv (fun s => s = some ((-1 : Int), m.helixList_))
    · rfl
    · intro i s _ _ hs
      subst hs
      have h1 : (m.residue i).flag (R_3HELIX ||| R_4HELIX) = 0 := by
        unfold Residue.flag
        rcases residue_flags_fresh m hf i with h | h <;> rw [h] <;> decide
      simp [Model.findHelicesStep, h1]
  simp only [key, Option.map_some']

theorem markBridges_of_no_bond (m : Model) (hb : ∀ i j, m.hBonded i j = false) :
    m.markBridges = (m, SquareArray.zero ⟨m.rArray_.length, []⟩) := by
  unfold Model.markBridges
  apply forLoop_inv (fun s => s = (m, SquareArray.zero ⟨m.rArray_.length, []⟩))
  · rfl
  · intro i s _ _ hs
    apply forLoop_inv (fun s => s = (m, SquareArray.zero ⟨m.rArray_.length, []⟩))
    · exact hs
    · intro j s _ _ hs
      subst hs
      simp [hb]

theorem extractLadders_zero (m : Model) :
    m.extractLadders (SquareArray.zero ⟨m.rArray_.length, []⟩)
      = (m, SquareArray.zero ⟨m.rArray_.length, []⟩) := by
  unfold Model.extractLadders
  apply forLoop_inv (fun s => s = (m, SquareArray.zero ⟨m.rArray_.length, []⟩))
  · rfl
  · intro i s _ _ hs
    apply forLoop_inv (fun s => s = (m, SquareArray.zero ⟨m.rArray_.length, []⟩))
    · exact hs
    · intro j s _ _ hs
      subst hs
      simp [SquareArray.get_zero, charP, charA]

theorem mergeAndPrune_nil (cfg : Config) (m : Model) (h : m.ladderList_ = []) :
    Model.mergeAndPrune cfg m = some m := by
  unfold Model.mergeAndPrune
  have h1 : Model.mergeLoop (m.ladderList_.length + 1) m = some m := by
    simp [Model.mergeLoop, Model.findBetaBulge, h, findBetaBulgeScan]
  have h2 : Model.pruneLoop cfg (m.ladderList_.length + 1) m = some m := by
    simp [Model.pruneLoop, h, pruneScan]
  split_ifs <;> simp [h1, h2]

theorem findSheets_nil (m : Model) (h : m.ladderList_ = []) : m.findSheets = some m := by
  simp [Model.findSheets, h, Model.findSheetsLoop]

/-- Without any bond, on a freshly constructed model, the inference after findHBonds changes
nothing. -/
theorem structureFromHBonds_of_no_bond (dihedral : Coord → Coord → Coord → Coord → ℚ)
    (cfg : Config) (m : Model) (hl : m.ladderList_ = [])
    (hf : ∀ r ∈ m.rArray_, r.flags_ = 0 ∨ r.flags_ = R_TER)
    (hb : ∀ i j, m.hBonded i j = false) :
    m.structureFromHBonds dihedral cfg = some m := by
  unfold Model.structureFromHBonds
  rw [findTurns_of_no_bond 3 m hb, markHelices_of_fresh 3 m hf, findTurns_of_no_bond 4 m hb,
    markHelices_of_fresh 4 m hf, findHelices_of_fresh dihedral cfg m hf, Option.some_bind]
  unfold Model.findBridges
  simp only [markBridges_of_no_bond m hb, extractLadders_zero, mergeAndPrune_nil cfg m hl,
    Option.some_bind, findSheets_nil m hl]


theorem addImideHydrogen_flags (sq : ℚ → ℚ) (self : Residue) (prev : Option Residue) :
    (self.addImideHydrogen sq prev).2.flags_ = self.flags_ := by
  unfold Residue.addImideHydrogen
  cases prev with
  | none => rfl
  | some p =>
    simp only
    split
    · rfl
    · cases self.atom " N" <;> cases self.atom " CA" <;> cases p.atom " C" <;>
        cases p.atom " O" <;> rfl

theorem addImideHydrogens_fold_flags (sq : ℚ → ℚ) :
    ∀ (rest : List Residue) (s : Option Residue × List Residue),
      ((rest.foldl (fun (s : Option Residue × List Residue) r =>
          let r1 := (r.addImideHydrogen sq s.1).2
          (if r1.flag R_TER ≠ 0 then none else some r1, s.2 ++ [r1])) s).2).map Residue.flags_
        = s.2.map Residue.flags_ ++ rest.map Residue.flags_ := by
  intro rest
  induction rest with
  | nil => intro s; simp
  | cons r rs ih =>
    intro s
    rw [List.foldl_cons, ih]
    simp [addImideHydrogen_flags]

theorem addImideHydrogens_flags (sq : ℚ → ℚ) (m : Model) :
    (m.addImideHydrogens sq).rArray_.map Residue.flags_ = m.rArray_.map Residue.flags_ := by
  unfold Model.addImideHydrogens
  cases h : m.rArray_ with
  | nil => simp [h]
  | cons r0 rest =>
    simp only
    rw [addImideHydrogens_fold_flags]
    simp

theorem addImideHydrogens_hBond (sq : ℚ → ℚ) (m : Model) :
    (m.addImideHydrogens sq).hBond_ = m.hBond_ ∧ (m.addImideHydrogens sq).helixList_ = m.helixList_
      ∧ (m.addImideHydrogens sq).ladderList_ = m.ladderList_
      ∧ (m.addImideHydrogens sq).sheetList_ = m.sheetList_ := by
  unfold Model.addImideHydrogens
  cases m.rArray_ <;> exact ⟨rfl, rfl, rfl, rfl⟩

theorem findHBonds_alloc (sq : ℚ → ℚ) (cfg : Config) (m : Model) :
    (m.findHBonds sq cfg).hBond_.dim_ = m.hBond_.dim_
      ∧ (m.findHBonds sq cfg).hBond_.array_.length = m.hBond_.array_.length := by
  unfold Model.findHBonds
  simp only
  apply forLoop_inv (fun hb : SquareArray => hb.dim_ = m.hBond_.dim_
      ∧ hb.array_.length = m.hBond_.array_.length)
  · exact ⟨rfl, rfl⟩
  · intro i s _ _ hs
    apply forLoop_inv (fun hb : SquareArray => hb.dim_ = m.hBond_.dim_
      ∧ hb.array_.length = m.hBond_.array_.length)
    · exact hs
    · intro j s _ _ hs
      simp only [SquareArray.set_dim, SquareArray.set_length]
      exact hs

theorem flags_of_map_eq (l1 l2 : List Residue)
    (h : l1.map Residue.flags_ = l2.map Residue.flags_)
    (hf : ∀ r ∈ l2, r.flags_ = 0 ∨ r.flags_ = R_TER) :
    ∀ r ∈ l1, r.flags_ = 0 ∨ r.flags_ = R_TER := by
  intro r hr
  have : r.flags_ ∈ l2.map Residue.flags_ := by
    rw [← h]; exact List.mem_map_of_mem _ hr
  obtain ⟨r2, hr2, he⟩ := List.mem_map.1 this
  rw [← he]
  exact hf r2 hr2

/-- C7: for every freshly constructed model (empty helix, ladder and sheet lists, residue flags
clear apart from the chain-terminator flag, bond matrix allocated for its residues) in which no
residue pair is bonded after findHBonds, defineSecondaryStructure returns with zero Helices,
zero Ladders and zero Sheets, and with the flag word of every residue unchanged: no turn,
helix or bridge flag is set. -/
theorem defineSecondaryStructure_of_no_bond (sq : ℚ → ℚ)
    (dihedral : Coord → Coord → Coord → Coord → ℚ) (cfg : Config) (m : Model)
    (hh : m.helixList_ = []) (hl : m.ladderList_ = []) (hs : m.sheetList_ = [])
    (hf : ∀ r ∈ m.rArray_, r.flags_ = 0 ∨ r.flags_ = R_TER)
    (hd : m.hBond_.dim_ = m.rArray_.length)
    (ha : m.hBond_.array_.length = m.rArray_.length * m.rArray_.length)
    (hb : ∀ i j, i < m.rArray_.length → j < m.rArray_.length →
      ((m.addImideHydrogens sq).findHBonds sq cfg).hBonded i j = false) :
    ∃ m1, m.defineSecondaryStructure sq dihedral cfg = some m1
      ∧ m1.helixList_ = [] ∧ m1.ladderList_ = [] ∧ m1.sheetList_ = []
      ∧ m1.rArray_.map Residue.flags_ = m.rArray_.map Residue.flags_ := by
  obtain ⟨e1, e2, e3, e4⟩ := addImideHydrogens_hBond sq m
  have e5 := addImideHydrogens_flags sq m
  obtain ⟨a1, a2⟩ := findHBonds_alloc sq cfg (m.addImideHydrogens sq)
  have hres : ((m.addImideHydrogens sq).findHBonds sq cfg).rArray_
      = (m.addImideHydrogens sq).rArray_ := rfl
  have hlen : (m.addImideHydrogens sq).rArray_.length = m.rArray_.length := by
    have := congrArg List.length e5
    simpa using this
  refine ⟨(m.addImideHydrogens sq).findHBonds sq cfg, ?_, ?_, ?_, ?_, ?_⟩
  · unfold Model.defineSecondaryStructure
    apply structureFromHBonds_of_no_bond
    · exact e3.trans hl
    · rw [hres]
      exact flags_of_map_eq _ _ e5 hf
    · intro i j
      have := SquareArray.get_eq_zero_of_cells ((m.addImideHydrogens sq).findHBonds sq cfg).hBond_
        m.rArray_.length (by rw [a1, e1, hd]) (by rw [a2, e1, ha])
        (fun i j hi hj => by
          have := hb i j hi hj
          simpa [Model.hBonded] using this) i j
      simp [Model.hBonded, this]
  · exact e2.trans hh
  · exact e3.trans hl
  · exact e4.trans hs
  · rw [hres]; exact e5

/-- C7 (witness): a chain of three residues without atoms. -/
theorem defineSecondaryStructure_of_no_bond_witness :
    ∃ m1, (Model.mk [⟨[], 0⟩, ⟨[], 0⟩, ⟨[], R_TER⟩] ⟨3, [0, 0, 0, 0, 0, 0, 0, 0, 0]⟩ [] [] []
        []).defineSecondaryStructure sqrtf (fun _ _ _ _ => 0) Config.default = some m1
      ∧ m1.helixList_ = [] ∧ m1.ladderList_ = [] ∧ m1.sheetList_ = []
      ∧ m1.rArray_.map Residue.flags_
        = (Model.mk [⟨[], 0⟩, ⟨[], 0⟩, ⟨[], R_TER⟩] ⟨3, [0, 0, 0, 0, 0, 0, 0, 0, 0]⟩ [] [] []
            []).rArray_.map Residue.flags_ :=
  defineSecondaryStructure_of_no_bond sqrtf (fun _ _ _ _ => 0) Config.default
    (Model.mk [⟨[], 0⟩, ⟨[], 0⟩, ⟨[], R_TER⟩] ⟨3, [0, 0, 0, 0, 0, 0, 0, 0, 0]⟩ [] [] [] [])
    rfl rfl rfl (by decide) rfl rfl
    (by
      intro i j hi hj
      have hi3 : i < 3 := hi
      have hj3 : j < 3 := hj
      interval_cases i <;> interval_cases j <;> decide)

/-! ## Sheet assembly: the run of findSheets as a sequence of steps -/

theorem getD_modify_ladder (f : Ladder → Ladder) (n p : Nat) (l : List Ladder) :
    (List.modify f n l).getD p default
      = if n = p ∧ p < l.length then f (l.getD p default) else l.getD p default := by
  simp only [List.getD_eq_getElem?_getD, List.getElem?_modify]
  by_cases hp : p < l.length
  · rw [List.getElem?_eq_getElem hp]
    by_cases hn : n = p <;> simp [hn, hp]
  · rw [List.getElem?_eq_none (by omega)]
    simp [hp]

theorem ladder_assignSheet (m : Model) (a s p : Nat) :
    (m.assignSheet a s).ladder p
      = if a = p ∧ p < m.ladders.length then (m.ladder p).setSheet s else m.ladder p := by
  simp only [Model.assignSheet, Model.ladder, getD_modify_ladder]

theorem ladder_link (m : Model) (l o0 a o1 p : Nat) :
    (m.link l o0 a o1).ladder p
      = if a = p ∧ p < m.ladders.length then
          (if l = p ∧ p < m.ladders.length then (m.ladder p).setNeighbor o0 a
            else m.ladder p).setNeighbor o1 l
        else if l = p ∧ p < m.ladders.length then (m.ladder p).setNeighbor o0 a
        else m.ladder p := by
  simp only [Model.link, Model.ladder, getD_modify_ladder, List.length_modify]

theorem setNeighbor_sheet (x : Ladder) (n o : Nat) : (x.setNeighbor n o).sheet_ = x.sheet_ := by
  unfold Ladder.setNeighbor
  split <;> rfl

theorem sheet_link (m : Model) (l o0 a o1 p : Nat) :
    ((m.link l o0 a o1).ladder p).sheet_ = (m.ladder p).sheet_ := by
  rw [ladder_link]
  split_ifs <;> simp only [setNeighbor_sheet]

theorem sheet_assignSheet (m : Model) (a s p : Nat) :
    ((m.assignSheet a s).ladder p).sheet_
      = if a = p ∧ p < m.ladders.length then some s else (m.ladder p).sheet_ := by
  rw [ladder_assignSheet]
  split_ifs <;> rfl

theorem stepFrame_refl (m : Model) : StepFrame m m := ⟨rfl, rfl, fun _ _ h => h⟩

theorem stepFrame_trans {m m1 m2 : Model} (h1 : StepFrame m m1) (h2 : StepFrame m1 m2) :
    StepFrame m m2 :=
  ⟨h2.1.trans h1.1, h2.2.1.trans h1.2.1, fun p s h => h2.2.2 p s (h1.2.2 p s h)⟩

theorem sheetStep_frame {m m1 : Model} (h : SheetStep m m1) : StepFrame m m1 := by
  cases h with
  | start l sName hl hv hs =>
    refine ⟨rfl, by simp [Model.assignSheet], ?_⟩
    intro p s hp
    rw [sheet_assignSheet]
    have : (Model.ladder { m with sheetList_ := m.sheetList_ ++ [⟨sName, []⟩] } p) = m.ladder p :=
      rfl
    rw [this]
    split_ifs with hc
    · rw [← hc.1, hs] at hp
      cases hp
    · exact hp
  | link l o0 ladder o1 sheet hl hv hla hva hs hsa hov hn0 hn1 =>
    refine ⟨rfl, by simp [Model.assignSheet, Model.link], ?_⟩
    intro p s hp
    rw [sheet_assignSheet, sheet_link]
    split_ifs with hc
    · rw [← hc.1, hs] at hp
      cases hp
    · exact hp

theorem sheetSteps_frame {m m1 : Model} (h : SheetSteps m m1) : StepFrame m m1 := by
  induction h with
  | refl => exact stepFrame_refl m
  | tail _ hstep ih => exact stepFrame_trans ih (sheetStep_frame hstep)

theorem stepFrame_valid {m m1 : Model} (h : StepFrame m m1) (hv : m.LaddersValid) :
    m1.LaddersValid := by
  intro p hp
  rw [h.1] at hp
  rw [h.2.1]
  exact hv p hp

theorem filter_length_le_of_imp {α : Type} (p q : α → Bool) (l : List α)
    (h : ∀ x ∈ l, q x = true → p x = true) : (l.filter q).length ≤ (l.filter p).length := by
  induction l with
  | nil => simp
  | cons x xs ih =>
    have ih1 := ih (fun y hy => h y (List.mem_cons_of_mem _ hy))
    have hx := h x (List.mem_cons_self _ _)
    cases hq : q x <;> cases hp : p x <;> simp [List.filter_cons, hq, hp] <;> first
      | omega
      | (rw [hq] at hx; simp [hp] at hx)

theorem filter_length_lt_of_imp {α : Type} (p q : α → Bool) (l : List α)
    (h : ∀ x ∈ l, q x = true → p x = true) (a : α) (ha : a ∈ l) (hpa : p a = true)
    (hqa : q a = false) : (l.filter q).length < (l.filter p).length := by
  induction l with
  | nil => simp at ha
  | cons x xs ih =>
    have himp := filter_length_le_of_imp p q xs (fun y hy => h y (List.mem_cons_of_mem _ hy))
    have hx := h x (List.mem_cons_self _ _)
    rcases List.mem_cons.1 ha with hax | hax
    · subst hax
      simp [List.filter_cons, hqa, hpa]
      omega
    · have ih1 := ih (fun y hy => h y (List.mem_cons_of_mem _ hy)) hax
      cases hq : q x <;> cases hp : p x <;> simp [List.filter_cons, hq, hp] <;> first
        | omega
        | (rw [hq] at hx; simp [hp] at hx)

theorem stepFrame_unsheeted_le {m m1 : Model} (h : StepFrame m m1) :
    m1.unsheeted ≤ m.unsheeted := by
  unfold Model.unsheeted
  rw [h.1]
  apply filter_length_le_of_imp
  intro x _ hx
  cases hs : (m.ladder x).sheet_ with
  | none => rfl
  | some s =>
    rw [h.2.2 x s hs] at hx
    simp at hx

theorem unsheeted_assignSheet_lt (m : Model) (l s : Nat) (hl : l ∈ m.ladderList_)
    (hv : l < m.ladders.length) (hs : (m.ladder l).sheet_ = none) :
    (m.assignSheet l s).unsheeted < m.unsheeted := by
  unfold Model.unsheeted
  have : (m.assignSheet l s).ladderList_ = m.ladderList_ := rfl
  rw [this]
  apply filter_length_lt_of_imp _ _ _ _ l hl
  · simp [hs]
  · rw [sheet_assignSheet]
    simp [hv]
  · intro x _ hx
    rw [sheet_assignSheet] at hx
    split_ifs at hx
    · simp at hx
    · exact hx

theorem unsheeted_link (m : Model) (l o0 a o1 : Nat) :
    (m.link l o0 a o1).unsheeted = m.unsheeted := by
  unfold Model.unsheeted
  have : (m.link l o0 a o1).ladderList_ = m.ladderList_ := rfl
  rw [this]
  congr 2
  funext p
  rw [sheet_link]

theorem link_valid (m : Model) (l o0 a o1 : Nat) (hv : m.LaddersValid) :
    (m.link l o0 a o1).LaddersValid := by
  intro p hp
  have : (m.link l o0 a o1).ladders.length = m.ladders.length := by simp [Model.link]
  rw [this]
  exact hv p hp

/-- The loop of markLadder returns, and its effect is a sequence of steps, provided the
recursive call does so on every model with at most `f` ladders left without a sheet. -/
theorem markLoop_steps (sheet f : Nat) (call : Model → Nat → Option Model)
    (hcall : ∀ m l, m.LaddersValid → l ∈ m.ladderList_ → (m.ladder l).sheet_ = none →
      m.unsheeted ≤ f → ∃ m1, call m l = some m1 ∧ SheetSteps (m.assignSheet l sheet) m1)
    (ladder : Nat) :
    ∀ (rest : List Nat) (m : Model), (∀ x ∈ rest, x ∈ m.ladderList_) → m.LaddersValid →
      ladder ∈ m.ladderList_ → (m.ladder ladder).sheet_ = some sheet → m.unsheeted ≤ f →
      ∃ m1, Model.markLoop call ladder rest m = some m1 ∧ SheetSteps m m1 := by
  intro rest
  induction rest with
  | nil =>
    intro m _ _ _ _ _
    exact ⟨m, rfl, Relation.ReflTransGen.refl⟩
  | cons l rest ih =>
    intro m hsub hv hla hsa hf
    have hsub1 : ∀ x ∈ rest, x ∈ m.ladderList_ := fun x hx => hsub x (List.mem_cons_of_mem _ hx)
    have hl : l ∈ m.ladderList_ := hsub l (List.mem_cons_self _ _)
    unfold Model.markLoop
    by_cases hs : (m.ladder l).sheet_ ≠ none
    · rw [if_pos hs]
      exact ih m hsub1 hv hla hsa hf
    · rw [if_neg hs]
      have hs1 : (m.ladder l).sheet_ = none := by simpa using hs
      cases hov : (m.ladder l).overlaps (m.ladder ladder) with
      | none => exact ih m hsub1 hv hla hsa hf
      | some o =>
        obtain ⟨o0, o1⟩ := o
        simp only
        by_cases hn0 : (m.ladder l).neighbor o0 ≠ none
        · rw [if_pos hn0]
          exact ih m hsub1 hv hla hsa hf
        · rw [if_neg hn0]
          by_cases hn1 : (m.ladder ladder).neighbor o1 ≠ none
          · rw [if_pos hn1]
            exact ih m hsub1 hv hla hsa hf
          · rw [if_neg hn1]
            obtain ⟨m2, hc, hsteps⟩ := hcall (m.link l o0 ladder o1) l (link_valid m _ _ _ _ hv) hl
              (by rw [sheet_link]; exact hs1) (by rw [unsheeted_link]; exact hf)
            rw [hc]
            simp only
            have hstep : SheetStep m ((m.link l o0 ladder o1).assignSheet l sheet) :=
              SheetStep.link m l o0 ladder o1 sheet hl (hv l hl) hla (hv ladder hla) hs1 hsa hov
                (by simpa using hn0) (by simpa using hn1)
            have hall : SheetSteps m m2 := Relation.ReflTransGen.head hstep hsteps
            have hfr := sheetSteps_frame hall
            obtain ⟨m3, h3, hsteps3⟩ := ih m2 (by rw [hfr.1]; exact hsub1) (stepFrame_valid hfr hv)
              (by rw [hfr.1]; exact hla) (hfr.2.2 _ _ hsa) (le_trans (stepFrame_unsheeted_le hfr) hf)
            exact ⟨m3, h3, Relation.ReflTransGen.trans hall hsteps3⟩

/-- The call markLadder(ladder, sheet) returns when the fuel is at least the number of ladders
without a sheet, and its effect after the assignment of `ladder` is a sequence of steps. -/
theorem markLadder_steps (sheet : Nat) :
    ∀ (f : Nat) (m : Model) (ladder : Nat), m.LaddersValid → ladder ∈ m.ladderList_ →
      (m.ladder ladder).sheet_ = none → m.unsheeted ≤ f →
      ∃ m1, Model.markLadder sheet f m ladder = some m1
        ∧ SheetSteps (m.assignSheet ladder sheet) m1 := by
  intro f
  induction f with
  | zero =>
    intro m ladder hv hl hs hf
    have := unsheeted_assignSheet_lt m ladder sheet hl (hv ladder hl) hs
    omega
  | succ f ih =>
    intro m ladder hv hl hs hf
    unfold Model.markLadder
    have hlt := unsheeted_assignSheet_lt m ladder sheet hl (hv ladder hl) hs
    have hv1 : (m.assignSheet ladder sheet).LaddersValid := by
      intro p hp
      have : (m.assignSheet ladder sheet).ladders.length = m.ladders.length := by
        simp [Model.assignSheet]
      rw [this]
      exact hv p hp
    exact markLoop_steps sheet f (Model.markLadder sheet f) ih ladder m.ladderList_
      (m.assignSheet ladder sheet) (fun x hx => hx) hv1 hl
      (by rw [sheet_assignSheet]; simp [hv ladder hl]) (by omega)

theorem findSheetsLoop_steps :
    ∀ (rest : List Nat) (m : Model) (sName : Char), (∀ x ∈ rest, x ∈ m.ladderList_) →
      m.LaddersValid →
      ∃ m1, Model.findSheetsLoop rest m sName = some m1 ∧ SheetSteps m m1
        ∧ ∀ x ∈ rest, (m1.ladder x).sheet_ ≠ none := by
  intro rest
  induction rest with
  | nil =>
    intro m sName _ _
    exact ⟨m, rfl, Relation.ReflTransGen.refl, by simp⟩
  | cons l rest ih =>
    intro m sName hsub hv
    have hsub1 : ∀ x ∈ rest, x ∈ m.ladderList_ := fun x hx => hsub x (List.mem_cons_of_mem _ hx)
    have hl : l ∈ m.ladderList_ := hsub l (List.mem_cons_self _ _)
    unfold Model.findSheetsLoop
    by_cases hs : (m.ladder l).sheet_ ≠ none
    · rw [if_pos hs]
      obtain ⟨m1, h1, hsteps, hall⟩ := ih m sName hsub1 hv
      refine ⟨m1, h1, hsteps, ?_⟩
      intro x hx
      rcases List.mem_cons.1 hx with hxl | hxr
      · subst hxl
        obtain ⟨s, hs2⟩ := Option.ne_none_iff_exists'.1 hs
        rw [(sheetSteps_frame hsteps).2.2 _ _ hs2]
        simp
      · exact hall x hxr
    · rw [if_neg hs]
      have hs1 : (m.ladder l).sheet_ = none := by simpa using hs
      obtain ⟨m2, hc, hsteps⟩ := markLadder_steps m.sheetList_.length m.ladderList_.length
        { m with sheetList_ := m.sheetList_ ++ [⟨sName, []⟩] } l hv hl hs1
        (List.length_filter_le _ _)
      rw [hc]
      simp only
      have hstep := SheetStep.start m l sName hl (hv l hl) hs1
      have hall : SheetSteps m m2 := Relation.ReflTransGen.head hstep hsteps
      have hfr := sheetSteps_frame hall
      have hfr2 := sheetSteps_frame hsteps
      obtain ⟨m3, h3, hsteps3, hall3⟩ := ih m2 (nextSheetName sName)
        (by rw [hfr.1]; exact hsub1) (stepFrame_valid hfr hv)
      refine ⟨m3, h3, Relation.ReflTransGen.trans hall hsteps3, ?_⟩
      intro x hx
      rcases List.mem_cons.1 hx with hxl | hxr
      · subst hxl
        have h4 : ((Model.assignSheet { m with sheetList_ := m.sheetList_ ++ [⟨sName, []⟩] } x
            m.sheetList_.length).ladder x).sheet_ = some m.sheetList_.length := by
          rw [sheet_assignSheet]
          have : x < (Model.mk m.rArray_ m.hBond_ m.helixList_ m.ladders m.ladderList_
              (m.sheetList_ ++ [⟨sName, []⟩])).ladders.length := hv x hl
          simp [this]
        rw [(sheetSteps_frame hsteps3).2.2 _ _ (hfr2.2.2 _ _ h4)]
        simp
      · exact hall3 x hxr

/-- The method findSheets returns on every model whose ladder list points into the arena; its
effect is a sequence of steps, and afterwards every ladder of the list has a sheet. -/
theorem findSheets_steps (m : Model) (hv : m.LaddersValid) :
    ∃ m1, m.findSheets = some m1 ∧ SheetSteps m m1
      ∧ ∀ x ∈ m.ladderList_, (m1.ladder x).sheet_ ≠ none :=
  findSheetsLoop_steps m.ladderList_ m 'A' (fun _ hx => hx) hv

/-! ## Sheets partition the ladders -/

theorem sheets_assignSheet (m : Model) (a s t : Nat) :
    (m.assignSheet a s).sheetList_[t]?
      = (m.sheetList_[t]?).map (fun sh => if s = t then sh.addLadder a else sh) := by
  simp only [Model.assignSheet, List.getElem?_modify]
  rfl

theorem consistent_assignSheet {m : Model} (hc : m.SheetsConsistent) (l s : Nat)
    (hl : l ∈ m.ladderList_) (hv : l < m.ladders.length) (hs : (m.ladder l).sheet_ = none)
    (hlt : s < m.sheetList_.length) : (m.assignSheet l s).SheetsConsistent := by
  obtain ⟨ha, hb⟩ := hc
  have hnotmem : ∀ (t : Nat) (sh : Sheet), m.sheetList_[t]? = some sh → l ∉ sh.ladderList_ := by
    intro t sh ht hmem
    have := (ha t sh ht l hmem).2
    rw [hs] at this
    cases this
  constructor
  · intro t sh' ht p hp
    rw [sheets_assignSheet] at ht
    cases hsh : m.sheetList_[t]? with
    | none => rw [hsh] at ht; cases ht
    | some sh =>
      rw [hsh] at ht
      simp only [Option.map_some', Option.some.injEq] at ht
      refine ⟨?_, ?_⟩
      · by_cases hst : s = t
        · rw [if_pos hst] at ht
          subst ht
          simp only [Sheet.addLadder, List.mem_append, List.mem_singleton] at hp
          rcases hp with hp | hp
          · exact (ha t sh hsh p hp).1
          · subst hp; exact hl
        · rw [if_neg hst] at ht
          subst ht
          exact (ha t sh hsh p hp).1
      · rw [sheet_assignSheet]
        by_cases hst : s = t
        · rw [if_pos hst] at ht
          subst ht
          simp only [Sheet.addLadder, List.mem_append, List.mem_singleton] at hp
          rcases hp with hp | hp
          · have := (ha t sh hsh p hp).2
            split_ifs
            · rw [hst]
            · exact this
          · subst hp
            simp [hv, hst]
        · rw [if_neg hst] at ht
          subst ht
          have h1 := (ha t sh hsh p hp).2
          have hpl : ¬ (l = p ∧ p < m.ladders.length) := by
            rintro ⟨h2, _⟩
            subst h2
            rw [hs] at h1
            cases h1
          rw [if_neg hpl]
          exact h1
  · intro p hp t ht
    have hp' : p ∈ m.ladderList_ := hp
    rw [sheet_assignSheet] at ht
    rw [sheets_assignSheet]
    by_cases hpl : l = p ∧ p < m.ladders.length
    · rw [if_pos hpl] at ht
      cases ht
      obtain ⟨sh, hsh⟩ : ∃ sh, m.sheetList_[s]? = some sh :=
        ⟨m.sheetList_[s], List.getElem?_eq_getElem hlt⟩
      refine ⟨sh.addLadder l, by simp [hsh], ?_⟩
      rw [← hpl.1]
      simp only [Sheet.addLadder, List.count_append, List.count_singleton, beq_self_eq_true,
        if_true]
      rw [List.count_eq_zero_of_not_mem (hnotmem s sh hsh)]
    · rw [if_neg hpl] at ht
      obtain ⟨sh, hsh, hcount⟩ := hb p hp' t ht
      have hne : p ≠ l := by
        intro h
        subst h
        rw [hs] at ht
        cases ht
      by_cases hst : s = t
      · refine ⟨sh.addLadder l, by simp [hsh, hst], ?_⟩
        simp only [Sheet.addLadder, List.count_append, hcount]
        rw [List.count_eq_zero_of_not_mem (by simpa using hne)]
      · exact ⟨sh, by simp [hsh, hst], hcount⟩

theorem consistent_link {m : Model} (hc : m.SheetsConsistent) (l o0 a o1 : Nat) :
    (m.link l o0 a o1).SheetsConsistent := by
  obtain ⟨ha, hb⟩ := hc
  constructor
  · intro t sh ht p hp
    have := ha t sh ht p hp
    exact ⟨this.1, by rw [sheet_link]; exact this.2⟩
  · intro p hp t ht
    rw [sheet_link] at ht
    exact hb p hp t ht

theorem consistent_newSheet {m : Model} (hc : m.SheetsConsistent) (sName : Char) :
    Model.SheetsConsistent { m with sheetList_ := m.sheetList_ ++ [⟨sName, []⟩] } := by
  obtain ⟨ha, hb⟩ := hc
  constructor
  · intro t sh ht p hp
    simp only at ht
    by_cases hlt : t < m.sheetList_.length
    · rw [List.getElem?_append_left hlt] at ht
      exact ha t sh ht p hp
    · rw [List.getElem?_append_right (by omega)] at ht
      cases hx : t - m.sheetList_.length with
      | zero =>
        rw [hx] at ht
        simp only [List.getElem?_cons_zero, Option.some.injEq] at ht
        subst ht
        simp at hp
      | succ k =>
        rw [hx] at ht
        simp at ht
  · intro p hp t ht
    obtain ⟨sh, hsh, hcount⟩ := hb p hp t ht
    refine ⟨sh, ?_, hcount⟩
    simp only
    have hlt : t < m.sheetList_.length := by
      by_contra h
      rw [List.getElem?_eq_none (by omega)] at hsh
      cases hsh
    rw [List.getElem?_append_left hlt]
    exact hsh

theorem sheetStep_consistent {m m1 : Model} (h : SheetStep m m1) (hc : m.SheetsConsistent) :
    m1.SheetsConsistent := by
  cases h with
  | start l sName hl hv hs =>
    exact consistent_assignSheet (consistent_newSheet hc sName) l m.sheetList_.length hl hv hs (by simp)
  | link l o0 ladder o1 sheet hl hv hla hva hs hsa hov hn0 hn1 =>
    obtain ⟨sh, hsh, _⟩ := hc.2 ladder hla sheet hsa
    have hlt : sheet < m.sheetList_.length := by
      by_contra h
      rw [List.getElem?_eq_none (by omega)] at hsh
      cases hsh
    exact consistent_assignSheet (consistent_link hc l o0 ladder o1) l sheet hl (by simpa [Model.link] using hv)
      (by rw [sheet_link]; exact hs) hlt

theorem sheetSteps_consistent {m m1 : Model} (h : SheetSteps m m1) (hc : m.SheetsConsistent) :
    m1.SheetsConsistent := by
  induction h with
  | refl => exact hc
  | tail _ hstep ih => exact sheetStep_consistent hstep ih

/-- C1: on a model whose ladder list points into the arena, whose ladders have no sheet yet and
whose sheet list is empty (the state left by findBridges), findSheets returns, keeps the ladder
list, and afterwards every ladder of the list has a non-null sheet, appears exactly once in
that sheet's member list and in no other sheet's member list, and every member of every sheet is
a ladder of the ladder list: the sheets partition the surviving ladders. -/
theorem findSheets_partition (m : Model) (hv : m.LaddersValid)
    (h0 : ∀ p ∈ m.ladderList_, (m.ladder p).sheet_ = none) (hs : m.sheetList_ = []) :
    ∃ m1, m.findSheets = some m1 ∧ m1.ladderList_ = m.ladderList_
      ∧ (∀ p ∈ m1.ladderList_, ∃ s sh, (m1.ladder p).sheet_ = some s
          ∧ m1.sheetList_[s]? = some sh ∧ sh.ladderList_.count p = 1
          ∧ ∀ t sh1, m1.sheetList_[t]? = some sh1 → t ≠ s → p ∉ sh1.ladderList_)
      ∧ (∀ sh ∈ m1.sheetList_, ∀ p ∈ sh.ladderList_, p ∈ m1.ladderList_) := by
  obtain ⟨m1, h1, hsteps, hall⟩ := findSheets_steps m hv
  have hc0 : m.SheetsConsistent := by
    constructor
    · intro s sh hsh
      rw [hs] at hsh
      simp at hsh
    · intro p hp s hps
      rw [h0 p hp] at hps
      cases hps
  obtain ⟨ha, hb⟩ := sheetSteps_consistent hsteps hc0
  have hfr := sheetSteps_frame hsteps
  refine ⟨m1, h1, hfr.1, ?_, ?_⟩
  · intro p hp
    obtain ⟨s, hps⟩ := Option.ne_none_iff_exists'.1 (hall p (by rw [← hfr.1]; exact hp))
    obtain ⟨sh, hsh, hcount⟩ := hb p hp s hps
    refine ⟨s, sh, hps, hsh, hcount, ?_⟩
    intro t sh1 ht hne hmem
    have := (ha t sh1 ht p hmem).2
    rw [hps] at this
    cases this
    exact hne rfl
  · intro sh hsh p hp
    obtain ⟨t, ht⟩ := List.getElem?_of_mem hsh
    exact (ha t sh ht p hp).1

/-- C1 (witness): three ladders, the first two sharing the strand 10..14, the third apart. -/
theorem findSheets_partition_witness :
    ∃ m1, (Model.mk [] ⟨0, []⟩ []
        [Ladder.new B_ANTI 1 5 10 14, Ladder.new B_ANTI 10 14 20 24, Ladder.new B_PARA 30 34 40 44]
        [0, 1, 2] []).findSheets = some m1
      ∧ m1.ladderList_ = [0, 1, 2]
      ∧ (∀ p ∈ m1.ladderList_, ∃ s sh, (m1.ladder p).sheet_ = some s
          ∧ m1.sheetList_[s]? = some sh ∧ sh.ladderList_.count p = 1
          ∧ ∀ t sh1, m1.sheetList_[t]? = some sh1 → t ≠ s → p ∉ sh1.ladderList_)
      ∧ (∀ sh ∈ m1.sheetList_, ∀ p ∈ sh.ladderList_, p ∈ m1.ladderList_) :=
  findSheets_partition
    (Model.mk [] ⟨0, []⟩ []
      [Ladder.new B_ANTI 1 5 10 14, Ladder.new B_ANTI 10 14 20 24, Ladder.new B_PARA 30 34 40 44]
      [0, 1, 2] [])
    (by unfold Model.LaddersValid; decide) (by decide) rfl

/-! ## Bulge merging -/

theorem findBetaBulgeInner_none (heap : List Ladder) (l1 : Ladder) :
    ∀ rest : List Nat, findBetaBulgeInner heap l1 rest = none ↔
      ∀ p2 ∈ rest, (heap.getD p2 default).isBulge_ = true
        ∨ Ladder.mergeBulge l1 (heap.getD p2 default) = none := by
  intro rest
  induction rest with
  | nil => simp [findBetaBulgeInner]
  | cons p2 rest ih =>
    unfold findBetaBulgeInner
    by_cases hb : (heap.getD p2 default).isBulge_ = true
    · rw [if_pos hb, ih]
      constructor
      · intro h x hx
        rcases List.mem_cons.1 hx with hx | hx
        · subst hx; exact Or.inl hb
        · exact h x hx
      · intro h x hx
        exact h x (List.mem_cons_of_mem _ hx)
    · rw [if_neg hb]
      cases hm : Ladder.mergeBulge l1 (heap.getD p2 default) with
      | some l =>
        simp only
        constructor
        · intro h; cases h
        · intro h
          rcases h p2 (List.mem_cons_self _ _) with h1 | h1
          · exact absurd h1 hb
          · rw [hm] at h1; cases h1
      | none =>
        simp only
        rw [ih]
        constructor
        · intro h x hx
          rcases List.mem_cons.1 hx with hx | hx
          · subst hx; exact Or.inr hm
          · exact h x hx
        · intro h x hx
          exact h x (List.mem_cons_of_mem _ hx)

theorem findBetaBulgeInner_some (heap : List Ladder) (l1 : Ladder) :
    ∀ (rest : List Nat) (p2 : Nat) (l : Ladder), findBetaBulgeInner heap l1 rest = some (p2, l) →
      p2 ∈ rest ∧ (heap.getD p2 default).isBulge_ = false
        ∧ Ladder.mergeBulge l1 (heap.getD p2 default) = some l := by
  intro rest
  induction rest with
  | nil => intro p2 l h; simp [findBetaBulgeInner] at h
  | cons x rest ih =>
    intro p2 l h
    unfold findBetaBulgeInner at h
    by_cases hb : (heap.getD x default).isBulge_ = true
    · rw [if_pos hb] at h
      obtain ⟨h1, h2⟩ := ih p2 l h
      exact ⟨List.mem_cons_of_mem _ h1, h2⟩
    · rw [if_neg hb] at h
      cases hm : Ladder.mergeBulge l1 (heap.getD x default) with
      | some l2 =>
        rw [hm] at h
        simp only [Option.some.injEq, Prod.mk.injEq] at h
        obtain ⟨h1, h2⟩ := h
        subst h1
        subst h2
        exact ⟨List.mem_cons_self _ _, by simpa using hb, hm⟩
      | none =>
        rw [hm] at h
        obtain ⟨h1, h2⟩ := ih p2 l h
        exact ⟨List.mem_cons_of_mem _ h1, h2⟩

/-- The pair relation that findBetaBulge looks for: two ladders that are not bulges and
merge. -/
theorem findBetaBulgeScan_none (heap : List Ladder) :
    ∀ l : List Nat, findBetaBulgeScan heap l = none ↔
      l.Pairwise (fun p1 p2 => (heap.getD p1 default).isBulge_ = true
        ∨ (heap.getD p2 default).isBulge_ = true
        ∨ Ladder.mergeBulge (heap.getD p1 default) (heap.getD p2 default) = none) := by
  intro l
  induction l with
  | nil => simp [findBetaBulgeScan]
  | cons p1 rest ih =>
    unfold findBetaBulgeScan
    rw [List.pairwise_cons]
    by_cases hb : (heap.getD p1 default).isBulge_ = true
    · rw [if_pos hb, ih]
      constructor
      · intro h; exact ⟨fun _ _ => Or.inl hb, h⟩
      · intro h; exact h.2
    · rw [if_neg hb]
      cases hi : findBetaBulgeInner heap (heap.getD p1 default) rest with
      | some r =>
        obtain ⟨p2, l⟩ := r
        simp only
        obtain ⟨h1, h2, h3⟩ := findBetaBulgeInner_some heap _ rest p2 l hi
        constructor
        · intro h; cases h
        · intro h
          rcases h.1 p2 h1 with h4 | h4 | h4
          · exact absurd h4 hb
          · rw [h2] at h4; cases h4
          · rw [h3] at h4; cases h4
      | none =>
        simp only
        rw [ih]
        rw [findBetaBulgeInner_none] at hi
        constructor
        · intro h
          exact ⟨fun p2 hp2 => Or.inr (hi p2 hp2), h⟩
        · intro h; exact h.2

theorem findBetaBulgeScan_some (heap : List Ladder) :
    ∀ (l : List Nat) (p1 p2 : Nat) (x : Ladder), findBetaBulgeScan heap l = some (p1, p2, x) →
      ∃ pre rest, l = pre ++ p1 :: rest ∧ p2 ∈ rest := by
  intro l
  induction l with
  | nil => intro p1 p2 x h; simp [findBetaBulgeScan] at h
  | cons a rest ih =>
    intro p1 p2 x h
    unfold findBetaBulgeScan at h
    by_cases hb : (heap.getD a default).isBulge_ = true
    · rw [if_pos hb] at h
      obtain ⟨pre, r, h1, h2⟩ := ih p1 p2 x h
      exact ⟨a :: pre, r, by rw [h1]; rfl, h2⟩
    · rw [if_neg hb] at h
      cases hi : findBetaBulgeInner heap (heap.getD a default) rest with
      | some r =>
        obtain ⟨q2, l2⟩ := r
        rw [hi] at h
        simp only [Option.some.injEq, Prod.mk.injEq] at h
        obtain ⟨h1, h2, h3⟩ := h
        subst h1; subst h2
        exact ⟨[], rest, rfl, (findBetaBulgeInner_some heap _ rest _ _ hi).1⟩
      | none =>
        rw [hi] at h
        obtain ⟨pre, r, h1, h2⟩ := ih p1 p2 x h
        exact ⟨a :: pre, r, by rw [h1]; rfl, h2⟩

theorem length_erase_erase (l pre rest : List Nat) (p1 p2 : Nat) (h : l = pre ++ p1 :: rest)
    (h2 : p2 ∈ rest) : ((l.erase p1).erase p2).length + 2 = l.length := by
  have hp1 : p1 ∈ l := by rw [h]; simp
  have hp2 : p2 ∈ l.erase p1 := by
    by_cases hne : p2 = p1
    · subst hne
      have hc : 2 ≤ List.count p2 l := by
        rw [h, List.count_append, List.count_cons_self]
        have := List.count_pos_iff.2 h2
        omega
      apply List.count_pos_iff.1
      rw [List.count_erase_self]
      omega
    · exact (List.mem_erase_of_ne hne).2 (by rw [h]; simp [h2])
  rw [List.length_erase_of_mem hp2, List.length_erase_of_mem hp1]
  have := List.length_pos_of_mem hp2
  rw [List.length_erase_of_mem hp1] at this
  omega

/-- The loop `while (findBetaBulge())` ends when the fuel exceeds the length of the ladder
list, in a model where findBetaBulge finds no pair; it changes the ladders only. -/
theorem mergeLoop_total :
    ∀ (fuel : Nat) (m : Model), m.ladderList_.length < fuel →
      ∃ m1, Model.mergeLoop fuel m = some m1 ∧ m1.findBetaBulge = none
        ∧ m1.rArray_ = m.rArray_ ∧ m1.hBond_ = m.hBond_ ∧ m1.helixList_ = m.helixList_
        ∧ m1.sheetList_ = m.sheetList_ := by
  intro fuel
  induction fuel with
  | zero => intro m h; omega
  | succ f ih =>
    intro m h
    unfold Model.mergeLoop
    cases hb : m.findBetaBulge with
    | none => exact ⟨m, rfl, hb, rfl, rfl, rfl, rfl⟩
    | some m1 =>
      simp only
      unfold Model.findBetaBulge at hb
      cases hs : findBetaBulgeScan m.ladders m.ladderList_ with
      | none => rw [hs] at hb; cases hb
      | some r =>
        obtain ⟨p1, p2, x⟩ := r
        rw [hs] at hb
        simp only [Option.some.injEq] at hb
        obtain ⟨pre, rest, h1, h2⟩ := findBetaBulgeScan_some _ _ _ _ _ hs
        have hlen := length_erase_erase _ pre rest p1 p2 h1 h2
        have hl1 : m1.ladderList_.length < f := by
          rw [← hb]
          simp only [List.length_append, List.length_singleton]
          omega
        obtain ⟨m2, e1, e2, e3, e4, e5, e6⟩ := ih m1 hl1
        refine ⟨m2, e1, e2, ?_, ?_, ?_, ?_⟩
        · rw [e3, ← hb]
        · rw [e4, ← hb]
        · rw [e5, ← hb]
        · rw [e6, ← hb]

theorem findBetaBulge_none_iff (m : Model) :
    m.findBetaBulge = none ↔ findBetaBulgeScan m.ladders m.ladderList_ = none := by
  unfold Model.findBetaBulge
  cases h : findBetaBulgeScan m.ladders m.ladderList_ with
  | none => simp
  | some r => obtain ⟨p1, p2, x⟩ := r; simp

theorem findBetaBulge_none_of_sublist (m : Model) (l : List Nat) (h : m.findBetaBulge = none)
    (hl : l.Sublist m.ladderList_) :
    Model.findBetaBulge { m with ladderList_ := l } = none := by
  rw [findBetaBulge_none_iff] at h ⊢
  rw [findBetaBulgeScan_none] at h ⊢
  exact h.sublist hl

theorem mergeLoop_of_none (m : Model) (fuel : Nat) (h : m.findBetaBulge = none) :
    Model.mergeLoop (fuel + 1) m = some m := by
  unfold Model.mergeLoop
  rw [h]

/-- The merge-then-prune step of findBridges returns; its result is the model after the merge
loop (in which findBetaBulge finds no pair, when bulges are checked) with the ladder list
filtered; and the step applied to its own result changes nothing. -/
theorem mergeAndPrune_fixpoint (cfg : Config) (m : Model) :
    ∃ m1, Model.mergeAndPrune cfg m = some m1 ∧ Model.mergeAndPrune cfg m1 = some m1 := by
  have hmerge : ∃ m0, (if cfg.checkBulges then Model.mergeLoop (m.ladderList_.length + 1) m
      else some m) = some m0 ∧ (cfg.checkBulges = true → m0.findBetaBulge = none) := by
    by_cases hc : cfg.checkBulges = true
    · rw [if_pos hc]
      obtain ⟨m0, h1, h2, _⟩ := mergeLoop_total (m.ladderList_.length + 1) m (Nat.lt_succ_self _)
      exact ⟨m0, h1, fun _ => h2⟩
    · rw [if_neg hc]
      exact ⟨m, rfl, fun h => absurd h hc⟩
  obtain ⟨m0, h1, h2⟩ := hmerge
  have hp := pruneLoop_eq cfg (m0.ladderList_.length + 1) m0 (Nat.lt_succ_self _)
  refine ⟨Model.mk m0.rArray_ m0.hBond_ m0.helixList_ m0.ladders
    (m0.ladderList_.filter (fun p => !(m0.ladder p).tooShort cfg)) m0.sheetList_, ?_, ?_⟩
  · unfold Model.mergeAndPrune
    rw [h1, Option.some_bind]
    exact hp
  · unfold Model.mergeAndPrune
    have hm : (if cfg.checkBulges then Model.mergeLoop
          ((Model.mk m0.rArray_ m0.hBond_ m0.helixList_ m0.ladders
            (m0.ladderList_.filter (fun p => !(m0.ladder p).tooShort cfg))
            m0.sheetList_).ladderList_.length + 1)
          (Model.mk m0.rArray_ m0.hBond_ m0.helixList_ m0.ladders
            (m0.ladderList_.filter (fun p => !(m0.ladder p).tooShort cfg)) m0.sheetList_)
        else some (Model.mk m0.rArray_ m0.hBond_ m0.helixList_ m0.ladders
            (m0.ladderList_.filter (fun p => !(m0.ladder p).tooShort cfg)) m0.sheetList_))
        = some (Model.mk m0.rArray_ m0.hBond_ m0.helixList_ m0.ladders
            (m0.ladderList_.filter (fun p => !(m0.ladder p).tooShort cfg)) m0.sheetList_) := by
      by_cases hc : cfg.checkBulges = true
      · rw [if_pos hc]
        exact mergeLoop_of_none _ _
          (findBetaBulge_none_of_sublist m0 _ (h2 hc) (List.filter_sublist _))
      · rw [if_neg hc]
    rw [hm, Option.some_bind]
    rw [pruneLoop_eq cfg _ _ (Nat.lt_succ_self _)]
    simp only [Model.ladder, List.filter_filter, Bool.and_self]

theorem findSheetsLoop_of_sheeted :
    ∀ (rest : List Nat) (m : Model) (sName : Char),
      (∀ p ∈ rest, (m.ladder p).sheet_ ≠ none) → Model.findSheetsLoop rest m sName = some m := by
  intro rest
  induction rest with
  | nil => intro m sName _; rfl
  | cons l rest ih =>
    intro m sName h
    unfold Model.findSheetsLoop
    rw [if_pos (h l (List.mem_cons_self _ _))]
    exact ih m sName (fun p hp => h p (List.mem_cons_of_mem _ hp))

/-- C6: bulge merging to a fixpoint followed by pruning returns and is idempotent: applied to
its own result it leaves the model, and so the ladder list, unchanged; and findSheets run on
ladders that all have a sheet already returns the model unchanged: no new sheet, no changed
neighbor link. -/
theorem mergeAndPrune_findSheets_idempotent (cfg : Config) (m m2 : Model)
    (h2 : ∀ p ∈ m2.ladderList_, (m2.ladder p).sheet_ ≠ none) :
    (∃ m1, Model.mergeAndPrune cfg m = some m1 ∧ Model.mergeAndPrune cfg m1 = some m1)
      ∧ m2.findSheets = some m2 :=
  ⟨mergeAndPrune_fixpoint cfg m, findSheetsLoop_of_sheeted m2.ladderList_ m2 'A' h2⟩

/-- C6 (witness): two antiparallel ladders that merge into a bulge and one ladder that is too
short, for the merge-then-prune step; one ladder that already has its sheet, for findSheets. -/
theorem mergeAndPrune_findSheets_idempotent_witness :
    (∃ m1, Model.mergeAndPrune Config.default
        (Model.mk [] ⟨0, []⟩ []
          [Ladder.new B_ANTI 1 3 20 22, Ladder.new B_ANTI 4 8 15 18, Ladder.new B_PARA 30 31 40 41]
          [0, 1, 2] []) = some m1 ∧ Model.mergeAndPrune Config.default m1 = some m1)
      ∧ (Model.mk [] ⟨0, []⟩ [] [(Ladder.new B_ANTI 1 5 10 14).setSheet 0] [0]
          [⟨'A', [0]⟩]).findSheets
        = some (Model.mk [] ⟨0, []⟩ [] [(Ladder.new B_ANTI 1 5 10 14).setSheet 0] [0]
          [⟨'A', [0]⟩]) :=
  mergeAndPrune_findSheets_idempotent Config.default
    (Model.mk [] ⟨0, []⟩ []
      [Ladder.new B_ANTI 1 3 20 22, Ladder.new B_ANTI 4 8 15 18, Ladder.new B_PARA 30 31 40 41]
      [0, 1, 2] [])
    (Model.mk [] ⟨0, []⟩ [] [(Ladder.new B_ANTI 1 5 10 14).setSheet 0] [0] [⟨'A', [0]⟩])
    (by decide)

/-! ## The inference commutes with taking the skeleton -/

theorem forLoop_comm {σ τ : Type} (h : σ → τ) (f : Nat → σ → σ) (g : Nat → τ → τ) (hi : Nat)
    (hfg : ∀ i s, h (f i s) = g i (h s)) :
    ∀ (n lo : Nat) (s : σ), hi - lo = n → h (forLoop lo hi f s) = forLoop lo hi g (h s) := by
  intro n
  induction n with
  | zero =>
    intro lo s hn
    rw [forLoop_of_ge _ _ _ _ (by omega), forLoop_of_ge _ _ _ _ (by omega)]
  | succ k ih =>
    intro lo s hn
    rw [forLoop_step lo hi f s (by omega), forLoop_step lo hi g (h s) (by omega),
      ih (lo + 1) (f lo s) (by omega), hfg]

theorem forLoop_comm' {σ τ : Type} (h : σ → τ) (f : Nat → σ → σ) (g : Nat → τ → τ) (lo hi : Nat)
    (s : σ) (hfg : ∀ i s, h (f i s) = g i (h s)) :
    h (forLoop lo hi f s) = forLoop lo hi g (h s) :=
  forLoop_comm h f g hi hfg (hi - lo) lo s rfl

theorem skeleton_residue (m : Model) (i : Nat) :
    m.skeleton.residue i = (m.residue i).erase := by
  unfold Model.residue Model.skeleton
  simp only [List.getD_eq_getElem?_getD, List.getElem?_map]
  cases m.rArray_[i]? <;> rfl

theorem skeleton_flag (m : Model) (i f : Nat) :
    (m.skeleton.residue i).flag f = (m.residue i).flag f := by
  rw [skeleton_residue]
  rfl

theorem skeleton_setFlag (m : Model) (n f : Nat) :
    (m.setFlag n f).skeleton = m.skeleton.setFlag n f := by
  have h := skeleton_residue m n
  unfold Model.setFlag
  rw [h]
  simp only [Model.skeleton, List.map_set]
  rfl

theorem skeleton_length (m : Model) : m.skeleton.rArray_.length = m.rArray_.length := by
  simp [Model.skeleton]

theorem skeleton_hBonded (m : Model) (i j : Nat) : m.skeleton.hBonded i j = m.hBonded i j := rfl

theorem skeleton_findTurns (n : Nat) (m : Model) :
    (m.findTurns n).skeleton = m.skeleton.findTurns n := by
  unfold Model.findTurns
  simp only [skeleton_length]
  apply forLoop_comm'
  intro i s
  rw [skeleton_hBonded]
  split
  · rw [skeleton_setFlag]
    congr 1
    rw [forLoop_comm' Model.skeleton _ (fun j m => m.setFlag (i + j)
      (if n = 3 then R_3GAP else R_4GAP))]
    · rw [skeleton_setFlag]
    · intro j s1
      exact skeleton_setFlag _ _ _
  · rfl

theorem skeleton_markHelices (n : Nat) (m : Model) :
    (m.markHelices n).skeleton = m.skeleton.markHelices n := by
  unfold Model.markHelices
  simp only [skeleton_length]
  apply forLoop_comm'
  intro i s
  simp only [skeleton_flag]
  split_ifs <;> first
    | rfl
    | (apply forLoop_comm'
       intro j s1
       exact skeleton_setFlag _ _ _)

theorem skeleton_markTurnsAndHelices (m : Model) :
    m.markTurnsAndHelices.skeleton = m.skeleton.markTurnsAndHelices := by
  unfold Model.markTurnsAndHelices
  rw [skeleton_markHelices, skeleton_findTurns, skeleton_markHelices, skeleton_findTurns]

theorem skeleton_residueAt (m : Model) (n : Int) :
    m.skeleton.residueAt n = (m.residueAt n).map Residue.erase := by
  unfold Model.residueAt
  rw [skeleton_length]
  split_ifs
  · rfl
  · rw [skeleton_residue]
    rfl

/-- Where helixClass returns on a model, it returns 0 on the skeleton of the model. -/
theorem helixClass_skeleton (d d0 : Coord → Coord → Coord → Coord → ℚ) (m : Model)
    (h : Helix) (c : Int) (hc : m.helixClass d h = some c) :
    m.skeleton.helixClass d0 h = some 0 := by
  obtain ⟨h0, h1⟩ := helixClass_from_range d m h c hc
  unfold Model.helixClass
  simp only
  rw [skeleton_residueAt, residueAt_of_range m _ h0 h1]
  rfl

/-- Where findHelices returns on a model, it returns on the skeleton, with the skeleton of the
result. -/
theorem skeleton_findHelices (d d0 : Coord → Coord → Coord → Coord → ℚ) (cfg : Config)
    (m m1 : Model) (h : m.findHelices d cfg = some m1) :
    m.skeleton.findHelices d0 cfg = some m1.skeleton := by
  unfold Model.findHelices at h ⊢
  obtain ⟨r, hr, hm⟩ := Option.map_eq_some'.1 h
  have hstep : ∀ (i : Nat) (s t s1 : Int × List Helix), t = (s.1, s.2.map Helix.erase) →
      m.findHelicesStep d cfg i s = some s1 →
      ∃ t1, m.skeleton.findHelicesStep d0 cfg i t = some t1
        ∧ t1 = (s1.1, s1.2.map Helix.erase) := by
    intro i s t s1 ht hs
    subst ht
    unfold Model.findHelicesStep at hs ⊢
    simp only [skeleton_flag]
    by_cases hflag : (m.residue i).flag (R_3HELIX ||| R_4HELIX) ≠ 0
    · rw [if_pos hflag] at hs ⊢
      cases hs
      split_ifs <;> exact ⟨_, rfl, rfl⟩
    · rw [if_neg hflag] at hs ⊢
      by_cases hpos : s.1 ≥ 0
      · rw [if_pos hpos] at hs ⊢
        by_cases hlen : (i : Int) - s.1 ≥ cfg.minHelixLength
        · rw [if_pos hlen] at hs ⊢
          obtain ⟨c, hcl, hs⟩ := Option.map_eq_some'.1 hs
          subst hs
          rw [helixClass_skeleton d d0 m _ c hcl]
          exact ⟨_, rfl, by simp [Helix.erase]⟩
        · rw [if_neg hlen] at hs ⊢
          cases hs
          exact ⟨_, rfl, rfl⟩
      · rw [if_neg hpos] at hs ⊢
        cases hs
        exact ⟨_, rfl, rfl⟩
  obtain ⟨r1, hr1, hR⟩ := forLoop_bind_sim
    (fun (s t : Int × List Helix) => t = (s.1, s.2.map Helix.erase))
    (m.findHelicesStep d cfg) (m.skeleton.findHelicesStep d0 cfg) m.rArray_.length hstep
    (m.rArray_.length - 0) 0 ((-1 : Int), m.helixList_) ((-1 : Int), m.skeleton.helixList_)
    rfl rfl r hr
  simp only [skeleton_length, hr1, Option.map_some', hR]
  subst hm
  rfl

theorem skeleton_markBridges (m : Model) :
    (m.markBridges.1.skeleton, m.markBridges.2) = m.skeleton.markBridges := by
  unfold Model.markBridges
  simp only [skeleton_length]
  apply forLoop_comm' (fun s : Model × SquareArray => (s.1.skeleton, s.2))
  intro i s
  apply forLoop_comm' (fun s : Model × SquareArray => (s.1.skeleton, s.2))
  intro j s1
  simp only [skeleton_hBonded]
  split_ifs <;> simp only [skeleton_setFlag]

theorem skeleton_extractLadders (m : Model) (b : SquareArray) :
    ((m.extractLadders b).1.skeleton, (m.extractLadders b).2) = m.skeleton.extractLadders b := by
  unfold Model.extractLadders
  simp only [skeleton_length]
  apply forLoop_comm' (fun s : Model × SquareArray => (s.1.skeleton, s.2))
  intro i s
  apply forLoop_comm' (fun s : Model × SquareArray => (s.1.skeleton, s.2))
  intro j s1
  dsimp only
  split_ifs <;> rfl

theorem skeleton_findBetaBulge (m : Model) :
    m.findBetaBulge.map Model.skeleton = m.skeleton.findBetaBulge := by
  unfold Model.findBetaBulge
  have h1 : m.skeleton.ladders = m.ladders := rfl
  have h2 : m.skeleton.ladderList_ = m.ladderList_ := rfl
  rw [h1, h2]
  cases findBetaBulgeScan m.ladders m.ladderList_ with
  | none => rfl
  | some r => obtain ⟨p1, p2, l⟩ := r; rfl

theorem skeleton_mergeLoop :
    ∀ (fuel : Nat) (m : Model),
      (Model.mergeLoop fuel m).map Model.skeleton = Model.mergeLoop fuel m.skeleton := by
  intro fuel
  induction fuel with
  | zero => intro m; rfl
  | succ f ih =>
    intro m
    unfold Model.mergeLoop
    rw [← skeleton_findBetaBulge]
    cases m.findBetaBulge with
    | none => rfl
    | some m1 => exact ih m1

theorem skeleton_pruneLoop (cfg : Config) :
    ∀ (fuel : Nat) (m : Model),
      (Model.pruneLoop cfg fuel m).map Model.skeleton = Model.pruneLoop cfg fuel m.skeleton := by
  intro fuel
  induction fuel with
  | zero => intro m; rfl
  | succ f ih =>
    intro m
    unfold Model.pruneLoop
    have h1 : m.skeleton.ladders = m.ladders := rfl
    have h2 : m.skeleton.ladderList_ = m.ladderList_ := rfl
    rw [h1, h2]
    cases pruneScan cfg m.ladders m.ladderList_ with
    | none => rfl
    | some p => exact ih _

theorem skeleton_mergeAndPrune (cfg : Config) (m : Model) :
    (Model.mergeAndPrune cfg m).map Model.skeleton = Model.mergeAndPrune cfg m.skeleton := by
  unfold Model.mergeAndPrune
  have h2 : m.skeleton.ladderList_ = m.ladderList_ := rfl
  rw [h2]
  by_cases hc : cfg.checkBulges = true
  · rw [if_pos hc, if_pos hc, ← skeleton_mergeLoop]
    cases Model.mergeLoop (m.ladderList_.length + 1) m with
    | none => rfl
    | some m1 => exact skeleton_pruneLoop cfg _ m1
  · rw [if_neg hc, if_neg hc]
    exact skeleton_pruneLoop cfg _ m

theorem skeleton_findBridges (cfg : Config) (m : Model) :
    (m.findBridges cfg).map Model.skeleton = m.skeleton.findBridges cfg := by
  unfold Model.findBridges
  simp only
  rw [skeleton_mergeAndPrune]
  have h1 := skeleton_markBridges m
  have h2 := skeleton_extractLadders m.markBridges.1 m.markBridges.2
  rw [← h1]
  simp only
  rw [← h2]

theorem skeleton_markLoop (call call1 : Model → Nat → Option Model)
    (hcall : ∀ m l, (call m l).map Model.skeleton = call1 m.skeleton l) (ladder : Nat) :
    ∀ (rest : List Nat) (m : Model),
      (Model.markLoop call ladder rest m).map Model.skeleton
        = Model.markLoop call1 ladder rest m.skeleton := by
  intro rest
  induction rest with
  | nil => intro m; rfl
  | cons l rest ih =>
    intro m
    unfold Model.markLoop
    have h1 : ∀ p, m.skeleton.ladder p = m.ladder p := fun _ => rfl
    simp only [h1]
    split_ifs
    · exact ih m
    · cases (m.ladder l).overlaps (m.ladder ladder) with
      | none => exact ih m
      | some o =>
        obtain ⟨o0, o1⟩ := o
        simp only
        split_ifs
        · exact ih m
        · exact ih m
        · have h2 : (m.link l o0 ladder o1).skeleton = m.skeleton.link l o0 ladder o1 := rfl
          rw [← h2, ← hcall]
          cases call (m.link l o0 ladder o1) l with
          | none => rfl
          | some m1 => exact ih m1

theorem skeleton_markLadder (sheet : Nat) :
    ∀ (fuel : Nat) (m : Model) (ladder : Nat),
      (Model.markLadder sheet fuel m ladder).map Model.skeleton
        = Model.markLadder sheet fuel m.skeleton ladder := by
  intro fuel
  induction fuel with
  | zero => intro m ladder; rfl
  | succ f ih =>
    intro m ladder
    unfold Model.markLadder
    exact skeleton_markLoop _ _ ih ladder m.ladderList_ (m.assignSheet ladder sheet)

theorem skeleton_findSheetsLoop :
    ∀ (rest : List Nat) (m : Model) (sName : Char),
      (Model.findSheetsLoop rest m sName).map Model.skeleton
        = Model.findSheetsLoop rest m.skeleton sName := by
  intro rest
  induction rest with
  | nil => intro m sName; rfl
  | cons l rest ih =>
    intro m sName
    unfold Model.findSheetsLoop
    have h1 : ∀ p, m.skeleton.ladder p = m.ladder p := fun _ => rfl
    simp only [h1]
    split_ifs
    · exact ih m sName
    · have h2 := skeleton_markLadder m.sheetList_.length m.ladderList_.length
        { m with sheetList_ := m.sheetList_ ++ [⟨sName, []⟩] } l
      have h3 : Model.markLadder m.skeleton.sheetList_.length m.skeleton.ladderList_.length
          { m.skeleton with sheetList_ := m.skeleton.sheetList_ ++ [⟨sName, []⟩] } l
          = Model.markLadder m.sheetList_.length m.ladderList_.length
            (Model.skeleton { m with sheetList_ := m.sheetList_ ++ [⟨sName, []⟩] }) l := rfl
      rw [h3, ← h2]
      cases Model.markLadder m.sheetList_.length m.ladderList_.length
          { m with sheetList_ := m.sheetList_ ++ [⟨sName, []⟩] } l with
      | none => rfl
      | some m1 => exact ih m1 _

theorem skeleton_findSheets (m : Model) :
    m.findSheets.map Model.skeleton = m.skeleton.findSheets :=
  skeleton_findSheetsLoop m.ladderList_ m 'A'

/-- The inference after findHBonds commutes with taking the skeleton, when findHelices
returns. -/
theorem skeleton_structureFromHBonds (d d0 : Coord → Coord → Coord → Coord → ℚ) (cfg : Config)
    (m mh : Model) (hh : m.markTurnsAndHelices.findHelices d cfg = some mh) :
    (m.structureFromHBonds d cfg).map Model.skeleton = m.skeleton.structureFromHBonds d0 cfg := by
  have e : ∀ (x : Model) (d1 : Coord → Coord → Coord → Coord → ℚ),
      x.structureFromHBonds d1 cfg
        = (x.markTurnsAndHelices.findHelices d1 cfg).bind
            (fun m1 => (m1.findBridges cfg).bind Model.findSheets) :=
    fun _ _ => rfl
  rw [e, e, ← skeleton_markTurnsAndHelices, skeleton_findHelices d d0 cfg _ mh hh, hh,
    Option.some_bind, Option.some_bind, ← skeleton_findBridges]
  cases mh.findBridges cfg with
  | none => rfl
  | some m1 => exact skeleton_findSheets m1

/-! ## What the phases keep -/

theorem getD_set_residue (l : List Residue) (n i : Nat) (x : Residue) :
    (l.set n x).getD i default = if n = i ∧ i < l.length then x else l.getD i default := by
  simp only [List.getD_eq_getElem?_getD, List.getElem?_set]
  by_cases hn : n = i
  · by_cases hi : i < l.length
    · simp [hn, hi]
    · simp [hn, hi, List.getElem?_eq_none (Nat.le_of_not_lt hi)]
  · simp [hn]

theorem setFlag_keeps (m : Model) (n f : Nat) :
    (m.setFlag n f).hBond_ = m.hBond_ ∧ (m.setFlag n f).helixList_ = m.helixList_
      ∧ (m.setFlag n f).ladders = m.ladders ∧ (m.setFlag n f).ladderList_ = m.ladderList_
      ∧ (m.setFlag n f).sheetList_ = m.sheetList_
      ∧ (m.setFlag n f).rArray_.length = m.rArray_.length
      ∧ ∀ i, ((m.setFlag n f).residue i).aList_ = (m.residue i).aList_ := by
  refine ⟨rfl, rfl, rfl, rfl, rfl, by simp [Model.setFlag], ?_⟩
  intro i
  unfold Model.setFlag Model.residue
  simp only [getD_set_residue]
  split_ifs with h
  · rw [h.1]; rfl
  · rfl

theorem keeps_refl (m : Model) : KeepsAllButFlags m m :=
  ⟨rfl, rfl, rfl, rfl, rfl, rfl, fun _ => rfl⟩

theorem keeps_trans {m m1 m2 : Model} (h1 : KeepsAllButFlags m m1)
    (h2 : KeepsAllButFlags m1 m2) : KeepsAllButFlags m m2 :=
  ⟨h2.1.trans h1.1, h2.2.1.trans h1.2.1, h2.2.2.1.trans h1.2.2.1,
    h2.2.2.2.1.trans h1.2.2.2.1, h2.2.2.2.2.1.trans h1.2.2.2.2.1,
    h2.2.2.2.2.2.1.trans h1.2.2.2.2.2.1,
    fun i => (h2.2.2.2.2.2.2 i).trans (h1.2.2.2.2.2.2 i)⟩

theorem keeps_setFlag (m : Model) (n f : Nat) : KeepsAllButFlags m (m.setFlag n f) :=
  setFlag_keeps m n f

theorem keeps_forLoop_setFlag (m s : Model) (lo hi : Nat) (g : Nat → Nat) (f : Nat)
    (hs : KeepsAllButFlags m s) :
    KeepsAllButFlags m (forLoop lo hi (fun j m => m.setFlag (g j) f) s) := by
  apply forLoop_inv (fun s => KeepsAllButFlags m s)
  · exact hs
  · intro j s1 _ _ hs1
    exact keeps_trans hs1 (keeps_setFlag _ _ _)

theorem keeps_findTurns (n : Nat) (m : Model) : KeepsAllButFlags m (m.findTurns n) := by
  unfold Model.findTurns
  apply forLoop_inv (fun s => KeepsAllButFlags m s)
  · exact keeps_refl m
  · intro i s _ _ hs
    split_ifs <;> first
      | exact hs
      | exact keeps_trans (keeps_forLoop_setFlag m _ _ _ (fun j => i + j) _
          (keeps_trans hs (keeps_setFlag _ _ _))) (keeps_setFlag _ _ _)

theorem keeps_markHelices (n : Nat) (m : Model) : KeepsAllButFlags m (m.markHelices n) := by
  unfold Model.markHelices
  apply forLoop_inv (fun s => KeepsAllButFlags m s)
  · exact keeps_refl m
  · intro i s _ _ hs
    split_ifs <;> first
      | exact hs
      | exact keeps_forLoop_setFlag m _ _ _ (fun j => i + j) _ hs

theorem keeps_markTurnsAndHelices (m : Model) : KeepsAllButFlags m m.markTurnsAndHelices :=
  keeps_trans (keeps_trans (keeps_trans (keeps_findTurns 3 m) (keeps_markHelices 3 _))
    (keeps_findTurns 4 _)) (keeps_markHelices 4 _)

theorem keeps_markBridges (m : Model) :
    KeepsAllButFlags m m.markBridges.1
      ∧ m.markBridges.2.dim_ = m.rArray_.length
      ∧ m.markBridges.2.array_.length = m.rArray_.length * m.rArray_.length := by
  unfold Model.markBridges
  apply forLoop_inv (fun s : Model × SquareArray => KeepsAllButFlags m s.1
    ∧ s.2.dim_ = m.rArray_.length ∧ s.2.array_.length = m.rArray_.length * m.rArray_.length)
  · exact ⟨keeps_refl m, rfl, by simp [SquareArray.zero]⟩
  · intro i s _ _ hs
    apply forLoop_inv (fun s : Model × SquareArray => KeepsAllButFlags m s.1
      ∧ s.2.dim_ = m.rArray_.length ∧ s.2.array_.length = m.rArray_.length * m.rArray_.length)
    · exact hs
    · intro j s1 _ _ hs1
      split_ifs
      · exact ⟨keeps_trans (keeps_trans hs1.1 (keeps_setFlag _ _ _)) (keeps_setFlag _ _ _),
          hs1.2.1, by rw [SquareArray.set_length]; exact hs1.2.2⟩
      · exact ⟨keeps_trans (keeps_trans hs1.1 (keeps_setFlag _ _ _)) (keeps_setFlag _ _ _),
          hs1.2.1, by rw [SquareArray.set_length]; exact hs1.2.2⟩
      · exact hs1

/-- Ladder extraction changes the ladders (and the local bridge matrix) only. -/
theorem extractLadders_keeps (m : Model) (b : SquareArray) :
    (m.extractLadders b).1.rArray_ = m.rArray_ ∧ (m.extractLadders b).1.hBond_ = m.hBond_
      ∧ (m.extractLadders b).1.helixList_ = m.helixList_
      ∧ (m.extractLadders b).1.sheetList_ = m.sheetList_ := by
  unfold Model.extractLadders
  apply forLoop_inv (fun s : Model × SquareArray => s.1.rArray_ = m.rArray_
    ∧ s.1.hBond_ = m.hBond_ ∧ s.1.helixList_ = m.helixList_ ∧ s.1.sheetList_ = m.sheetList_)
  · exact ⟨rfl, rfl, rfl, rfl⟩
  · intro i s _ _ hs
    apply forLoop_inv (fun s : Model × SquareArray => s.1.rArray_ = m.rArray_
      ∧ s.1.hBond_ = m.hBond_ ∧ s.1.helixList_ = m.helixList_ ∧ s.1.sheetList_ = m.sheetList_)
    · exact hs
    · intro j s1 _ _ hs1
      dsimp only
      split_ifs
      · exact hs1
      · exact hs1
      · exact hs1

theorem mergeAndPrune_keeps (cfg : Config) (m m1 : Model)
    (h : Model.mergeAndPrune cfg m = some m1) :
    m1.rArray_ = m.rArray_ ∧ m1.hBond_ = m.hBond_ ∧ m1.helixList_ = m.helixList_
      ∧ m1.sheetList_ = m.sheetList_ := by
  unfold Model.mergeAndPrune at h
  have hmerge : ∃ m0, (if cfg.checkBulges then Model.mergeLoop (m.ladderList_.length + 1) m
      else some m) = some m0 ∧ m0.rArray_ = m.rArray_ ∧ m0.hBond_ = m.hBond_
        ∧ m0.helixList_ = m.helixList_ ∧ m0.sheetList_ = m.sheetList_ := by
    by_cases hc : cfg.checkBulges = true
    · rw [if_pos hc]
      obtain ⟨m0, h1, _, e1, e2, e3, e4⟩ :=
        mergeLoop_total (m.ladderList_.length + 1) m (Nat.lt_succ_self _)
      exact ⟨m0, h1, e1, e2, e3, e4⟩
    · rw [if_neg hc]
      exact ⟨m, rfl, rfl, rfl, rfl, rfl⟩
  obtain ⟨m0, h1, e1, e2, e3, e4⟩ := hmerge
  rw [h1, Option.some_bind, pruneLoop_eq cfg _ _ (Nat.lt_succ_self _)] at h
  simp only [Option.some.injEq] at h
  subst h
  exact ⟨e1, e2, e3, e4⟩

theorem sheetSteps_keeps {m m1 : Model} (h : SheetSteps m m1) :
    m1.rArray_ = m.rArray_ ∧ m1.hBond_ = m.hBond_ ∧ m1.helixList_ = m.helixList_ := by
  induction h with
  | refl => exact ⟨rfl, rfl, rfl⟩
  | tail _ hstep ih =>
    cases hstep with
    | start l sName _ _ _ => exact ih
    | link l o0 ladder o1 sheet _ _ _ _ _ _ _ _ _ => exact ih

theorem findHelices_congr_cfg (d : Coord → Coord → Coord → Coord → ℚ) (cfg cfg1 : Config)
    (m : Model) (h : cfg.minHelixLength = cfg1.minHelixLength) :
    m.findHelices d cfg = m.findHelices d cfg1 := by
  have e : m.findHelicesStep d cfg = m.findHelicesStep d cfg1 := by
    funext i s
    unfold Model.findHelicesStep
    rw [h]
  unfold Model.findHelices
  rw [e]

theorem markLoop_keeps (call : Model → Nat → Option Model)
    (hcall : ∀ m l m1, call m l = some m1 →
      m1.rArray_ = m.rArray_ ∧ m1.hBond_ = m.hBond_ ∧ m1.helixList_ = m.helixList_)
    (ladder : Nat) :
    ∀ (rest : List Nat) (m m1 : Model), Model.markLoop call ladder rest m = some m1 →
      m1.rArray_ = m.rArray_ ∧ m1.hBond_ = m.hBond_ ∧ m1.helixList_ = m.helixList_ := by
  intro rest
  induction rest with
  | nil =>
    intro m m1 h
    simp only [Model.markLoop, Option.some.injEq] at h
    subst h
    exact ⟨rfl, rfl, rfl⟩
  | cons l rest ih =>
    intro m m1 h
    unfold Model.markLoop at h
    split_ifs at h
    · exact ih m m1 h
    · cases hov : (m.ladder l).overlaps (m.ladder ladder) with
      | none =>
        rw [hov] at h
        exact ih m m1 h
      | some o =>
        obtain ⟨o0, o1⟩ := o
        rw [hov] at h
        simp only at h
        split_ifs at h
        · exact ih m m1 h
        · exact ih m m1 h
        · cases hc : call (m.link l o0 ladder o1) l with
          | none => rw [hc] at h; cases h
          | some m2 =>
            rw [hc] at h
            obtain ⟨a1, a2, a3⟩ := hcall _ _ _ hc
            obtain ⟨b1, b2, b3⟩ := ih m2 m1 h
            exact ⟨b1.trans a1, b2.trans a2, b3.trans a3⟩

theorem markLadder_keeps (sheet : Nat) :
    ∀ (fuel : Nat) (m : Model) (ladder : Nat) (m1 : Model),
      Model.markLadder sheet fuel m ladder = some m1 →
      m1.rArray_ = m.rArray_ ∧ m1.hBond_ = m.hBond_ ∧ m1.helixList_ = m.helixList_ := by
  intro fuel
  induction fuel with
  | zero => intro m ladder m1 h; cases h
  | succ f ih =>
    intro m ladder m1 h
    unfold Model.markLadder at h
    exact markLoop_keeps _ (fun m l m1 h => ih m l m1 h) ladder _
      (m.assignSheet ladder sheet) m1 h

theorem findSheetsLoop_keeps :
    ∀ (rest : List Nat) (m : Model) (sName : Char) (m1 : Model),
      Model.findSheetsLoop rest m sName = some m1 →
      m1.rArray_ = m.rArray_ ∧ m1.hBond_ = m.hBond_ ∧ m1.helixList_ = m.helixList_ := by
  intro rest
  induction rest with
  | nil =>
    intro m sName m1 h
    simp only [Model.findSheetsLoop, Option.some.injEq] at h
    subst h
    exact ⟨rfl, rfl, rfl⟩
  | cons l rest ih =>
    intro m sName m1 h
    unfold Model.findSheetsLoop at h
    split_ifs at h
    · exact ih m sName m1 h
    · cases hc : Model.markLadder m.sheetList_.length m.ladderList_.length
          { m with sheetList_ := m.sheetList_ ++ [⟨sName, []⟩] } l with
      | none => rw [hc] at h; cases h
      | some m2 =>
        rw [hc] at h
        obtain ⟨a1, a2, a3⟩ := markLadder_keeps _ _ _ _ _ hc
        obtain ⟨b1, b2, b3⟩ := ih m2 _ m1 h
        exact ⟨b1.trans a1, b2.trans a2, b3.trans a3⟩

theorem findBridges_keeps (cfg : Config) (m m1 : Model) (h : m.findBridges cfg = some m1) :
    m1.hBond_ = m.hBond_ ∧ m1.helixList_ = m.helixList_
      ∧ m1.rArray_.length = m.rArray_.length := by
  unfold Model.findBridges at h
  simp only at h
  obtain ⟨a1, a2, a3, _⟩ := mergeAndPrune_keeps cfg _ _ h
  obtain ⟨b1, b2, b3, _⟩ := extractLadders_keeps m.markBridges.1 m.markBridges.2
  obtain ⟨c, _⟩ := keeps_markBridges m
  exact ⟨(a2.trans b2).trans c.1, (a3.trans b3).trans c.2.1,
    by rw [a1, b1]; exact c.2.2.2.2.2.1⟩

/-- Scenario A on the skeleton, by evaluation: the residue flags, the one helix 1..10 and the
empty ladder list. -/
theorem scenarioA_skeleton (t : Nat) (ht : t = 0 ∨ t = R_TER) :
    (((Model.mk ((List.replicate 11 0 ++ [t]).map (fun f => ⟨[], f⟩))
        (bondMatrix 12 (fun i j => decide (j = i + 4))) [] [] []
        []).markTurnsAndHelices).residue 1).flag R_4HELIX ≠ 0
    ∧ ((Model.mk ((List.replicate 11 0 ++ [t]).map (fun f => ⟨[], f⟩))
        (bondMatrix 12 (fun i j => decide (j = i + 4))) [] [] []
        []).markTurnsAndHelices.findHelices (fun _ _ _ _ => 0) Config.default).map
          (fun x => (x.markBridges.1.extractLadders x.markBridges.2).1)
      = some (Model.mk ([32, 224, 224, 224, 240, 240, 240, 240, 208, 208, 208, t ||| 16].map
          (fun f => ⟨[], f⟩))
        (bondMatrix 12 (fun i j => decide (j = i + 4))) [⟨1, 10, 0⟩] [] [] []) := by
  rcases ht with rfl | rfl <;> decide!

theorem erase_eq_of_flags (l : List Residue) :
    l.map Residue.erase = (l.map Residue.flags_).map (fun f => (⟨[], f⟩ : Residue)) := by
  rw [List.map_map]
  rfl

theorem atom_of_aList {r r1 : Residue} (h : r1.aList_ = r.aList_) (name : String) :
    r1.atom name = r.atom name := by
  unfold Residue.atom
  rw [h]

/-- C9 (Scenario A): for a freshly constructed 12-residue model (flags clear, apart from the
chain-terminator flag that the last residue may carry) whose bond matrix after findHBonds is
exactly the 4-turn pattern, bonded(i, i+4) for i = 0..7 and no other bond, with the default
minimum helix length 3, the inference of defineSecondaryStructure that follows findHBonds
returns with exactly one Helix, spanning residues 1..10, all of them 4-helix flagged,
classified with code 1 when residues 1..4 have CA atoms whose dihedral is positive, with zero
Ladders and zero Sheets. -/
theorem scenarioA_one_helix (d : Coord → Coord → Coord → Coord → ℚ) (cfg : Config) (m : Model)
    (t : Nat) (ht : t = 0 ∨ t = R_TER)
    (hr : m.rArray_.map Residue.flags_ = List.replicate 11 0 ++ [t])
    (hb : m.hBond_ = bondMatrix 12 (fun i j => decide (j = i + 4)))
    (hh : m.helixList_ = []) (hla : m.ladders = []) (hl : m.ladderList_ = [])
    (hs : m.sheetList_ = []) (hc : cfg.minHelixLength = 3) :
    ∃ m1 h, m.structureFromHBonds d cfg = some m1
      ∧ m1.helixList_ = [h] ∧ h.from_ = 1 ∧ h.to_ = 10
      ∧ (∀ r : Nat, 1 ≤ r → r ≤ 10 → (m1.residue r).flag R_4HELIX ≠ 0)
      ∧ (∀ c0 c1 c2 c3 : Atom, (m.residue 1).atom " CA" = some c0 →
          (m.residue 2).atom " CA" = some c1 → (m.residue 3).atom " CA" = some c2 →
          (m.residue 4).atom " CA" = some c3 →
          d c0.coord_ c1.coord_ c2.coord_ c3.coord_ > 0 → h.type_ = 1)
      ∧ m1.ladderList_ = [] ∧ m1.sheetList_ = [] := by
  -- the skeleton of the model is closed
  have hsk : m.skeleton = Model.mk ((List.replicate 11 0 ++ [t]).map (fun f => ⟨[], f⟩))
      (bondMatrix 12 (fun i j => decide (j = i + 4))) [] [] [] [] := by
    unfold Model.skeleton
    rw [erase_eq_of_flags, hr, hb, hh, hla, hl, hs]
    rfl
  obtain ⟨hflag1, hY⟩ := scenarioA_skeleton t ht
  -- the inference on the skeleton
  have hskel : m.skeleton.structureFromHBonds (fun _ _ _ _ => 0) cfg
      = some (Model.mk ([32, 224, 224, 224, 240, 240, 240, 240, 208, 208, 208, t ||| 16].map
          (fun f => ⟨[], f⟩))
        (bondMatrix 12 (fun i j => decide (j = i + 4))) [⟨1, 10, 0⟩] [] [] []) := by
    have e : m.skeleton.structureFromHBonds (fun _ _ _ _ => 0) cfg
        = (m.skeleton.markTurnsAndHelices.findHelices (fun _ _ _ _ => 0) cfg).bind
            (fun m1 => (m1.findBridges cfg).bind Model.findSheets) := rfl
    obtain ⟨x, hx, hxe⟩ := Option.map_eq_some'.1 hY
    rw [e, findHelices_congr_cfg _ cfg Config.default _ (by rw [hc]; rfl), hsk, hx,
      Option.some_bind]
    unfold Model.findBridges
    simp only
    rw [hxe, mergeAndPrune_nil cfg _ rfl, Option.some_bind, findSheets_nil _ rfl]
  obtain ⟨mh, hmh⟩ := findHelices_returns_of_min d cfg m.markTurnsAndHelices (by omega)
  have hcomm := skeleton_structureFromHBonds d (fun _ _ _ _ => 0) cfg m mh hmh
  rw [hskel] at hcomm
  obtain ⟨m1, hm1, hsk1⟩ := Option.map_eq_some'.1 hcomm
  -- the helix list of the result
  have hhl : m1.helixList_.map Helix.erase = [⟨1, 10, 0⟩] := congrArg Model.helixList_ hsk1
  obtain ⟨h, hh1, hhe⟩ : ∃ h, m1.helixList_ = [h] ∧ h.erase = ⟨1, 10, 0⟩ := by
    cases hx : m1.helixList_ with
    | nil => rw [hx] at hhl; cases hhl
    | cons a rest =>
      rw [hx] at hhl
      simp only [List.map_cons, List.cons.injEq, List.map_eq_nil_iff] at hhl
      exact ⟨a, by rw [hhl.2], hhl.1⟩
  have hfrom : h.from_ = 1 := congrArg Helix.from_ hhe
  have hto : h.to_ = 10 := congrArg Helix.to_ hhe
  -- where the helix comes from
  have e2 : m.structureFromHBonds d cfg
      = (m.markTurnsAndHelices.findHelices d cfg).bind
          (fun m1 => (m1.findBridges cfg).bind Model.findSheets) := rfl
  have hm1' := hm1
  rw [e2, hmh, Option.some_bind] at hm1'
  obtain ⟨m2, hm2, hm21⟩ := Option.bind_eq_some.1 hm1'
  have k1 := (findBridges_keeps cfg _ _ hm2).2.1
  have k2 := (findSheetsLoop_keeps _ _ _ _ hm21).2.2
  obtain ⟨created, hcr0, hsound, _⟩ := findHelices_runs_aux d cfg m.markTurnsAndHelices mh hmh
  have kT := keeps_markTurnsAndHelices m
  have hcr : mh.helixList_ = created := by
    rw [hcr0]
    show m.markTurnsAndHelices.helixList_ ++ created = created
    rw [kT.2.1, hh, List.nil_append]
  have hmem : h ∈ created := by
    rw [← hcr, ← k1, ← k2, hh1]
    exact List.mem_singleton_self h
  obtain ⟨_, _, _, _, _, _, _, hty⟩ := hsound h hmem
  have hN : m.markTurnsAndHelices.rArray_.length = 12 := by
    rw [kT.2.2.2.2.2.1]
    have := congrArg List.length hr
    simpa using this
  refine ⟨m1, h, hm1, hh1, hfrom, hto, ?_, ?_, congrArg Model.ladderList_ hsk1,
    congrArg Model.sheetList_ hsk1⟩
  · intro r h1 h2
    rw [← skeleton_flag, hsk1]
    rcases ht with rfl | rfl <;> interval_cases r <;> decide
  · intro c0 c1 c2 c3 a0 a1 a2 a3 hd
    rw [hfrom, hto, helixClass_of_range d _ ⟨1, 10, 0⟩ (by decide)
      (by rw [hN]; decide)] at hty
    have hfl : (m.markTurnsAndHelices.residue 1).flag R_4HELIX ≠ 0 := by
      rw [← skeleton_flag, skeleton_markTurnsAndHelices, hsk]
      exact hflag1
    have hat : ∀ i, (m.markTurnsAndHelices.residue i).atom " CA" = (m.residue i).atom " CA" :=
      fun i => atom_of_aList (kT.2.2.2.2.2.2 i) _
    have e1 : (Helix.from_ ⟨1, 10, 0⟩).toNat = 1 := rfl
    rw [e1, hat 1, hat 2, hat 3, hat 4, a0, a1, a2, a3] at hty
    simp only at hty
    rw [if_pos hd, if_pos hfl] at hty
    exact (Option.some.inj hty).symm

/-- C9 (witness): the example model of twelve residues, with a dihedral function that is
positive everywhere. -/
theorem scenarioA_one_helix_witness :
    ∃ m1 h, helixModel12.structureFromHBonds (fun _ _ _ _ => 1) Config.default = some m1
      ∧ m1.helixList_ = [h] ∧ h.from_ = 1 ∧ h.to_ = 10
      ∧ (∀ r : Nat, 1 ≤ r → r ≤ 10 → (m1.residue r).flag R_4HELIX ≠ 0)
      ∧ (∀ c0 c1 c2 c3 : Atom, (helixModel12.residue 1).atom " CA" = some c0 →
          (helixModel12.residue 2).atom " CA" = some c1 →
          (helixModel12.residue 3).atom " CA" = some c2 →
          (helixModel12.residue 4).atom " CA" = some c3 →
          (fun _ _ _ _ => (1 : ℚ)) c0.coord_ c1.coord_ c2.coord_ c3.coord_ > 0 → h.type_ = 1)
      ∧ m1.ladderList_ = [] ∧ m1.sheetList_ = [] :=
  scenarioA_one_helix (fun _ _ _ _ => 1) Config.default helixModel12 R_TER (Or.inr rfl)
    (by decide) rfl rfl rfl rfl rfl rfl

/-! ## The bridge matrix -/

theorem flat_index_inj (n r c i j : Nat) (hc : c < n) (hj : j < n)
    (h : r * n + c = i * n + j) : r = i ∧ c = j := by
  have h1 : (r * n + c) % n = c := by
    rw [Nat.add_comm, Nat.add_mul_mod_self_right, Nat.mod_eq_of_lt hc]
  have h2 : (i * n + j) % n = j := by
    rw [Nat.add_comm, Nat.add_mul_mod_self_right, Nat.mod_eq_of_lt hj]
  have hcj : c = j := by rw [← h1, ← h2, h]
  subst hcj
  have hn : 0 < n := by omega
  have h3 : r * n = i * n := by omega
  exact ⟨Nat.eq_of_mul_eq_mul_right hn h3, rfl⟩

theorem flat_index_lt (n r c : Nat) (hr : r < n) (hc : c < n) : r * n + c < n * n := by
  have : (r + 1) * n ≤ n * n := Nat.mul_le_mul_right n hr
  rw [Nat.add_mul, Nat.one_mul] at this
  omega

/-- Reading a cell after a write, for cells inside an allocated matrix. -/
theorem SquareArray.get_set_cell (b : SquareArray) (n i j r c v : Nat) (hd : b.dim_ = n)
    (hl : b.array_.length = n * n) (hi : i < n) (hj : j < n) (hc : c < n) :
    (b.set i j v).get r c = if r = i ∧ c = j then v else b.get r c := by
  simp only [SquareArray.get, SquareArray.set, hd, List.getD_eq_getElem?_getD, List.getElem?_set]
  by_cases h : i * n + j = r * n + c
  · obtain ⟨h1, h2⟩ := flat_index_inj n r c i j hc hj h.symm
    subst h1; subst h2
    have := flat_index_lt n r c hi hj
    simp [hl, this]
  · have hne : ¬ (r = i ∧ c = j) := by
      rintro ⟨h1, h2⟩
      subst h1; subst h2
      exact h rfl
    simp [h, hne]

theorem hBonded_of_keeps {m s : Model} (h : KeepsAllButFlags m s) (i j : Nat) :
    s.hBonded i j = m.hBonded i j := by
  unfold Model.hBonded
  rw [h.1]

/-- The bridge matrix built by the first part of findBridges: the cell `(r, c)` of a row
`r >= 1` and a column `c > r` holds the mark given by the bridge test, every other cell holds 0. -/
theorem markBridges_cells (m : Model) :
    KeepsAllButFlags m m.markBridges.1
      ∧ m.markBridges.2.dim_ = m.rArray_.length
      ∧ m.markBridges.2.array_.length = m.rArray_.length * m.rArray_.length
      ∧ ∀ r c, r < m.rArray_.length → c < m.rArray_.length →
          m.markBridges.2.get r c = if 1 ≤ r ∧ r < c then m.bridgeValue r c else 0 := by
  obtain ⟨k1, k2, k3⟩ := keeps_markBridges m
  refine ⟨k1, k2, k3, ?_⟩
  by_cases hN : m.rArray_.length = 0
  · intro r c hr
    omega
  have key : KeepsAllButFlags m m.markBridges.1
      ∧ m.markBridges.2.dim_ = m.rArray_.length
      ∧ m.markBridges.2.array_.length = m.rArray_.length * m.rArray_.length
      ∧ ∀ r c, r < m.rArray_.length → c < m.rArray_.length →
          m.markBridges.2.get r c
            = if 1 ≤ r ∧ r < m.rArray_.length ∧ r < c then m.bridgeValue r c else 0 := by
    unfold Model.markBridges
    simp only []
    refine forLoop_induct (fun (i : Nat) (s : Model × SquareArray) => KeepsAllButFlags m s.1
      ∧ s.2.dim_ = m.rArray_.length ∧ s.2.array_.length = m.rArray_.length * m.rArray_.length
      ∧ ∀ r c, r < m.rArray_.length → c < m.rArray_.length →
          s.2.get r c = if 1 ≤ r ∧ r < i ∧ r < c then m.bridgeValue r c else 0)
      _ _ (m.rArray_.length - 1) 1 _ rfl (by omega) ?_ ?_
    · refine ⟨keeps_refl m, rfl, by simp [SquareArray.zero], ?_⟩
      intro r c _ _
      rw [SquareArray.get_zero]
      have : ¬ (1 ≤ r ∧ r < 1 ∧ r < c) := by omega
      rw [if_neg this]
    · intro i s hi1 hi2 ⟨a1, a2, a3, a4⟩
      have inner := forLoop_induct (fun (j : Nat) (s : Model × SquareArray) =>
          KeepsAllButFlags m s.1
          ∧ s.2.dim_ = m.rArray_.length
          ∧ s.2.array_.length = m.rArray_.length * m.rArray_.length
          ∧ ∀ r c, r < m.rArray_.length → c < m.rArray_.length →
              s.2.get r c = if 1 ≤ r ∧ r < c ∧ (r < i ∨ (r = i ∧ c < j))
                then m.bridgeValue r c else 0)
          (fun j (s : Model × SquareArray) =>
            if (s.1.hBonded (i - 1) j && s.1.hBonded j (i + 1))
                || (s.1.hBonded (j - 1) i && s.1.hBonded i (j + 1)) then
              ((s.1.setFlag i R_PBRIDGE).setFlag j R_PBRIDGE, s.2.set i j charP)
            else if (s.1.hBonded i j && s.1.hBonded j i)
                || (s.1.hBonded (i - 1) (j + 1) && s.1.hBonded (j - 1) (i + 1)) then
              ((s.1.setFlag i R_ABRIDGE).setFlag j R_ABRIDGE, s.2.set i j charA)
            else s)
          m.rArray_.length (m.rArray_.length - (i + 1)) (i + 1) s rfl (by omega) ?h0 ?hstep
      case h0 =>
        refine ⟨a1, a2, a3, ?_⟩
        intro r c hr hc
        rw [a4 r c hr hc]
        congr 1
        apply propext
        constructor
        · rintro ⟨h1, h2, h3⟩; exact ⟨h1, h3, Or.inl h2⟩
        · rintro ⟨h1, h2, h3 | h3⟩
          · exact ⟨h1, h3, h2⟩
          · omega
      case hstep =>
        intro j s1 hj1 hj2 ⟨b1, b2, b3, b4⟩
        dsimp only
        have hp : ((s1.1.hBonded (i - 1) j && s1.1.hBonded j (i + 1))
            || (s1.1.hBonded (j - 1) i && s1.1.hBonded i (j + 1))) = m.paraTest i j := by
          simp only [hBonded_of_keeps b1, Model.paraTest]
        have ha : ((s1.1.hBonded i j && s1.1.hBonded j i)
            || (s1.1.hBonded (i - 1) (j + 1) && s1.1.hBonded (j - 1) (i + 1)))
            = m.antiTest i j := by
          simp only [hBonded_of_keeps b1, Model.antiTest]
        rw [hp, ha]
        have hold : s1.2.get i j = 0 := by
          rw [b4 i j (by omega) hj2]
          have : ¬ (1 ≤ i ∧ i < j ∧ (i < i ∨ i = i ∧ j < j)) := by omega
          rw [if_neg this]
        have hcond : ∀ r c, (1 ≤ r ∧ r < c ∧ (r < i ∨ r = i ∧ c < j + 1)) ↔
            ((r = i ∧ c = j) ∨ (1 ≤ r ∧ r < c ∧ (r < i ∨ r = i ∧ c < j))) := by
          intro r c
          omega
        by_cases hP : m.paraTest i j = true
        · rw [if_pos hP]
          refine ⟨keeps_trans (keeps_trans b1 (keeps_setFlag _ _ _)) (keeps_setFlag _ _ _),
            b2, by rw [SquareArray.set_length]; exact b3, ?_⟩
          intro r c hr hc
          rw [SquareArray.get_set_cell s1.2 _ i j r c _ b2 b3 (by omega) hj2 hc]
          by_cases hrc : r = i ∧ c = j
          · rw [if_pos hrc, if_pos ((hcond r c).2 (Or.inl hrc)), hrc.1, hrc.2]
            simp [Model.bridgeValue, hP]
          · rw [if_neg hrc, b4 r c hr hc]
            congr 1
            apply propext
            rw [hcond]
            simp [hrc]
        · rw [if_neg hP]
          by_cases hA : m.antiTest i j = true
          · rw [if_pos hA]
            refine ⟨keeps_trans (keeps_trans b1 (keeps_setFlag _ _ _)) (keeps_setFlag _ _ _),
              b2, by rw [SquareArray.set_length]; exact b3, ?_⟩
            intro r c hr hc
            rw [SquareArray.get_set_cell s1.2 _ i j r c _ b2 b3 (by omega) hj2 hc]
            by_cases hrc : r = i ∧ c = j
            · rw [if_pos hrc, if_pos ((hcond r c).2 (Or.inl hrc)), hrc.1, hrc.2]
              simp [Model.bridgeValue, hP, hA]
            · rw [if_neg hrc, b4 r c hr hc]
              congr 1
              apply propext
              rw [hcond]
              simp [hrc]
          · rw [if_neg hA]
            refine ⟨b1, b2, b3, ?_⟩
            intro r c hr hc
            by_cases hrc : r = i ∧ c = j
            · rw [if_pos ((hcond r c).2 (Or.inl hrc)), hrc.1, hrc.2, hold]
              simp [Model.bridgeValue, hP, hA]
            · rw [b4 r c hr hc]
              congr 1
              apply propext
              rw [hcond]
              simp [hrc]
      obtain ⟨c1, c2, c3, c4⟩ := inner
      refine ⟨c1, c2, c3, ?_⟩
      intro r c hr hc
      rw [c4 r c hr hc]
      congr 1
      apply propext
      omega
  obtain ⟨_, _, _, k4⟩ := key
  intro r c hr hc
  rw [k4 r c hr hc]
  congr 1
  apply propext
  omega

/-! ## Scenario B: two antiparallel strands -/

/-- A read of the bond matrix in the column just past the last one is a read of column 0 of
the next row, or a read past the end of the matrix. -/
theorem hBonded_column_end (m : Model) (n r : Nat) (hd : m.hBond_.dim_ = n)
    (hl : m.hBond_.array_.length = n * n) (hr : r < n) :
    m.hBonded r n = if r + 1 < n then m.hBonded (r + 1) 0 else false := by
  unfold Model.hBonded SquareArray.get
  rw [hd]
  have e : r * n + n = (r + 1) * n + 0 := by rw [Nat.succ_mul]; rfl
  rw [e]
  split_ifs with h
  · rfl
  · have h1 : r + 1 = n := by omega
    rw [h1, List.getD_eq_getElem?_getD, List.getElem?_eq_none (by omega)]
    rfl

theorem scenarioB_bonded (m : Model) (a b : Nat) (ha : 1 ≤ a) (hab : a + 6 ≤ b)
    (hd : m.hBond_.dim_ = m.rArray_.length)
    (hl : m.hBond_.array_.length = m.rArray_.length * m.rArray_.length)
    (hb : ∀ i j, i < m.rArray_.length → j < m.rArray_.length →
      m.hBonded i j = antiStrandBonds a b i j)
    (r c : Nat) (hr : r < m.rArray_.length) (hc : c ≤ m.rArray_.length) :
    m.hBonded r c = true ↔
      (c < m.rArray_.length ∧ r + c = a + b + 4 ∧ ((a ≤ r ∧ r ≤ a + 4) ∨ (a ≤ c ∧ c ≤ a + 4))) := by
  by_cases hcN : c < m.rArray_.length
  · rw [hb r c hr hcN]
    simp [antiStrandBonds, hcN]
  · have hcN2 : c = m.rArray_.length := by omega
    subst hcN2
    rw [hBonded_column_end m _ r hd hl hr]
    split_ifs with h
    · rw [hb (r + 1) 0 h (by omega)]
      simp [antiStrandBonds]
      omega
    · simp

theorem scenarioB_bridgeValue (m : Model) (a b : Nat) (ha : 1 ≤ a) (hab : a + 6 ≤ b)
    (hbN : b + 6 ≤ m.rArray_.length) (hd : m.hBond_.dim_ = m.rArray_.length)
    (hl : m.hBond_.array_.length = m.rArray_.length * m.rArray_.length)
    (hb : ∀ i j, i < m.rArray_.length → j < m.rArray_.length →
      m.hBonded i j = antiStrandBonds a b i j)
    (r c : Nat) (hr1 : 1 ≤ r) (hrc : r < c) (hc : c < m.rArray_.length) :
    m.bridgeValue r c = if a ≤ r ∧ r ≤ a + 4 ∧ r + c = a + b + 4 then charA else 0 := by
  have B := scenarioB_bonded m a b ha hab hd hl hb
  have h1 := B (r - 1) c (by omega) (by omega)
  have h2 := B c (r + 1) (by omega) (by omega)
  have h3 := B (c - 1) r (by omega) (by omega)
  have h4 := B r (c + 1) (by omega) (by omega)
  have h5 := B r c (by omega) (by omega)
  have h6 := B c r (by omega) (by omega)
  have h7 := B (r - 1) (c + 1) (by omega) (by omega)
  have h8 := B (c - 1) (r + 1) (by omega) (by omega)
  have hP : m.paraTest r c = false := by
    rw [Bool.eq_false_iff]
    intro h
    simp only [Model.paraTest, Bool.or_eq_true, Bool.and_eq_true, h1, h2, h3, h4] at h
    omega
  have hA : m.antiTest r c = true ↔ (a ≤ r ∧ r ≤ a + 4 ∧ r + c = a + b + 4) := by
    simp only [Model.antiTest, Bool.or_eq_true, Bool.and_eq_true, h5, h6, h7, h8]
    omega
  unfold Model.bridgeValue
  rw [hP]
  simp only [Bool.false_eq_true, if_false]
  by_cases hx : a ≤ r ∧ r ≤ a + 4 ∧ r + c = a + b + 4
  · rw [if_pos hx, if_pos (hA.2 hx)]
  · rw [if_neg hx, if_neg (fun h => hx (hA.1 h))]

/-- The antiparallel walk from the cell `(i, j)` over `K` marked cells: it stops at `k = K`
and lowers exactly the cells it has walked over. -/
theorem walkAnti_run (N i j K : Nat) (hj : j < N) (hi : i + K ≤ N) :
    ∀ (n k fuel : Nat) (b : SquareArray), K - k = n → k ≤ K → K - k < fuel → b.dim_ = N →
      b.array_.length = N * N →
      (∀ t, k ≤ t → t < K → b.get (i + t) (j - t) = charA) →
      b.get (i + K) (j - K) ≠ charA →
      (walkAnti i j fuel k b).1 = K ∧ (walkAnti i j fuel k b).2.dim_ = N
        ∧ (walkAnti i j fuel k b).2.array_.length = N * N
        ∧ ∀ r c, c < N → (walkAnti i j fuel k b).2.get r c
            = if i + k ≤ r ∧ r < i + K ∧ c = j - (r - i) then charLowerA else b.get r c := by
  intro n
  induction n with
  | zero =>
    intro k fuel b hn hk hf hd hl hcells hstop
    have hkK : k = K := by omega
    subst hkK
    obtain ⟨f, rfl⟩ : ∃ f, fuel = f + 1 := ⟨fuel - 1, by omega⟩
    unfold walkAnti
    rw [if_neg hstop]
    refine ⟨rfl, hd, hl, ?_⟩
    intro r c _
    have : ¬ (i + k ≤ r ∧ r < i + k ∧ c = j - (r - i)) := by omega
    rw [if_neg this]
  | succ n ih =>
    intro k fuel b hn hk hf hd hl hcells hstop
    obtain ⟨f, rfl⟩ : ∃ f, fuel = f + 1 := ⟨fuel - 1, by omega⟩
    unfold walkAnti
    rw [if_pos (hcells k (le_refl _) (by omega))]
    have hset : ∀ r c, c < N → (b.set (i + k) (j - k) charLowerA).get r c
        = if r = i + k ∧ c = j - k then charLowerA else b.get r c :=
      fun r c hc => SquareArray.get_set_cell b N (i + k) (j - k) r c _ hd hl (by omega)
        (by omega) hc
    obtain ⟨e1, e2, e3, e4⟩ := ih (k + 1) f (b.set (i + k) (j - k) charLowerA) (by omega)
      (by omega) (by omega) hd (by rw [SquareArray.set_length]; exact hl)
      (by
        intro t h1 h2
        rw [hset _ _ (by omega)]
        have : ¬ (i + t = i + k ∧ j - t = j - k) := by omega
        rw [if_neg this]
        exact hcells t (by omega) h2)
      (by
        rw [hset _ _ (by omega)]
        have : ¬ (i + K = i + k ∧ j - K = j - k) := by omega
        rw [if_neg this]
        exact hstop)
    refine ⟨e1, e2, e3, ?_⟩
    intro r c hc
    rw [e4 r c hc, hset r c hc]
    by_cases h1 : i + (k + 1) ≤ r ∧ r < i + K ∧ c = j - (r - i)
    · rw [if_pos h1, if_pos (by omega)]
    · rw [if_neg h1]
      by_cases h2 : r = i + k ∧ c = j - k
      · rw [if_pos h2, if_pos (by omega)]
      · rw [if_neg h2, if_neg (by omega)]

/-- The row-major scan over a bridge matrix whose only marked cells are the antiparallel run
`(a+k, b+4-k)`, `k = 0..4`: one ladder is extracted, with strands `a..a+4` and `b..b+4`. -/
theorem scenarioB_extract (x : Model) (B : SquareArray) (a b : Nat) (hab : a + 6 ≤ b)
    (hbN : b + 6 ≤ x.rArray_.length) (hd : B.dim_ = x.rArray_.length)
    (hl : B.array_.length = x.rArray_.length * x.rArray_.length)
    (hB : ∀ r c, r < x.rArray_.length → c < x.rArray_.length →
      B.get r c = if a ≤ r ∧ r ≤ a + 4 ∧ r + c = a + b + 4 then charA else 0) :
    (x.extractLadders B).1 = x.appendLadder (Ladder.new B_ANTI a (a + 4) b (b + 4)) := by
  obtain ⟨w1, _, _, w4⟩ := walkAnti_run x.rArray_.length a (b + 4) 5 (by omega) (by omega) 5 0
    (x.rArray_.length + 1) B rfl (by omega) (by omega) hd hl
    (by
      intro t _ ht
      rw [hB _ _ (by omega) (by omega)]
      exact if_pos (by omega))
    (by
      rw [hB _ _ (by omega) (by omega)]
      have : ¬ (a ≤ a + 5 ∧ a + 5 ≤ a + 4 ∧ a + 5 + (b + 4 - 5) = a + b + 4) := by omega
      rw [if_neg this]
      decide)
  have hW : ∀ r c, r < x.rArray_.length → c < x.rArray_.length →
      (walkAnti a (b + 4) (x.rArray_.length + 1) 0 B).2.get r c ≠ charP
        ∧ (walkAnti a (b + 4) (x.rArray_.length + 1) 0 B).2.get r c ≠ charA := by
    intro r c hr hc
    rw [w4 r c hc]
    split_ifs with h
    · exact ⟨by decide, by decide⟩
    · have hv : B.get r c = 0 := by
        rw [hB r c hr hc]
        exact if_neg (by omega)
      rw [hv]
      exact ⟨by decide, by decide⟩
  have hlad : Ladder.new B_ANTI (a : Int) ((a : Int) + ((5 : Nat) - 1))
      (((b + 4 : Nat) : Int) - ((5 : Nat) - 1)) ((b + 4 : Nat) : Int)
      = Ladder.new B_ANTI a (a + 4) b (b + 4) := by
    have e1 : ((a : Int) + (((5 : Nat) : Int) - 1)) = (a : Int) + 4 := by omega
    have e2 : (((b + 4 : Nat) : Int) - (((5 : Nat) : Int) - 1)) = (b : Int) := by omega
    have e3 : ((b + 4 : Nat) : Int) = (b : Int) + 4 := by omega
    rw [e1, e2, e3]
  have outer := forLoop_induct (fun (i : Nat) (s : Model × SquareArray) =>
      (i ≤ a → s = (x, B)) ∧ (a < i → s = (x.appendLadder (Ladder.new B_ANTI a (a + 4) b (b + 4)),
        (walkAnti a (b + 4) (x.rArray_.length + 1) 0 B).2)))
    (fun i s =>
      forLoop (i + 1) x.rArray_.length (fun j (s : Model × SquareArray) =>
        if s.2.get i j = charP then
          (s.1.appendLadder (Ladder.new B_PARA i
            (i + (((walkPara i j (x.rArray_.length + 1) 0 s.2).1 : Int) - 1)) j
            (j + (((walkPara i j (x.rArray_.length + 1) 0 s.2).1 : Int) - 1))),
            (walkPara i j (x.rArray_.length + 1) 0 s.2).2)
        else if s.2.get i j = charA then
          (s.1.appendLadder (Ladder.new B_ANTI i
            (i + (((walkAnti i j (x.rArray_.length + 1) 0 s.2).1 : Int) - 1))
            (j - (((walkAnti i j (x.rArray_.length + 1) 0 s.2).1 : Int) - 1)) j),
            (walkAnti i j (x.rArray_.length + 1) 0 s.2).2)
        else s) s)
    x.rArray_.length x.rArray_.length 0 (x, B) rfl (Nat.zero_le _)
    ⟨fun _ => rfl, fun h => by omega⟩ ?hstep
  case hstep =>
    intro i s _ hiN ⟨o1, o2⟩
    have inner := forLoop_induct (fun (j : Nat) (s : Model × SquareArray) =>
        ((i < a ∨ (i = a ∧ j ≤ b + 4)) → s = (x, B))
        ∧ (¬ (i < a ∨ (i = a ∧ j ≤ b + 4)) →
            s = (x.appendLadder (Ladder.new B_ANTI a (a + 4) b (b + 4)),
              (walkAnti a (b + 4) (x.rArray_.length + 1) 0 B).2)))
      (fun j (s : Model × SquareArray) =>
        if s.2.get i j = charP then
          (s.1.appendLadder (Ladder.new B_PARA i
            (i + (((walkPara i j (x.rArray_.length + 1) 0 s.2).1 : Int) - 1)) j
            (j + (((walkPara i j (x.rArray_.length + 1) 0 s.2).1 : Int) - 1))),
            (walkPara i j (x.rArray_.length + 1) 0 s.2).2)
        else if s.2.get i j = charA then
          (s.1.appendLadder (Ladder.new B_ANTI i
            (i + (((walkAnti i j (x.rArray_.length + 1) 0 s.2).1 : Int) - 1))
            (j - (((walkAnti i j (x.rArray_.length + 1) 0 s.2).1 : Int) - 1)) j),
            (walkAnti i j (x.rArray_.length + 1) 0 s.2).2)
        else s)
      x.rArray_.length (x.rArray_.length - (i + 1)) (i + 1) s rfl (by omega)
      ⟨fun h => o1 (by omega), fun h => o2 (by omega)⟩ ?istep
    case istep =>
      intro j s1 hj1 hjN ⟨p1, p2⟩
      dsimp only
      by_cases hcond : i < a ∨ (i = a ∧ j ≤ b + 4)
      · have hs := p1 hcond
        subst hs
        dsimp only
        by_cases hcell : i = a ∧ j = b + 4
        · obtain ⟨rfl, rfl⟩ := hcell
          have hv : B.get i (b + 4) = charA := by
            rw [hB _ _ hiN hjN]
            exact if_pos (by omega)
          have hne : ¬ (charA = charP) := by decide
          rw [hv, if_neg hne, if_pos rfl, w1]
          refine ⟨fun h => by omega, fun _ => ?_⟩
          rw [hlad]
        · have hv : B.get i j = 0 := by
            rw [hB _ _ hiN hjN]
            exact if_neg (by omega)
          have hne1 : ¬ ((0 : Nat) = charP) := by decide
          have hne2 : ¬ ((0 : Nat) = charA) := by decide
          rw [hv, if_neg hne1, if_neg hne2]
          exact ⟨fun _ => rfl, fun h => absurd (by omega) h⟩
      · have hs := p2 hcond
        subst hs
        dsimp only
        obtain ⟨q1, q2⟩ := hW i j hiN hjN
        rw [if_neg q1, if_neg q2]
        exact ⟨fun h => absurd (by omega) hcond, fun _ => rfl⟩
    exact ⟨fun h => inner.1 (by omega), fun h => inner.2 (by omega)⟩
  have := outer.2 (by omega)
  unfold Model.extractLadders
  exact congrArg Prod.fst this

theorem mergeAndPrune_single (cfg : Config) (x : Model) (L : Ladder) (h1 : x.ladders = [L])
    (h2 : x.ladderList_ = [0]) (hs : L.tooShort cfg = false) :
    Model.mergeAndPrune cfg x = some x := by
  have hb : x.findBetaBulge = none := by
    rw [findBetaBulge_none_iff, h1, h2]
    unfold findBetaBulgeScan
    split_ifs <;> simp [findBetaBulgeInner, findBetaBulgeScan]
  have hm : (if cfg.checkBulges then Model.mergeLoop (x.ladderList_.length + 1) x else some x)
      = some x := by
    split_ifs
    · exact mergeLoop_of_none x _ hb
    · rfl
  unfold Model.mergeAndPrune
  rw [hm, Option.some_bind]
  unfold Model.pruneLoop
  have hp : pruneScan cfg x.ladders x.ladderList_ = none := by
    rw [h1, h2]
    simp [pruneScan, hs]
  rw [hp]

theorem findSheets_single (x : Model) (L : Ladder) (h1 : x.ladders = [L])
    (h2 : x.ladderList_ = [0]) (h3 : x.sheetList_ = []) (h4 : L.sheet_ = none) :
    x.findSheets = some { x with ladders := [L.setSheet 0], sheetList_ := [⟨'A', [0]⟩] } := by
  obtain ⟨r, hb, hl, la, ll, sl⟩ := x
  simp only at h1 h2 h3
  subst h1; subst h2; subst h3
  simp [Model.findSheets, Model.findSheetsLoop, Model.ladder, h4, Model.markLadder,
    Model.markLoop, Model.assignSheet, Ladder.setSheet, Sheet.addLadder]

/-- The cells of `bondMatrix n bonded` read back as `bonded`. -/
theorem bondMatrix_hBonded (m : Model) (n : Nat) (bonded : Nat → Nat → Bool)
    (h : m.hBond_ = bondMatrix n bonded) (i j : Nat) (hi : i < n) (hj : j < n) :
    m.hBonded i j = bonded i j := by
  have hlt := flat_index_lt n i j hi hj
  have hn : 0 < n := by omega
  have e1 : (i * n + j) / n = i := by
    rw [Nat.add_comm, Nat.add_mul_div_right _ _ hn, Nat.div_eq_of_lt hj, Nat.zero_add]
  have e2 : (i * n + j) % n = j := by
    rw [Nat.add_comm, Nat.add_mul_mod_self_right, Nat.mod_eq_of_lt hj]
  unfold Model.hBonded SquareArray.get
  rw [h]
  simp only [bondMatrix, List.getD_eq_getElem?_getD, List.getElem?_map, List.getElem?_range hlt,
    Option.map_some', Option.getD_some, e1, e2]
  cases bonded i j <;> rfl

/-! ## The overlap test -/

/-- C19: l.overlaps(o, overlap) returns 1 and records the pair (i, j) exactly when (i, j) is the
first pair, in the order (0,0), (0,1), (1,0), (1,1), for which l.end(i) >= o.start(j) and
o.end(j) >= l.start(i); it returns 0 if and only if no pair of strands of the two ladders
intersects. -/
theorem overlaps_first_pair (l o : Ladder) :
    (∀ i j : Nat, l.overlaps o = some (i, j) ↔
      (i < 2 ∧ j < 2 ∧ l.strandsIntersect o i j
        ∧ ∀ i1 j1 : Nat, i1 < 2 → j1 < 2 → (i1 < i ∨ (i1 = i ∧ j1 < j)) →
            ¬ l.strandsIntersect o i1 j1))
    ∧ (l.overlaps o = none ↔ ∀ i j : Nat, i < 2 → j < 2 → ¬ l.strandsIntersect o i j) := by
  have h00 : l.strandsIntersect o 0 0 ↔ (l.end_ 0 ≥ o.start 0 ∧ o.end_ 0 ≥ l.start 0) := Iff.rfl
  have h01 : l.strandsIntersect o 0 1 ↔ (l.end_ 0 ≥ o.start 1 ∧ o.end_ 1 ≥ l.start 0) := Iff.rfl
  have h10 : l.strandsIntersect o 1 0 ↔ (l.end_ 1 ≥ o.start 0 ∧ o.end_ 0 ≥ l.start 1) := Iff.rfl
  have h11 : l.strandsIntersect o 1 1 ↔ (l.end_ 1 ≥ o.start 1 ∧ o.end_ 1 ≥ l.start 1) := Iff.rfl
  have hall : ∀ P : Nat → Nat → Prop, (∀ i j : Nat, i < 2 → j < 2 → P i j) ↔
      (P 0 0 ∧ P 0 1 ∧ P 1 0 ∧ P 1 1) := by
    intro P
    constructor
    · intro h
      exact ⟨h 0 0 (by decide) (by decide), h 0 1 (by decide) (by decide),
        h 1 0 (by decide) (by decide), h 1 1 (by decide) (by decide)⟩
    · rintro ⟨a, b, c, d⟩ i j hi hj
      interval_cases i <;> interval_cases j <;> assumption
  constructor
  · intro i j
    rw [hall]
    unfold Ladder.overlaps
    by_cases a00 : l.strandsIntersect o 0 0
    · rw [if_pos (h00.1 a00)]
      constructor
      · intro h
        simp only [Option.some.injEq, Prod.mk.injEq] at h
        obtain ⟨rfl, rfl⟩ := h
        simp [a00]
      · rintro ⟨hi, hj, hint, n00, n01, n10, n11⟩
        interval_cases i <;> interval_cases j <;> simp_all
    · rw [if_neg (fun h => a00 (h00.2 h))]
      by_cases a01 : l.strandsIntersect o 0 1
      · rw [if_pos (h01.1 a01)]
        constructor
        · intro h
          simp only [Option.some.injEq, Prod.mk.injEq] at h
          obtain ⟨rfl, rfl⟩ := h
          simp [a00, a01]
        · rintro ⟨hi, hj, hint, n00, n01, n10, n11⟩
          interval_cases i <;> interval_cases j <;> simp_all
      · rw [if_neg (fun h => a01 (h01.2 h))]
        by_cases a10 : l.strandsIntersect o 1 0
        · rw [if_pos (h10.1 a10)]
          constructor
          · intro h
            simp only [Option.some.injEq, Prod.mk.injEq] at h
            obtain ⟨rfl, rfl⟩ := h
            simp [a00, a01, a10]
          · rintro ⟨hi, hj, hint, n00, n01, n10, n11⟩
            interval_cases i <;> interval_cases j <;> simp_all
        · rw [if_neg (fun h => a10 (h10.2 h))]
          by_cases a11 : l.strandsIntersect o 1 1
          · rw [if_pos (h11.1 a11)]
            constructor
            · intro h
              simp only [Option.some.injEq, Prod.mk.injEq] at h
              obtain ⟨rfl, rfl⟩ := h
              simp [a00, a01, a10, a11]
            · rintro ⟨hi, hj, hint, n00, n01, n10, n11⟩
              interval_cases i <;> interval_cases j <;> simp_all
          · rw [if_neg (fun h => a11 (h11.2 h))]
            constructor
            · intro h; cases h
            · rintro ⟨hi, hj, hint, _⟩
              interval_cases i <;> interval_cases j <;> simp_all
  · rw [hall]
    unfold Ladder.overlaps
    by_cases a00 : l.strandsIntersect o 0 0
    · rw [if_pos (h00.1 a00)]
      simp [a00]
    · rw [if_neg (fun h => a00 (h00.2 h))]
      by_cases a01 : l.strandsIntersect o 0 1
      · rw [if_pos (h01.1 a01)]
        simp [a01]
      · rw [if_neg (fun h => a01 (h01.2 h))]
        by_cases a10 : l.strandsIntersect o 1 0
        · rw [if_pos (h10.1 a10)]
          simp [a10]
        · rw [if_neg (fun h => a10 (h10.2 h))]
          by_cases a11 : l.strandsIntersect o 1 1
          · rw [if_pos (h11.1 a11)]
            simp [a11]
          · rw [if_neg (fun h => a11 (h11.2 h))]
            simp [a00, a01, a10, a11]

/-! ## The class of a helix -/

/-- C17: for a helix whose residues from..from+3 exist, helixClass(h) returns 0 if any of them
has no CA atom; otherwise, with the dihedral of the four CA positions: if it is positive the
result is 1 when the start residue is 4-helix flagged, else 5 when it is 3-helix flagged, else
0; if it is not positive the result is 6 when the start residue is 4-helix flagged, else 0.
The result is always one of 0, 1, 5, 6. -/
theorem helixClass_cases (d : Coord → Coord → Coord → Coord → ℚ) (m : Model) (h : Helix)
    (h0 : 0 ≤ h.from_) (hN : h.from_.toNat + 3 < m.rArray_.length) :
    ((∃ i : Nat, i < 4 ∧ (m.residue (h.from_.toNat + i)).atom " CA" = none) →
        m.helixClass d h = some 0)
    ∧ (∀ c0 c1 c2 c3 : Atom,
        (m.residue h.from_.toNat).atom " CA" = some c0 →
        (m.residue (h.from_.toNat + 1)).atom " CA" = some c1 →
        (m.residue (h.from_.toNat + 2)).atom " CA" = some c2 →
        (m.residue (h.from_.toNat + 3)).atom " CA" = some c3 →
        (d c0.coord_ c1.coord_ c2.coord_ c3.coord_ > 0 →
          m.helixClass d h
            = some (if (m.residue h.from_.toNat).flag R_4HELIX ≠ 0 then 1
              else if (m.residue h.from_.toNat).flag R_3HELIX ≠ 0 then 5 else 0))
        ∧ (d c0.coord_ c1.coord_ c2.coord_ c3.coord_ ≤ 0 →
          m.helixClass d h
            = some (if (m.residue h.from_.toNat).flag R_4HELIX ≠ 0 then 6 else 0)))
    ∧ (m.helixClass d h = some 0 ∨ m.helixClass d h = some 1 ∨ m.helixClass d h = some 5
        ∨ m.helixClass d h = some 6) := by
  rw [helixClass_of_range d m h h0 hN]
  simp only [Option.some.injEq]
  refine ⟨?_, ?_, ?_⟩
  · rintro ⟨i, hi, hnone⟩
    interval_cases i
    · rw [Nat.add_zero] at hnone
      simp only [hnone]
    · cases h0' : (m.residue h.from_.toNat).atom " CA" <;> simp only [hnone, h0']
    · cases h0' : (m.residue h.from_.toNat).atom " CA" <;>
        cases h1' : (m.residue (h.from_.toNat + 1)).atom " CA" <;> simp only [hnone, h0', h1']
    · cases h0' : (m.residue h.from_.toNat).atom " CA" <;>
        cases h1' : (m.residue (h.from_.toNat + 1)).atom " CA" <;>
        cases h2' : (m.residue (h.from_.toNat + 2)).atom " CA" <;>
        simp only [hnone, h0', h1', h2']
  · intro c0 c1 c2 c3 a0 a1 a2 a3
    simp only [a0, a1, a2, a3]
    constructor
    · intro hd
      rw [if_pos hd]
    · intro hd
      rw [if_neg (not_lt.2 hd)]
  · cases h0' : (m.residue h.from_.toNat).atom " CA" <;>
      cases h1' : (m.residue (h.from_.toNat + 1)).atom " CA" <;>
      cases h2' : (m.residue (h.from_.toNat + 2)).atom " CA" <;>
      cases h3' : (m.residue (h.from_.toNat + 3)).atom " CA" <;>
      simp only [h0', h1', h2', h3'] <;>
      first
        | exact Or.inl trivial
        | exact Or.inl rfl
        | (split_ifs <;> simp)

/-- C17 (witness): the helix 1..10 of the example model of twelve residues. -/
theorem helixClass_cases_witness :
    ((∃ i : Nat, i < 4 ∧ (helixModel12.residue ((1 : Int).toNat + i)).atom " CA" = none) →
        helixModel12.helixClass (fun _ _ _ _ => 1) ⟨1, 10, 0⟩ = some 0)
    ∧ (∀ c0 c1 c2 c3 : Atom,
        (helixModel12.residue (1 : Int).toNat).atom " CA" = some c0 →
        (helixModel12.residue ((1 : Int).toNat + 1)).atom " CA" = some c1 →
        (helixModel12.residue ((1 : Int).toNat + 2)).atom " CA" = some c2 →
        (helixModel12.residue ((1 : Int).toNat + 3)).atom " CA" = some c3 →
        ((fun _ _ _ _ => (1 : ℚ)) c0.coord_ c1.coord_ c2.coord_ c3.coord_ > 0 →
          helixModel12.helixClass (fun _ _ _ _ => 1) ⟨1, 10, 0⟩
            = some (if (helixModel12.residue (1 : Int).toNat).flag R_4HELIX ≠ 0 then 1
              else if (helixModel12.residue (1 : Int).toNat).flag R_3HELIX ≠ 0 then 5 else 0))
        ∧ ((fun _ _ _ _ => (1 : ℚ)) c0.coord_ c1.coord_ c2.coord_ c3.coord_ ≤ 0 →
          helixModel12.helixClass (fun _ _ _ _ => 1) ⟨1, 10, 0⟩
            = some (if (helixModel12.residue (1 : Int).toNat).flag R_4HELIX ≠ 0 then 6
              else 0)))
    ∧ (helixModel12.helixClass (fun _ _ _ _ => 1) ⟨1, 10, 0⟩ = some 0
        ∨ helixModel12.helixClass (fun _ _ _ _ => 1) ⟨1, 10, 0⟩ = some 1
        ∨ helixModel12.helixClass (fun _ _ _ _ => 1) ⟨1, 10, 0⟩ = some 5
        ∨ helixModel12.helixClass (fun _ _ _ _ => 1) ⟨1, 10, 0⟩ = some 6) :=
  helixClass_cases (fun _ _ _ _ => 1) helixModel12 ⟨1, 10, 0⟩ (by decide) (by decide)

/-! ## The merged ladder -/

theorem mergeBulge_fields (l1 l2 l : Ladder) (hw1 : l1.WellFormed) (hw2 : l2.WellFormed)
    (h : Ladder.mergeBulge l1 l2 = some l) :
    l.type_ = l1.type_ ∧ l.type_ = l2.type_ ∧ l.isBulge_ = true ∧ l.sheet_ = none
      ∧ l.neighbor0 = none ∧ l.neighbor1 = none
      ∧ l.start 0 = min (l1.start 0) (l2.start 0) ∧ l.end_ 0 = max (l1.end_ 0) (l2.end_ 0)
      ∧ (l.type_ = B_PARA →
          l.start 1 = (if l1.start 0 ≤ l2.start 0 then l1 else l2).start 1
          ∧ l.end_ 1 = (if l1.start 0 ≤ l2.start 0 then l2 else l1).end_ 1)
      ∧ (l.type_ ≠ B_PARA →
          l.start 1 = (if l1.start 0 ≤ l2.start 0 then l2 else l1).start 1
          ∧ l.end_ 1 = (if l1.start 0 ≤ l2.start 0 then l1 else l2).end_ 1) := by
  obtain ⟨w1, w2⟩ := hw1
  obtain ⟨w3, w4⟩ := hw2
  unfold Ladder.mergeBulge at h
  by_cases ht : l1.type_ = l2.type_
  swap
  · rw [if_pos ht] at h; cases h
  rw [if_neg (not_not.2 ht)] at h
  by_cases hs : l1.start 0 > l2.start 0
  · have hs2 : ¬ l1.start 0 ≤ l2.start 0 := by omega
    simp only [hs, hs2, if_true, if_false] at h ⊢
    split_ifs at h with c1 c2 c3 c4 c5 <;>
      simp only [Option.some.injEq] at h <;> subst h <;>
      simp only [Ladder.new, Ladder.setBulge, Ladder.start, Ladder.end_, if_true,
        Nat.one_ne_zero, if_false, ht, min_def, max_def] at * <;>
      refine ⟨?_, ?_, ?_, ?_, ?_, ?_, ?_, ?_, ?_, ?_⟩ <;>
      first
        | trivial
        | rfl
        | (intros; split_ifs <;> omega)
  · have hs2 : l1.start 0 ≤ l2.start 0 := by omega
    simp only [hs, hs2, if_true, if_false] at h ⊢
    split_ifs at h with c1 c2 c3 c4 c5 <;>
      simp only [Option.some.injEq] at h <;> subst h <;>
      simp only [Ladder.new, Ladder.setBulge, Ladder.start, Ladder.end_, if_true,
        Nat.one_ne_zero, if_false, ht, min_def, max_def] at * <;>
      refine ⟨?_, ?_, ?_, ?_, ?_, ?_, ?_, ?_, ?_, ?_⟩ <;>
      first
        | trivial
        | rfl
        | (intros; split_ifs <;> omega)

theorem findBetaBulgeScan_merge (heap : List Ladder) :
    ∀ (l : List Nat) (p1 p2 : Nat) (x : Ladder), findBetaBulgeScan heap l = some (p1, p2, x) →
      (heap.getD p1 default).isBulge_ = false ∧ (heap.getD p2 default).isBulge_ = false
        ∧ Ladder.mergeBulge (heap.getD p1 default) (heap.getD p2 default) = some x := by
  intro l
  induction l with
  | nil => intro p1 p2 x h; simp [findBetaBulgeScan] at h
  | cons a rest ih =>
    intro p1 p2 x h
    unfold findBetaBulgeScan at h
    by_cases hb : (heap.getD a default).isBulge_ = true
    · rw [if_pos hb] at h
      exact ih p1 p2 x h
    · rw [if_neg hb] at h
      cases hi : findBetaBulgeInner heap (heap.getD a default) rest with
      | none => rw [hi] at h; exact ih p1 p2 x h
      | some r =>
        obtain ⟨q, y⟩ := r
        rw [hi] at h
        simp only [Option.some.injEq, Prod.mk.injEq] at h
        obtain ⟨h1, h2, h3⟩ := h
        subst h1; subst h2; subst h3
        obtain ⟨_, e2, e3⟩ := findBetaBulgeInner_some heap _ rest q y hi
        exact ⟨by simpa using hb, e2, e3⟩

theorem findBetaBulge_list (m m1 : Model) (hnd : m.ladderList_.Nodup) (hv : m.LaddersValid)
    (hb : m.findBetaBulge = some m1) :
    ∃ p1 p2 x, (∃ pre rest, m.ladderList_ = pre ++ p1 :: rest ∧ p2 ∈ rest)
      ∧ Ladder.mergeBulge (m.ladder p1) (m.ladder p2) = some x
      ∧ m1.ladders = m.ladders ++ [x]
      ∧ m1.ladder m.ladders.length = x
      ∧ m1.ladderList_
          = m.ladderList_.filter (fun p => decide (p ≠ p1 ∧ p ≠ p2)) ++ [m.ladders.length]
      ∧ p1 ∉ m1.ladderList_ ∧ p2 ∉ m1.ladderList_
      ∧ (∀ p ∈ m.ladderList_, m1.ladder p = m.ladder p) := by
  unfold Model.findBetaBulge at hb
  cases hs : findBetaBulgeScan m.ladders m.ladderList_ with
  | none => rw [hs] at hb; cases hb
  | some r =>
    obtain ⟨p1, p2, x⟩ := r
    rw [hs] at hb
    simp only [Option.some.injEq] at hb
    subst hb
    obtain ⟨pre, rest, hl, hp2⟩ := findBetaBulgeScan_some m.ladders _ p1 p2 x hs
    obtain ⟨_, _, hm⟩ := findBetaBulgeScan_merge m.ladders _ p1 p2 x hs
    have hp1 : p1 ∈ m.ladderList_ := by rw [hl]; simp
    have hp2' : p2 ∈ m.ladderList_ := by rw [hl]; simp [hp2]
    have hlist : (m.ladderList_.erase p1).erase p2
        = m.ladderList_.filter (fun p => decide (p ≠ p1 ∧ p ≠ p2)) := by
      rw [hnd.erase_eq_filter, (hnd.filter _).erase_eq_filter, List.filter_filter]
      congr 1
      funext p
      by_cases h1 : p = p1 <;> by_cases h2 : p = p2 <;> simp [h1, h2]
    refine ⟨p1, p2, x, ⟨pre, rest, hl, hp2⟩, hm, rfl, ?_, ?_, ?_, ?_, ?_⟩
    · simp [Model.ladder, List.getD_append_right]
    · simp only [hlist]
    · simp only [hlist, List.mem_append, List.mem_filter, List.mem_singleton]
      have := hv p1 hp1
      rintro (⟨_, h⟩ | h)
      · simp at h
      · omega
    · simp only [hlist, List.mem_append, List.mem_filter, List.mem_singleton]
      have := hv p2 hp2'
      rintro (⟨_, h⟩ | h)
      · simp at h
      · omega
    · intro p hp
      have := hv p hp
      simp only [Model.ladder]
      rw [List.getD_append _ _ _ _ this]

/-- C18: when mergeBulge(l1, l2) succeeds on two ladders stored start first, the new ladder has
the type of both inputs, has the bulge flag set, no sheet and no neighbor, spans on strand 0
the range from the smaller start(0) to the larger end(0), and on strand 1 the range from
start(1) of the ladder with the smaller start(0) to end(1) of the other one (parallel) or from
start(1) of the other one to end(1) of the ladder with the smaller start(0) (antiparallel).
When findBetaBulge succeeds on a list without repeated pointers, it has merged two ladders of
the list, the first one before the second; the new list is the old one without these two,
followed by the new ladder, and the other ladders are unchanged. -/
theorem mergeBulge_result (l1 l2 l : Ladder) (hw1 : l1.WellFormed) (hw2 : l2.WellFormed)
    (h : Ladder.mergeBulge l1 l2 = some l)
    (m m1 : Model) (hnd : m.ladderList_.Nodup) (hv : m.LaddersValid)
    (hb : m.findBetaBulge = some m1) :
    (l.type_ = l1.type_ ∧ l.type_ = l2.type_ ∧ l.isBulge_ = true ∧ l.sheet_ = none
      ∧ l.neighbor0 = none ∧ l.neighbor1 = none
      ∧ l.start 0 = min (l1.start 0) (l2.start 0) ∧ l.end_ 0 = max (l1.end_ 0) (l2.end_ 0)
      ∧ (l.type_ = B_PARA →
          l.start 1 = (if l1.start 0 ≤ l2.start 0 then l1 else l2).start 1
          ∧ l.end_ 1 = (if l1.start 0 ≤ l2.start 0 then l2 else l1).end_ 1)
      ∧ (l.type_ ≠ B_PARA →
          l.start 1 = (if l1.start 0 ≤ l2.start 0 then l2 else l1).start 1
          ∧ l.end_ 1 = (if l1.start 0 ≤ l2.start 0 then l1 else l2).end_ 1))
    ∧ (∃ p1 p2 x, (∃ pre rest, m.ladderList_ = pre ++ p1 :: rest ∧ p2 ∈ rest)
      ∧ Ladder.mergeBulge (m.ladder p1) (m.ladder p2) = some x
      ∧ m1.ladders = m.ladders ++ [x]
      ∧ m1.ladder m.ladders.length = x
      ∧ m1.ladderList_
          = m.ladderList_.filter (fun p => decide (p ≠ p1 ∧ p ≠ p2)) ++ [m.ladders.length]
      ∧ p1 ∉ m1.ladderList_ ∧ p2 ∉ m1.ladderList_
      ∧ (∀ p ∈ m.ladderList_, m1.ladder p = m.ladder p)) :=
  ⟨mergeBulge_fields l1 l2 l hw1 hw2 h, findBetaBulge_list m m1 hnd hv hb⟩

/-- C18 (witness): the two antiparallel ladders of the example list merge into the ladder
1..5 / 6..12. -/
theorem mergeBulge_result_witness :
    ((bulgeModelMerged.ladder 2).type_ = (bulgeModel.ladder 0).type_ ∧ (bulgeModelMerged.ladder 2).type_ = (bulgeModel.ladder 1).type_ ∧ (bulgeModelMerged.ladder 2).isBulge_ = true ∧ (bulgeModelMerged.ladder 2).sheet_ = none
      ∧ (bulgeModelMerged.ladder 2).neighbor0 = none ∧ (bulgeModelMerged.ladder 2).neighbor1 = none
      ∧ (bulgeModelMerged.ladder 2).start 0 = min ((bulgeModel.ladder 0).start 0) ((bulgeModel.ladder 1).start 0) ∧ (bulgeModelMerged.ladder 2).end_ 0 = max ((bulgeModel.ladder 0).end_ 0) ((bulgeModel.ladder 1).end_ 0)
      ∧ ((bulgeModelMerged.ladder 2).type_ = B_PARA →
          (bulgeModelMerged.ladder 2).start 1 = (if (bulgeModel.ladder 0).start 0 ≤ (bulgeModel.ladder 1).start 0 then bulgeModel.ladder 0 else bulgeModel.ladder 1).start 1
          ∧ (bulgeModelMerged.ladder 2).end_ 1 = (if (bulgeModel.ladder 0).start 0 ≤ (bulgeModel.ladder 1).start 0 then bulgeModel.ladder 1 else bulgeModel.ladder 0).end_ 1)
      ∧ ((bulgeModelMerged.ladder 2).type_ ≠ B_PARA →
          (bulgeModelMerged.ladder 2).start 1 = (if (bulgeModel.ladder 0).start 0 ≤ (bulgeModel.ladder 1).start 0 then bulgeModel.ladder 1 else bulgeModel.ladder 0).start 1
          ∧ (bulgeModelMerged.ladder 2).end_ 1 = (if (bulgeModel.ladder 0).start 0 ≤ (bulgeModel.ladder 1).start 0 then bulgeModel.ladder 0 else bulgeModel.ladder 1).end_ 1))
    ∧ (∃ p1 p2 x, (∃ pre rest, bulgeModel.ladderList_ = pre ++ p1 :: rest ∧ p2 ∈ rest)
      ∧ Ladder.mergeBulge (bulgeModel.ladder p1) (bulgeModel.ladder p2) = some x
      ∧ bulgeModelMerged.ladders = bulgeModel.ladders ++ [x]
      ∧ bulgeModelMerged.ladder bulgeModel.ladders.length = x
      ∧ bulgeModelMerged.ladderList_
          = bulgeModel.ladderList_.filter (fun p => decide (p ≠ p1 ∧ p ≠ p2)) ++ [bulgeModel.ladders.length]
      ∧ p1 ∉ bulgeModelMerged.ladderList_ ∧ p2 ∉ bulgeModelMerged.ladderList_
      ∧ (∀ p ∈ bulgeModel.ladderList_, bulgeModelMerged.ladder p = bulgeModel.ladder p)) :=
  mergeBulge_result (bulgeModel.ladder 0) (bulgeModel.ladder 1) (bulgeModelMerged.ladder 2)
    (by unfold Ladder.WellFormed; decide) (by unfold Ladder.WellFormed; decide) (by decide)
    bulgeModel bulgeModelMerged (by decide) (by unfold Model.LaddersValid; decide) (by decide)

/-! ## The bond matrix after findHBonds -/

/-- The cells of the bond matrix after findHBonds, for an allocated matrix: the cells at
least two off the diagonal hold the result of the bond test, the other cells are not
written. -/
theorem findHBonds_cells (sq : ℚ → ℚ) (cfg : Config) (m : Model)
    (hd : m.hBond_.dim_ = m.rArray_.length)
    (hl : m.hBond_.array_.length = m.rArray_.length * m.rArray_.length) :
    ∀ r c, r < m.rArray_.length → c < m.rArray_.length →
      (m.findHBonds sq cfg).hBond_.get r c
        = if r + 2 ≤ c ∨ c + 2 ≤ r then
            Residue.hBondedTo sq cfg.hBondCutoff (m.residue r) (m.residue c)
          else m.hBond_.get r c := by
  unfold Model.findHBonds
  simp only []
  generalize hN : m.rArray_.length = N at hd hl
  generalize hf : (fun r c => Residue.hBondedTo sq cfg.hBondCutoff (m.residue r) (m.residue c))
    = f
  have hf' : ∀ r c, Residue.hBondedTo sq cfg.hBondCutoff (m.residue r) (m.residue c) = f r c := by
    intro r c; rw [← hf]
  simp only [hf']
  have key := forLoop_induct (fun (i : Nat) (hb : SquareArray) =>
      hb.dim_ = N ∧ hb.array_.length = N * N
      ∧ ∀ r c, r < N → c < N →
        hb.get r c = if (r + 2 ≤ c ∧ r < i) ∨ (c + 2 ≤ r ∧ c < i) then f r c
          else m.hBond_.get r c)
      (fun i hb => forLoop (i + 2) N (fun j hb => (hb.set i j (f i j)).set j i (f j i)) hb)
      N N 0 m.hBond_ rfl (Nat.zero_le _) ?h0 ?hstep
  case h0 =>
    refine ⟨hd, hl, ?_⟩
    intro r c _ _
    rw [if_neg (by omega)]
  case hstep =>
    intro i hb _ hi ⟨h1, h2, h3⟩
    dsimp only
    by_cases hle : i + 2 ≤ N
    · have inner := forLoop_induct (fun (j : Nat) (hb : SquareArray) =>
          hb.dim_ = N ∧ hb.array_.length = N * N
          ∧ ∀ r c, r < N → c < N →
            hb.get r c = if (r + 2 ≤ c ∧ (r < i ∨ (r = i ∧ c < j)))
                ∨ (c + 2 ≤ r ∧ (c < i ∨ (c = i ∧ r < j))) then f r c
              else m.hBond_.get r c)
          (fun j hb => (hb.set i j (f i j)).set j i (f j i))
          N (N - (i + 2)) (i + 2) hb rfl hle ?h0 ?hstep
      case h0 =>
        refine ⟨h1, h2, ?_⟩
        intro r c hr hc
        rw [h3 r c hr hc]
        by_cases hcond : (r + 2 ≤ c ∧ r < i) ∨ (c + 2 ≤ r ∧ c < i)
        · rw [if_pos hcond, if_pos (by omega)]
        · rw [if_neg hcond, if_neg (by omega)]
      case hstep =>
        intro j s hj1 hj2 ⟨g1, g2, g3⟩
        dsimp only
        refine ⟨g1, by rw [SquareArray.set_length, SquareArray.set_length]; exact g2, ?_⟩
        intro r c hr hc
        rw [SquareArray.get_set_cell _ N j i r c _ (by rw [SquareArray.set_dim]; exact g1)
          (by rw [SquareArray.set_length]; exact g2) hj2 hi hc]
        rw [SquareArray.get_set_cell _ N i j r c _ g1 g2 hi hj2 hc]
        by_cases hA : r = j ∧ c = i
        · obtain ⟨e1, e2⟩ := hA
          subst e1; subst e2
          rw [if_pos ⟨rfl, rfl⟩, if_pos (by omega)]
        · rw [if_neg hA]
          by_cases hB : r = i ∧ c = j
          · obtain ⟨e1, e2⟩ := hB
            subst e1; subst e2
            rw [if_pos ⟨rfl, rfl⟩, if_pos (by omega)]
          · rw [if_neg hB, g3 r c hr hc]
            by_cases hcond : (r + 2 ≤ c ∧ (r < i ∨ (r = i ∧ c < j)))
                ∨ (c + 2 ≤ r ∧ (c < i ∨ (c = i ∧ r < j)))
            · rw [if_pos hcond, if_pos (by omega)]
            · rw [if_neg hcond, if_neg (by omega)]
      obtain ⟨g1, g2, g3⟩ := inner
      refine ⟨g1, g2, ?_⟩
      intro r c hr hc
      rw [g3 r c hr hc]
      by_cases hcond : (r + 2 ≤ c ∧ (r < i ∨ (r = i ∧ c < N)))
          ∨ (c + 2 ≤ r ∧ (c < i ∨ (c = i ∧ r < N)))
      · rw [if_pos hcond, if_pos (by omega)]
      · rw [if_neg hcond, if_neg (by omega)]
    · rw [forLoop_of_ge _ _ _ _ (by omega)]
      refine ⟨h1, h2, ?_⟩
      intro r c hr hc
      rw [h3 r c hr hc]
      by_cases hcond : (r + 2 ≤ c ∧ r < i) ∨ (c + 2 ≤ r ∧ c < i)
      · rw [if_pos hcond, if_pos (by omega)]
      · rw [if_neg hcond, if_neg (by omega)]
  obtain ⟨_, _, k3⟩ := key
  intro r c hr hc
  rw [k3 r c hr hc]
  by_cases hcond : (r + 2 ≤ c ∧ r < N) ∨ (c + 2 ≤ r ∧ c < N)
  · rw [if_pos hcond, if_pos (by omega)]
  · rw [if_neg hcond, if_neg (by omega)]

theorem hBondedTo_of_missing (sq : ℚ → ℚ) (cutoff : ℚ) (self other : Residue)
    (h : self.atom " C" = none ∨ self.atom " O" = none
      ∨ other.atom " N" = none ∨ other.atom " H" = none) :
    Residue.hBondedTo sq cutoff self other = 0 := by
  unfold Residue.hBondedTo
  cases hc : self.atom " C" <;> cases ho : self.atom " O" <;>
    cases hn : other.atom " N" <;> cases hh : other.atom " H" <;>
    simp only [hc, ho, hn, hh] at h ⊢
  simp at h

/-- C11: hBondedTo returns 0 (and nothing else happens) whenever this residue lacks atom C or
O, or the other residue lacks atom N or H.  For an allocated bond matrix, every cell (i, j)
that findHBonds computes (the cells at least two off the diagonal) is false when residue i
lacks C or O or residue j lacks N or H; a true entry at such a pair after findHBonds can only
be a cell that findHBonds does not write and that was true before the call. -/
theorem hBondedTo_missing_atom (sq : ℚ → ℚ) (cfg : Config) (M : Model)
    (hd : M.hBond_.dim_ = M.rArray_.length)
    (hl : M.hBond_.array_.length = M.rArray_.length * M.rArray_.length) :
    (∀ (cutoff : ℚ) (self other : Residue),
        (self.atom " C" = none ∨ self.atom " O" = none
          ∨ other.atom " N" = none ∨ other.atom " H" = none) →
        Residue.hBondedTo sq cutoff self other = 0)
    ∧ (∀ i j, i < M.rArray_.length → j < M.rArray_.length →
        ((M.residue i).atom " C" = none ∨ (M.residue i).atom " O" = none
          ∨ (M.residue j).atom " N" = none ∨ (M.residue j).atom " H" = none) →
        ((i + 2 ≤ j ∨ j + 2 ≤ i) → (M.findHBonds sq cfg).hBonded i j = false)
        ∧ ((M.findHBonds sq cfg).hBonded i j = true →
            ¬ (i + 2 ≤ j ∨ j + 2 ≤ i) ∧ M.hBonded i j = true)) := by
  refine ⟨fun cutoff self other h => hBondedTo_of_missing sq cutoff self other h, ?_⟩
  intro i j hi hj hmiss
  have hcell := findHBonds_cells sq cfg M hd hl i j hi hj
  by_cases hfar : i + 2 ≤ j ∨ j + 2 ≤ i
  · rw [if_pos hfar, hBondedTo_of_missing sq _ _ _ hmiss] at hcell
    have hfalse : (M.findHBonds sq cfg).hBonded i j = false := by
      unfold Model.hBonded
      rw [hcell]
      rfl
    refine ⟨fun _ => hfalse, ?_⟩
    intro ht
    rw [hfalse] at ht
    cases ht
  · rw [if_neg hfar] at hcell
    refine ⟨fun h => absurd h hfar, ?_⟩
    intro ht
    refine ⟨hfar, ?_⟩
    unfold Model.hBonded at ht ⊢
    rw [← hcell]
    exact ht

/-- C11 (witness): three residues without atoms and a zeroed bond matrix. -/
theorem hBondedTo_missing_atom_witness :
    (∀ (cutoff : ℚ) (self other : Residue),
        (self.atom " C" = none ∨ self.atom " O" = none
          ∨ other.atom " N" = none ∨ other.atom " H" = none) →
        Residue.hBondedTo sqrtf cutoff self other = 0)
    ∧ (∀ i j, i < (Model.mk [⟨[], 0⟩, ⟨[], 0⟩, ⟨[], 0⟩] ⟨3, [0, 0, 0, 0, 0, 0, 0, 0, 0]⟩ [] [] [] []).rArray_.length → j < (Model.mk [⟨[], 0⟩, ⟨[], 0⟩, ⟨[], 0⟩] ⟨3, [0, 0, 0, 0, 0, 0, 0, 0, 0]⟩ [] [] [] []).rArray_.length →
        (((Model.mk [⟨[], 0⟩, ⟨[], 0⟩, ⟨[], 0⟩] ⟨3, [0, 0, 0, 0, 0, 0, 0, 0, 0]⟩ [] [] [] []).residue i).atom " C" = none ∨ ((Model.mk [⟨[], 0⟩, ⟨[], 0⟩, ⟨[], 0⟩] ⟨3, [0, 0, 0, 0, 0, 0, 0, 0, 0]⟩ [] [] [] []).residue i).atom " O" = none
          ∨ ((Model.mk [⟨[], 0⟩, ⟨[], 0⟩, ⟨[], 0⟩] ⟨3, [0, 0, 0, 0, 0, 0, 0, 0, 0]⟩ [] [] [] []).residue j).atom " N" = none ∨ ((Model.mk [⟨[], 0⟩, ⟨[], 0⟩, ⟨[], 0⟩] ⟨3, [0, 0, 0, 0, 0, 0, 0, 0, 0]⟩ [] [] [] []).residue j).atom " H" = none) →
        ((i + 2 ≤ j ∨ j + 2 ≤ i) → ((Model.mk [⟨[], 0⟩, ⟨[], 0⟩, ⟨[], 0⟩] ⟨3, [0, 0, 0, 0, 0, 0, 0, 0, 0]⟩ [] [] [] []).findHBonds sqrtf Config.default).hBonded i j = false)
        ∧ (((Model.mk [⟨[], 0⟩, ⟨[], 0⟩, ⟨[], 0⟩] ⟨3, [0, 0, 0, 0, 0, 0, 0, 0, 0]⟩ [] [] [] []).findHBonds sqrtf Config.default).hBonded i j = true →
            ¬ (i + 2 ≤ j ∨ j + 2 ≤ i) ∧ (Model.mk [⟨[], 0⟩, ⟨[], 0⟩, ⟨[], 0⟩] ⟨3, [0, 0, 0, 0, 0, 0, 0, 0, 0]⟩ [] [] [] []).hBonded i j = true)) :=
  hBondedTo_missing_atom sqrtf Config.default (Model.mk [⟨[], 0⟩, ⟨[], 0⟩, ⟨[], 0⟩] ⟨3, [0, 0, 0, 0, 0, 0, 0, 0, 0]⟩ [] [] [] []) (by decide) (by decide)

/-! ## Residue flags after findTurns and markHelices -/

theorem or_and_ne_zero (x f g : Nat) : (x ||| f) &&& g ≠ 0 ↔ x &&& g ≠ 0 ∨ f &&& g ≠ 0 := by
  have hd : (x ||| f) &&& g = (x &&& g) ||| (f &&& g) := by
    apply Nat.eq_of_testBit_eq
    intro i
    simp only [Nat.testBit_and, Nat.testBit_or, Bool.and_or_distrib_right]
  rw [hd]
  constructor
  · intro h
    by_contra hc
    push_neg at hc
    rw [hc.1, hc.2] at h
    exact h rfl
  · rintro (h | h) hc
    · apply h
      apply Nat.eq_of_testBit_eq
      intro i
      have := congrArg (fun v => v.testBit i) hc
      simp only [Nat.testBit_or, Nat.zero_testBit, Bool.or_eq_false_iff] at this
      rw [this.1]; simp
    · apply h
      apply Nat.eq_of_testBit_eq
      intro i
      have := congrArg (fun v => v.testBit i) hc
      simp only [Nat.testBit_or, Nat.zero_testBit, Bool.or_eq_false_iff] at this
      rw [this.2]; simp

theorem flag_setFlag (m : Model) (n f g r : Nat) (hr : r < m.rArray_.length) :
    ((m.setFlag n f).residue r).flag g ≠ 0
      ↔ (m.residue r).flag g ≠ 0 ∨ (n = r ∧ f &&& g ≠ 0) := by
  unfold Model.setFlag Model.residue
  simp only [getD_set_residue]
  by_cases h : n = r
  · subst h
    rw [if_pos ⟨rfl, hr⟩]
    simp only [Residue.setFlag, Residue.flag, Model.residue]
    rw [or_and_ne_zero]
    simp
  · rw [if_neg (fun hc => h hc.1)]
    simp [h]

/-- The flags after a loop that sets the flag `f` on the residues `i + lo .. i + hi - 1`. -/
theorem flag_forLoop_setFlag (m s : Model) (i f : Nat) (lo hi : Nat)
    (hs : KeepsAllButFlags m s) :
    KeepsAllButFlags m (forLoop lo hi (fun j m => m.setFlag (i + j) f) s)
    ∧ ∀ g r, r < m.rArray_.length →
      (((forLoop lo hi (fun j m => m.setFlag (i + j) f) s).residue r).flag g ≠ 0
        ↔ (s.residue r).flag g ≠ 0 ∨ (∃ j, lo ≤ j ∧ j < hi ∧ i + j = r ∧ f &&& g ≠ 0)) := by
  by_cases hle : lo ≤ hi
  · have key := forLoop_induct (fun (k : Nat) (t : Model) => KeepsAllButFlags m t
        ∧ ∀ g r, r < m.rArray_.length →
          ((t.residue r).flag g ≠ 0
            ↔ (s.residue r).flag g ≠ 0 ∨ (∃ j, lo ≤ j ∧ j < k ∧ i + j = r ∧ f &&& g ≠ 0)))
        (fun j m => m.setFlag (i + j) f) hi (hi - lo) lo s rfl hle ?h0 ?hstep
    case h0 =>
      refine ⟨hs, ?_⟩
      intro g r _
      constructor
      · intro h; exact Or.inl h
      · rintro (h | ⟨j, h1, h2, _⟩)
        · exact h
        · omega
    case hstep =>
      intro k t hk1 hk2 ⟨a1, a2⟩
      dsimp only
      refine ⟨keeps_trans a1 (keeps_setFlag _ _ _), ?_⟩
      intro g r hr
      rw [flag_setFlag t (i + k) f g r (by rw [a1.2.2.2.2.2.1]; exact hr), a2 g r hr]
      constructor
      · rintro ((h | ⟨j, h1, h2, h3, h4⟩) | ⟨h1, h2⟩)
        · exact Or.inl h
        · exact Or.inr ⟨j, h1, by omega, h3, h4⟩
        · exact Or.inr ⟨k, hk1, by omega, h1, h2⟩
      · rintro (h | ⟨j, h1, h2, h3, h4⟩)
        · exact Or.inl (Or.inl h)
        · by_cases hjk : j = k
          · subst hjk
            exact Or.inr ⟨h3, h4⟩
          · exact Or.inl (Or.inr ⟨j, h1, by omega, h3, h4⟩)
    exact key
  · rw [forLoop_of_ge _ _ _ _ (by omega)]
    refine ⟨hs, ?_⟩
    intro g r _
    constructor
    · intro h; exact Or.inl h
    · rintro (h | ⟨j, h1, h2, _⟩)
      · exact h
      · omega

/-- The flags after findTurns(n), for any test mask `g`: a bit of `g` is set on residue `r`
exactly when it was set before or some bonded pair `(k, k + n)` with `k + n < N` set it, as the
acceptor flag on `k`, the gap flag on `k + 1 .. k + n - 1` or the donor flag on `k + n`. -/
theorem findTurns_flag (n : Nat) (m : Model) :
    KeepsAllButFlags m (m.findTurns n)
    ∧ ∀ g r, r < m.rArray_.length →
      (((m.findTurns n).residue r).flag g ≠ 0
        ↔ (m.residue r).flag g ≠ 0
          ∨ ∃ k, k + n < m.rArray_.length ∧ m.hBonded k (k + n) = true
            ∧ ((k = r ∧ (if n = 3 then R_3ACCEPTOR else R_4ACCEPTOR) &&& g ≠ 0)
              ∨ (∃ j, 1 ≤ j ∧ j < n ∧ k + j = r ∧ (if n = 3 then R_3GAP else R_4GAP) &&& g ≠ 0)
              ∨ (k + n = r ∧ (if n = 3 then R_3DONOR else R_4DONOR) &&& g ≠ 0))) := by
  unfold Model.findTurns
  simp only []
  generalize (if n = 3 then R_3ACCEPTOR else R_4ACCEPTOR) = acc
  generalize (if n = 3 then R_3GAP else R_4GAP) = gap
  generalize (if n = 3 then R_3DONOR else R_4DONOR) = don
  have key := forLoop_induct (fun (i : Nat) (s : Model) => KeepsAllButFlags m s
      ∧ ∀ g r, r < m.rArray_.length →
        ((s.residue r).flag g ≠ 0
          ↔ (m.residue r).flag g ≠ 0
            ∨ ∃ k, k < i ∧ m.hBonded k (k + n) = true
              ∧ ((k = r ∧ acc &&& g ≠ 0)
                ∨ (∃ j, 1 ≤ j ∧ j < n ∧ k + j = r ∧ gap &&& g ≠ 0)
                ∨ (k + n = r ∧ don &&& g ≠ 0))))
      (fun i m =>
        if m.hBonded i (i + n) then
          ((forLoop 1 n (fun j m => m.setFlag (i + j) gap) (m.setFlag i acc)).setFlag
            (i + n) don)
        else m)
      (m.rArray_.length - n) (m.rArray_.length - n) 0 m rfl (Nat.zero_le _) ?h0 ?hstep
  case h0 =>
    refine ⟨keeps_refl m, ?_⟩
    intro g r _
    constructor
    · intro h; exact Or.inl h
    · rintro (h | ⟨k, h1, _⟩)
      · exact h
      · omega
  case hstep =>
    intro i s _ hi ⟨a1, a2⟩
    dsimp only
    rw [hBonded_of_keeps a1]
    by_cases hb : m.hBonded i (i + n) = true
    · rw [if_pos hb]
      have k1 : KeepsAllButFlags m (s.setFlag i acc) := keeps_trans a1 (keeps_setFlag _ _ _)
      obtain ⟨k2, f2⟩ := flag_forLoop_setFlag m (s.setFlag i acc) i gap 1 n k1
      refine ⟨keeps_trans k2 (keeps_setFlag _ _ _), ?_⟩
      intro g r hr
      rw [flag_setFlag _ (i + n) don g r (by rw [k2.2.2.2.2.2.1]; exact hr), f2 g r hr,
        flag_setFlag s i acc g r (by rw [a1.2.2.2.2.2.1]; exact hr), a2 g r hr]
      constructor
      · rintro ((((h | ⟨k, h1, h2, h3⟩) | ⟨h1, h2⟩) | ⟨j, h1, h2, h3, h4⟩) | ⟨h1, h2⟩)
        · exact Or.inl h
        · exact Or.inr ⟨k, by omega, h2, h3⟩
        · exact Or.inr ⟨i, by omega, hb, Or.inl ⟨h1, h2⟩⟩
        · exact Or.inr ⟨i, by omega, hb, Or.inr (Or.inl ⟨j, h1, h2, h3, h4⟩)⟩
        · exact Or.inr ⟨i, by omega, hb, Or.inr (Or.inr ⟨h1, h2⟩)⟩
      · rintro (h | ⟨k, h1, h2, h3⟩)
        · exact Or.inl (Or.inl (Or.inl (Or.inl h)))
        · by_cases hki : k = i
          · subst hki
            rcases h3 with h3 | h3 | h3
            · exact Or.inl (Or.inl (Or.inr h3))
            · exact Or.inl (Or.inr h3)
            · exact Or.inr h3
          · exact Or.inl (Or.inl (Or.inl (Or.inr ⟨k, by omega, h2, h3⟩)))
    · rw [if_neg hb]
      refine ⟨a1, ?_⟩
      intro g r hr
      rw [a2 g r hr]
      constructor
      · rintro (h | ⟨k, h1, h2, h3⟩)
        · exact Or.inl h
        · exact Or.inr ⟨k, by omega, h2, h3⟩
      · rintro (h | ⟨k, h1, h2, h3⟩)
        · exact Or.inl h
        · by_cases hki : k = i
          · subst hki
            exact absurd h2 hb
          · exact Or.inr ⟨k, by omega, h2, h3⟩
  obtain ⟨k1, k2⟩ := key
  refine ⟨k1, ?_⟩
  intro g r hr
  rw [k2 g r hr]
  constructor
  · rintro (h | ⟨k, h1, h2, h3⟩)
    · exact Or.inl h
    · exact Or.inr ⟨k, by omega, h2, h3⟩
  · rintro (h | ⟨k, h1, h2, h3⟩)
    · exact Or.inl h
    · exact Or.inr ⟨k, by omega, h2, h3⟩

theorem turn_flag_bits (n : Nat) :
    (if n = 3 then R_3ACCEPTOR else R_4ACCEPTOR) &&& (if n = 3 then R_3ACCEPTOR else R_4ACCEPTOR) ≠ 0
    ∧ (if n = 3 then R_3GAP else R_4GAP) &&& (if n = 3 then R_3ACCEPTOR else R_4ACCEPTOR) = 0
    ∧ (if n = 3 then R_3DONOR else R_4DONOR) &&& (if n = 3 then R_3ACCEPTOR else R_4ACCEPTOR) = 0
    ∧ (if n = 3 then R_3ACCEPTOR else R_4ACCEPTOR) &&& (if n = 3 then R_3DONOR else R_4DONOR) = 0
    ∧ (if n = 3 then R_3GAP else R_4GAP) &&& (if n = 3 then R_3DONOR else R_4DONOR) = 0
    ∧ (if n = 3 then R_3DONOR else R_4DONOR) &&& (if n = 3 then R_3DONOR else R_4DONOR) ≠ 0
    ∧ (if n = 3 then R_3ACCEPTOR else R_4ACCEPTOR) &&& (if n = 3 then R_3GAP else R_4GAP) = 0
    ∧ (if n = 3 then R_3GAP else R_4GAP) &&& (if n = 3 then R_3GAP else R_4GAP) ≠ 0
    ∧ (if n = 3 then R_3DONOR else R_4DONOR) &&& (if n = 3 then R_3GAP else R_4GAP) = 0 := by
  by_cases h : n = 3
  · simp only [h, if_true]; decide
  · simp only [h, if_false]; decide

/-- C16: after findTurns(n), for a residue r < N whose flags were clear before the call: r is
an n-acceptor iff r + n < N and bonded(r, r + n); r is an n-donor iff r >= n and
bonded(r - n, r); r is an n-gap iff there is i with i < r < i + n, i + n < N and
bonded(i, i + n). -/
theorem findTurns_flags (n : Nat) (M : Model) (r : Nat) (hr : r < M.rArray_.length)
    (hclear : (M.residue r).flags_ = 0) :
    (((M.findTurns n).residue r).flag (if n = 3 then R_3ACCEPTOR else R_4ACCEPTOR) ≠ 0
        ↔ r + n < M.rArray_.length ∧ M.hBonded r (r + n) = true)
    ∧ (((M.findTurns n).residue r).flag (if n = 3 then R_3DONOR else R_4DONOR) ≠ 0
        ↔ n ≤ r ∧ M.hBonded (r - n) r = true)
    ∧ (((M.findTurns n).residue r).flag (if n = 3 then R_3GAP else R_4GAP) ≠ 0
        ↔ ∃ i, i < r ∧ r < i + n ∧ i + n < M.rArray_.length ∧ M.hBonded i (i + n) = true) := by
  obtain ⟨b1, b2, b3, b4, b5, b6, b7, b8, b9⟩ := turn_flag_bits n
  have hold : ∀ g, ¬ ((M.residue r).flag g ≠ 0) := by
    intro g
    simp [Residue.flag, hclear]
  obtain ⟨_, hf⟩ := findTurns_flag n M
  refine ⟨?_, ?_, ?_⟩
  · rw [hf _ r hr]
    constructor
    · rintro (h | ⟨k, h1, h2, (⟨h3, _⟩ | ⟨j, _, _, _, h4⟩ | ⟨_, h4⟩)⟩)
      · exact absurd h (hold _)
      · subst h3; exact ⟨h1, h2⟩
      · exact absurd b2 h4
      · exact absurd b3 h4
    · rintro ⟨h1, h2⟩
      exact Or.inr ⟨r, h1, h2, Or.inl ⟨rfl, b1⟩⟩
  · rw [hf _ r hr]
    constructor
    · rintro (h | ⟨k, h1, h2, (⟨_, h4⟩ | ⟨j, _, _, _, h4⟩ | ⟨h3, _⟩)⟩)
      · exact absurd h (hold _)
      · exact absurd b4 h4
      · exact absurd b5 h4
      · subst h3
        refine ⟨by omega, ?_⟩
        rw [Nat.add_sub_cancel]
        exact h2
    · rintro ⟨h1, h2⟩
      refine Or.inr ⟨r - n, by omega, ?_, Or.inr (Or.inr ⟨by omega, b6⟩)⟩
      rw [Nat.sub_add_cancel h1]
      exact h2
  · rw [hf _ r hr]
    constructor
    · rintro (h | ⟨k, h1, h2, (⟨_, h4⟩ | ⟨j, j1, j2, j3, _⟩ | ⟨_, h4⟩)⟩)
      · exact absurd h (hold _)
      · exact absurd b7 h4
      · exact ⟨k, by omega, by omega, h1, h2⟩
      · exact absurd b9 h4
    · rintro ⟨i, h1, h2, h3, h4⟩
      exact Or.inr ⟨i, h3, h4, Or.inr (Or.inl ⟨r - i, by omega, by omega, by omega, b8⟩)⟩

/-- C16 (witness): findTurns(4) on the example model of twelve residues, at residue 5. -/
theorem findTurns_flags_witness :
    (((helixModel12.findTurns 4).residue 5).flag (if 4 = 3 then R_3ACCEPTOR else R_4ACCEPTOR) ≠ 0
        ↔ 5 + 4 < helixModel12.rArray_.length ∧ helixModel12.hBonded 5 (5 + 4) = true)
    ∧ (((helixModel12.findTurns 4).residue 5).flag (if 4 = 3 then R_3DONOR else R_4DONOR) ≠ 0
        ↔ 4 ≤ 5 ∧ helixModel12.hBonded (5 - 4) 5 = true)
    ∧ (((helixModel12.findTurns 4).residue 5).flag (if 4 = 3 then R_3GAP else R_4GAP) ≠ 0
        ↔ ∃ i, i < 5 ∧ 5 < i + 4 ∧ i + 4 < helixModel12.rArray_.length ∧ helixModel12.hBonded i (i + 4) = true) :=
  findTurns_flags 4 helixModel12 5 (by decide) (by decide)

theorem residue_of_ge (m : Model) (i : Nat) (h : m.rArray_.length ≤ i) :
    m.residue i = default := by
  unfold Model.residue
  rw [List.getD_eq_getElem?_getD, List.getElem?_eq_none h]
  rfl

theorem flag_default (g : Nat) : (default : Residue).flag g = 0 := by
  show (0 : Nat) &&& g = 0
  simp

/-- The flags after markHelices(n), for any test mask `g`: a bit of `g` is set on residue `r`
exactly when it was set before or the loop set the helix flag on `r`, from an index `i` of the
loop range whose residues `i - 1` and `i` both carry the acceptor flag. -/
theorem markHelices_flag (n : Nat) (m : Model)
    (hbit : (if n = 3 then R_3HELIX else R_4HELIX)
      &&& (if n = 3 then R_3ACCEPTOR else R_4ACCEPTOR) = 0) :
    KeepsAllButFlags m (m.markHelices n)
    ∧ ∀ g r, r < m.rArray_.length →
      (((m.markHelices n).residue r).flag g ≠ 0
        ↔ (m.residue r).flag g ≠ 0
          ∨ ∃ i, 1 ≤ i ∧ i + n < m.rArray_.length
            ∧ (m.residue (i - 1)).flag (if n = 3 then R_3ACCEPTOR else R_4ACCEPTOR) ≠ 0
            ∧ (m.residue i).flag (if n = 3 then R_3ACCEPTOR else R_4ACCEPTOR) ≠ 0
            ∧ i ≤ r ∧ r < i + n ∧ (if n = 3 then R_3HELIX else R_4HELIX) &&& g ≠ 0) := by
  unfold Model.markHelices
  simp only []
  generalize (if n = 3 then R_3ACCEPTOR else R_4ACCEPTOR) = acc at hbit ⊢
  generalize (if n = 3 then R_3HELIX else R_4HELIX) = helix at hbit ⊢
  by_cases hle : 1 ≤ m.rArray_.length - n
  · have key := forLoop_induct (fun (k : Nat) (s : Model) => KeepsAllButFlags m s
        ∧ ∀ g r, r < m.rArray_.length →
          ((s.residue r).flag g ≠ 0
            ↔ (m.residue r).flag g ≠ 0
              ∨ ∃ i, 1 ≤ i ∧ i < k
                ∧ (m.residue (i - 1)).flag acc ≠ 0 ∧ (m.residue i).flag acc ≠ 0
                ∧ i ≤ r ∧ r < i + n ∧ helix &&& g ≠ 0))
        (fun i m =>
          if (m.residue (i - 1)).flag acc ≠ 0 ∧ (m.residue i).flag acc ≠ 0 then
            forLoop 0 n (fun j m => m.setFlag (i + j) helix) m
          else m)
        (m.rArray_.length - n) (m.rArray_.length - n - 1) 1 m rfl hle ?h0 ?hstep
    case h0 =>
      refine ⟨keeps_refl m, ?_⟩
      intro g r _
      constructor
      · intro h; exact Or.inl h
      · rintro (h | ⟨i, h1, h2, _⟩)
        · exact h
        · omega
    case hstep =>
      intro k s hk1 hk2 ⟨a1, a2⟩
      dsimp only
      have hacc : ∀ r, r < m.rArray_.length →
          ((s.residue r).flag acc ≠ 0 ↔ (m.residue r).flag acc ≠ 0) := by
        intro r hr
        rw [a2 acc r hr]
        constructor
        · rintro (h | ⟨i, _, _, _, _, _, _, h⟩)
          · exact h
          · exact absurd hbit h
        · intro h; exact Or.inl h
      have hcond : ((s.residue (k - 1)).flag acc ≠ 0 ∧ (s.residue k).flag acc ≠ 0)
          ↔ ((m.residue (k - 1)).flag acc ≠ 0 ∧ (m.residue k).flag acc ≠ 0) := by
        rw [hacc (k - 1) (by omega), hacc k (by omega)]
      by_cases hc : (m.residue (k - 1)).flag acc ≠ 0 ∧ (m.residue k).flag acc ≠ 0
      · rw [if_pos (hcond.2 hc)]
        obtain ⟨k2, f2⟩ := flag_forLoop_setFlag m s k helix 0 n a1
        refine ⟨k2, ?_⟩
        intro g r hr
        rw [f2 g r hr, a2 g r hr]
        constructor
        · rintro ((h | ⟨i, h1, h2, h3⟩) | ⟨j, j1, j2, j3, j4⟩)
          · exact Or.inl h
          · exact Or.inr ⟨i, h1, by omega, h3⟩
          · exact Or.inr ⟨k, hk1, by omega, hc.1, hc.2, by omega, by omega, j4⟩
        · rintro (h | ⟨i, h1, h2, h3, h4, h5, h6, h7⟩)
          · exact Or.inl (Or.inl h)
          · by_cases hik : i = k
            · subst hik
              exact Or.inr ⟨r - i, by omega, by omega, by omega, h7⟩
            · exact Or.inl (Or.inr ⟨i, h1, by omega, h3, h4, h5, h6, h7⟩)
      · rw [if_neg (fun h => hc (hcond.1 h))]
        refine ⟨a1, ?_⟩
        intro g r hr
        rw [a2 g r hr]
        constructor
        · rintro (h | ⟨i, h1, h2, h3⟩)
          · exact Or.inl h
          · exact Or.inr ⟨i, h1, by omega, h3⟩
        · rintro (h | ⟨i, h1, h2, h3, h4, h5⟩)
          · exact Or.inl h
          · by_cases hik : i = k
            · subst hik
              exact absurd ⟨h3, h4⟩ hc
            · exact Or.inr ⟨i, h1, by omega, h3, h4, h5⟩
    obtain ⟨k1, k2⟩ := key
    refine ⟨k1, ?_⟩
    intro g r hr
    rw [k2 g r hr]
    constructor
    · rintro (h | ⟨i, h1, h2, h3⟩)
      · exact Or.inl h
      · exact Or.inr ⟨i, h1, by omega, h3⟩
    · rintro (h | ⟨i, h1, h2, h3⟩)
      · exact Or.inl h
      · exact Or.inr ⟨i, h1, by omega, h3⟩
  · rw [forLoop_of_ge _ _ _ _ (by omega)]
    refine ⟨keeps_refl m, ?_⟩
    intro g r _
    constructor
    · intro h; exact Or.inl h
    · rintro (h | ⟨i, h1, h2, _⟩)
      · exact h
      · omega

/-- The acceptor flag after findTurns(n) on a residue whose acceptor flag was clear. -/
theorem findTurns_acceptor (n : Nat) (m : Model) (i : Nat)
    (h0 : (m.residue i).flag (if n = 3 then R_3ACCEPTOR else R_4ACCEPTOR) = 0) :
    ((m.findTurns n).residue i).flag (if n = 3 then R_3ACCEPTOR else R_4ACCEPTOR) ≠ 0
      ↔ i + n < m.rArray_.length ∧ m.hBonded i (i + n) = true := by
  obtain ⟨b1, b2, b3, _⟩ := turn_flag_bits n
  obtain ⟨hk, hf⟩ := findTurns_flag n m
  by_cases hi : i < m.rArray_.length
  · rw [hf _ i hi]
    constructor
    · rintro (h | ⟨k, h1, h2, (⟨h3, _⟩ | ⟨j, _, _, _, h4⟩ | ⟨_, h4⟩)⟩)
      · exact absurd h0 h
      · subst h3; exact ⟨h1, h2⟩
      · exact absurd b2 h4
      · exact absurd b3 h4
    · rintro ⟨h1, h2⟩
      exact Or.inr ⟨i, h1, h2, Or.inl ⟨rfl, b1⟩⟩
  · rw [residue_of_ge _ i (by rw [hk.2.2.2.2.2.1]; omega), flag_default]
    constructor
    · intro h; exact absurd rfl h
    · rintro ⟨h1, _⟩; omega

theorem helix_flag_bits (n : Nat) :
    (if n = 3 then R_3HELIX else R_4HELIX) &&& (if n = 3 then R_3ACCEPTOR else R_4ACCEPTOR) = 0
    ∧ (if n = 3 then R_3ACCEPTOR else R_4ACCEPTOR) &&& (if n = 3 then R_3HELIX else R_4HELIX) = 0
    ∧ (if n = 3 then R_3GAP else R_4GAP) &&& (if n = 3 then R_3HELIX else R_4HELIX) = 0
    ∧ (if n = 3 then R_3DONOR else R_4DONOR) &&& (if n = 3 then R_3HELIX else R_4HELIX) = 0
    ∧ (if n = 3 then R_3HELIX else R_4HELIX) &&& (if n = 3 then R_3HELIX else R_4HELIX) ≠ 0 := by
  by_cases h : n = 3
  · simp only [h, if_true]; decide
  · simp only [h, if_false]; decide

/-- C15: after findTurns(n) and markHelices(n), for a residue r < N whose n-helix flag was clear
and with the n-acceptor flags clear before findTurns: r carries the n-helix flag if and only if
there is an index i >= 1 with i <= r <= i+n-1 such that residues i-1 and i are both
n-acceptors; the two are n-acceptors exactly when i + n < N, bonded(i-1, i-1+n) and
bonded(i, i+n); and every such i is below the loop bound N - n. -/
theorem markHelices_flags (n : Nat) (M : Model) (r : Nat) (hr : r < M.rArray_.length)
    (hacc : ∀ i, i < M.rArray_.length → (M.residue i).flag (if n = 3 then R_3ACCEPTOR else R_4ACCEPTOR) = 0)
    (hhel : (M.residue r).flag (if n = 3 then R_3HELIX else R_4HELIX) = 0) :
    ((((M.findTurns n).markHelices n).residue r).flag (if n = 3 then R_3HELIX else R_4HELIX) ≠ 0
        ↔ ∃ i, 1 ≤ i ∧ i ≤ r ∧ r ≤ i + n - 1
          ∧ ((M.findTurns n).residue (i - 1)).flag (if n = 3 then R_3ACCEPTOR else R_4ACCEPTOR) ≠ 0
          ∧ ((M.findTurns n).residue i).flag (if n = 3 then R_3ACCEPTOR else R_4ACCEPTOR) ≠ 0)
    ∧ (∀ i, 1 ≤ i →
        (((M.findTurns n).residue (i - 1)).flag (if n = 3 then R_3ACCEPTOR else R_4ACCEPTOR) ≠ 0
            ∧ ((M.findTurns n).residue i).flag (if n = 3 then R_3ACCEPTOR else R_4ACCEPTOR) ≠ 0
          ↔ i + n < M.rArray_.length ∧ M.hBonded (i - 1) (i - 1 + n) = true
            ∧ M.hBonded i (i + n) = true))
    ∧ (∀ i, 1 ≤ i →
        ((M.findTurns n).residue (i - 1)).flag (if n = 3 then R_3ACCEPTOR else R_4ACCEPTOR) ≠ 0 →
        ((M.findTurns n).residue i).flag (if n = 3 then R_3ACCEPTOR else R_4ACCEPTOR) ≠ 0 →
        i < M.rArray_.length - n) := by
  obtain ⟨b1, b2, b3, b4, b5⟩ := helix_flag_bits n
  obtain ⟨hk, hf⟩ := findTurns_flag n M
  have hlen : (M.findTurns n).rArray_.length = M.rArray_.length := hk.2.2.2.2.2.1
  have hacc0 : ∀ i, (M.residue i).flag (if n = 3 then R_3ACCEPTOR else R_4ACCEPTOR) = 0 := by
    intro i
    by_cases hi : i < M.rArray_.length
    · exact hacc i hi
    · rw [residue_of_ge _ i (by omega), flag_default]
  have hA : ∀ i, ((M.findTurns n).residue i).flag (if n = 3 then R_3ACCEPTOR else R_4ACCEPTOR) ≠ 0
      ↔ i + n < M.rArray_.length ∧ M.hBonded i (i + n) = true :=
    fun i => findTurns_acceptor n M i (hacc0 i)
  have hH : ¬ (((M.findTurns n).residue r).flag (if n = 3 then R_3HELIX else R_4HELIX) ≠ 0) := by
    rw [hf _ r hr]
    rintro (h | ⟨k, _, _, (⟨_, h4⟩ | ⟨j, _, _, _, h4⟩ | ⟨_, h4⟩)⟩)
    · exact h hhel
    · exact h4 b2
    · exact h4 b3
    · exact h4 b4
  obtain ⟨_, hm⟩ := markHelices_flag n (M.findTurns n) b1
  refine ⟨?_, ?_, ?_⟩
  · rw [hm _ r (by rw [hlen]; exact hr)]
    constructor
    · rintro (h | ⟨i, h1, h2, h3, h4, h5, h6, _⟩)
      · exact absurd h hH
      · exact ⟨i, h1, h5, by omega, h3, h4⟩
    · rintro ⟨i, h1, h2, h3, h4, h5⟩
      have := (hA i).1 h5
      exact Or.inr ⟨i, h1, by rw [hlen]; exact this.1, h4, h5, h2, by omega, b5⟩
  · intro i hi
    rw [hA (i - 1), hA i]
    constructor
    · rintro ⟨⟨_, h2⟩, ⟨h3, h4⟩⟩
      exact ⟨h3, h2, h4⟩
    · rintro ⟨h1, h2, h3⟩
      exact ⟨⟨by omega, h2⟩, ⟨h1, h3⟩⟩
  · intro i _ _ h2
    have := (hA i).1 h2
    omega

/-- C15 (witness): findTurns(4) and markHelices(4) on the example model of twelve residues, at
residue 5. -/
theorem markHelices_flags_witness :
    ((((helixModel12.findTurns 4).markHelices 4).residue 5).flag (if 4 = 3 then R_3HELIX else R_4HELIX) ≠ 0
        ↔ ∃ i, 1 ≤ i ∧ i ≤ 5 ∧ 5 ≤ i + 4 - 1
          ∧ ((helixModel12.findTurns 4).residue (i - 1)).flag (if 4 = 3 then R_3ACCEPTOR else R_4ACCEPTOR) ≠ 0
          ∧ ((helixModel12.findTurns 4).residue i).flag (if 4 = 3 then R_3ACCEPTOR else R_4ACCEPTOR) ≠ 0)
    ∧ (∀ i, 1 ≤ i →
        (((helixModel12.findTurns 4).residue (i - 1)).flag (if 4 = 3 then R_3ACCEPTOR else R_4ACCEPTOR) ≠ 0
            ∧ ((helixModel12.findTurns 4).residue i).flag (if 4 = 3 then R_3ACCEPTOR else R_4ACCEPTOR) ≠ 0
          ↔ i + 4 < helixModel12.rArray_.length ∧ helixModel12.hBonded (i - 1) (i - 1 + 4) = true
            ∧ helixModel12.hBonded i (i + 4) = true))
    ∧ (∀ i, 1 ≤ i →
        ((helixModel12.findTurns 4).residue (i - 1)).flag (if 4 = 3 then R_3ACCEPTOR else R_4ACCEPTOR) ≠ 0 →
        ((helixModel12.findTurns 4).residue i).flag (if 4 = 3 then R_3ACCEPTOR else R_4ACCEPTOR) ≠ 0 →
        i < helixModel12.rArray_.length - 4) :=
  markHelices_flags 4 helixModel12 5 (by decide) (by decide) (by decide)

/-! ## Bridge marks and bridge flags -/

/-- The flags after the bridge marking of findBridges, for any test mask `g`: a bit of `g` is
set on residue `r` exactly when it was set before or `r` is the row or the column of a tested
cell whose mark sets it. -/
theorem markBridges_flag (m : Model) :
    ∀ g r, r < m.rArray_.length →
      ((m.markBridges.1.residue r).flag g ≠ 0
        ↔ (m.residue r).flag g ≠ 0
          ∨ ∃ i j, (1 ≤ i ∧ i < j ∧ j < m.rArray_.length) ∧ (r = i ∨ r = j)
            ∧ ((m.bridgeValue i j = charP ∧ R_PBRIDGE &&& g ≠ 0)
              ∨ (m.bridgeValue i j = charA ∧ R_ABRIDGE &&& g ≠ 0))) := by
  have ext : ∀ (X : Prop) (W : Nat → Nat → Prop) (R R1 : Nat → Nat → Prop) (k jj : Nat),
      (∀ i j, R1 i j ↔ R i j ∨ (i = k ∧ j = jj)) →
      (((X ∨ ∃ i j, R i j ∧ W i j) ∨ W k jj) ↔ (X ∨ ∃ i j, R1 i j ∧ W i j)) := by
    intro X W R R1 k jj hR
    constructor
    · rintro ((h | ⟨i, j, h1, h2⟩) | h)
      · exact Or.inl h
      · exact Or.inr ⟨i, j, (hR i j).2 (Or.inl h1), h2⟩
      · exact Or.inr ⟨k, jj, (hR k jj).2 (Or.inr ⟨rfl, rfl⟩), h⟩
    · rintro (h | ⟨i, j, h1, h2⟩)
      · exact Or.inl (Or.inl h)
      · rcases (hR i j).1 h1 with h3 | ⟨h3, h4⟩
        · exact Or.inl (Or.inr ⟨i, j, h3, h2⟩)
        · subst h3; subst h4
          exact Or.inr h2
  have ext0 : ∀ (X : Prop) (W : Nat → Nat → Prop) (R R1 : Nat → Nat → Prop) (k jj : Nat),
      (∀ i j, R1 i j ↔ R i j ∨ (i = k ∧ j = jj)) → ¬ W k jj →
      ((X ∨ ∃ i j, R i j ∧ W i j) ↔ (X ∨ ∃ i j, R1 i j ∧ W i j)) := by
    intro X W R R1 k jj hR hW
    rw [← ext X W R R1 k jj hR]
    constructor
    · intro h; exact Or.inl h
    · rintro (h | h)
      · exact h
      · exact absurd h hW
  by_cases hN : m.rArray_.length = 0
  · intro g r hr
    omega
  have key := forLoop_induct (fun (k : Nat) (s : Model × SquareArray) => KeepsAllButFlags m s.1
      ∧ ∀ g r, r < m.rArray_.length →
        ((s.1.residue r).flag g ≠ 0
          ↔ (m.residue r).flag g ≠ 0
            ∨ ∃ i j, (1 ≤ i ∧ i < j ∧ j < m.rArray_.length ∧ i < k) ∧ (r = i ∨ r = j)
              ∧ ((m.bridgeValue i j = charP ∧ R_PBRIDGE &&& g ≠ 0)
                ∨ (m.bridgeValue i j = charA ∧ R_ABRIDGE &&& g ≠ 0))))
      (fun i s =>
        forLoop (i + 1) m.rArray_.length (fun j (s : Model × SquareArray) =>
          if (s.1.hBonded (i - 1) j && s.1.hBonded j (i + 1))
              || (s.1.hBonded (j - 1) i && s.1.hBonded i (j + 1)) then
            ((s.1.setFlag i R_PBRIDGE).setFlag j R_PBRIDGE, s.2.set i j charP)
          else if (s.1.hBonded i j && s.1.hBonded j i)
              || (s.1.hBonded (i - 1) (j + 1) && s.1.hBonded (j - 1) (i + 1)) then
            ((s.1.setFlag i R_ABRIDGE).setFlag j R_ABRIDGE, s.2.set i j charA)
          else s) s)
      m.rArray_.length (m.rArray_.length - 1) 1 (m, SquareArray.zero ⟨m.rArray_.length, []⟩)
      rfl (by omega) ?h0 ?hstep
  case h0 =>
    refine ⟨keeps_refl m, ?_⟩
    intro g r _
    constructor
    · intro h; exact Or.inl h
    · rintro (h | ⟨i, j, h1, _⟩)
      · exact h
      · omega
  case hstep =>
    intro k s hk1 hk2 ⟨a1, a2⟩
    dsimp only
    have inner := forLoop_induct (fun (jj : Nat) (s : Model × SquareArray) =>
        KeepsAllButFlags m s.1
        ∧ ∀ g r, r < m.rArray_.length →
          ((s.1.residue r).flag g ≠ 0
            ↔ (m.residue r).flag g ≠ 0
              ∨ ∃ i j, (1 ≤ i ∧ i < j ∧ j < m.rArray_.length ∧ (i < k ∨ (i = k ∧ j < jj)))
                ∧ (r = i ∨ r = j)
                ∧ ((m.bridgeValue i j = charP ∧ R_PBRIDGE &&& g ≠ 0)
                  ∨ (m.bridgeValue i j = charA ∧ R_ABRIDGE &&& g ≠ 0))))
        (fun j (s : Model × SquareArray) =>
          if (s.1.hBonded (k - 1) j && s.1.hBonded j (k + 1))
              || (s.1.hBonded (j - 1) k && s.1.hBonded k (j + 1)) then
            ((s.1.setFlag k R_PBRIDGE).setFlag j R_PBRIDGE, s.2.set k j charP)
          else if (s.1.hBonded k j && s.1.hBonded j k)
              || (s.1.hBonded (k - 1) (j + 1) && s.1.hBonded (j - 1) (k + 1)) then
            ((s.1.setFlag k R_ABRIDGE).setFlag j R_ABRIDGE, s.2.set k j charA)
          else s)
        m.rArray_.length (m.rArray_.length - (k + 1)) (k + 1) s rfl (by omega) ?h0 ?hstep
    case h0 =>
      refine ⟨a1, ?_⟩
      intro g r hr
      rw [a2 g r hr]
      constructor
      · rintro (h | ⟨i, j, h1, h2⟩)
        · exact Or.inl h
        · exact Or.inr ⟨i, j, by omega, h2⟩
      · rintro (h | ⟨i, j, h1, h2⟩)
        · exact Or.inl h
        · exact Or.inr ⟨i, j, by omega, h2⟩
    case hstep =>
      intro jj s1 hj1 hj2 ⟨b1, b2⟩
      dsimp only
      have hp : ((s1.1.hBonded (k - 1) jj && s1.1.hBonded jj (k + 1))
          || (s1.1.hBonded (jj - 1) k && s1.1.hBonded k (jj + 1))) = m.paraTest k jj := by
        simp only [hBonded_of_keeps b1, Model.paraTest]
      have ha : ((s1.1.hBonded k jj && s1.1.hBonded jj k)
          || (s1.1.hBonded (k - 1) (jj + 1) && s1.1.hBonded (jj - 1) (k + 1)))
          = m.antiTest k jj := by
        simp only [hBonded_of_keeps b1, Model.antiTest]
      rw [hp, ha]
      have hR : ∀ i j, (1 ≤ i ∧ i < j ∧ j < m.rArray_.length ∧ (i < k ∨ (i = k ∧ j < jj + 1)))
          ↔ (1 ≤ i ∧ i < j ∧ j < m.rArray_.length ∧ (i < k ∨ (i = k ∧ j < jj)))
            ∨ (i = k ∧ j = jj) := by
        intro i j
        omega
      by_cases hP : m.paraTest k jj = true
      · rw [if_pos hP]
        have hv : m.bridgeValue k jj = charP := by simp [Model.bridgeValue, hP]
        have k1 : KeepsAllButFlags m (s1.1.setFlag k R_PBRIDGE) :=
          keeps_trans b1 (keeps_setFlag _ _ _)
        refine ⟨keeps_trans k1 (keeps_setFlag _ _ _), ?_⟩
        intro g r hr
        rw [flag_setFlag _ jj R_PBRIDGE g r (by rw [k1.2.2.2.2.2.1]; exact hr),
          flag_setFlag _ k R_PBRIDGE g r (by rw [b1.2.2.2.2.2.1]; exact hr), b2 g r hr]
        rw [← ext _ (fun i j => (r = i ∨ r = j)
            ∧ ((m.bridgeValue i j = charP ∧ R_PBRIDGE &&& g ≠ 0)
              ∨ (m.bridgeValue i j = charA ∧ R_ABRIDGE &&& g ≠ 0))) _ _ k jj hR]
        constructor
        · rintro ((h | ⟨h1, h2⟩) | ⟨h1, h2⟩)
          · exact Or.inl h
          · exact Or.inr ⟨Or.inl h1.symm, Or.inl ⟨hv, h2⟩⟩
          · exact Or.inr ⟨Or.inr h1.symm, Or.inl ⟨hv, h2⟩⟩
        · rintro (h | ⟨h1, (⟨_, h2⟩ | ⟨h2, _⟩)⟩)
          · exact Or.inl (Or.inl h)
          · rcases h1 with h1 | h1
            · exact Or.inl (Or.inr ⟨h1.symm, h2⟩)
            · exact Or.inr ⟨h1.symm, h2⟩
          · rw [hv] at h2
            exact absurd h2 (by decide)
      · rw [if_neg hP]
        by_cases hA : m.antiTest k jj = true
        · rw [if_pos hA]
          have hv : m.bridgeValue k jj = charA := by simp [Model.bridgeValue, hP, hA]
          have k1 : KeepsAllButFlags m (s1.1.setFlag k R_ABRIDGE) :=
            keeps_trans b1 (keeps_setFlag _ _ _)
          refine ⟨keeps_trans k1 (keeps_setFlag _ _ _), ?_⟩
          intro g r hr
          rw [flag_setFlag _ jj R_ABRIDGE g r (by rw [k1.2.2.2.2.2.1]; exact hr),
            flag_setFlag _ k R_ABRIDGE g r (by rw [b1.2.2.2.2.2.1]; exact hr), b2 g r hr]
          rw [← ext _ (fun i j => (r = i ∨ r = j)
              ∧ ((m.bridgeValue i j = charP ∧ R_PBRIDGE &&& g ≠ 0)
                ∨ (m.bridgeValue i j = charA ∧ R_ABRIDGE &&& g ≠ 0))) _ _ k jj hR]
          constructor
          · rintro ((h | ⟨h1, h2⟩) | ⟨h1, h2⟩)
            · exact Or.inl h
            · exact Or.inr ⟨Or.inl h1.symm, Or.inr ⟨hv, h2⟩⟩
            · exact Or.inr ⟨Or.inr h1.symm, Or.inr ⟨hv, h2⟩⟩
          · rintro (h | ⟨h1, (⟨h2, _⟩ | ⟨_, h2⟩)⟩)
            · exact Or.inl (Or.inl h)
            · rw [hv] at h2
              exact absurd h2 (by decide)
            · rcases h1 with h1 | h1
              · exact Or.inl (Or.inr ⟨h1.symm, h2⟩)
              · exact Or.inr ⟨h1.symm, h2⟩
        · rw [if_neg hA]
          have hv : m.bridgeValue k jj = 0 := by simp [Model.bridgeValue, hP, hA]
          refine ⟨b1, ?_⟩
          intro g r hr
          rw [b2 g r hr]
          apply ext0 _ (fun i j => (r = i ∨ r = j)
              ∧ ((m.bridgeValue i j = charP ∧ R_PBRIDGE &&& g ≠ 0)
                ∨ (m.bridgeValue i j = charA ∧ R_ABRIDGE &&& g ≠ 0))) _ _ k jj hR
          rintro ⟨_, (⟨h2, _⟩ | ⟨h2, _⟩)⟩
          · rw [hv] at h2
            exact absurd h2 (by decide)
          · rw [hv] at h2
            exact absurd h2 (by decide)
    obtain ⟨c1, c2⟩ := inner
    refine ⟨c1, ?_⟩
    intro g r hr
    rw [c2 g r hr]
    constructor
    · rintro (h | ⟨i, j, h1, h2⟩)
      · exact Or.inl h
      · exact Or.inr ⟨i, j, by omega, h2⟩
    · rintro (h | ⟨i, j, h1, h2⟩)
      · exact Or.inl h
      · exact Or.inr ⟨i, j, by omega, h2⟩
  obtain ⟨_, k2⟩ := key
  intro g r hr
  have := k2 g r hr
  unfold Model.markBridges
  rw [this]
  constructor
  · rintro (h | ⟨i, j, h1, h2⟩)
    · exact Or.inl h
    · exact Or.inr ⟨i, j, by omega, h2⟩
  · rintro (h | ⟨i, j, h1, h2⟩)
    · exact Or.inl h
    · exact Or.inr ⟨i, j, by omega, h2⟩

/-- C12: for every cell (i, j) to which findBridges applies the bridge test (1 <= i < j < N),
the cell is marked parallel iff (bonded(i-1,j) and bonded(j,i+1)) or (bonded(j-1,i) and
bonded(i,j+1)); it is marked antiparallel iff the parallel test fails and (bonded(i,j) and
bonded(j,i)) or (bonded(i-1,j+1) and bonded(j-1,i+1)); otherwise it stays unmarked (0).  A
residue whose parallel-bridge (resp. antiparallel-bridge) flag was clear gets the flag iff it
is the row or the column of some cell marked parallel (resp. antiparallel). -/
theorem markBridges_marks (M : Model) :
    (∀ i j, 1 ≤ i → i < j → j < M.rArray_.length →
      (M.markBridges.2.get i j = charP
        ↔ (M.hBonded (i - 1) j = true ∧ M.hBonded j (i + 1) = true)
          ∨ (M.hBonded (j - 1) i = true ∧ M.hBonded i (j + 1) = true))
      ∧ (M.markBridges.2.get i j = charA
        ↔ ¬ ((M.hBonded (i - 1) j = true ∧ M.hBonded j (i + 1) = true)
            ∨ (M.hBonded (j - 1) i = true ∧ M.hBonded i (j + 1) = true))
          ∧ ((M.hBonded i j = true ∧ M.hBonded j i = true)
            ∨ (M.hBonded (i - 1) (j + 1) = true ∧ M.hBonded (j - 1) (i + 1) = true)))
      ∧ (M.markBridges.2.get i j ≠ charP → M.markBridges.2.get i j ≠ charA →
          M.markBridges.2.get i j = 0))
    ∧ (∀ r, r < M.rArray_.length →
      ((M.residue r).flag R_PBRIDGE = 0 →
        ((M.markBridges.1.residue r).flag R_PBRIDGE ≠ 0
          ↔ ∃ i j, i < M.rArray_.length ∧ j < M.rArray_.length ∧ (r = i ∨ r = j)
            ∧ M.markBridges.2.get i j = charP))
      ∧ ((M.residue r).flag R_ABRIDGE = 0 →
        ((M.markBridges.1.residue r).flag R_ABRIDGE ≠ 0
          ↔ ∃ i j, i < M.rArray_.length ∧ j < M.rArray_.length ∧ (r = i ∨ r = j)
            ∧ M.markBridges.2.get i j = charA))) := by
  obtain ⟨_, _, _, hcell⟩ := markBridges_cells M
  have hPt : ∀ i j, M.paraTest i j = true
      ↔ (M.hBonded (i - 1) j = true ∧ M.hBonded j (i + 1) = true)
        ∨ (M.hBonded (j - 1) i = true ∧ M.hBonded i (j + 1) = true) := by
    intro i j
    simp [Model.paraTest]
  have hAt : ∀ i j, M.antiTest i j = true
      ↔ (M.hBonded i j = true ∧ M.hBonded j i = true)
        ∨ (M.hBonded (i - 1) (j + 1) = true ∧ M.hBonded (j - 1) (i + 1) = true) := by
    intro i j
    simp [Model.antiTest]
  have hmark : ∀ i j, i < M.rArray_.length → j < M.rArray_.length → ∀ v, v ≠ 0 →
      (M.markBridges.2.get i j = v ↔ (1 ≤ i ∧ i < j) ∧ M.bridgeValue i j = v) := by
    intro i j hi hj v hv
    rw [hcell i j hi hj]
    by_cases h : 1 ≤ i ∧ i < j
    · rw [if_pos h]
      simp [h]
    · rw [if_neg h]
      constructor
      · intro h0; exact absurd h0.symm hv
      · rintro ⟨h1, _⟩; exact absurd h1 h
  refine ⟨?_, ?_⟩
  · intro i j hi hij hj
    rw [hcell i j (by omega) hj, if_pos ⟨hi, hij⟩, ← hPt, ← hAt]
    unfold Model.bridgeValue
    by_cases hP : M.paraTest i j = true
    · simp [hP, charP, charA]
    · by_cases hA : M.antiTest i j = true
      · simp [hP, hA, charP, charA]
      · simp [hP, hA, charP, charA]
  · intro r hr
    constructor
    · intro h0
      rw [markBridges_flag M _ r hr]
      constructor
      · rintro (h | ⟨i, j, h1, h2, (⟨h3, _⟩ | ⟨_, h3⟩)⟩)
        · exact absurd h0 h
        · exact ⟨i, j, by omega, by omega, h2,
            (hmark i j (by omega) (by omega) charP (by decide)).2 ⟨⟨h1.1, h1.2.1⟩, h3⟩⟩
        · exact absurd h3 (by decide)
      · rintro ⟨i, j, hi, hj, h2, h3⟩
        obtain ⟨h4, h5⟩ := (hmark i j hi hj charP (by decide)).1 h3
        exact Or.inr ⟨i, j, ⟨h4.1, h4.2, hj⟩, h2, Or.inl ⟨h5, by decide⟩⟩
    · intro h0
      rw [markBridges_flag M _ r hr]
      constructor
      · rintro (h | ⟨i, j, h1, h2, (⟨_, h3⟩ | ⟨h3, _⟩)⟩)
        · exact absurd h0 h
        · exact absurd h3 (by decide)
        · exact ⟨i, j, by omega, by omega, h2,
            (hmark i j (by omega) (by omega) charA (by decide)).2 ⟨⟨h1.1, h1.2.1⟩, h3⟩⟩
      · rintro ⟨i, j, hi, hj, h2, h3⟩
        obtain ⟨h4, h5⟩ := (hmark i j hi hj charA (by decide)).1 h3
        exact Or.inr ⟨i, j, ⟨h4.1, h4.2, hj⟩, h2, Or.inr ⟨h5, by decide⟩⟩

/-! ## The helices of findHelices and the runs of flagged residues -/

/-- C14: on every assignment of 3-helix/4-helix flags that the marking can leave (the last
residue is not flagged, and every maximal run of flagged residues has at least three residues
unless the minimum helix length is at least 3), findHelices returns and appends to the helix
list exactly one Helix [a, b] for each maximal run a..b of consecutive residues flagged
3-helix or 4-helix whose length b - a + 1 is >= minHelixLength, and nothing else: it creates
nothing for a shorter run, and the helices are appended in increasing residue order (each one
ends before the next one starts, so no helix is created twice). -/
theorem findHelices_runs (dihedral : Coord → Coord → Coord → Coord → ℚ) (cfg : Config)
    (m : Model) (hlast : ¬ m.helixFlagged (m.rArray_.length - 1))
    (hmin : 3 ≤ cfg.minHelixLength ∨ ∀ a b : Nat, m.MaximalRun a b → a + 2 ≤ b) :
    ∃ m1 created, m.findHelices dihedral cfg = some m1
      ∧ m1 = { m with helixList_ := m.helixList_ ++ created }
      ∧ (∀ h ∈ created, ∃ a b : Nat, h.from_ = a ∧ h.to_ = b ∧ m.MaximalRun a b
          ∧ (b : Int) - a + 1 ≥ cfg.minHelixLength)
      ∧ (∀ a b : Nat, m.MaximalRun a b → (b : Int) - a + 1 ≥ cfg.minHelixLength →
          ∃ h ∈ created, h.from_ = a ∧ h.to_ = b)
      ∧ created.Pairwise (fun h1 h2 => h1.to_ < h2.from_)
      ∧ created.Nodup := by
  have hend : ∀ a b : Nat, m.MaximalRun a b → b + 1 < m.rArray_.length := by
    intro a b hab
    obtain ⟨g1, g2, g3, _⟩ := hab
    by_contra hne
    have e : b = m.rArray_.length - 1 := by omega
    exact hlast (e ▸ g3 b g1 (le_refl _))
  obtain ⟨m1, h1⟩ := findHelices_returns dihedral cfg m (by
    intro a b hab hb hl
    rcases hmin with h | h
    · omega
    · have := h a b hab
      omega)
  obtain ⟨created, hm, hsound, hcompl, hord⟩ := findHelices_runs_aux dihedral cfg m m1 h1
  refine ⟨m1, created, h1, hm, ?_, ?_, hord, ?_⟩
  · intro h hh
    obtain ⟨a, b, e1, e2, e3, _, e5, _⟩ := hsound h hh
    exact ⟨a, b, e1, e2, e3, e5⟩
  · intro a b hab hl
    exact hcompl a b hab (hend a b hab) hl
  · refine (List.Pairwise.imp_of_mem ?_ hord)
    intro x y hx _ hxy hne
    subst hne
    obtain ⟨a, b, e1, e2, e3, _⟩ := hsound x hx
    rw [e1, e2] at hxy
    have := e3.1
    omega

/-- C14 (example): the flags that the marking leaves on the example model of twelve residues
with the 4-turn bond pattern; the one maximal run 1..10 gives the one helix 1..10. -/
theorem findHelices_runs_witness :
    (helixModel12.markTurnsAndHelices.findHelices (fun _ _ _ _ => 1) Config.default).map
        Model.helixList_ = some [⟨1, 10, 1⟩]
    ∧ ∃ m1 created,
        helixModel12.markTurnsAndHelices.findHelices (fun _ _ _ _ => 1) Config.default = some m1
      ∧ m1 = { helixModel12.markTurnsAndHelices with
                helixList_ := helixModel12.markTurnsAndHelices.helixList_ ++ created }
      ∧ (∀ h ∈ created, ∃ a b : Nat, h.from_ = a ∧ h.to_ = b
          ∧ helixModel12.markTurnsAndHelices.MaximalRun a b
          ∧ (b : Int) - a + 1 ≥ Config.default.minHelixLength)
      ∧ (∀ a b : Nat, helixModel12.markTurnsAndHelices.MaximalRun a b →
          (b : Int) - a + 1 ≥ Config.default.minHelixLength →
          ∃ h ∈ created, h.from_ = a ∧ h.to_ = b)
      ∧ created.Pairwise (fun h1 h2 => h1.to_ < h2.from_)
      ∧ created.Nodup :=
  ⟨by decide!,
    findHelices_runs (fun _ _ _ _ => 1) Config.default helixModel12.markTurnsAndHelices
      (by unfold Model.helixFlagged; decide!) (Or.inl (by decide))⟩

/-! ## Sheets are the components of the neighbor graph -/

theorem linked_setNeighbor (x : Ladder) (n o q : Nat) (hn : x.neighbor n = none) :
    ((x.setNeighbor n o).neighbor 0 = some q ∨ (x.setNeighbor n o).neighbor 1 = some q)
      ↔ (x.neighbor 0 = some q ∨ x.neighbor 1 = some q) ∨ q = o := by
  unfold Ladder.setNeighbor Ladder.neighbor at *
  by_cases h : n = 0
  · simp only [h, if_true] at hn ⊢
    simp only [Nat.one_ne_zero, if_false, hn, Option.some.injEq]
    constructor
    · rintro (h1 | h1)
      · exact Or.inr h1.symm
      · exact Or.inl (Or.inr h1)
    · rintro ((h1 | h1) | h1)
      · cases h1
      · exact Or.inr h1
      · exact Or.inl h1.symm
  · simp only [h, if_false] at hn ⊢
    simp only [Nat.one_ne_zero, if_false, if_true, hn, Option.some.injEq]
    constructor
    · rintro (h1 | h1)
      · exact Or.inl (Or.inl h1)
      · exact Or.inr h1.symm
    · rintro ((h1 | h1) | h1)
      · exact Or.inl h1
      · cases h1
      · exact Or.inr h1.symm

theorem linked_assignSheet (m : Model) (a s p q : Nat) :
    (m.assignSheet a s).Linked p q ↔ m.Linked p q := by
  unfold Model.Linked
  rw [ladder_assignSheet]
  split_ifs <;> exact Iff.rfl

theorem linked_link (m : Model) (l o0 a o1 : Nat) (hl : l < m.ladders.length)
    (ha : a < m.ladders.length) (hne : l ≠ a) (hn0 : (m.ladder l).neighbor o0 = none)
    (hn1 : (m.ladder a).neighbor o1 = none) (p q : Nat) :
    (m.link l o0 a o1).Linked p q ↔ m.Linked p q ∨ (p = l ∧ q = a) ∨ (p = a ∧ q = l) := by
  unfold Model.Linked
  rw [ladder_link]
  by_cases hpa : a = p
  · subst hpa
    rw [if_pos ⟨rfl, ha⟩, if_neg (fun h => hne h.1), linked_setNeighbor _ _ _ _ hn1]
    constructor
    · rintro (h | h)
      · exact Or.inl h
      · exact Or.inr (Or.inr ⟨rfl, h⟩)
    · rintro (h | ⟨h1, _⟩ | ⟨_, h2⟩)
      · exact Or.inl h
      · exact absurd h1.symm hne
      · exact Or.inr h2
  · rw [if_neg (fun h => hpa h.1)]
    by_cases hpl : l = p
    · subst hpl
      rw [if_pos ⟨rfl, hl⟩, linked_setNeighbor _ _ _ _ hn0]
      constructor
      · rintro (h | h)
        · exact Or.inl h
        · exact Or.inr (Or.inl ⟨rfl, h⟩)
      · rintro (h | ⟨_, h2⟩ | ⟨h1, _⟩)
        · exact Or.inl h
        · exact Or.inr h2
        · exact absurd h1.symm hpa
    · rw [if_neg (fun h => hpl h.1)]
      constructor
      · intro h; exact Or.inl h
      · rintro (h | ⟨h1, _⟩ | ⟨h1, _⟩)
        · exact h
        · exact absurd h1.symm hpl
        · exact absurd h1.symm hpa

theorem sheetStep_connected {m m1 : Model} (h : SheetStep m m1) (hc : m.SheetsConsistent)
    (hi : m.SheetsConnected) : m1.SheetsConnected := by
  have hfr := sheetStep_frame h
  obtain ⟨i1, i2⟩ := hi
  cases h with
  | start l sName hl hv hs =>
    have hlink : ∀ p q, (Model.assignSheet { m with sheetList_ := m.sheetList_ ++ [⟨sName, []⟩] }
        l m.sheetList_.length).Linked p q ↔ m.Linked p q := by
      intro p q
      rw [linked_assignSheet]
      exact Iff.rfl
    have hmono : ∀ c p, Relation.ReflTransGen m.Linked c p → Relation.ReflTransGen
        (Model.assignSheet { m with sheetList_ := m.sheetList_ ++ [⟨sName, []⟩] }
          l m.sheetList_.length).Linked c p :=
      fun c p hcp => Relation.ReflTransGen.mono (fun a b hab => (hlink a b).2 hab) hcp
    constructor
    · intro p q hpq
      obtain ⟨h1, h2, s, h3, h4⟩ := i1 p q ((hlink p q).1 hpq)
      exact ⟨h1, h2, s, hfr.2.2 p s h3, hfr.2.2 q s h4⟩
    · intro s sh hsh
      rw [sheets_assignSheet] at hsh
      simp only at hsh
      by_cases hlt : s < m.sheetList_.length
      · rw [List.getElem?_append_left hlt] at hsh
        cases hold : m.sheetList_[s]? with
        | none => rw [hold] at hsh; cases hsh
        | some sh0 =>
          rw [hold] at hsh
          simp only [Option.map_some', Option.some.injEq] at hsh
          rw [if_neg (by omega)] at hsh
          subst hsh
          obtain ⟨c, hc1, hc2⟩ := i2 s sh0 hold
          exact ⟨c, hc1, fun p hp => hmono c p (hc2 p hp)⟩
      · rw [List.getElem?_append_right (by omega)] at hsh
        cases hx : s - m.sheetList_.length with
        | zero =>
          rw [hx] at hsh
          simp only [List.getElem?_cons_zero, Option.map_some', Option.some.injEq] at hsh
          rw [if_pos (by omega)] at hsh
          subst hsh
          refine ⟨l, rfl, ?_⟩
          intro p hp
          simp only [Sheet.addLadder, List.nil_append, List.mem_singleton] at hp
          subst hp
          exact Relation.ReflTransGen.refl
        | succ k =>
          rw [hx] at hsh
          simp at hsh
  | link l o0 ladder o1 sheet hl hv hla hva hs hsa hov hn0 hn1 =>
    have hne : l ≠ ladder := by
      intro he
      rw [he, hsa] at hs
      cases hs
    have hlink : ∀ p q, ((m.link l o0 ladder o1).assignSheet l sheet).Linked p q
        ↔ m.Linked p q ∨ (p = l ∧ q = ladder) ∨ (p = ladder ∧ q = l) := by
      intro p q
      rw [linked_assignSheet, linked_link m l o0 ladder o1 hv hva hne hn0 hn1]
    have hmono : ∀ c p, Relation.ReflTransGen m.Linked c p → Relation.ReflTransGen
        ((m.link l o0 ladder o1).assignSheet l sheet).Linked c p :=
      fun c p hcp => Relation.ReflTransGen.mono (fun a b hab => (hlink a b).2 (Or.inl hab)) hcp
    have hsl : (((m.link l o0 ladder o1).assignSheet l sheet).ladder l).sheet_ = some sheet := by
      rw [sheet_assignSheet, if_pos ⟨rfl, by simpa [Model.link] using hv⟩]
    have hsa1 : (((m.link l o0 ladder o1).assignSheet l sheet).ladder ladder).sheet_
        = some sheet := hfr.2.2 ladder sheet hsa
    constructor
    · intro p q hpq
      rcases (hlink p q).1 hpq with h0 | ⟨h1, h2⟩ | ⟨h1, h2⟩
      · obtain ⟨h1, h2, s, h3, h4⟩ := i1 p q h0
        exact ⟨h1, h2, s, hfr.2.2 p s h3, hfr.2.2 q s h4⟩
      · subst h1; subst h2
        exact ⟨hl, hla, sheet, hsl, hsa1⟩
      · subst h1; subst h2
        exact ⟨hla, hl, sheet, hsa1, hsl⟩
    · intro s sh hsh
      rw [sheets_assignSheet] at hsh
      have hsame : (m.link l o0 ladder o1).sheetList_ = m.sheetList_ := rfl
      rw [hsame] at hsh
      cases hold : m.sheetList_[s]? with
      | none => rw [hold] at hsh; cases hsh
      | some sh0 =>
        rw [hold] at hsh
        simp only [Option.map_some', Option.some.injEq] at hsh
        obtain ⟨c, hc1, hc2⟩ := i2 s sh0 hold
        by_cases hss : sheet = s
        · rw [if_pos hss] at hsh
          subst hsh
          subst hss
          have hmem : ladder ∈ sh0.ladderList_ := by
            obtain ⟨sh1, e1, e2⟩ := hc.2 ladder hla sheet hsa
            rw [hold] at e1
            cases e1
            exact List.count_pos_iff.1 (by omega)
          refine ⟨c, ?_, ?_⟩
          · simp only [Sheet.addLadder]
            cases hlist : sh0.ladderList_ with
            | nil => rw [hlist] at hc1; cases hc1
            | cons x rest => rw [hlist] at hc1; simpa using hc1
          · intro p hp
            simp only [Sheet.addLadder, List.mem_append, List.mem_singleton] at hp
            rcases hp with hp | hp
            · exact hmono c p (hc2 p hp)
            · subst hp
              exact Relation.ReflTransGen.tail (hmono c ladder (hc2 ladder hmem))
                ((hlink ladder p).2 (Or.inr (Or.inr ⟨rfl, rfl⟩)))
        · rw [if_neg hss] at hsh
          subst hsh
          exact ⟨c, hc1, fun p hp => hmono c p (hc2 p hp)⟩

theorem sheetSteps_connected {m m1 : Model} (h : SheetSteps m m1) (hc : m.SheetsConsistent)
    (hi : m.SheetsConnected) : m1.SheetsConsistent ∧ m1.SheetsConnected := by
  induction h with
  | refl => exact ⟨hc, hi⟩
  | tail _ hstep ih => exact ⟨sheetStep_consistent hstep ih.1, sheetStep_connected hstep ih.1 ih.2⟩

theorem default_ladder_neighbor (n : Nat) : (default : Ladder).neighbor n = none := by
  unfold Ladder.neighbor
  split <;> rfl

/-- C20: on a model whose ladder list points into the arena, whose ladders have no sheet and
no neighbor yet and whose sheet list is empty (the state left by findBridges), findSheets
returns, and afterwards every neighbor link joins two ladders of the ladder list that have
the same sheet, every member of a sheet is reachable by neighbor links from the first member
of the sheet (the ladder with which the sheet was created), and two ladders of the list have
the same sheet if and only if they are connected by a chain of neighbor links. -/
theorem findSheets_components (M : Model) (hv : M.LaddersValid)
    (h0 : ∀ p ∈ M.ladderList_, (M.ladder p).sheet_ = none)
    (hn : ∀ p, p < M.ladders.length →
      (M.ladder p).neighbor 0 = none ∧ (M.ladder p).neighbor 1 = none)
    (hs : M.sheetList_ = []) :
    ∃ m1, M.findSheets = some m1
      ∧ (∀ p q, m1.Linked p q → p ∈ m1.ladderList_ ∧ q ∈ m1.ladderList_
          ∧ ∃ s, (m1.ladder p).sheet_ = some s ∧ (m1.ladder q).sheet_ = some s)
      ∧ (∀ (s : Nat) (sh : Sheet), m1.sheetList_[s]? = some sh →
          ∃ c, sh.ladderList_.head? = some c
            ∧ ∀ p ∈ sh.ladderList_, Relation.ReflTransGen m1.Linked c p)
      ∧ (∀ p ∈ m1.ladderList_, ∀ q ∈ m1.ladderList_,
          ((m1.ladder p).sheet_ = (m1.ladder q).sheet_ ↔ Relation.EqvGen m1.Linked p q)) := by
  obtain ⟨m1, h1, hsteps, hall⟩ := findSheets_steps M hv
  have hc0 : M.SheetsConsistent := by
    constructor
    · intro s sh hsh
      rw [hs] at hsh
      simp at hsh
    · intro p hp s hps
      rw [h0 p hp] at hps
      cases hps
  have hi0 : M.SheetsConnected := by
    constructor
    · intro p q hpq
      exfalso
      have hnone : (M.ladder p).neighbor 0 = none ∧ (M.ladder p).neighbor 1 = none := by
        by_cases hp : p < M.ladders.length
        · exact hn p hp
        · have : M.ladder p = default := by
            unfold Model.ladder
            rw [List.getD_eq_getElem?_getD, List.getElem?_eq_none (by omega)]
            rfl
          rw [this]
          exact ⟨default_ladder_neighbor 0, default_ladder_neighbor 1⟩
      rcases hpq with h | h
      · rw [hnone.1] at h; cases h
      · rw [hnone.2] at h; cases h
    · intro s sh hsh
      rw [hs] at hsh
      simp at hsh
  obtain ⟨⟨ha, hb⟩, ⟨i1, i2⟩⟩ := sheetSteps_connected hsteps hc0 hi0
  have hfr := sheetSteps_frame hsteps
  have hto : ∀ a b, Relation.ReflTransGen m1.Linked a b → Relation.EqvGen m1.Linked a b := by
    intro a b hab
    induction hab with
    | refl => exact Relation.EqvGen.refl _
    | tail _ hstep ih => exact Relation.EqvGen.trans _ _ _ ih (Relation.EqvGen.rel _ _ hstep)
  have hgen : ∀ a b, Relation.EqvGen m1.Linked a b →
      (m1.ladder a).sheet_ = (m1.ladder b).sheet_ := by
    intro a b hchain
    induction hchain with
    | rel a b hab =>
      obtain ⟨_, _, s, e1, e2⟩ := i1 a b hab
      rw [e1, e2]
    | refl a => rfl
    | symm a b _ ih => exact ih.symm
    | trans a b c _ _ ih1 ih2 => exact ih1.trans ih2
  refine ⟨m1, h1, i1, i2, ?_⟩
  intro p hp q hq
  constructor
  · intro heq
    obtain ⟨s, hps⟩ := Option.ne_none_iff_exists'.1 (hall p (by rw [← hfr.1]; exact hp))
    have hqs : (m1.ladder q).sheet_ = some s := by rw [← heq]; exact hps
    obtain ⟨sh, hsh, hcp⟩ := hb p hp s hps
    obtain ⟨sh1, hsh1, hcq⟩ := hb q hq s hqs
    rw [hsh] at hsh1
    cases hsh1
    obtain ⟨c, _, hreach⟩ := i2 s sh hsh
    have hpm : p ∈ sh.ladderList_ := List.count_pos_iff.1 (by omega)
    have hqm : q ∈ sh.ladderList_ := List.count_pos_iff.1 (by omega)
    exact Relation.EqvGen.trans _ _ _
      (Relation.EqvGen.symm _ _ (hto c p (hreach p hpm))) (hto c q (hreach q hqm))
  · exact hgen p q

/-- C20 (witness): three ladders, the first two sharing the strand 10..14, the third apart. -/
theorem findSheets_components_witness :
    ∃ m1, sheetModel3.findSheets = some m1
      ∧ (∀ p q, m1.Linked p q → p ∈ m1.ladderList_ ∧ q ∈ m1.ladderList_
          ∧ ∃ s, (m1.ladder p).sheet_ = some s ∧ (m1.ladder q).sheet_ = some s)
      ∧ (∀ (s : Nat) (sh : Sheet), m1.sheetList_[s]? = some sh →
          ∃ c, sh.ladderList_.head? = some c
            ∧ ∀ p ∈ sh.ladderList_, Relation.ReflTransGen m1.Linked c p)
      ∧ (∀ p ∈ m1.ladderList_, ∀ q ∈ m1.ladderList_,
          ((m1.ladder p).sheet_ = (m1.ladder q).sheet_ ↔ Relation.EqvGen m1.Linked p q)) :=
  findSheets_components sheetModel3 (by unfold Model.LaddersValid; decide) (by decide)
    (by decide) (by decide)

/-! ## The ladders of the row-major scan are the maximal diagonal runs -/

/-- The parallel walk from the cell `(i, j)` over `K` marked cells: it stops at `k = K` and
lowers exactly the cells it has walked over. -/
theorem walkPara_run (N i j K : Nat) (hj : j + K ≤ N) (hij : i ≤ j) :
    ∀ (n k fuel : Nat) (b : SquareArray), K - k = n → k ≤ K → K - k < fuel → b.dim_ = N →
      b.array_.length = N * N →
      (∀ t, k ≤ t → t < K → b.get (i + t) (j + t) = charP) →
      b.get (i + K) (j + K) ≠ charP →
      (walkPara i j fuel k b).1 = K ∧ (walkPara i j fuel k b).2.dim_ = N
        ∧ (walkPara i j fuel k b).2.array_.length = N * N
        ∧ ∀ r c, c < N → (walkPara i j fuel k b).2.get r c
            = if i + k ≤ r ∧ r < i + K ∧ c = j + (r - i) then charLowerP else b.get r c := by
  intro n
  induction n with
  | zero =>
    intro k fuel b hn hk hf hd hl hcells hstop
    have hkK : k = K := by omega
    subst hkK
    obtain ⟨f, rfl⟩ : ∃ f, fuel = f + 1 := ⟨fuel - 1, by omega⟩
    unfold walkPara
    rw [if_neg hstop]
    refine ⟨rfl, hd, hl, ?_⟩
    intro r c _
    have : ¬ (i + k ≤ r ∧ r < i + k ∧ c = j + (r - i)) := by omega
    rw [if_neg this]
  | succ n ih =>
    intro k fuel b hn hk hf hd hl hcells hstop
    obtain ⟨f, rfl⟩ : ∃ f, fuel = f + 1 := ⟨fuel - 1, by omega⟩
    unfold walkPara
    rw [if_pos (hcells k (le_refl _) (by omega))]
    have hset : ∀ r c, c < N → (b.set (i + k) (j + k) charLowerP).get r c
        = if r = i + k ∧ c = j + k then charLowerP else b.get r c :=
      fun r c hc => SquareArray.get_set_cell b N (i + k) (j + k) r c _ hd hl (by omega)
        (by omega) hc
    have hstop1 : (b.set (i + k) (j + k) charLowerP).get (i + K) (j + K) ≠ charP := by
      simp only [SquareArray.get, SquareArray.set, List.getD_eq_getElem?_getD,
        List.getElem?_set]
      have hne : ¬ ((i + k) * b.dim_ + (j + k) = (i + K) * b.dim_ + (j + K)) := by
        have : (i + k) * b.dim_ ≤ (i + K) * b.dim_ := Nat.mul_le_mul_right _ (by omega)
        omega
      rw [if_neg hne]
      simpa [SquareArray.get, List.getD_eq_getElem?_getD] using hstop
    obtain ⟨e1, e2, e3, e4⟩ := ih (k + 1) f (b.set (i + k) (j + k) charLowerP) (by omega)
      (by omega) (by omega) hd (by rw [SquareArray.set_length]; exact hl)
      (by
        intro t h1 h2
        rw [hset _ _ (by omega)]
        have : ¬ (i + t = i + k ∧ j + t = j + k) := by omega
        rw [if_neg this]
        exact hcells t (by omega) h2)
      hstop1
    refine ⟨e1, e2, e3, ?_⟩
    intro r c hc
    rw [e4 r c hc, hset r c hc]
    by_cases h1 : i + (k + 1) ≤ r ∧ r < i + K ∧ c = j + (r - i)
    · rw [if_pos h1, if_pos (by omega)]
    · rw [if_neg h1]
      by_cases h2 : r = i + k ∧ c = j + k
      · rw [if_pos h2, if_pos (by omega)]
      · rw [if_neg h2, if_neg (by omega)]

theorem SquareArray.get_column_end (b : SquareArray) (N r : Nat) (hd : b.dim_ = N)
    (hl : b.array_.length = N * N) (hr : r < N) :
    b.get r N = if r + 1 < N then b.get (r + 1) 0 else 0 := by
  unfold SquareArray.get
  rw [hd]
  have e : r * N + N = (r + 1) * N + 0 := by rw [Nat.succ_mul]; rfl
  rw [e]
  split_ifs with h
  · rfl
  · have h1 : r + 1 = N := by omega
    rw [h1, List.getD_eq_getElem?_getD, List.getElem?_eq_none (by omega)]
    rfl

/-- From a marked cell above the diagonal the parallel walk finds a last step. -/
theorem walkPara_stops (b : SquareArray) (N i j : Nat) (hd : b.dim_ = N)
    (hl : b.array_.length = N * N) (hij : i < j) (hj : j < N)
    (hb : ∀ r c, r < N → c < N → b.get r c = charP → r < c) :
    ∃ K, j + K ≤ N ∧ (∀ t, t < K → b.get (i + t) (j + t) = charP)
      ∧ b.get (i + K) (j + K) ≠ charP := by
  have hex : ∃ t, b.get (i + t) (j + t) ≠ charP := by
    refine ⟨N - j, ?_⟩
    have e : j + (N - j) = N := by omega
    rw [e, SquareArray.get_column_end b N _ hd hl (by omega)]
    split_ifs with h
    · intro hc
      have := hb _ 0 h (by omega) hc
      omega
    · decide
  refine ⟨Nat.find hex, ?_, ?_, Nat.find_spec hex⟩
  · have : Nat.find hex ≤ N - j := Nat.find_min' hex (by
      have e : j + (N - j) = N := by omega
      rw [e, SquareArray.get_column_end b N _ hd hl (by omega)]
      split_ifs with h
      · intro hc
        have := hb _ 0 h (by omega) hc
        omega
      · decide)
    omega
  · intro t ht
    exact not_not.1 (Nat.find_min hex ht)

/-- From a marked cell above the diagonal the antiparallel walk finds a last step, and the
cells it walks over are above the diagonal. -/
theorem walkAnti_stops (b : SquareArray) (N i j : Nat) (hij : i < j) (hj : j < N)
    (hb : ∀ r c, r < N → c < N → b.get r c = charA → r < c) :
    ∃ K, i + K ≤ j ∧ (∀ t, t < K → b.get (i + t) (j - t) = charA ∧ i + t < j - t)
      ∧ b.get (i + K) (j - K) ≠ charA := by
  have hex : ∃ t, b.get (i + t) (j - t) ≠ charA := by
    refine ⟨j - i, ?_⟩
    intro hc
    have := hb _ _ (by omega) (by omega) hc
    omega
  have hle : Nat.find hex ≤ j - i := Nat.find_min' hex (by
    intro hc
    have := hb _ _ (by omega) (by omega) hc
    omega)
  refine ⟨Nat.find hex, by omega, ?_, Nat.find_spec hex⟩
  intro t ht
  have h1 : b.get (i + t) (j - t) = charA := not_not.1 (Nat.find_min hex ht)
  exact ⟨h1, hb _ _ (by omega) (by omega) h1⟩

theorem mark_inj (u v : BridgeRun) (h : u.mark = v.mark) : u.para = v.para := by
  unfold BridgeRun.mark at h
  cases hu : u.para <;> cases hv : v.para <;> simp [hu, hv] at h ⊢ <;> revert h <;> decide

/-- The cells of a maximal run are cells of the matrix and carry the mark of the run. -/
theorem run_cell (u : BridgeRun) (B : SquareArray) (N : Nat) (hm : u.MaximalIn B N)
    (r c : Nat) (h : u.hasCell r c) : r < N ∧ c < N ∧ B.get r c = u.mark := by
  obtain ⟨m1, m2, m3, m4, m5, m6, _, _⟩ := hm
  obtain ⟨h1, h2, h3⟩ := h
  have hcell := m6 (r - u.i) (by omega)
  cases hp : u.para
  · have g := m5 hp
    simp only [hp, Bool.false_eq_true, if_false] at h3
    simp only [BridgeRun.col, hp, Bool.false_eq_true, if_false] at hcell
    have e1 : u.i + (r - u.i) = r := by omega
    have e2 : u.j - (r - u.i) = c := by omega
    rw [e1, e2] at hcell
    exact ⟨by omega, by omega, hcell⟩
  · have g := m4 hp
    simp only [hp, if_true] at h3
    simp only [BridgeRun.col, hp, if_true] at hcell
    have e1 : u.i + (r - u.i) = r := by omega
    have e2 : u.j + (r - u.i) = c := by omega
    rw [e1, e2] at hcell
    exact ⟨by omega, by omega, hcell⟩

/-- After a cell of a maximal run, the next cell of the diagonal is in the run or does not
carry its mark. -/
theorem run_next (u : BridgeRun) (B : SquareArray) (N : Nat) (hm : u.MaximalIn B N)
    (r c c1 : Nat) (h : u.hasCell r c) (hr : r + 1 < N) (hc1 : c1 < N)
    (hc : if u.para then c1 = c + 1 else c1 + 1 = c) :
    u.hasCell (r + 1) c1 ∨ B.get (r + 1) c1 ≠ u.mark := by
  obtain ⟨m1, m2, m3, m4, m5, m6, _, m8⟩ := hm
  obtain ⟨h1, h2, h3⟩ := h
  by_cases hlast : r = u.i + u.k
  · right
    cases hp : u.para
    · have g := m5 hp
      simp only [hp, Bool.false_eq_true, if_false] at h3 hc
      have := m8 (by omega) (fun h => by rw [hp] at h; cases h)
      simp only [BridgeRun.col, hp, Bool.false_eq_true, if_false] at this
      have e1 : u.i + u.k + 1 = r + 1 := by omega
      have e2 : u.j - (u.k + 1) = c1 := by omega
      rw [e1, e2] at this
      exact this
    · have g := m4 hp
      simp only [hp, if_true] at h3 hc
      have := m8 (by omega) (fun _ => by omega)
      simp only [BridgeRun.col, hp, if_true] at this
      have e1 : u.i + u.k + 1 = r + 1 := by omega
      have e2 : u.j + (u.k + 1) = c1 := by omega
      rw [e1, e2] at this
      exact this
  · left
    refine ⟨by omega, by omega, ?_⟩
    cases hp : u.para
    · have g := m5 hp
      simp only [hp, Bool.false_eq_true, if_false] at h3 hc ⊢
      omega
    · simp only [hp, if_true] at h3 hc ⊢
      omega

theorem mark_cases (u : BridgeRun) : u.mark = charP ∨ u.mark = charA := by
  unfold BridgeRun.mark
  split
  · exact Or.inl rfl
  · exact Or.inr rfl

/-- One step of the scan at a marked cell: the walk consumes a new run and a ladder is
appended for it. -/
theorem scan_step_run (x : Model) (B : SquareArray) (N i j : Nat) (s : Model × SquareArray)
    (runs : List BridgeRun) (u : BridgeRun) (b1 : SquareArray) (low : Nat)
    (hS : ScanState x B N i j s runs) (hij : i < j) (hjN : j < N)
    (hui : u.i = i) (huj : u.j = j)
    (hgeo1 : u.para = true → u.j + u.k < N) (hgeo2 : u.para = false → u.i + u.k < u.j - u.k)
    (hcells : ∀ t, t ≤ u.k → s.2.get (i + t) (u.col t) = u.mark)
    (hstop : s.2.get (i + u.k + 1) (u.col (u.k + 1)) ≠ u.mark)
    (hlow : low ≠ charP ∧ low ≠ charA)
    (hd1 : b1.dim_ = N) (hl1 : b1.array_.length = N * N)
    (hb1 : ∀ r c, c < N → u.hasCell r c → b1.get r c = low)
    (hb2 : ∀ r c, c < N → ¬ u.hasCell r c → b1.get r c = s.2.get r c) :
    ScanState x B N i (j + 1) (s.1.appendLadder u.ladder, b1) (runs ++ [u]) := by
  obtain ⟨s1, s2, s3, s4, s5, s6, s7, s8⟩ := hS
  have hiN : i + u.k < N := by
    cases hp : u.para
    · have := hgeo2 hp; omega
    · have := hgeo1 hp; omega
  -- the cells of the new run
  have hnew : ∀ r c, u.hasCell r c → r < N ∧ c < N ∧ s.2.get r c = u.mark := by
    intro r c ⟨h1, h2, h3⟩
    have hcell := hcells (r - i) (by omega)
    cases hp : u.para
    · have g := hgeo2 hp
      simp only [hp, Bool.false_eq_true, if_false] at h3
      simp only [BridgeRun.col, hp, Bool.false_eq_true, if_false] at hcell
      have e1 : i + (r - i) = r := by omega
      have e2 : u.j - (r - i) = c := by omega
      rw [e1, e2] at hcell
      exact ⟨by omega, by omega, hcell⟩
    · have g := hgeo1 hp
      simp only [hp, if_true] at h3
      simp only [BridgeRun.col, hp, if_true] at hcell
      have e1 : i + (r - i) = r := by omega
      have e2 : u.j + (r - i) = c := by omega
      rw [e1, e2] at hcell
      exact ⟨by omega, by omega, hcell⟩
  have huncov : ∀ r c, u.hasCell r c → ¬ ∃ v ∈ runs, v.hasCell r c := by
    intro r c h hc
    obtain ⟨hr, hc1, hm⟩ := hnew r c h
    have := (s6 r c hr hc1).1 hc
    rcases mark_cases u with e | e
    · rw [e] at hm; exact this.1 hm
    · rw [e] at hm; exact this.2 hm
  have hBnew : ∀ r c, u.hasCell r c → B.get r c = u.mark := by
    intro r c h
    obtain ⟨hr, hc1, hm⟩ := hnew r c h
    rw [← (s6 r c hr hc1).2 (huncov r c h)]
    exact hm
  have hstart : u.hasCell i j := by
    refine ⟨by omega, by omega, ?_⟩
    split <;> omega
  have hmax : u.MaximalIn B N := by
    refine ⟨by omega, by omega, by omega, hgeo1, hgeo2, ?_, ?_, ?_⟩
    · intro t ht
      apply hBnew
      refine ⟨by omega, by omega, ?_⟩
      cases hp : u.para
      · have g := hgeo2 hp
        simp only [BridgeRun.col, hp, Bool.false_eq_true, if_false]
        omega
      · simp only [BridgeRun.col, hp, if_true]
        omega
    · intro h1 h2 hc
      have hcN : (if u.para then u.j - 1 else u.j + 1) < N := by
        cases hp : u.para
        · simp only [hp, Bool.false_eq_true, if_false]
          exact h2 hp
        · simp only [hp, if_true]
          omega
      obtain ⟨v, hv, hvc⟩ := s7 (u.i - 1) _ (by omega) hcN (Or.inl (by omega))
        (by rw [hc]; exact mark_cases u)
      have hvm := (s5 v hv).1
      have hvmark := (run_cell v B N hvm _ _ hvc).2.2
      have hpara : v.para = u.para := mark_inj v u (by rw [← hvmark, hc])
      have hnext := run_next v B N hvm (u.i - 1) _ j hvc (by omega) hjN (by
        rw [hpara]
        cases hp : u.para
        · simp only [hp, Bool.false_eq_true, if_false]
          omega
        · simp only [hp, if_true]
          omega)
      have e : u.i - 1 + 1 = i := by omega
      rw [e] at hnext
      rcases hnext with hn | hn
      · exact huncov i j hstart ⟨v, hv, hn⟩
      · apply hn
        rw [hBnew i j hstart]
        unfold BridgeRun.mark
        rw [hpara]
    · intro h1 h2 hc
      have hcN : u.col (u.k + 1) < N := by
        cases hp : u.para
        · simp only [BridgeRun.col, hp, Bool.false_eq_true, if_false]
          omega
        · simp only [BridgeRun.col, hp, if_true]
          have := h2 hp
          omega
      have hcov : ∃ v ∈ runs, v.hasCell (u.i + u.k + 1) (u.col (u.k + 1)) := by
        by_contra hno
        have := (s6 _ _ h1 hcN).2 hno
        rw [← hui, this] at hstop
        exact hstop hc
      obtain ⟨v, hv, hvc⟩ := hcov
      have hvm := (s5 v hv).1
      have hvbefore := (s5 v hv).2
      have hvmark := (run_cell v B N hvm _ _ hvc).2.2
      have hpara : v.para = u.para := mark_inj v u (by rw [← hvmark, hc])
      apply huncov i j hstart
      refine ⟨v, hv, ?_⟩
      obtain ⟨c1, c2, c3⟩ := hvc
      rw [hpara] at c3
      cases hp : u.para
      · have g := hgeo2 hp
        simp only [BridgeRun.col, hp, Bool.false_eq_true, if_false] at c3
        refine ⟨by omega, by omega, ?_⟩
        rw [hpara]
        simp only [hp, Bool.false_eq_true, if_false]
        omega
      · simp only [BridgeRun.col, hp, if_true] at c3
        refine ⟨by omega, by omega, ?_⟩
        rw [hpara]
        simp only [hp, if_true]
        omega
  refine ⟨?_, ?_, hd1, hl1, ?_, ?_, ?_, ?_⟩
  · simp only [Model.appendLadder, s1, List.map_append, List.map_cons, List.map_nil,
      List.append_assoc]
  · simp only [Model.appendLadder, s1, s2, List.length_append, List.length_map,
      List.length_singleton, List.append_assoc]
    rw [List.range'_concat]
    simp
  · intro v hv
    rcases List.mem_append.1 hv with hv | hv
    · refine ⟨(s5 v hv).1, ?_⟩
      have := (s5 v hv).2
      omega
    · rw [List.mem_singleton] at hv
      subst hv
      exact ⟨hmax, Or.inr ⟨hui, by omega⟩⟩
  · intro r c hr hc
    constructor
    · rintro ⟨v, hv, hvc⟩
      by_cases hu : u.hasCell r c
      · rw [hb1 r c hc hu]; exact hlow
      · rw [hb2 r c hc hu]
        rcases List.mem_append.1 hv with hv | hv
        · exact (s6 r c hr hc).1 ⟨v, hv, hvc⟩
        · rw [List.mem_singleton] at hv
          subst hv
          exact absurd hvc hu
    · intro hno
      have hu : ¬ u.hasCell r c := fun h => hno ⟨u, by simp, h⟩
      rw [hb2 r c hc hu]
      exact (s6 r c hr hc).2 (fun ⟨v, hv, hvc⟩ => hno ⟨v, List.mem_append.2 (Or.inl hv), hvc⟩)
  · intro r c hr hc hbefore hmark
    by_cases hcell : r = i ∧ c = j
    · obtain ⟨rfl, rfl⟩ := hcell
      exact ⟨u, by simp, hstart⟩
    · obtain ⟨v, hv, hvc⟩ := s7 r c hr hc (by omega) hmark
      exact ⟨v, List.mem_append.2 (Or.inl hv), hvc⟩
  · rw [List.pairwise_append]
    refine ⟨s8, List.pairwise_singleton _ _, ?_⟩
    intro v hv w hw r c ⟨h1, h2⟩
    rw [List.mem_singleton] at hw
    subst hw
    exact huncov r c h2 ⟨v, hv, h1⟩

/-- The body of the inner loop of the scan keeps the scan state. -/
theorem scan_body (x : Model) (B : SquareArray) (i j : Nat) (s : Model × SquareArray)
    (hup : ∀ r c, r < x.rArray_.length → c < x.rArray_.length →
      (B.get r c = charP ∨ B.get r c = charA) → r < c)
    (hij : i < j) (hjN : j < x.rArray_.length)
    (hS : ∃ runs, ScanState x B x.rArray_.length i j s runs) :
    ∃ runs, ScanState x B x.rArray_.length i (j + 1)
      (if s.2.get i j = charP then
        (s.1.appendLadder (Ladder.new B_PARA i
          (i + (((walkPara i j (x.rArray_.length + 1) 0 s.2).1 : Int) - 1)) j
          (j + (((walkPara i j (x.rArray_.length + 1) 0 s.2).1 : Int) - 1))),
          (walkPara i j (x.rArray_.length + 1) 0 s.2).2)
      else if s.2.get i j = charA then
        (s.1.appendLadder (Ladder.new B_ANTI i
          (i + (((walkAnti i j (x.rArray_.length + 1) 0 s.2).1 : Int) - 1))
          (j - (((walkAnti i j (x.rArray_.length + 1) 0 s.2).1 : Int) - 1)) j),
          (walkAnti i j (x.rArray_.length + 1) 0 s.2).2)
      else s) runs := by
  obtain ⟨runs, hS⟩ := hS
  generalize hN : x.rArray_.length = N at *
  have hS0 := hS
  obtain ⟨s1, s2, s3, s4, s5, s6, s7, s8⟩ := hS
  have hb : ∀ r c, r < N → c < N → (s.2.get r c = charP ∨ s.2.get r c = charA) → r < c := by
    intro r c hr hc hm
    have hno : ¬ ∃ u ∈ runs, u.hasCell r c := by
      intro hcov
      have := (s6 r c hr hc).1 hcov
      rcases hm with hm | hm
      · exact this.1 hm
      · exact this.2 hm
    have e := (s6 r c hr hc).2 hno
    rw [e] at hm
    exact hup r c hr hc hm
  by_cases hP : s.2.get i j = charP
  · rw [if_pos hP]
    obtain ⟨K, k1, k2, k3⟩ := walkPara_stops s.2 N i j s3 s4 hij hjN
      (fun r c hr hc h => hb r c hr hc (Or.inl h))
    have hK : 1 ≤ K := by
      rcases Nat.eq_zero_or_pos K with h0 | h0
      · subst h0
        exact absurd hP k3
      · exact h0
    obtain ⟨w1, w2, w3, w4⟩ := walkPara_run N i j K k1 (by omega) K 0 (N + 1) s.2 rfl
      (Nat.zero_le _) (by omega) s3 s4 (fun t _ ht => k2 t ht) k3
    rw [w1]
    have hlad : Ladder.new B_PARA (i : Int) ((i : Int) + ((K : Int) - 1)) (j : Int)
        ((j : Int) + ((K : Int) - 1)) = (BridgeRun.mk true i j (K - 1)).ladder := by
      have e : (((K - 1 : Nat) : Int)) = (K : Int) - 1 := by omega
      simp only [BridgeRun.ladder, if_true, e]
    rw [hlad]
    refine ⟨runs ++ [⟨true, i, j, K - 1⟩], ?_⟩
    apply scan_step_run x B N i j s runs ⟨true, i, j, K - 1⟩ _ charLowerP hS0 hij hjN rfl rfl
    · intro _
      show j + (K - 1) < N
      omega
    · intro h
      cases h
    · intro t ht
      have ht1 : t ≤ K - 1 := ht
      show s.2.get (i + t) (j + t) = charP
      exact k2 t (by omega)
    · show s.2.get (i + (K - 1) + 1) (j + (K - 1 + 1)) ≠ charP
      have e1 : i + (K - 1) + 1 = i + K := by omega
      have e2 : j + (K - 1 + 1) = j + K := by omega
      rw [e1, e2]
      exact k3
    · exact ⟨by decide, by decide⟩
    · exact w2
    · exact w3
    · intro r c hc ⟨h1, h2, h3⟩
      simp only [if_true] at h1 h2 h3
      rw [w4 r c hc, if_pos (by omega)]
    · intro r c hc hno
      rw [w4 r c hc, if_neg]
      intro ⟨h1, h2, h3⟩
      apply hno
      refine ⟨by show i ≤ r; omega, by show r ≤ i + (K - 1); omega, ?_⟩
      simp only [if_true]
      omega
  · rw [if_neg hP]
    by_cases hA : s.2.get i j = charA
    · rw [if_pos hA]
      obtain ⟨K, k1, k2, k3⟩ := walkAnti_stops s.2 N i j hij hjN
        (fun r c hr hc h => hb r c hr hc (Or.inr h))
      have hK : 1 ≤ K := by
        rcases Nat.eq_zero_or_pos K with h0 | h0
        · subst h0
          exact absurd hA k3
        · exact h0
      obtain ⟨w1, w2, w3, w4⟩ := walkAnti_run N i j K hjN (by omega) K 0 (N + 1) s.2 rfl
        (Nat.zero_le _) (by omega) s3 s4 (fun t _ ht => (k2 t ht).1) k3
      rw [w1]
      have hlast := (k2 (K - 1) (by omega)).2
      have hlad : Ladder.new B_ANTI (i : Int) ((i : Int) + ((K : Int) - 1))
          ((j : Int) - ((K : Int) - 1)) (j : Int) = (BridgeRun.mk false i j (K - 1)).ladder := by
        have e : (((K - 1 : Nat) : Int)) = (K : Int) - 1 := by omega
        simp only [BridgeRun.ladder, Bool.false_eq_true, if_false, e]
      rw [hlad]
      refine ⟨runs ++ [⟨false, i, j, K - 1⟩], ?_⟩
      apply scan_step_run x B N i j s runs ⟨false, i, j, K - 1⟩ _ charLowerA hS0 hij hjN rfl rfl
      · intro h
        cases h
      · intro _
        show i + (K - 1) < j - (K - 1)
        exact hlast
      · intro t ht
        have ht1 : t ≤ K - 1 := ht
        show s.2.get (i + t) (j - t) = charA
        exact (k2 t (by omega)).1
      · show s.2.get (i + (K - 1) + 1) (j - (K - 1 + 1)) ≠ charA
        have e1 : i + (K - 1) + 1 = i + K := by omega
        have e2 : j - (K - 1 + 1) = j - K := by omega
        rw [e1, e2]
        exact k3
      · exact ⟨by decide, by decide⟩
      · exact w2
      · exact w3
      · intro r c hc ⟨h1, h2, h3⟩
        simp only [Bool.false_eq_true, if_false] at h1 h2 h3
        rw [w4 r c hc, if_pos (by omega)]
      · intro r c hc hno
        rw [w4 r c hc, if_neg]
        intro ⟨h1, h2, h3⟩
        apply hno
        refine ⟨by show i ≤ r; omega, by show r ≤ i + (K - 1); omega, ?_⟩
        simp only [Bool.false_eq_true, if_false]
        omega
    · rw [if_neg hA]
      refine ⟨runs, s1, s2, s3, s4, ?_, s6, ?_, s8⟩
      · intro u hu
        refine ⟨(s5 u hu).1, ?_⟩
        have := (s5 u hu).2
        omega
      · intro r c hr hc hbefore hmark
        by_cases hcell : r = i ∧ c = j
        · obtain ⟨rfl, rfl⟩ := hcell
          by_contra hno
          have e := (s6 r c hr hc).2 hno
          rw [← e] at hmark
          rcases hmark with h | h
          · exact hP h
          · exact hA h
        · exact s7 r c hr hc (by omega) hmark

/-- Two maximal runs of the same type, one of which contains the start cell of the other, are
the same run. -/
theorem maximal_run_eq (u v : BridgeRun) (B : SquareArray) (N : Nat) (hu : u.MaximalIn B N)
    (hv : v.MaximalIn B N) (hp : u.para = v.para) (hcell : u.hasCell v.i v.j) : u = v := by
  have hmark : u.mark = v.mark := by unfold BridgeRun.mark; rw [hp]
  obtain ⟨c1, c2, c3⟩ := hcell
  obtain ⟨v1, v2, v3, v4, v5, v6, v7, v8⟩ := hv
  have hi : u.i = v.i := by
    by_contra hne
    have hlt : u.i < v.i := by omega
    have hin : u.hasCell (v.i - 1) (if v.para then v.j - 1 else v.j + 1) := by
      refine ⟨by omega, by omega, ?_⟩
      rw [hp] at c3 ⊢
      cases hq : v.para
      · simp only [hq, Bool.false_eq_true, if_false] at c3 ⊢
        omega
      · simp only [hq, if_true] at c3 ⊢
        omega
    obtain ⟨_, r2, r3⟩ := run_cell u B N hu _ _ hin
    refine v7 (by omega) ?_ (by rw [r3, hmark])
    intro hq
    simp only [hq, Bool.false_eq_true, if_false] at r2
    exact r2
  have hj : u.j = v.j := by
    rw [hp] at c3
    cases hq : v.para
    · simp only [hq, Bool.false_eq_true, if_false] at c3
      omega
    · simp only [hq, if_true] at c3
      omega
  obtain ⟨u1, u2, u3, u4, u5, u6, u7, u8⟩ := hu
  have hk : u.k = v.k := by
    rcases Nat.lt_trichotomy u.k v.k with hlt | heq | hgt
    · exfalso
      have hcellv := v6 (u.k + 1) (by omega)
      refine u8 (by omega) ?_ ?_
      · intro hq
        have := v4 (by rw [← hp]; exact hq)
        omega
      · rw [hmark, ← hcellv, hi]
        unfold BridgeRun.col
        rw [hp, hj, Nat.add_assoc]
    · exact heq
    · exfalso
      have hcellu := u6 (v.k + 1) (by omega)
      refine v8 (by omega) ?_ ?_
      · intro hq
        have := u4 (by rw [hp]; exact hq)
        omega
      · rw [← hmark, ← hcellu, hi]
        unfold BridgeRun.col
        rw [hp, hj, Nat.add_assoc]
  cases u
  cases v
  simp only at hp hi hj hk
  subst hp; subst hi; subst hj; subst hk
  rfl

/-- The fields of the ladder of a run that lies above the diagonal. -/
theorem run_ladder_fields (u : BridgeRun) (hgeo : u.para = false → u.i + u.k < u.j - u.k) :
    u.ladder.type_ = (if u.para then B_PARA else B_ANTI)
      ∧ u.ladder.start 0 = u.i ∧ u.ladder.end_ 0 = (u.i : Int) + u.k
      ∧ u.ladder.start 1 = (if u.para then (u.j : Int) else (u.j : Int) - u.k)
      ∧ u.ladder.end_ 1 = (if u.para then (u.j : Int) + u.k else (u.j : Int))
      ∧ ∀ r c, u.ladder.hasCell r c ↔ u.hasCell r c := by
  cases hq : u.para
  · have g := hgeo hq
    have f1 : u.ladder.type_ = B_ANTI := by
      simp only [BridgeRun.ladder, hq, Bool.false_eq_true, if_false, Ladder.new]
    have f2 : u.ladder.start 0 = u.i := by
      simp only [BridgeRun.ladder, hq, Bool.false_eq_true, if_false, Ladder.new, Ladder.start,
        if_true]
      split_ifs <;> omega
    have f3 : u.ladder.end_ 0 = (u.i : Int) + u.k := by
      simp only [BridgeRun.ladder, hq, Bool.false_eq_true, if_false, Ladder.new, Ladder.end_,
        if_true]
      split_ifs <;> omega
    have f4 : u.ladder.start 1 = (u.j : Int) - u.k := by
      simp only [BridgeRun.ladder, hq, Bool.false_eq_true, if_false, Ladder.new, Ladder.start,
        Nat.one_ne_zero]
      split_ifs <;> omega
    have f5 : u.ladder.end_ 1 = (u.j : Int) := by
      simp only [BridgeRun.ladder, hq, Bool.false_eq_true, if_false, Ladder.new, Ladder.end_,
        Nat.one_ne_zero]
      split_ifs <;> omega
    refine ⟨by simpa using f1, f2, f3, by simpa using f4, by simpa using f5, ?_⟩
    intro r c
    unfold Ladder.hasCell BridgeRun.hasCell
    rw [f1, f2, f3, f5]
    have hne : ¬ (B_ANTI = B_PARA) := by decide
    simp only [hne, if_false, hq, Bool.false_eq_true]
    constructor
    · rintro ⟨h1, h2, h3⟩
      exact ⟨by omega, by omega, by omega⟩
    · rintro ⟨h1, h2, h3⟩
      exact ⟨by omega, by omega, by omega⟩
  · have f1 : u.ladder.type_ = B_PARA := by
      simp only [BridgeRun.ladder, hq, if_true, Ladder.new]
    have f2 : u.ladder.start 0 = u.i := by
      simp only [BridgeRun.ladder, hq, if_true, Ladder.new, Ladder.start]
      split_ifs <;> omega
    have f3 : u.ladder.end_ 0 = (u.i : Int) + u.k := by
      simp only [BridgeRun.ladder, hq, if_true, Ladder.new, Ladder.end_]
      split_ifs <;> omega
    have f4 : u.ladder.start 1 = (u.j : Int) := by
      simp only [BridgeRun.ladder, hq, if_true, Ladder.new, Ladder.start, Nat.one_ne_zero,
        if_false]
      split_ifs <;> omega
    have f5 : u.ladder.end_ 1 = (u.j : Int) + u.k := by
      simp only [BridgeRun.ladder, hq, if_true, Ladder.new, Ladder.end_, Nat.one_ne_zero,
        if_false]
      split_ifs <;> omega
    refine ⟨by simpa using f1, f2, f3, by simpa using f4, by simpa using f5, ?_⟩
    intro r c
    unfold Ladder.hasCell BridgeRun.hasCell
    rw [f1, f2, f3, f4]
    simp only [if_true, hq]
    constructor
    · rintro ⟨h1, h2, h3⟩
      exact ⟨by omega, by omega, by omega⟩
    · rintro ⟨h1, h2, h3⟩
      exact ⟨by omega, by omega, by omega⟩

/-- The scan of findBridges over a bridge matrix whose marks are above the diagonal ends in a
scan state in which every cell has been visited. -/
theorem extractLadders_scan (x : Model) (B : SquareArray)
    (hd : B.dim_ = x.rArray_.length)
    (hl : B.array_.length = x.rArray_.length * x.rArray_.length)
    (hup : ∀ r c, r < x.rArray_.length → c < x.rArray_.length →
      (B.get r c = charP ∨ B.get r c = charA) → r < c) :
    ∃ runs, ScanState x B x.rArray_.length x.rArray_.length (x.rArray_.length + 1)
      (x.extractLadders B) runs := by
  unfold Model.extractLadders
  simp only []
  have outer := forLoop_induct (fun (i : Nat) (s : Model × SquareArray) =>
      ∃ runs, ScanState x B x.rArray_.length i (i + 1) s runs)
    (fun i s =>
      forLoop (i + 1) x.rArray_.length (fun j (s : Model × SquareArray) =>
        if s.2.get i j = charP then
          (s.1.appendLadder (Ladder.new B_PARA i
            (i + (((walkPara i j (x.rArray_.length + 1) 0 s.2).1 : Int) - 1)) j
            (j + (((walkPara i j (x.rArray_.length + 1) 0 s.2).1 : Int) - 1))),
            (walkPara i j (x.rArray_.length + 1) 0 s.2).2)
        else if s.2.get i j = charA then
          (s.1.appendLadder (Ladder.new B_ANTI i
            (i + (((walkAnti i j (x.rArray_.length + 1) 0 s.2).1 : Int) - 1))
            (j - (((walkAnti i j (x.rArray_.length + 1) 0 s.2).1 : Int) - 1)) j),
            (walkAnti i j (x.rArray_.length + 1) 0 s.2).2)
        else s) s)
    x.rArray_.length x.rArray_.length 0 (x, B) rfl (Nat.zero_le _) ?h0 ?hstep
  case h0 =>
    refine ⟨[], by simp, by simp, hd, hl, by simp, ?_, ?_, List.Pairwise.nil⟩
    · intro r c _ _
      simp
    · intro r c hr hc hbefore hmark
      have := hup r c hr hc hmark
      omega
  case hstep =>
    intro i s _ hiN hP
    dsimp only
    have inner := forLoop_induct (fun (j : Nat) (s : Model × SquareArray) =>
        ∃ runs, ScanState x B x.rArray_.length i j s runs)
      (fun j (s : Model × SquareArray) =>
        if s.2.get i j = charP then
          (s.1.appendLadder (Ladder.new B_PARA i
            (i + (((walkPara i j (x.rArray_.length + 1) 0 s.2).1 : Int) - 1)) j
            (j + (((walkPara i j (x.rArray_.length + 1) 0 s.2).1 : Int) - 1))),
            (walkPara i j (x.rArray_.length + 1) 0 s.2).2)
        else if s.2.get i j = charA then
          (s.1.appendLadder (Ladder.new B_ANTI i
            (i + (((walkAnti i j (x.rArray_.length + 1) 0 s.2).1 : Int) - 1))
            (j - (((walkAnti i j (x.rArray_.length + 1) 0 s.2).1 : Int) - 1)) j),
            (walkAnti i j (x.rArray_.length + 1) 0 s.2).2)
        else s)
      x.rArray_.length (x.rArray_.length - (i + 1)) (i + 1) s rfl (by omega) hP ?istep
    case istep =>
      intro j s1 hj1 hjN hQ
      exact scan_body x B i j s1 hup (by omega) hjN hQ
    obtain ⟨runs, s1, s2, s3, s4, s5, s6, s7, s8⟩ := inner
    refine ⟨runs, s1, s2, s3, s4, ?_, s6, ?_, s8⟩
    · intro u hu
      refine ⟨(s5 u hu).1, ?_⟩
      have := (s5 u hu).2
      omega
    · intro r c hr hc hbefore hmark
      have := hup r c hr hc hmark
      exact s7 r c hr hc (by omega) hmark
  exact outer

theorem markBridges_upper (m : Model) :
    ∀ r c, r < m.rArray_.length → c < m.rArray_.length →
      (m.markBridges.2.get r c = charP ∨ m.markBridges.2.get r c = charA) → r < c := by
  obtain ⟨_, _, _, hcell⟩ := markBridges_cells m
  intro r c hr hc hm
  rw [hcell r c hr hc] at hm
  by_cases h : 1 ≤ r ∧ r < c
  · exact h.2
  · rw [if_neg h] at hm
    rcases hm with hm | hm
    · exact absurd hm (by decide)
    · exact absurd hm (by decide)

/-- C13: before merging and pruning, the ladders appended by the row-major scan of findBridges
are exactly the maximal diagonal runs of same-type cells of the bridge matrix.  The appended
ladders are the ladders of a list of runs; each run is maximal (its cells (i+t, j+t) for a
parallel run, (i+t, j-t) for an antiparallel run, t = 0..k, all carry its mark, and the cells
just before its first and just after its last cell on that diagonal do not), and its ladder
has strand 0 = [i, i+k] and strand 1 = [j, j+k] (parallel) or [j-k, j] (antiparallel); every
maximal run is in the list; and every marked cell lies in exactly one of the appended ladders,
a ladder of the type of its mark. -/
theorem extractLadders_maximal_runs (m : Model) :
    ∃ runs : List BridgeRun,
      (m.markBridges.1.extractLadders m.markBridges.2).1.ladders
        = m.markBridges.1.ladders ++ runs.map BridgeRun.ladder
      ∧ (m.markBridges.1.extractLadders m.markBridges.2).1.ladderList_
        = m.markBridges.1.ladderList_
          ++ List.range' m.markBridges.1.ladders.length runs.length
      ∧ (∀ u ∈ runs, u.MaximalIn m.markBridges.2 m.rArray_.length
          ∧ u.ladder.type_ = (if u.para then B_PARA else B_ANTI)
          ∧ u.ladder.start 0 = u.i ∧ u.ladder.end_ 0 = (u.i : Int) + u.k
          ∧ u.ladder.start 1 = (if u.para then (u.j : Int) else (u.j : Int) - u.k)
          ∧ u.ladder.end_ 1 = (if u.para then (u.j : Int) + u.k else (u.j : Int))
          ∧ ∀ r c, u.ladder.hasCell r c ↔ u.hasCell r c)
      ∧ (∀ v : BridgeRun, v.MaximalIn m.markBridges.2 m.rArray_.length → v ∈ runs)
      ∧ (∀ r c, r < m.rArray_.length → c < m.rArray_.length →
          (m.markBridges.2.get r c = charP ∨ m.markBridges.2.get r c = charA) →
          ∃ p, m.markBridges.1.ladders.length ≤ p
            ∧ p < m.markBridges.1.ladders.length + runs.length
            ∧ ((m.markBridges.1.extractLadders m.markBridges.2).1.ladder p).hasCell r c
            ∧ ((m.markBridges.1.extractLadders m.markBridges.2).1.ladder p).type_
                = (if m.markBridges.2.get r c = charP then B_PARA else B_ANTI)
            ∧ ∀ q, m.markBridges.1.ladders.length ≤ q →
                q < m.markBridges.1.ladders.length + runs.length →
                ((m.markBridges.1.extractLadders m.markBridges.2).1.ladder q).hasCell r c →
                q = p) := by
  obtain ⟨hk, hd, hl⟩ := keeps_markBridges m
  have hlen : m.markBridges.1.rArray_.length = m.rArray_.length := hk.2.2.2.2.2.1
  have hup := markBridges_upper m
  obtain ⟨runs, s1, s2, s3, s4, s5, s6, s7, s8⟩ := extractLadders_scan m.markBridges.1
    m.markBridges.2 (by rw [hlen]; exact hd) (by rw [hlen]; exact hl)
    (by rw [hlen]; exact hup)
  rw [hlen] at s5 s6 s7
  have hfields : ∀ u ∈ runs, u.ladder.type_ = (if u.para then B_PARA else B_ANTI)
      ∧ u.ladder.start 0 = u.i ∧ u.ladder.end_ 0 = (u.i : Int) + u.k
      ∧ u.ladder.start 1 = (if u.para then (u.j : Int) else (u.j : Int) - u.k)
      ∧ u.ladder.end_ 1 = (if u.para then (u.j : Int) + u.k else (u.j : Int))
      ∧ ∀ r c, u.ladder.hasCell r c ↔ u.hasCell r c :=
    fun u hu => run_ladder_fields u (s5 u hu).1.2.2.2.2.1
  have hlad : ∀ n, n < runs.length →
      (m.markBridges.1.extractLadders m.markBridges.2).1.ladder
          (m.markBridges.1.ladders.length + n) = (runs.getD n default).ladder := by
    intro n hn
    unfold Model.ladder
    rw [s1, List.getD_eq_getElem?_getD, List.getD_eq_getElem?_getD,
      List.getElem?_append_right (by omega), Nat.add_sub_cancel_left, List.getElem?_map,
      List.getElem?_eq_getElem hn]
    rfl
  have hmem : ∀ n, n < runs.length → runs.getD n default ∈ runs := by
    intro n hn
    rw [List.getD_eq_getElem?_getD, List.getElem?_eq_getElem hn]
    exact List.getElem_mem _
  have huniq : ∀ n n1, n < runs.length → n1 < runs.length → ∀ r c,
      (runs.getD n default).hasCell r c → (runs.getD n1 default).hasCell r c → n1 = n := by
    intro n n1 hn hn1 r c h1 h2
    rw [List.getD_eq_getElem?_getD, List.getElem?_eq_getElem hn] at h1
    rw [List.getD_eq_getElem?_getD, List.getElem?_eq_getElem hn1] at h2
    simp only [Option.getD_some] at h1 h2
    rcases Nat.lt_trichotomy n n1 with hlt | heq | hgt
    · exact absurd ⟨h1, h2⟩ (List.pairwise_iff_getElem.1 s8 n n1 hn hn1 hlt r c)
    · exact heq.symm
    · exact absurd ⟨h2, h1⟩ (List.pairwise_iff_getElem.1 s8 n1 n hn1 hn hgt r c)
  refine ⟨runs, s1, s2, ?_, ?_, ?_⟩
  · intro u hu
    exact ⟨(s5 u hu).1, hfields u hu⟩
  · intro v hv
    have hv0 := hv
    obtain ⟨v1, v2, v3, v4, v5, v6, _, _⟩ := hv0
    have hstart := v6 0 (Nat.zero_le _)
    have hcol : v.col 0 = v.j := by
      unfold BridgeRun.col
      split <;> rfl
    rw [Nat.add_zero, hcol] at hstart
    have hm : m.markBridges.2.get v.i v.j = charP ∨ m.markBridges.2.get v.i v.j = charA := by
      rw [hstart]
      unfold BridgeRun.mark
      split
      · exact Or.inl rfl
      · exact Or.inr rfl
    obtain ⟨u, hu, huc⟩ := s7 v.i v.j (by omega) v2 (Or.inl (by omega)) hm
    have humark := (run_cell u _ _ (s5 u hu).1 _ _ huc).2.2
    have hpara : u.para = v.para := mark_inj u v (by rw [← humark, hstart])
    have := maximal_run_eq u v _ _ (s5 u hu).1 hv hpara huc
    rw [← this]
    exact hu
  · intro r c hr hc hm
    obtain ⟨u, hu, huc⟩ := s7 r c hr hc (Or.inl hr) hm
    obtain ⟨n, hn, hnu⟩ := List.getElem_of_mem hu
    have hget : runs.getD n default = u := by
      rw [List.getD_eq_getElem?_getD, List.getElem?_eq_getElem hn, hnu]
      rfl
    have humark := (run_cell u _ _ (s5 u hu).1 _ _ huc).2.2
    refine ⟨m.markBridges.1.ladders.length + n, by omega, by omega, ?_, ?_, ?_⟩
    · rw [hlad n hn, hget]
      exact ((hfields u hu).2.2.2.2.2 r c).2 huc
    · rw [hlad n hn, hget, (hfields u hu).1, humark]
      unfold BridgeRun.mark
      cases hq : u.para
      · simp only [Bool.false_eq_true, if_false]
        rw [if_neg (by decide)]
      · simp only [if_true]
    · intro q hq1 hq2 hqc
      have e : q = m.markBridges.1.ladders.length + (q - m.markBridges.1.ladders.length) := by
        omega
      rw [e, hlad _ (by omega)] at hqc
      have hq3 : q - m.markBridges.1.ladders.length < runs.length := by omega
      have hqc1 := ((hfields _ (hmem _ hq3)).2.2.2.2.2 r c).1 hqc
      have := huniq n _ hn hq3 r c (by rw [hget]; exact huc) hqc1
      omega

/-! ## The distance shortcut of the bond test -/

/-- C22 (counterexample): C at (0,0,0) and O at (9,0,0) on one residue, N at (8,0,0) and H at
(10,0,0) on the other, with the default cutoff -0.5.  The squared C-N distance is 64 > 49,
the distances are r(O,N) = 1, r(C,H) = 10, r(O,H) = 1, r(C,N) = 8, the energy
27.888 * (1 + 1/10 - 1 - 1/8) = -0.6972 is below the cutoff, and hBondedTo answers 0 where the
full calculation answers 1. -/
theorem hBondedTo_shortcut_changes_result :
    distSquared ((0 : ℚ), (0 : ℚ), (0 : ℚ)) ((8 : ℚ), (0 : ℚ), (0 : ℚ)) > 49
    ∧ hBondEnergy sqrtf (0, 0, 0) (9, 0, 0) (8, 0, 0) (10, 0, 0) < -1 / 2
    ∧ Residue.hBondedTo sqrtf (-1 / 2)
        ⟨[⟨" C", (0, 0, 0)⟩, ⟨" O", (9, 0, 0)⟩], 0⟩
        ⟨[⟨" N", (8, 0, 0)⟩, ⟨" H", (10, 0, 0)⟩], 0⟩ = 0
    ∧ Residue.hBondedToFull sqrtf (-1 / 2)
        ⟨[⟨" C", (0, 0, 0)⟩, ⟨" O", (9, 0, 0)⟩], 0⟩
        ⟨[⟨" N", (8, 0, 0)⟩, ⟨" H", (10, 0, 0)⟩], 0⟩ = 1 := by
  decide!

/-- C22 (amended): when the squared C-N distance is greater than 49, hBondedTo answers 0
without evaluating the energy; its answer differs from the answer of the full calculation
exactly for the pairs with all four atoms, squared C-N distance greater than 49 and energy
below the cutoff. -/
theorem hBondedTo_shortcut_iff (sq : ℚ → ℚ) (cutoff : ℚ) (self other : Residue) :
    (∀ c n, self.atom " C" = some c → other.atom " N" = some n →
        distSquared c.coord_ n.coord_ > 49 → Residue.hBondedTo sq cutoff self other = 0)
    ∧ (Residue.hBondedTo sq cutoff self other ≠ Residue.hBondedToFull sq cutoff self other
        ↔ ∃ c o n h, self.atom " C" = some c ∧ self.atom " O" = some o
          ∧ other.atom " N" = some n ∧ other.atom " H" = some h
          ∧ distSquared c.coord_ n.coord_ > 49
          ∧ hBondEnergy sq c.coord_ o.coord_ n.coord_ h.coord_ < cutoff) := by
  unfold Residue.hBondedTo Residue.hBondedToFull
  cases hc : self.atom " C" <;> cases ho : self.atom " O" <;>
    cases hn : other.atom " N" <;> cases hh : other.atom " H" <;> simp
  rename_i c o n h
  by_cases hd : 49 < distSquared c.coord_ n.coord_
  · by_cases he : hBondEnergy sq c.coord_ o.coord_ n.coord_ h.coord_ < cutoff
    · simp [hd, he]
    · simp [hd, he]
  · by_cases he : hBondEnergy sq c.coord_ o.coord_ n.coord_ h.coord_ < cutoff
    · simp [hd, he]
    · simp [hd, he]

/-! ## Amide hydrogens -/

theorem addImideHydrogen_cases (sq : ℚ → ℚ) (self : Residue) (prev : Option Residue) :
    ((∃ p, prev = some p ∧ self.atom " H" = none ∧ (self.atom " N").isSome
          ∧ (self.atom " CA").isSome ∧ (p.atom " C").isSome ∧ (p.atom " O").isSome) →
        (self.addImideHydrogen sq prev).1 = 0
        ∧ ∃ a : Atom, a.name_ = " H"
          ∧ (self.addImideHydrogen sq prev).2.aList_ = self.aList_ ++ [a])
    ∧ ((¬ ∃ p, prev = some p ∧ self.atom " H" = none ∧ (self.atom " N").isSome
          ∧ (self.atom " CA").isSome ∧ (p.atom " C").isSome ∧ (p.atom " O").isSome) →
        (self.addImideHydrogen sq prev).2 = self
        ∧ ((self.addImideHydrogen sq prev).1 = 0 ∨ (self.addImideHydrogen sq prev).1 = -1)) := by
  unfold Residue.addImideHydrogen
  cases prev with
  | none => simp
  | some p =>
    cases hH : self.atom " H" with
    | some x => simp
    | none =>
      cases hN : self.atom " N" <;> cases hCA : self.atom " CA" <;> cases hC : p.atom " C" <;>
        cases hO : p.atom " O" <;> simp [Residue.addAtom, hN, hCA, hC, hO]

/-- The atom list of every residue after addImideHydrogens is its atom list before, possibly
followed by one new atom named H. -/
theorem addImideHydrogens_fold_atoms (sq : ℚ → ℚ) :
    ∀ (rest : List Residue) (s : Option Residue × List Residue) (done : List Residue),
      List.Forall₂ (fun rin rout : Residue => rout.aList_ = rin.aList_
        ∨ ∃ a : Atom, a.name_ = " H" ∧ rout.aList_ = rin.aList_ ++ [a]) done s.2 →
      List.Forall₂ (fun rin rout : Residue => rout.aList_ = rin.aList_
        ∨ ∃ a : Atom, a.name_ = " H" ∧ rout.aList_ = rin.aList_ ++ [a]) (done ++ rest)
        (rest.foldl (fun (s : Option Residue × List Residue) r =>
          let r1 := (r.addImideHydrogen sq s.1).2
          (if r1.flag R_TER ≠ 0 then none else some r1, s.2 ++ [r1])) s).2 := by
  intro rest
  induction rest with
  | nil => intro s done h; simpa using h
  | cons r rs ih =>
    intro s done h
    rw [List.foldl_cons]
    have := ih (if ((r.addImideHydrogen sq s.1).2).flag R_TER ≠ 0 then none
        else some (r.addImideHydrogen sq s.1).2, s.2 ++ [(r.addImideHydrogen sq s.1).2])
      (done ++ [r]) (by
        apply List.rel_append h
        refine List.Forall₂.cons ?_ List.Forall₂.nil
        obtain ⟨c1, c2⟩ := addImideHydrogen_cases sq r s.1
        by_cases hc : ∃ p, s.1 = some p ∧ r.atom " H" = none ∧ (r.atom " N").isSome
            ∧ (r.atom " CA").isSome ∧ (p.atom " C").isSome ∧ (p.atom " O").isSome
        · exact Or.inr (c1 hc).2
        · exact Or.inl (by rw [(c2 hc).1]))
    simpa using this

/-- C23: Residue::addImideHydrogen(prev) adds exactly one atom, named H, at the end of the
atom list of the residue (and returns 0) if and only if prev is non-null, the residue has no H
atom yet, the residue has N and CA, and prev has C and O; in every other case the residue is
left unchanged and the return value is 0 or -1.  In addImideHydrogens the atom list of every
residue afterwards is its atom list before, possibly followed by one new atom named H: no
atom of a predecessor is changed. -/
theorem addImideHydrogen_adds_iff (sq : ℚ → ℚ) (self : Residue) (prev : Option Residue)
    (m : Model) :
    (((∃ a : Atom, a.name_ = " H"
          ∧ (self.addImideHydrogen sq prev).2.aList_ = self.aList_ ++ [a])
        ↔ ∃ p, prev = some p ∧ self.atom " H" = none ∧ (self.atom " N").isSome
          ∧ (self.atom " CA").isSome ∧ (p.atom " C").isSome ∧ (p.atom " O").isSome)
      ∧ ((∃ p, prev = some p ∧ self.atom " H" = none ∧ (self.atom " N").isSome
          ∧ (self.atom " CA").isSome ∧ (p.atom " C").isSome ∧ (p.atom " O").isSome) →
        (self.addImideHydrogen sq prev).1 = 0)
      ∧ ((¬ ∃ p, prev = some p ∧ self.atom " H" = none ∧ (self.atom " N").isSome
          ∧ (self.atom " CA").isSome ∧ (p.atom " C").isSome ∧ (p.atom " O").isSome) →
        (self.addImideHydrogen sq prev).2 = self
        ∧ ((self.addImideHydrogen sq prev).1 = 0 ∨ (self.addImideHydrogen sq prev).1 = -1))
      ∧ (self.addImideHydrogen sq prev).2.flags_ = self.flags_)
    ∧ List.Forall₂ (fun rin rout : Residue => rout.aList_ = rin.aList_
        ∨ ∃ a : Atom, a.name_ = " H" ∧ rout.aList_ = rin.aList_ ++ [a])
        m.rArray_ (m.addImideHydrogens sq).rArray_ := by
  obtain ⟨c1, c2⟩ := addImideHydrogen_cases sq self prev
  refine ⟨⟨?_, fun h => (c1 h).1, c2, addImideHydrogen_flags sq self prev⟩, ?_⟩
  · constructor
    · rintro ⟨a, _, ha⟩
      by_contra hc
      rw [(c2 hc).1] at ha
      have := congrArg List.length ha
      simp at this
    · intro h
      exact (c1 h).2
  · unfold Model.addImideHydrogens
    cases h : m.rArray_ with
    | nil =>
      simp only [h]
      exact List.Forall₂.nil
    | cons r0 rest =>
      simp only
      exact addImideHydrogens_fold_atoms sq rest (some r0, [r0]) [r0]
        (List.Forall₂.cons (Or.inl rfl) List.Forall₂.nil)

/-! ## Hydrogen synthesis and chain terminators -/

theorem residue_flags_of_map (l1 l2 : List Residue)
    (h : l1.map Residue.flags_ = l2.map Residue.flags_) (r : Nat) :
    (l1.getD r default).flags_ = (l2.getD r default).flags_ := by
  have e : ∀ l : List Residue, (l.getD r default).flags_ = (l.map Residue.flags_).getD r 0 := by
    intro l
    rw [List.getD_eq_getElem?_getD, List.getD_eq_getElem?_getD, List.getElem?_map]
    cases l[r]? <;> rfl
  rw [e l1, e l2, h]

/-- The loop of addImideHydrogens, residue by residue: the residues done before are kept, and
each residue of the rest is processed with the prev left by its predecessor. -/
theorem addImideHydrogens_fold_spec (sq : ℚ → ℚ) :
    ∀ (rest : List Residue) (prev : Option Residue) (done : List Residue),
      ((rest.foldl (fun (s : Option Residue × List Residue) r =>
          let r1 := (r.addImideHydrogen sq s.1).2
          (if r1.flag R_TER ≠ 0 then none else some r1, s.2 ++ [r1])) (prev, done)).2).length
        = done.length + rest.length
      ∧ (∀ i, i < done.length →
          ((rest.foldl (fun (s : Option Residue × List Residue) r =>
            let r1 := (r.addImideHydrogen sq s.1).2
            (if r1.flag R_TER ≠ 0 then none else some r1, s.2 ++ [r1])) (prev, done)).2).getD i
              default = done.getD i default)
      ∧ (∀ j, j < rest.length →
          ((rest.foldl (fun (s : Option Residue × List Residue) r =>
            let r1 := (r.addImideHydrogen sq s.1).2
            (if r1.flag R_TER ≠ 0 then none else some r1, s.2 ++ [r1])) (prev, done)).2).getD
              (done.length + j) default
            = ((rest.getD j default).addImideHydrogen sq
                (if j = 0 then prev
                 else if (((rest.foldl (fun (s : Option Residue × List Residue) r =>
                    let r1 := (r.addImideHydrogen sq s.1).2
                    (if r1.flag R_TER ≠ 0 then none else some r1, s.2 ++ [r1]))
                    (prev, done)).2).getD (done.length + j - 1) default).flag R_TER ≠ 0
                 then none
                 else some (((rest.foldl (fun (s : Option Residue × List Residue) r =>
                    let r1 := (r.addImideHydrogen sq s.1).2
                    (if r1.flag R_TER ≠ 0 then none else some r1, s.2 ++ [r1]))
                    (prev, done)).2).getD (done.length + j - 1) default))).2) := by
  intro rest
  induction rest with
  | nil =>
    intro prev done
    refine ⟨by simp, fun i _ => rfl, ?_⟩
    intro j hj
    simp at hj
  | cons r rs ih =>
    intro prev done
    rw [List.foldl_cons]
    simp only
    obtain ⟨i1, i2, i3⟩ := ih (if ((r.addImideHydrogen sq prev).2).flag R_TER ≠ 0 then none
        else some (r.addImideHydrogen sq prev).2) (done ++ [(r.addImideHydrogen sq prev).2])
    have hlen : (done ++ [(r.addImideHydrogen sq prev).2]).length = done.length + 1 := by simp
    have hat : (done ++ [(r.addImideHydrogen sq prev).2]).getD done.length default
        = (r.addImideHydrogen sq prev).2 := by
      rw [List.getD_eq_getElem?_getD, List.getElem?_append_right (le_refl _)]
      simp
    refine ⟨?_, ?_, ?_⟩
    · rw [i1, hlen, List.length_cons]
      omega
    · intro i hi
      rw [i2 i (by rw [hlen]; omega), List.getD_eq_getElem?_getD, List.getD_eq_getElem?_getD,
        List.getElem?_append_left hi]
    · intro j hj
      cases j with
      | zero =>
        rw [Nat.add_zero, i2 done.length (by rw [hlen]; omega), hat]
        rfl
      | succ k =>
        have hk : k < rs.length := by simpa using hj
        have h3 := i3 k hk
        rw [hlen] at h3
        have e1 : done.length + 1 + k = done.length + (k + 1) := by omega
        have e2 : done.length + (k + 1) - 1 = done.length + k := by omega
        rw [e1] at h3
        rw [h3, e2, if_neg (Nat.succ_ne_zero k)]
        have e3 : (r :: rs).getD (k + 1) default = rs.getD k default := rfl
        rw [e3]
        by_cases hk0 : k = 0
        · subst hk0
          rw [if_pos rfl, Nat.add_zero, i2 done.length (by rw [hlen]; omega), hat]
        · rw [if_neg hk0]

/-- C24: in a model whose first residue does not carry the chain-terminator flag (the
constructor sets the flag only on the residue at which it meets the TER record, which ends the
model, so only the last residue of a model carries it), addImideHydrogens keeps the number of
residues, leaves the first residue unchanged and leaves unchanged every residue whose
immediate predecessor carries the chain-terminator flag: no hydrogen is synthesized for them,
so none is synthesized from the C and O of a terminator residue.  Every other residue i is
processed by addImideHydrogen with the residue i - 1 as prev. -/
theorem addImideHydrogens_respects_terminators (sq : ℚ → ℚ) (m : Model)
    (h0 : 1 < m.rArray_.length → (m.residue 0).flag R_TER = 0) :
    (m.addImideHydrogens sq).rArray_.length = m.rArray_.length
    ∧ (m.addImideHydrogens sq).residue 0 = m.residue 0
    ∧ (∀ i, 1 ≤ i → i < m.rArray_.length → (m.residue (i - 1)).flag R_TER ≠ 0 →
        (m.addImideHydrogens sq).residue i = m.residue i)
    ∧ (∀ i, 1 ≤ i → i < m.rArray_.length → (m.residue (i - 1)).flag R_TER = 0 →
        (m.addImideHydrogens sq).residue i
          = ((m.residue i).addImideHydrogen sq
              (some ((m.addImideHydrogens sq).residue (i - 1)))).2) := by
  have hflags : ∀ r, ((m.addImideHydrogens sq).residue r).flag R_TER
      = (m.residue r).flag R_TER := by
    intro r
    unfold Residue.flag
    have : ((m.addImideHydrogens sq).residue r).flags_ = (m.residue r).flags_ :=
      residue_flags_of_map _ _ (addImideHydrogens_flags sq m) r
    rw [this]
  have hlen : (m.addImideHydrogens sq).rArray_.length = m.rArray_.length := by
    have := congrArg List.length (addImideHydrogens_flags sq m)
    simpa using this
  have hstep : ∀ i, 1 ≤ i → i < m.rArray_.length →
      (m.addImideHydrogens sq).residue i
        = ((m.residue i).addImideHydrogen sq
            (if i - 1 = 0 then some (m.residue 0)
             else if ((m.addImideHydrogens sq).residue (i - 1)).flag R_TER ≠ 0 then none
             else some ((m.addImideHydrogens sq).residue (i - 1)))).2
      ∧ (m.addImideHydrogens sq).residue 0 = m.residue 0 := by
    intro i hi1 hi2
    unfold Model.residue Model.addImideHydrogens
    cases hr : m.rArray_ with
    | nil =>
      rw [hr] at hi2
      simp at hi2
    | cons r0 rest =>
      simp only
      obtain ⟨_, i2, i3⟩ := addImideHydrogens_fold_spec sq rest (some r0) [r0]
      rw [hr] at hi2
      have hj : i - 1 < rest.length := by
        simp only [List.length_cons] at hi2
        omega
      have h3 := i3 (i - 1) hj
      have e1 : [r0].length + (i - 1) = i := by
        simp only [List.length_singleton]
        omega
      rw [e1] at h3
      have e3 : (r0 :: rest).getD i default = rest.getD (i - 1) default := by
        obtain ⟨k, rfl⟩ : ∃ k, i = k + 1 := ⟨i - 1, by omega⟩
        rfl
      refine ⟨?_, i2 0 (by simp)⟩
      rw [h3, e3]
      rfl
  have hres0 : (m.addImideHydrogens sq).residue 0 = m.residue 0 := by
    by_cases h1 : 1 < m.rArray_.length
    · exact (hstep 1 (le_refl _) h1).2
    · unfold Model.residue Model.addImideHydrogens
      cases hr : m.rArray_ with
      | nil => simp only [hr]
      | cons r0 rest =>
        rw [hr] at h1
        have : rest = [] := by
          cases rest with
          | nil => rfl
          | cons a b => simp at h1
        subst this
        rfl
  have hprev : ∀ i, 1 ≤ i → i < m.rArray_.length →
      (m.addImideHydrogens sq).residue i
        = ((m.residue i).addImideHydrogen sq
            (if (m.residue (i - 1)).flag R_TER ≠ 0 then none
             else some ((m.addImideHydrogens sq).residue (i - 1)))).2 := by
    intro i hi1 hi2
    rw [(hstep i hi1 hi2).1]
    by_cases hz : i - 1 = 0
    · rw [if_pos hz, hz, hres0, if_neg (not_not.2 (h0 (by omega)))]
    · rw [if_neg hz, hflags]
  refine ⟨hlen, hres0, ?_, ?_⟩
  · intro i hi1 hi2 hter
    rw [hprev i hi1 hi2, if_pos hter]
    rfl
  · intro i hi1 hi2 hter
    rw [hprev i hi1 hi2, if_neg (not_not.2 hter)]

/-- C24 (example): two residues, the second of which ends the chain.  The first residue is
unchanged, and the second one gets its hydrogen from the C and O of the first. -/
theorem addImideHydrogens_respects_terminators_witness :
    (terLastModel.addImideHydrogens sqrtf).rArray_.map (fun r => r.aList_.map Atom.name_)
        = [[" C", " O"], [" N", " CA", " H"]]
    ∧ (terLastModel.addImideHydrogens sqrtf).rArray_.length = terLastModel.rArray_.length
    ∧ (terLastModel.addImideHydrogens sqrtf).residue 0 = terLastModel.residue 0
    ∧ (∀ i, 1 ≤ i → i < terLastModel.rArray_.length →
        (terLastModel.residue (i - 1)).flag R_TER ≠ 0 →
        (terLastModel.addImideHydrogens sqrtf).residue i = terLastModel.residue i)
    ∧ (∀ i, 1 ≤ i → i < terLastModel.rArray_.length →
        (terLastModel.residue (i - 1)).flag R_TER = 0 →
        (terLastModel.addImideHydrogens sqrtf).residue i
          = ((terLastModel.residue i).addImideHydrogen sqrtf
              (some ((terLastModel.addImideHydrogens sqrtf).residue (i - 1)))).2) :=
  ⟨by decide!, addImideHydrogens_respects_terminators sqrtf terLastModel (fun _ => by decide)⟩

/-! ## The bulge test and the definition it quotes -/

/-- C27 (evaluation at the failing input): the parallel ladders 1..3 / 11..13 and 5..7 / 15..17
are connected by one extra residue on each strand (residue 4 and residue 14), so they are
bulge-linked by the quoted definition, and mergeBulge returns NULL: it compares the index
differences d0 = d1 = 2, not the numbers of residues in between, with the bounds 1 and 4.
Every pair that mergeBulge does merge, taken with the ladder of smaller start(0) first, is
bulge-linked by the definition. -/
theorem mergeBulge_rejects_bulgeLinked :
    (Ladder.new B_PARA 1 3 11 13).bulgeLinked (Ladder.new B_PARA 5 7 15 17)
    ∧ extraResidues ((Ladder.new B_PARA 1 3 11 13).end_ 0)
        ((Ladder.new B_PARA 5 7 15 17).start 0) = 1
    ∧ extraResidues ((Ladder.new B_PARA 1 3 11 13).end_ 1)
        ((Ladder.new B_PARA 5 7 15 17).start 1) = 1
    ∧ Ladder.mergeBulge (Ladder.new B_PARA 1 3 11 13) (Ladder.new B_PARA 5 7 15 17) = none
    ∧ Ladder.mergeBulge (Ladder.new B_PARA 5 7 15 17) (Ladder.new B_PARA 1 3 11 13) = none
    ∧ (∀ l1 l2 : Ladder, l1.start 0 ≤ l2.start 0 → (Ladder.mergeBulge l1 l2).isSome →
        l1.bulgeLinked l2) := by
  refine ⟨by unfold Ladder.bulgeLinked; decide, by decide, by decide, by decide, by decide, ?_⟩
  intro l1 l2 hle h
  unfold Ladder.mergeBulge at h
  unfold Ladder.bulgeLinked extraResidues
  by_cases ht : l1.type_ = l2.type_
  swap
  · rw [if_pos ht] at h
    cases h
  rw [if_neg (not_not.2 ht)] at h
  have hs : ¬ l1.start 0 > l2.start 0 := by omega
  simp only [hs, if_false] at h
  by_cases hp : l1.type_ = B_PARA
  · simp only [hp, if_true] at h ⊢
    split_ifs at h with c1 c2 c3
    · simp at h
    · simp at h
    · simp at h
    · refine ⟨by rw [← ht, hp], by omega, by omega, ?_⟩
      omega
  · simp only [hp, if_false] at h ⊢
    split_ifs at h with c1 c2 c3
    · simp at h
    · simp at h
    · simp at h
    · refine ⟨ht, by omega, by omega, ?_⟩
      omega

/-! ## The bridge test at the last column -/

/-- C28 (evaluation at the failing input): five residues with the bonds bonded(3,1) and
bonded(2,0) only.  At the cell (1,4) of the loop range the bridge test evaluates
hBonded(1, 5), whose column 5 = N is outside the matrix; the read returns the cell (2,0) of
the next row, which is true, so the cell (1,4) is marked parallel and residues 1 and 4 get the
parallel-bridge flag, although no bond reaches a residue 5.  The ladder walk from (1,4) then
tests the cell (2,5), again in column N. -/
theorem markBridges_reads_column_N :
    bridgeEdgeModel.rArray_.length = 5
    ∧ (1, 5) ∈ bridgeEdgeModel.bridgeTestReads 1 4
    ∧ bridgeEdgeModel.hBond_.array_.getD (1 * 5 + 5) 0
        = bridgeEdgeModel.hBond_.array_.getD (2 * 5 + 0) 0
    ∧ bridgeEdgeModel.hBonded 1 5 = true
    ∧ bridgeEdgeModel.hBonded 3 1 = true
    ∧ bridgeEdgeModel.markBridges.2.get 1 4 = charP
    ∧ (bridgeEdgeModel.markBridges.1.residue 1).flag R_PBRIDGE ≠ 0
    ∧ (bridgeEdgeModel.markBridges.1.residue 4).flag R_PBRIDGE ≠ 0
    ∧ (walkPara 1 4 (5 + 1) 0 bridgeEdgeModel.markBridges.2).1 = 1
    ∧ bridgeEdgeModel.markBridges.2.get (1 + 1) (4 + 1) ≠ charP := by
  decide!

/-! ## Bridges between adjacent residues -/

/-- C29 (evaluation at the failing input): four residues without atoms, and a bond matrix
allocated over memory that holds non-zero bytes in the cells (1,2) and (2,1).  findHBonds
writes only the cells (i, j) with j >= i + 2 and their mirror images, so both cells keep their
contents; the bridge test is applied to the cell (1,2) (the inner loop starts at j = i + 1) and
marks it antiparallel, so that defineSecondaryStructure, with the default settings, returns
with the antiparallel-bridge flag on the sequence-adjacent residues 1 and 2; with a minimum
strand length of 1 the ladder 1..1 / 2..2, which pairs residue 1 with its immediate successor,
is in the ladder list of the result, in a sheet of its own. -/
theorem findBridges_marks_adjacent :
    (staleBondModel.findHBonds sqrtf Config.default).hBond_ = staleBondModel.hBond_
    ∧ (staleBondModel.findHBonds sqrtf Config.default).hBonded 1 2 = true
    ∧ (staleBondModel.findHBonds sqrtf Config.default).hBonded 2 1 = true
    ∧ (staleBondModel.findHBonds sqrtf Config.default).markBridges.2.get 1 2 = charA
    ∧ (staleBondModel.defineSecondaryStructure sqrtf (fun _ _ _ _ => 0) Config.default).map
        (fun m1 => ((m1.residue 1).flag R_ABRIDGE, (m1.residue 2).flag R_ABRIDGE))
      = some (R_ABRIDGE, R_ABRIDGE)
    ∧ (staleBondModel.defineSecondaryStructure sqrtf (fun _ _ _ _ => 0)
        { Config.default with minStrandLength := 1 }).map
        (fun m1 => (m1.ladderList_.map m1.ladder, m1.sheetList_))
      = some ([{ type_ := B_ANTI, start0 := 1, end0 := 1, start1 := 2, end1 := 2,
                 neighbor0 := none, neighbor1 := none, sheet_ := some 0, isBulge_ := false }],
              [⟨'A', [0]⟩]) := by
  refine ⟨by decide!, by decide!, by decide!, by decide!, by decide!, by decide!⟩

theorem markBridges_adjacent_zero (m : Model)
    (hdiag : ∀ i, i < m.rArray_.length → m.hBonded i i = false)
    (hadj : ∀ i, i < m.rArray_.length - 1 → m.hBonded i (i + 1) = false) :
    ∀ i, i + 1 < m.rArray_.length → m.markBridges.2.get i (i + 1) = 0 := by
  obtain ⟨_, _, _, hcell⟩ := markBridges_cells m
  intro i hi
  rw [hcell i (i + 1) (by omega) hi]
  by_cases h : 1 ≤ i ∧ i < i + 1
  · rw [if_pos h]
    unfold Model.bridgeValue Model.paraTest Model.antiTest
    have e1 : i + 1 - 1 = i := by omega
    rw [e1, hdiag i (by omega), hdiag (i + 1) hi, hadj i (by omega)]
    simp
  · rw [if_neg h]

/-- Over a bond matrix that is false on the diagonal and between each residue and its
immediate successor (the cells that findHBonds never sets, as they are over zeroed memory), the
bridge test marks no cell (i, i+1): every marked cell has j >= i + 2, a residue whose bridge
flag was clear gets it exactly on account of a marked cell with j >= i + 2, and no ladder
appended by the scan contains a cell (r, r+1). -/
theorem markBridges_no_adjacent (M : Model)
    (hdiag : ∀ i, i < M.rArray_.length → M.hBonded i i = false)
    (hadj : ∀ i, i < M.rArray_.length - 1 → M.hBonded i (i + 1) = false) :
    (∀ i, i + 1 < M.rArray_.length → M.markBridges.2.get i (i + 1) = 0)
    ∧ (∀ r c, r < M.rArray_.length → c < M.rArray_.length →
        (M.markBridges.2.get r c = charP ∨ M.markBridges.2.get r c = charA) → r + 2 ≤ c)
    ∧ (∀ r, r < M.rArray_.length →
        ((M.residue r).flag R_PBRIDGE = 0 →
          ((M.markBridges.1.residue r).flag R_PBRIDGE ≠ 0
            ↔ ∃ i j, i + 2 ≤ j ∧ j < M.rArray_.length ∧ (r = i ∨ r = j)
              ∧ M.markBridges.2.get i j = charP))
        ∧ ((M.residue r).flag R_ABRIDGE = 0 →
          ((M.markBridges.1.residue r).flag R_ABRIDGE ≠ 0
            ↔ ∃ i j, i + 2 ≤ j ∧ j < M.rArray_.length ∧ (r = i ∨ r = j)
              ∧ M.markBridges.2.get i j = charA)))
    ∧ (∀ p r, M.markBridges.1.ladders.length ≤ p →
        p < (M.markBridges.1.extractLadders M.markBridges.2).1.ladders.length →
        ¬ ((M.markBridges.1.extractLadders M.markBridges.2).1.ladder p).hasCell r (r + 1)) := by
  have hzero := markBridges_adjacent_zero M hdiag hadj
  have hup := markBridges_upper M
  obtain ⟨hk, hd, hl, hcell⟩ := markBridges_cells M
  have hlen : M.markBridges.1.rArray_.length = M.rArray_.length := hk.2.2.2.2.2.1
  have hfar : ∀ r c, r < M.rArray_.length → c < M.rArray_.length →
      (M.markBridges.2.get r c = charP ∨ M.markBridges.2.get r c = charA) → r + 2 ≤ c := by
    intro r c hr hc hm
    have h1 := hup r c hr hc hm
    by_contra hne
    have e : c = r + 1 := by omega
    subst e
    rw [hzero r hc] at hm
    rcases hm with hm | hm
    · exact absurd hm (by decide)
    · exact absurd hm (by decide)
  have hmark : ∀ i j, i < M.rArray_.length → j < M.rArray_.length → ∀ v, v ≠ 0 →
      (M.markBridges.2.get i j = v ↔ (1 ≤ i ∧ i < j) ∧ M.bridgeValue i j = v) := by
    intro i j hi hj v hv
    rw [hcell i j hi hj]
    by_cases h : 1 ≤ i ∧ i < j
    · rw [if_pos h]
      simp [h]
    · rw [if_neg h]
      constructor
      · intro h0; exact absurd h0.symm hv
      · rintro ⟨h1, _⟩; exact absurd h1 h
  refine ⟨hzero, hfar, ?_, ?_⟩
  · intro r hr
    constructor
    · intro h0
      rw [markBridges_flag M _ r hr]
      constructor
      · rintro (h | ⟨i, j, h1, h2, (⟨h3, _⟩ | ⟨_, h3⟩)⟩)
        · exact absurd h0 h
        · have hm := (hmark i j (by omega) (by omega) charP (by decide)).2 ⟨⟨h1.1, h1.2.1⟩, h3⟩
          exact ⟨i, j, hfar i j (by omega) (by omega) (Or.inl hm), by omega, h2, hm⟩
        · exact absurd h3 (by decide)
      · rintro ⟨i, j, hij, hj, h2, h3⟩
        obtain ⟨h4, h5⟩ := (hmark i j (by omega) hj charP (by decide)).1 h3
        exact Or.inr ⟨i, j, ⟨h4.1, h4.2, hj⟩, h2, Or.inl ⟨h5, by decide⟩⟩
    · intro h0
      rw [markBridges_flag M _ r hr]
      constructor
      · rintro (h | ⟨i, j, h1, h2, (⟨_, h3⟩ | ⟨h3, _⟩)⟩)
        · exact absurd h0 h
        · exact absurd h3 (by decide)
        · have hm := (hmark i j (by omega) (by omega) charA (by decide)).2 ⟨⟨h1.1, h1.2.1⟩, h3⟩
          exact ⟨i, j, hfar i j (by omega) (by omega) (Or.inr hm), by omega, h2, hm⟩
      · rintro ⟨i, j, hij, hj, h2, h3⟩
        obtain ⟨h4, h5⟩ := (hmark i j (by omega) hj charA (by decide)).1 h3
        exact Or.inr ⟨i, j, ⟨h4.1, h4.2, hj⟩, h2, Or.inr ⟨h5, by decide⟩⟩
  · obtain ⟨runs, s1, s2, s3, s4, s5, s6, s7, s8⟩ := extractLadders_scan M.markBridges.1
      M.markBridges.2 (by rw [hlen]; exact hd) (by rw [hlen]; exact hl)
      (by rw [hlen]; exact hup)
    rw [hlen] at s5
    intro p r hp1 hp2 hcellp
    rw [s1, List.length_append, List.length_map] at hp2
    have hn : p - M.markBridges.1.ladders.length < runs.length := by omega
    have hlad : (M.markBridges.1.extractLadders M.markBridges.2).1.ladder p
        = (runs.getD (p - M.markBridges.1.ladders.length) default).ladder := by
      unfold Model.ladder
      rw [s1, List.getD_eq_getElem?_getD, List.getD_eq_getElem?_getD,
        List.getElem?_append_right hp1, List.getElem?_map, List.getElem?_eq_getElem hn]
      rfl
    have hmem : runs.getD (p - M.markBridges.1.ladders.length) default ∈ runs := by
      rw [List.getD_eq_getElem?_getD, List.getElem?_eq_getElem hn]
      exact List.getElem_mem _
    rw [hlad] at hcellp
    have hmax := (s5 _ hmem).1
    have hrun := ((run_ladder_fields _ hmax.2.2.2.2.1).2.2.2.2.2 r (r + 1)).1 hcellp
    obtain ⟨hr, hc, hval⟩ := run_cell _ _ _ hmax r (r + 1) hrun
    rw [hzero r hc] at hval
    rcases mark_cases (runs.getD (p - M.markBridges.1.ladders.length) default) with e | e
    · rw [e] at hval; exact absurd hval (by decide)
    · rw [e] at hval; exact absurd hval (by decide)

/-- An example: five residues with the bonds bonded(3,1) and bonded(2,0). -/
theorem markBridges_no_adjacent_witness :
    (∀ i, i + 1 < bridgeEdgeModel.rArray_.length → bridgeEdgeModel.markBridges.2.get i (i + 1) = 0)
    ∧ (∀ r c, r < bridgeEdgeModel.rArray_.length → c < bridgeEdgeModel.rArray_.length →
        (bridgeEdgeModel.markBridges.2.get r c = charP ∨ bridgeEdgeModel.markBridges.2.get r c = charA) → r + 2 ≤ c)
    ∧ (∀ r, r < bridgeEdgeModel.rArray_.length →
        ((bridgeEdgeModel.residue r).flag R_PBRIDGE = 0 →
          ((bridgeEdgeModel.markBridges.1.residue r).flag R_PBRIDGE ≠ 0
            ↔ ∃ i j, i + 2 ≤ j ∧ j < bridgeEdgeModel.rArray_.length ∧ (r = i ∨ r = j)
              ∧ bridgeEdgeModel.markBridges.2.get i j = charP))
        ∧ ((bridgeEdgeModel.residue r).flag R_ABRIDGE = 0 →
          ((bridgeEdgeModel.markBridges.1.residue r).flag R_ABRIDGE ≠ 0
            ↔ ∃ i j, i + 2 ≤ j ∧ j < bridgeEdgeModel.rArray_.length ∧ (r = i ∨ r = j)
              ∧ bridgeEdgeModel.markBridges.2.get i j = charA)))
    ∧ (∀ p r, bridgeEdgeModel.markBridges.1.ladders.length ≤ p →
        p < (bridgeEdgeModel.markBridges.1.extractLadders bridgeEdgeModel.markBridges.2).1.ladders.length →
        ¬ ((bridgeEdgeModel.markBridges.1.extractLadders bridgeEdgeModel.markBridges.2).1.ladder p).hasCell r (r + 1)) :=
  markBridges_no_adjacent bridgeEdgeModel (by decide) (by decide)

/-! ## The sheet counter -/

theorem printSheet_fold (l : List Sheet) :
    ∀ (s : Int × List Int),
      l.foldl (fun (s : Int × List Int) _ => (s.1 + 1, s.2 ++ [s.1])) s
        = (s.1 + l.length, s.2 ++ (List.range l.length).map (fun (k : Nat) => s.1 + (k : Int))) := by
  induction l with
  | nil => intro s; simp
  | cons x xs ih =>
    intro s
    rw [List.foldl_cons, ih]
    refine Prod.ext ?_ ?_
    · simp only [List.length_cons]
      push_cast
      omega
    · simp only [List.length_cons, List.range_succ_eq_map, List.map_cons, List.map_map,
        List.append_assoc, List.singleton_append]
      congr 1
      refine congrArg₂ List.cons (by simp) ?_
      apply List.map_congr_left
      intro k _
      simp only [Function.comp, Nat.succ_eq_add_one]
      push_cast
      omega

/-- C26 (evaluation at the failing input): printSheet gives its sheets the consecutive
identifier numbers sid, sid+1, ..., but it is declared `char printSheet(...)`, so the caller
receives sid plus the number of sheets converted to char.  For a model with one sheet and
sid = 255 the value received is 0, not 256, whether char is signed or not; with sid = 127 it
is -128 where char is signed.  The value received is sid plus the number of sheets only while
that sum is in the range of char. -/
theorem printSheet_returns_char :
    (∀ signedChar, (sheetModel1.printSheet signedChar 255).1 = [255])
    ∧ (255 + (sheetModel1.sheetList_.length : Int) = 256)
    ∧ (∀ signedChar, (sheetModel1.printSheet signedChar 255).2 = 0)
    ∧ (sheetModel1.printSheet true 127).2 = -128
    ∧ (∀ (signedChar : Bool) (m : Model) (sid : Int),
        (m.printSheet signedChar sid).1
            = (List.range m.sheetList_.length).map (fun (k : Nat) => sid + (k : Int))
        ∧ (m.printSheet signedChar sid).2 = toChar signedChar (sid + m.sheetList_.length)
        ∧ ((m.printSheet signedChar sid).2 = sid + m.sheetList_.length
            ↔ if signedChar then -128 ≤ sid + m.sheetList_.length
                  ∧ sid + m.sheetList_.length ≤ 127
              else 0 ≤ sid + m.sheetList_.length ∧ sid + m.sheetList_.length ≤ 255)) := by
  refine ⟨by decide, by decide, by decide, by decide, ?_⟩
  intro sc m sid
  unfold Model.printSheet
  simp only [printSheet_fold, List.nil_append]
  refine ⟨trivial, trivial, ?_⟩
  unfold toChar
  cases sc
  · simp only [Bool.false_eq_true, if_false]
    omega
  · simp only [if_true]
    omega

/-! ## The order of the arguments of mergeBulge -/

/-- C31 (counterexample): the parallel ladders a = 5..5 / 10..10 and b = 5..7 / 12..14 have the
same start(0), so mergeBulge does not exchange them in either order of presentation:
mergeBulge(a, b) succeeds (d0 = 0, d1 = 2) and returns the bulge ladder 5..7 / 10..14, while
mergeBulge(b, a) computes d0 = 5 - 7 < 0 and returns NULL. -/
theorem mergeBulge_order_matters :
    (Ladder.new B_PARA 5 5 10 10).start 0 = (Ladder.new B_PARA 5 7 12 14).start 0
    ∧ Ladder.mergeBulge (Ladder.new B_PARA 5 5 10 10) (Ladder.new B_PARA 5 7 12 14)
        = some (Ladder.new B_PARA 5 7 10 14).setBulge
    ∧ Ladder.mergeBulge (Ladder.new B_PARA 5 7 12 14) (Ladder.new B_PARA 5 5 10 10) = none := by
  decide

/-- C31 (amended): for ladders a and b whose first strands start at different residues,
mergeBulge(a, b) and mergeBulge(b, a) give the same result: both fail, or both return the same
ladder (same type, same strand ranges, bulge mark set). -/
theorem mergeBulge_comm (a b : Ladder) (h : a.start 0 ≠ b.start 0) :
    Ladder.mergeBulge a b = Ladder.mergeBulge b a := by
  unfold Ladder.mergeBulge
  by_cases ht : a.type_ = b.type_
  · have ht2 : ¬ (b.type_ ≠ a.type_) := by simp [ht]
    have ht1 : ¬ (a.type_ ≠ b.type_) := by simp [ht]
    rw [if_neg ht1, if_neg ht2]
    by_cases hgt : a.start 0 > b.start 0
    · have hng : ¬ (b.start 0 > a.start 0) := by omega
      simp only [if_pos hgt, if_neg hng]
    · have hlt : b.start 0 > a.start 0 := by omega
      simp only [if_neg hgt, if_pos hlt]
  · have ht2 : b.type_ ≠ a.type_ := fun h => ht h.symm
    rw [if_pos ht, if_pos ht2]

theorem mergeBulge_comm_witness :
    (Ladder.new B_PARA 1 3 11 13).start 0 ≠ (Ladder.new B_PARA 4 6 15 17).start 0
    ∧ Ladder.mergeBulge (Ladder.new B_PARA 1 3 11 13) (Ladder.new B_PARA 4 6 15 17)
        = some (Ladder.new B_PARA 1 6 11 17).setBulge
    ∧ Ladder.mergeBulge (Ladder.new B_PARA 1 3 11 13) (Ladder.new B_PARA 4 6 15 17)
        = Ladder.mergeBulge (Ladder.new B_PARA 4 6 15 17) (Ladder.new B_PARA 1 3 11 13) :=
  ⟨by decide, by decide,
    mergeBulge_comm (Ladder.new B_PARA 1 3 11 13) (Ladder.new B_PARA 4 6 15 17) (by decide)⟩

/-! ## The overlap test under exchange of its arguments -/

/-- C38: for two ladders l and o that both have start(0) < start(1) and start <= end on each
strand (as every ladder of the ladder list has), the overlap test is consistent under exchange
of its arguments: o.overlaps(l) records the sides of l.overlaps(o) exchanged, so one succeeds
iff the other does; and the sides recorded are sides whose residue ranges intersect. -/
theorem overlaps_exchange (l o : Ladder) (hl : l.WellFormed) (ho : o.WellFormed)
    (hls : l.start 0 < l.start 1) (hos : o.start 0 < o.start 1) :
    o.overlaps l = (l.overlaps o).map Prod.swap
    ∧ ((l.overlaps o).isSome ↔ (o.overlaps l).isSome)
    ∧ (∀ a b, l.overlaps o = some (a, b) →
        o.overlaps l = some (b, a) ∧ l.strandsIntersect o a b ∧ o.strandsIntersect l b a) := by
  unfold Ladder.WellFormed at hl ho
  have key : o.overlaps l = (l.overlaps o).map Prod.swap := by
    unfold Ladder.overlaps
    split_ifs <;> simp only [Option.map_some', Option.map_none', Prod.swap_prod_mk] <;>
      first
        | rfl
        | (exfalso; omega)
  refine ⟨key, ?_, ?_⟩
  · rw [key]
    cases l.overlaps o <;> simp
  · intro a b hab
    rw [key, hab]
    refine ⟨rfl, ?_⟩
    unfold Ladder.overlaps at hab
    unfold Ladder.strandsIntersect
    split_ifs at hab <;> simp only [Option.some.injEq, Prod.mk.injEq] at hab <;>
      (obtain ⟨rfl, rfl⟩ := hab; constructor <;> constructor <;> omega)

theorem overlaps_exchange_witness :
    (Ladder.new B_ANTI 1 5 10 14).overlaps (Ladder.new B_ANTI 12 16 20 24) = some (1, 0)
    ∧ (Ladder.new B_ANTI 12 16 20 24).overlaps (Ladder.new B_ANTI 1 5 10 14)
        = ((Ladder.new B_ANTI 1 5 10 14).overlaps (Ladder.new B_ANTI 12 16 20 24)).map Prod.swap :=
  ⟨by decide,
    (overlaps_exchange (Ladder.new B_ANTI 1 5 10 14) (Ladder.new B_ANTI 12 16 20 24)
      (by unfold Ladder.WellFormed; decide) (by unfold Ladder.WellFormed; decide)
      (by decide) (by decide)).1⟩

/-! ## The dihedral angle and the helix class -/

/-- C40: dihedral(v1, v2, v3, v4) is the value of acos at the normalised dot product of the two
plane normals, so with an arc cosine whose values lie in [0, pi] it lies in [0, pi] and is never
negative, for any four points.  Therefore helixClass, called with this dihedral, takes its
branch for dihedral <= 0 only when the dihedral is exactly 0, and returns the code 6 only when
the four CA atoms exist, the dihedral is exactly 0 and the first residue has the 4-helix flag. -/
theorem dihedral_range (sq acos : ℚ → ℚ) (pi : ℚ)
    (hacos : ∀ x, 0 ≤ acos x ∧ acos x ≤ pi) :
    (∀ v1 v2 v3 v4, 0 ≤ dihedral sq acos v1 v2 v3 v4 ∧ dihedral sq acos v1 v2 v3 v4 ≤ pi)
    ∧ (∀ v1 v2 v3 v4, ¬ (dihedral sq acos v1 v2 v3 v4 > 0) → dihedral sq acos v1 v2 v3 v4 = 0)
    ∧ (∀ (m : Model) (h : Helix), m.helixClass (dihedral sq acos) h = some 6 →
        ∃ ca0 ca1 ca2 ca3,
          (m.residue h.from_.toNat).atom " CA" = some ca0
          ∧ (m.residue (h.from_.toNat + 1)).atom " CA" = some ca1
          ∧ (m.residue (h.from_.toNat + 2)).atom " CA" = some ca2
          ∧ (m.residue (h.from_.toNat + 3)).atom " CA" = some ca3
          ∧ dihedral sq acos ca0.coord_ ca1.coord_ ca2.coord_ ca3.coord_ = 0
          ∧ (m.residue h.from_.toNat).flag R_4HELIX ≠ 0) := by
  have hr : ∀ v1 v2 v3 v4, 0 ≤ dihedral sq acos v1 v2 v3 v4
      ∧ dihedral sq acos v1 v2 v3 v4 ≤ pi := by
    intro v1 v2 v3 v4
    unfold dihedral angle
    exact hacos _
  refine ⟨hr, ?_, ?_⟩
  · intro v1 v2 v3 v4 h
    have := (hr v1 v2 v3 v4).1
    exact le_antisymm (not_lt.1 h) this
  · intro m h h6
    obtain ⟨g0, gN⟩ := helixClass_range_of_ne_zero _ m h 6 h6 (by decide)
    rw [helixClass_of_range _ m h g0 gN, Option.some.injEq] at h6
    cases h0 : (m.residue h.from_.toNat).atom " CA" with
    | none => simp [h0] at h6
    | some ca0 =>
    cases h1 : (m.residue (h.from_.toNat + 1)).atom " CA" with
    | none => simp [h0, h1] at h6
    | some ca1 =>
    cases h2 : (m.residue (h.from_.toNat + 2)).atom " CA" with
    | none => simp [h0, h1, h2] at h6
    | some ca2 =>
    cases h3 : (m.residue (h.from_.toNat + 3)).atom " CA" with
    | none => simp [h0, h1, h2, h3] at h6
    | some ca3 =>
    simp only [h0, h1, h2, h3] at h6
    refine ⟨ca0, ca1, ca2, ca3, rfl, rfl, rfl, rfl, ?_⟩
    by_cases hpos : dihedral sq acos ca0.coord_ ca1.coord_ ca2.coord_ ca3.coord_ > 0
    · rw [if_pos hpos] at h6
      split_ifs at h6 <;> simp at h6
    · rw [if_neg hpos] at h6
      have hz := le_antisymm (not_lt.1 hpos) (hr ca0.coord_ ca1.coord_ ca2.coord_ ca3.coord_).1
      refine ⟨hz, ?_⟩
      intro hf
      rw [if_neg (by simpa using hf)] at h6
      simp at h6

theorem dihedral_range_witness :
    dihedral sqrtf acosChord (0, 0, 0) (1, 0, 0) (1, 1, 0) (0, 1, 0) = 0
    ∧ helixModel4.helixClass (dihedral sqrtf acosChord) ⟨0, 3, 0⟩ = some 6
    ∧ (∀ v1 v2 v3 v4, 0 ≤ dihedral sqrtf acosChord v1 v2 v3 v4
        ∧ dihedral sqrtf acosChord v1 v2 v3 v4 ≤ 4) :=
  ⟨by decide!, by decide!,
    (dihedral_range sqrtf acosChord 4 (by
      intro x
      unfold acosChord
      split_ifs <;> constructor <;> linarith)).1⟩

/-! ## The registration of a ladder -/

theorem hBondedToPtr_some (sq : ℚ → ℚ) (cutoff : ℚ) (self other : Residue) :
    self.hBondedToPtr sq cutoff (some other) = some (Residue.hBondedTo sq cutoff self other) := by
  unfold Residue.hBondedToPtr Residue.hBondedTo
  cases self.atom " C" <;> cases self.atom " O" <;> rfl

/-- C33: registerLadder(l, sheet, prev), with cur = 1 - prev, called with residue indices that
are in range, returns normally; it sets sense to +1 for a parallel ladder and to -1 otherwise,
and records the primary pair (O of residue l.start(prev) with N of residue l.start(cur)+1 for
parallel, with N of residue l.end(cur) for antiparallel) when the bond test hBondedTo succeeds
on that pair, and otherwise the alternate pair (O of l.start(prev)+1 with N of l.start(cur) for
parallel, with N of l.end(cur)-1 for antiparallel). -/
theorem registerLadder_cases (sq : ℚ → ℚ) (cutoff : ℚ) (m : Model) (l : Ladder) (prev : Nat)
    (hp : 0 ≤ l.start prev ∧ l.start prev + 1 < (m.rArray_.length : Int))
    (hc : if l.type_ = B_PARA then
            0 ≤ l.start (1 - prev) ∧ l.start (1 - prev) + 1 < (m.rArray_.length : Int)
          else 1 ≤ l.end_ (1 - prev) ∧ l.end_ (1 - prev) < (m.rArray_.length : Int)) :
    ∃ reg, m.registerLadder sq cutoff l prev = some reg
      ∧ reg.sense = (if l.type_ = B_PARA then 1 else -1)
      ∧ (l.type_ = B_PARA →
          (Residue.hBondedTo sq cutoff (m.residue (l.start prev).toNat)
              (m.residue (l.start (1 - prev) + 1).toNat) ≠ 0 →
            reg.oResidue = l.start prev ∧ reg.nResidue = l.start (1 - prev) + 1)
          ∧ (Residue.hBondedTo sq cutoff (m.residue (l.start prev).toNat)
              (m.residue (l.start (1 - prev) + 1).toNat) = 0 →
            reg.oResidue = l.start prev + 1 ∧ reg.nResidue = l.start (1 - prev)))
      ∧ (l.type_ ≠ B_PARA →
          (Residue.hBondedTo sq cutoff (m.residue (l.start prev).toNat)
              (m.residue (l.end_ (1 - prev)).toNat) ≠ 0 →
            reg.oResidue = l.start prev ∧ reg.nResidue = l.end_ (1 - prev))
          ∧ (Residue.hBondedTo sq cutoff (m.residue (l.start prev).toNat)
              (m.residue (l.end_ (1 - prev)).toNat) = 0 →
            reg.oResidue = l.start prev + 1 ∧ reg.nResidue = l.end_ (1 - prev) - 1)) := by
  unfold Model.registerLadder
  by_cases ht : l.type_ = B_PARA
  · rw [if_pos ht] at hc
    simp only [if_pos ht]
    rw [residueAt_of_range m _ hp.1 (by omega), residueAt_of_range m _ (by omega) hc.2,
      residueAt_of_range m _ (by omega) hp.2, residueAt_of_range m _ hc.1 (by omega)]
    simp only [hBondedToPtr_some]
    by_cases hb : Residue.hBondedTo sq cutoff (m.residue (l.start prev).toNat)
        (m.residue (l.start (1 - prev) + 1).toNat) = 0
    · simp [hb, ht]
    · simp [hb, ht]
  · rw [if_neg ht] at hc
    simp only [if_neg ht]
    rw [residueAt_of_range m _ hp.1 (by omega), residueAt_of_range m _ (by omega) hc.2,
      residueAt_of_range m _ (by omega) hp.2, residueAt_of_range m _ (by omega) (by omega)]
    simp only [hBondedToPtr_some]
    by_cases hb : Residue.hBondedTo sq cutoff (m.residue (l.start prev).toNat)
        (m.residue (l.end_ (1 - prev)).toNat) = 0
    · simp [hb, ht]
    · simp [hb, ht]

theorem registerLadder_cases_witness :
    paraSheetModel.registerLadder sqrtf (-1 / 2) (Ladder.new B_PARA 1 3 6 8) 1 = some ⟨1, 6, 2⟩
    ∧ ∃ reg, paraSheetModel.registerLadder sqrtf (-1 / 2) (Ladder.new B_PARA 1 3 6 8) 1
          = some reg ∧ reg.sense = 1 :=
  ⟨by decide!,
    (registerLadder_cases sqrtf (-1 / 2) paraSheetModel (Ladder.new B_PARA 1 3 6 8) 1
      (by decide) (by decide)).imp (fun _ h => ⟨h.1, h.2.1⟩)⟩

/-! ## The registration pair of a parallel ladder -/

/-- C39 (evaluation at the failing input): a model of ten residues whose only hydrogen bonds
are 0 -> 6, 6 -> 2, 2 -> 8 and 8 -> 4, the pattern of a parallel ladder.
defineSecondaryStructure, with the default settings, finds the bridges (1,6), (2,7), (3,8) and
produces one sheet with the one parallel ladder 1..3 / 6..8.  For prev = 0 the primary pair
(O of residue 1, N of residue 7) is not bonded, and registerLadder records the alternate pair
(O of residue 2, N of residue 6) without testing it: residues 2 and 6 are not hydrogen bonded,
neither by the bond test nor in the bond matrix.  (For prev = 1 the primary pair, O of residue 6
with N of residue 2, is bonded and is the pair recorded.) -/
theorem registerLadder_records_unbonded_pair :
    (paraSheetModel.defineSecondaryStructure sqrtf (fun _ _ _ _ => 0) Config.default).map
        (fun m1 => (m1.ladderList_.map m1.ladder, m1.sheetList_))
      = some ([{ type_ := B_PARA, start0 := 1, end0 := 3, start1 := 6, end1 := 8,
                 neighbor0 := none, neighbor1 := none, sheet_ := some 0, isBulge_ := false }],
              [⟨'A', [0]⟩])
    ∧ (paraSheetModel.defineSecondaryStructure sqrtf (fun _ _ _ _ => 0) Config.default).map
        (fun m1 =>
          (m1.registerLadder sqrtf Config.default.hBondCutoff (m1.ladder 0) 0,
            Residue.hBondedTo sqrtf Config.default.hBondCutoff (m1.residue 2) (m1.residue 6),
            m1.hBonded 2 6))
      = some (some ⟨1, 2, 6⟩, 0, false)
    ∧ (paraSheetModel.defineSecondaryStructure sqrtf (fun _ _ _ _ => 0) Config.default).map
        (fun m1 =>
          (m1.registerLadder sqrtf Config.default.hBondCutoff (m1.ladder 0) 1, m1.hBonded 6 2))
      = some (some ⟨1, 6, 2⟩, true) := by
  refine ⟨by decide!, by decide!, by decide!⟩

/-! ## Termination of the bulge-merge loop -/

theorem mergeBulge_isBulge (l1 l2 l : Ladder) (h : Ladder.mergeBulge l1 l2 = some l) :
    l.isBulge_ = true := by
  unfold Ladder.mergeBulge at h
  simp only at h
  split_ifs at h <;> cases h <;> rfl

theorem erase_erase_eq_filter (l : List Nat) (hnd : l.Nodup) (p1 p2 : Nat) :
    (l.erase p1).erase p2 = l.filter (fun p => decide (p ≠ p1 ∧ p ≠ p2)) := by
  rw [hnd.erase_eq_filter, (hnd.filter _).erase_eq_filter, List.filter_filter]
  congr 1
  funext p
  by_cases h1 : p = p1 <;> by_cases h2 : p = p2 <;> simp [h1, h2]

theorem length_filter_two (l : List Nat) (hnd : l.Nodup) (p1 p2 : Nat) (h1 : p1 ∈ l)
    (h2 : p2 ∈ l) (hne : p1 ≠ p2) :
    (l.filter (fun p => decide (p ≠ p1 ∧ p ≠ p2))).length + 2 = l.length := by
  rw [← erase_erase_eq_filter l hnd]
  have hp2 : p2 ∈ l.erase p1 := (List.mem_erase_of_ne (fun h => hne h.symm)).2 h2
  rw [List.length_erase_of_mem hp2, List.length_erase_of_mem h1]
  have := List.length_pos_of_mem hp2
  rw [List.length_erase_of_mem h1] at this
  omega

theorem findBetaBulge_step (m m1 : Model) (hnd : m.ladderList_.Nodup) (hv : m.LaddersValid)
    (hb : m.findBetaBulge = some m1) :
    m1.ladderList_.Nodup ∧ m1.LaddersValid
      ∧ m1.ladders.length = m.ladders.length + 1
      ∧ m1.ladderList_.length + 1 = m.ladderList_.length
      ∧ m1.nonBulgeCount + 2 = m.nonBulgeCount
      ∧ ∃ p1 p2 x, p1 ∈ m.ladderList_ ∧ p2 ∈ m.ladderList_ ∧ p1 ≠ p2
          ∧ (m.ladder p1).isBulge_ = false ∧ (m.ladder p2).isBulge_ = false
          ∧ Ladder.mergeBulge (m.ladder p1) (m.ladder p2) = some x ∧ x.isBulge_ = true
          ∧ m1.ladderList_
              = m.ladderList_.filter (fun p => decide (p ≠ p1 ∧ p ≠ p2)) ++ [m.ladders.length]
          ∧ m1.ladders = m.ladders ++ [x] := by
  unfold Model.findBetaBulge at hb
  cases hs : findBetaBulgeScan m.ladders m.ladderList_ with
  | none => rw [hs] at hb; cases hb
  | some r =>
    obtain ⟨p1, p2, x⟩ := r
    rw [hs] at hb
    simp only [Option.some.injEq] at hb
    have elad : m1.ladders = m.ladders ++ [x] := by rw [← hb]
    have elist : m1.ladderList_ = (m.ladderList_.erase p1).erase p2 ++ [m.ladders.length] := by
      rw [← hb]
    obtain ⟨pre, rest, hl, hp2⟩ := findBetaBulgeScan_some m.ladders _ p1 p2 x hs
    obtain ⟨hb1, hb2, hm⟩ := findBetaBulgeScan_merge m.ladders _ p1 p2 x hs
    have hp1 : p1 ∈ m.ladderList_ := by rw [hl]; simp
    have hp2' : p2 ∈ m.ladderList_ := by rw [hl]; simp [hp2]
    have hne : p1 ≠ p2 := by
      intro h
      subst h
      rw [hl] at hnd
      have := (List.nodup_cons.1 (List.nodup_append.1 hnd).2.1).1
      exact this hp2
    have hb1' : (m.ladder p1).isBulge_ = false := hb1
    have hb2' : (m.ladder p2).isBulge_ = false := hb2
    have hlist := erase_erase_eq_filter m.ladderList_ hnd p1 p2
    rw [hlist] at elist
    have hxb := mergeBulge_isBulge _ _ _ hm
    have hlen := length_filter_two m.ladderList_ hnd p1 p2 hp1 hp2' hne
    have hnew : m1.ladder m.ladders.length = x := by
      simp [Model.ladder, elad, List.getD_append_right]
    have hsame : ∀ p ∈ m.ladderList_, m1.ladder p = m.ladder p := by
      intro p hp
      have := hv p hp
      simp only [Model.ladder, elad]
      rw [List.getD_append _ _ _ _ this]
    refine ⟨?_, ?_, ?_, ?_, ?_, p1, p2, x, hp1, hp2', hne, hb1, hb2, hm, hxb, elist, elad⟩
    · rw [elist]
      refine List.nodup_append.2 ⟨hnd.filter _, List.nodup_singleton _, ?_⟩
      intro a ha hb
      rw [List.mem_singleton] at hb
      have := hv a (List.mem_filter.1 ha).1
      omega
    · intro p hp
      rw [elist] at hp
      simp only [List.mem_append, List.mem_filter, List.mem_singleton] at hp
      rw [elad]
      simp only [List.length_append, List.length_singleton]
      rcases hp with ⟨hp, _⟩ | hp
      · have := hv p hp
        omega
      · omega
    · rw [elad]
      simp
    · rw [elist]
      simp only [List.length_append, List.length_singleton]
      omega
    · unfold Model.nonBulgeCount
      rw [elist, List.filter_append]
      have e1 : List.filter (fun p => !(m1.ladder p).isBulge_) [m.ladders.length] = [] := by
        rw [List.filter_cons, hnew, hxb]
        rfl
      have e2 : List.filter (fun p => !(m1.ladder p).isBulge_)
            (m.ladderList_.filter (fun p => decide (p ≠ p1 ∧ p ≠ p2)))
          = (m.ladderList_.filter (fun p => !(m.ladder p).isBulge_)).filter
              (fun p => decide (p ≠ p1 ∧ p ≠ p2)) := by
        rw [List.filter_filter, List.filter_filter]
        apply List.filter_congr
        intro p hp
        rw [hsame p hp, Bool.and_comm]
      rw [e1, e2, List.append_nil]
      exact length_filter_two _ (hnd.filter _) p1 p2
        (List.mem_filter.2 ⟨hp1, by simp [hb1']⟩) (List.mem_filter.2 ⟨hp2', by simp [hb2']⟩) hne

theorem mergeLoop_count :
    ∀ (fuel : Nat) (m : Model), m.ladderList_.Nodup → m.LaddersValid →
      m.nonBulgeCount / 2 < fuel →
      ∃ m1 merges, Model.mergeLoop fuel m = some m1 ∧ m1.findBetaBulge = none
        ∧ m1.nonBulgeCount + 2 * merges = m.nonBulgeCount
        ∧ m1.ladders.length = m.ladders.length + merges
        ∧ m1.ladderList_.length + merges = m.ladderList_.length
        ∧ m1.ladderList_.Nodup ∧ m1.LaddersValid := by
  intro fuel
  induction fuel with
  | zero => intro m _ _ h; omega
  | succ f ih =>
    intro m hnd hv h
    unfold Model.mergeLoop
    cases hb : m.findBetaBulge with
    | none => exact ⟨m, 0, rfl, hb, by omega, by omega, by omega, hnd, hv⟩
    | some m1 =>
      simp only
      obtain ⟨s1, s2, s3, s4, s5, _⟩ := findBetaBulge_step m m1 hnd hv hb
      obtain ⟨m2, k, e1, e2, e3, e4, e5, e6, e7⟩ := ih m1 s1 s2 (by omega)
      exact ⟨m2, k + 1, e1, e2, by omega, by omega, by omega, e6, e7⟩

theorem findBetaBulgeInnerCalls_nonBulge (heap : List Ladder) (p1 : Nat)
    (h1 : (heap.getD p1 default).isBulge_ = false) :
    ∀ (l : List Nat) (c : Nat × Nat), c ∈ findBetaBulgeInnerCalls heap p1 l →
      (heap.getD c.1 default).isBulge_ = false ∧ (heap.getD c.2 default).isBulge_ = false := by
  intro l
  induction l with
  | nil => intro c hc; simp [findBetaBulgeInnerCalls] at hc
  | cons p2 rest ih =>
    intro c hc
    unfold findBetaBulgeInnerCalls at hc
    by_cases hb : (heap.getD p2 default).isBulge_ = true
    · rw [if_pos hb] at hc
      exact ih c hc
    · rw [if_neg hb] at hc
      have hb2 : (heap.getD p2 default).isBulge_ = false := by simpa using hb
      cases hm : Ladder.mergeBulge (heap.getD p1 default) (heap.getD p2 default) with
      | some x =>
        rw [hm] at hc
        simp only [List.mem_singleton] at hc
        subst hc
        exact ⟨h1, hb2⟩
      | none =>
        rw [hm] at hc
        simp only [List.mem_cons] at hc
        rcases hc with hc | hc
        · subst hc
          exact ⟨h1, hb2⟩
        · exact ih c hc

theorem findBetaBulgeCalls_nonBulge (heap : List Ladder) :
    ∀ (l : List Nat) (c : Nat × Nat), c ∈ findBetaBulgeCalls heap l →
      (heap.getD c.1 default).isBulge_ = false ∧ (heap.getD c.2 default).isBulge_ = false := by
  intro l
  induction l with
  | nil => intro c hc; simp [findBetaBulgeCalls] at hc
  | cons p1 rest ih =>
    intro c hc
    unfold findBetaBulgeCalls at hc
    by_cases hb : (heap.getD p1 default).isBulge_ = true
    · rw [if_pos hb] at hc
      exact ih c hc
    · rw [if_neg hb] at hc
      have hb1 : (heap.getD p1 default).isBulge_ = false := by simpa using hb
      cases hi : findBetaBulgeInner heap (heap.getD p1 default) rest with
      | some r =>
        rw [hi] at hc
        exact findBetaBulgeInnerCalls_nonBulge heap p1 hb1 rest c hc
      | none =>
        rw [hi] at hc
        simp only [List.mem_append] at hc
        rcases hc with hc | hc
        · exact findBetaBulgeInnerCalls_nonBulge heap p1 hb1 rest c hc
        · exact ih c hc

/-- C30: on a ladder list of n distinct valid pointers the loop `while (findBetaBulge())`
terminates: with fuel for more than n/2 iterations it returns, after some number of merges of
at most n/2; each merge allocates one ladder and shortens the list by one, and in the final
list no two non-bulge ladders, the first before the second, merge.  Each successful call
removes two distinct non-bulge ladders of the list and appends one ladder with the bulge mark,
so the list is shorter by exactly one and has two non-bulge ladders fewer; and every call of
mergeBulge made by findBetaBulge has two non-bulge ladders as its arguments. -/
theorem mergeLoop_terminates (m : Model) (hnd : m.ladderList_.Nodup) (hv : m.LaddersValid) :
    (∀ fuel, m.ladderList_.length / 2 < fuel →
      ∃ m1 merges, Model.mergeLoop fuel m = some m1
        ∧ merges ≤ m.ladderList_.length / 2
        ∧ m1.ladders.length = m.ladders.length + merges
        ∧ m1.ladderList_.length + merges = m.ladderList_.length
        ∧ m1.nonBulgeCount + 2 * merges = m.nonBulgeCount
        ∧ m1.findBetaBulge = none
        ∧ m1.ladderList_.Pairwise (fun p1 p2 => (m1.ladder p1).isBulge_ = true
            ∨ (m1.ladder p2).isBulge_ = true
            ∨ Ladder.mergeBulge (m1.ladder p1) (m1.ladder p2) = none))
    ∧ (∀ m1, m.findBetaBulge = some m1 →
        m1.ladderList_.length + 1 = m.ladderList_.length
        ∧ m1.nonBulgeCount + 2 = m.nonBulgeCount
        ∧ ∃ p1 p2 x, p1 ∈ m.ladderList_ ∧ p2 ∈ m.ladderList_ ∧ p1 ≠ p2
          ∧ (m.ladder p1).isBulge_ = false ∧ (m.ladder p2).isBulge_ = false
          ∧ Ladder.mergeBulge (m.ladder p1) (m.ladder p2) = some x ∧ x.isBulge_ = true
          ∧ m1.ladderList_
              = m.ladderList_.filter (fun p => decide (p ≠ p1 ∧ p ≠ p2)) ++ [m.ladders.length]
          ∧ m1.ladders = m.ladders ++ [x])
    ∧ (∀ c ∈ findBetaBulgeCalls m.ladders m.ladderList_,
        (m.ladder c.1).isBulge_ = false ∧ (m.ladder c.2).isBulge_ = false) := by
  have hle : m.nonBulgeCount ≤ m.ladderList_.length := by
    unfold Model.nonBulgeCount
    exact List.length_filter_le _ _
  refine ⟨?_, ?_, ?_⟩
  · intro fuel hf
    have hf2 : m.nonBulgeCount / 2 < fuel :=
      lt_of_le_of_lt (Nat.div_le_div_right hle) hf
    obtain ⟨m1, k, e1, e2, e3, e4, e5, _, _⟩ := mergeLoop_count fuel m hnd hv hf2
    refine ⟨m1, k, e1, ?_, e4, e5, e3, e2, ?_⟩
    · omega
    · have := (findBetaBulgeScan_none m1.ladders m1.ladderList_).1
        ((findBetaBulge_none_iff m1).1 e2)
      exact this
  · intro m1 hb
    obtain ⟨_, _, _, s4, s5, s6⟩ := findBetaBulge_step m m1 hnd hv hb
    exact ⟨s4, s5, s6⟩
  · intro c hc
    exact findBetaBulgeCalls_nonBulge m.ladders m.ladderList_ c hc

theorem mergeLoop_terminates_witness :
    bulgeModel.ladderList_.length = 2
    ∧ Model.mergeLoop 2 bulgeModel = some bulgeModelMerged
    ∧ ∃ m1 merges, Model.mergeLoop 2 bulgeModel = some m1
        ∧ merges ≤ bulgeModel.ladderList_.length / 2
        ∧ m1.ladders.length = bulgeModel.ladders.length + merges
        ∧ m1.ladderList_.length + merges = bulgeModel.ladderList_.length
        ∧ m1.nonBulgeCount + 2 * merges = bulgeModel.nonBulgeCount
        ∧ m1.findBetaBulge = none
        ∧ m1.ladderList_.Pairwise (fun p1 p2 => (m1.ladder p1).isBulge_ = true
            ∨ (m1.ladder p2).isBulge_ = true
            ∨ Ladder.mergeBulge (m1.ladder p1) (m1.ladder p2) = none) :=
  ⟨by decide, by decide,
    (mergeLoop_terminates bulgeModel (by decide) (by unfold Model.LaddersValid; decide)).1 2
      (by decide)⟩

/-! ## The runs of helix flags left by markHelices -/

theorem helixMask_bits (n : Nat) :
    (if n = 3 then R_3ACCEPTOR else R_4ACCEPTOR) &&& (R_3HELIX ||| R_4HELIX) = 0
    ∧ (if n = 3 then R_3GAP else R_4GAP) &&& (R_3HELIX ||| R_4HELIX) = 0
    ∧ (if n = 3 then R_3DONOR else R_4DONOR) &&& (R_3HELIX ||| R_4HELIX) = 0
    ∧ (if n = 3 then R_3HELIX else R_4HELIX) &&& (R_3HELIX ||| R_4HELIX) ≠ 0 := by
  by_cases h : n = 3
  · simp only [h, if_true]; decide
  · simp only [h, if_false]; decide

/-- The helix flags after findTurns(n) and markHelices(n): a residue carries a helix flag
exactly when it carried one before or lies in a window `i .. i + n - 1` marked by
markHelices(n), with `1 <= i` and `i + n < N`. -/
theorem turnsHelices_window (n : Nat) (m : Model) (r : Nat) (hr : r < m.rArray_.length) :
    (((m.findTurns n).markHelices n).residue r).flag (R_3HELIX ||| R_4HELIX) ≠ 0
      ↔ (m.residue r).flag (R_3HELIX ||| R_4HELIX) ≠ 0
        ∨ ∃ i, 1 ≤ i ∧ i + n < m.rArray_.length ∧ i ≤ r ∧ r < i + n
          ∧ ((m.findTurns n).residue (i - 1)).flag (if n = 3 then R_3ACCEPTOR else R_4ACCEPTOR) ≠ 0
          ∧ ((m.findTurns n).residue i).flag (if n = 3 then R_3ACCEPTOR else R_4ACCEPTOR) ≠ 0 := by
  obtain ⟨c1, c2, c3, c4⟩ := helixMask_bits n
  obtain ⟨hk, hf⟩ := findTurns_flag n m
  have hlen : (m.findTurns n).rArray_.length = m.rArray_.length := hk.2.2.2.2.2.1
  obtain ⟨_, hm⟩ := markHelices_flag n (m.findTurns n) (helix_flag_bits n).1
  rw [hm _ r (by rw [hlen]; exact hr), hf _ r hr, hlen]
  constructor
  · rintro ((h | ⟨k, _, _, (⟨_, h4⟩ | ⟨j, _, _, _, h4⟩ | ⟨_, h4⟩)⟩) | ⟨i, h1, h2, h3, h4, h5, h6, _⟩)
    · exact Or.inl h
    · exact absurd c1 h4
    · exact absurd c2 h4
    · exact absurd c3 h4
    · exact Or.inr ⟨i, h1, h2, h5, h6, h3, h4⟩
  · rintro (h | ⟨i, h1, h2, h3, h4, h5, h6⟩)
    · exact Or.inl (Or.inl h)
    · exact Or.inr ⟨i, h1, h2, h5, h6, h3, h4, c4⟩

/-- After the turn and helix marking on residues without helix flags, every helix-flagged
residue lies in a window of at least three flagged residues that starts after residue 0 and
ends before the last residue. -/
theorem helixFlagged_window (M : Model)
    (hclear : ∀ r, r < M.rArray_.length → (M.residue r).flag (R_3HELIX ||| R_4HELIX) = 0)
    (r : Nat) (h : M.markTurnsAndHelices.helixFlagged r) :
    ∃ i n, 1 ≤ i ∧ 3 ≤ n ∧ i + n < M.rArray_.length ∧ i ≤ r ∧ r < i + n
      ∧ ∀ t, i ≤ t → t < i + n → M.markTurnsAndHelices.helixFlagged t := by
  have hlen : M.markTurnsAndHelices.rArray_.length = M.rArray_.length :=
    (keeps_markTurnsAndHelices M).2.2.2.2.2.1
  have hlen2 : ((M.findTurns 3).markHelices 3).rArray_.length = M.rArray_.length :=
    (keeps_trans (keeps_findTurns 3 M) (keeps_markHelices 3 _)).2.2.2.2.2.1
  have hr : r < M.rArray_.length := by
    by_contra hc
    unfold Model.helixFlagged at h
    rw [residue_of_ge _ r (by rw [hlen]; omega), flag_default] at h
    exact h rfl
  have h3 := turnsHelices_window 3 M
  have h4 := turnsHelices_window 4 ((M.findTurns 3).markHelices 3)
  rw [hlen2] at h4
  unfold Model.helixFlagged Model.markTurnsAndHelices at h ⊢
  rcases (h4 r hr).1 h with h | ⟨i, i1, i2, i3, i4, i5, i6⟩
  · rcases (h3 r hr).1 h with h | ⟨i, i1, i2, i3, i4, i5, i6⟩
    · exact absurd (hclear r hr) h
    · refine ⟨i, 3, i1, le_refl _, i2, i3, i4, ?_⟩
      intro t t1 t2
      exact (h4 t (by omega)).2 (Or.inl ((h3 t (by omega)).2
        (Or.inr ⟨i, i1, i2, t1, t2, i5, i6⟩)))
  · refine ⟨i, 4, i1, by omega, i2, i3, i4, ?_⟩
    intro t t1 t2
    exact (h4 t (by omega)).2 (Or.inr ⟨i, i1, i2, t1, t2, i5, i6⟩)

/-- After the marking, a maximal run of helix-flagged residues starts after residue 0, has at
least three residues and ends before the last residue. -/
theorem maximalRun_bounds (M : Model)
    (hclear : ∀ r, r < M.rArray_.length → (M.residue r).flag (R_3HELIX ||| R_4HELIX) = 0)
    (a b : Nat) (h : M.markTurnsAndHelices.MaximalRun a b) :
    1 ≤ a ∧ a + 2 ≤ b ∧ b + 1 < M.rArray_.length
      ∧ ¬ M.markTurnsAndHelices.helixFlagged (b + 1) := by
  have hlen : M.markTurnsAndHelices.rArray_.length = M.rArray_.length :=
    (keeps_markTurnsAndHelices M).2.2.2.2.2.1
  obtain ⟨g1, g2, g3, g4, g5⟩ := h
  rw [hlen] at g2 g5
  obtain ⟨i, n, i1, i2, i3, i4, i5, i6⟩ := helixFlagged_window M hclear a (g3 a (le_refl _) g1)
  obtain ⟨j, k, j1, j2, j3, j4, j5, j6⟩ := helixFlagged_window M hclear b (g3 b g1 (le_refl _))
  have hia : i = a := by
    by_contra hne
    rcases g4 with g4 | g4
    · omega
    · exact g4 (i6 (a - 1) (by omega) (by omega))
  have hb1 : b + 1 < M.rArray_.length := by omega
  have hnb : ¬ M.markTurnsAndHelices.helixFlagged (b + 1) := by
    rcases g5 with g5 | g5
    · omega
    · exact g5
  refine ⟨by omega, ?_, hb1, hnb⟩
  by_contra hc
  exact hnb (i6 (b + 1) (by omega) (by omega))

/-- After the marking, findHelices returns: with a minimum helix length of at least 3, or on
residues that carried no helix flag before the marking (every run of flagged residues then has
at least three residues and ends before the last residue). -/
theorem markedHelices_return (d : Coord → Coord → Coord → Coord → ℚ) (cfg : Config) (M : Model)
    (hq : 3 ≤ cfg.minHelixLength
      ∨ ∀ r, r < M.rArray_.length → (M.residue r).flag (R_3HELIX ||| R_4HELIX) = 0) :
    ∃ mh, M.markTurnsAndHelices.findHelices d cfg = some mh := by
  rcases hq with h | h
  · exact findHelices_returns_of_min d cfg _ h
  · apply findHelices_returns
    intro a b hab hb _
    have := maximalRun_bounds M h a b hab
    omega

/-- C10 (Scenario B): for a model of N residues with no ladder and no sheet yet, whose bond
matrix after findHBonds holds exactly the bonds bonded(a+k, b+4-k) and bonded(b+4-k, a+k),
k = 0..4, of two 5-residue strands a..a+4 and b..b+4 in the interior of the sequence
(1 <= a, a+6 <= b, b+4 <= N-2), with a minimum strand length of at most 5 (the default is 3),
the inference of defineSecondaryStructure that follows findHBonds returns with exactly one
Ladder, of type antiparallel, with strands [a, a+4] and [b, b+4], not a bulge, without
neighbor, and exactly one Sheet, named A, whose only member is that ladder.  The settings are
the default ones as far as the minimum helix length is at least 3, or else the residues carry
no helix flag before the inference: either way findHelices returns. -/
theorem scenarioB_one_ladder (d : Coord → Coord → Coord → Coord → ℚ) (cfg : Config) (m : Model)
    (a b : Nat) (ha : 1 ≤ a) (hab : a + 6 ≤ b) (hbN : b + 6 ≤ m.rArray_.length)
    (hd : m.hBond_.dim_ = m.rArray_.length)
    (hlen : m.hBond_.array_.length = m.rArray_.length * m.rArray_.length)
    (hb : ∀ i j, i < m.rArray_.length → j < m.rArray_.length →
      m.hBonded i j = antiStrandBonds a b i j)
    (hla : m.ladders = []) (hl : m.ladderList_ = []) (hs : m.sheetList_ = [])
    (hc : cfg.minStrandLength ≤ 5)
    (hq : 3 ≤ cfg.minHelixLength
      ∨ ∀ r, r < m.rArray_.length → (m.residue r).flag (R_3HELIX ||| R_4HELIX) = 0) :
    ∃ m1, m.structureFromHBonds d cfg = some m1
      ∧ m1.ladderList_ = [0]
      ∧ m1.ladders = [{ type_ := B_ANTI, start0 := a, end0 := a + 4, start1 := b, end1 := b + 4,
                        neighbor0 := none, neighbor1 := none, sheet_ := some 0,
                        isBulge_ := false }]
      ∧ m1.sheetList_ = [⟨'A', [0]⟩] := by
  obtain ⟨mh, hmh⟩ := markedHelices_return d cfg m hq
  have e : m.structureFromHBonds d cfg = (mh.findBridges cfg).bind Model.findSheets := by
    show (m.markTurnsAndHelices.findHelices d cfg).bind
      (fun m1 => (m1.findBridges cfg).bind Model.findSheets) = _
    rw [hmh, Option.some_bind]
  have kT := keeps_markTurnsAndHelices m
  -- the model before findBridges
  obtain ⟨f1, f2, f3, f4, f5⟩ := findHelices_keeps d cfg m.markTurnsAndHelices mh hmh
  have hXh : mh.hBond_ = m.hBond_ := f2.trans kT.1
  have hXN : mh.rArray_.length = m.rArray_.length := by
    rw [f1]; exact kT.2.2.2.2.2.1
  have hXla : mh.ladders = [] :=
    (f3.trans kT.2.2.1).trans hla
  have hXl : mh.ladderList_ = [] :=
    (f4.trans kT.2.2.2.1).trans hl
  have hXs : mh.sheetList_ = [] :=
    (f5.trans kT.2.2.2.2.1).trans hs
  have hXb : ∀ i j, i < mh.rArray_.length →
      j < mh.rArray_.length →
      mh.hBonded i j = antiStrandBonds a b i j := by
    intro i j hi hj
    have : mh.hBonded i j = m.hBonded i j := by
      unfold Model.hBonded
      rw [hXh]
    rw [this]
    exact hb i j (by rw [← hXN]; exact hi) (by rw [← hXN]; exact hj)
  obtain ⟨c1, c2, c3, c4⟩ := markBridges_cells mh
  have hcell : ∀ r c, r < mh.markBridges.1.rArray_.length →
      c < mh.markBridges.1.rArray_.length →
      mh.markBridges.2.get r c
        = if a ≤ r ∧ r ≤ a + 4 ∧ r + c = a + b + 4 then charA else 0 := by
    intro r c hr hc
    rw [c1.2.2.2.2.2.1] at hr hc
    rw [c4 r c hr hc]
    by_cases h1 : 1 ≤ r ∧ r < c
    · rw [if_pos h1]
      exact scenarioB_bridgeValue _ a b ha hab (by rw [hXN]; exact hbN)
        (by rw [hXh, hXN]; exact hd) (by rw [hXh, hXN]; exact hlen) hXb r c h1.1 h1.2 hc
    · rw [if_neg h1, if_neg (by omega)]
  have hext := scenarioB_extract mh.markBridges.1
    mh.markBridges.2 a b hab
    (by rw [c1.2.2.2.2.2.1, hXN]; exact hbN) (by rw [c2, c1.2.2.2.2.2.1])
    (by rw [c3, c1.2.2.2.2.2.1]) hcell
  -- the ladder list after extraction
  have hl1 : (mh.markBridges.1.appendLadder
      (Ladder.new B_ANTI a (a + 4) b (b + 4))).ladders
      = [Ladder.new B_ANTI a (a + 4) b (b + 4)] := by
    simp only [Model.appendLadder, c1.2.2.1, hXla, List.nil_append]
  have hl2 : (mh.markBridges.1.appendLadder
      (Ladder.new B_ANTI a (a + 4) b (b + 4))).ladderList_ = [0] := by
    simp only [Model.appendLadder, c1.2.2.1, c1.2.2.2.1, hXla, hXl,
      List.nil_append, List.length_nil]
  have hl3 : (mh.markBridges.1.appendLadder
      (Ladder.new B_ANTI a (a + 4) b (b + 4))).sheetList_ = [] := by
    simp only [Model.appendLadder, c1.2.2.2.2.1, hXs]
  have hnew : Ladder.new B_ANTI a (a + 4) b (b + 4)
      = { type_ := B_ANTI, start0 := a, end0 := a + 4, start1 := b, end1 := b + 4,
          neighbor0 := none, neighbor1 := none, sheet_ := none, isBulge_ := false } := by
    unfold Ladder.new
    have h1 : (a : Int) < a + 4 := by omega
    have h2 : (b : Int) < b + 4 := by omega
    simp only [h1, h2, if_true]
  have hshort : (Ladder.new B_ANTI a (a + 4) b (b + 4)).tooShort cfg = false := by
    rw [hnew]
    simp only [Ladder.tooShort, Ladder.end_, Ladder.start, if_true, Nat.one_ne_zero, if_false,
      Bool.or_eq_false_iff, decide_eq_false_iff_not]
    constructor <;> omega
  have hfb : mh.findBridges cfg
      = some (mh.markBridges.1.appendLadder
          (Ladder.new B_ANTI a (a + 4) b (b + 4))) := by
    unfold Model.findBridges
    simp only
    rw [hext]
    exact mergeAndPrune_single cfg _ _ hl1 hl2 hshort
  rw [e, hfb, Option.some_bind,
    findSheets_single _ _ hl1 hl2 hl3 (by rw [hnew])]
  refine ⟨_, rfl, hl2, ?_, rfl⟩
  simp only [hnew, Ladder.setSheet]


/-- C10 (witness): fourteen residues, the strands 1..5 and 7..11. -/
theorem scenarioB_one_ladder_witness :
    ∃ m1, (Model.mk (List.replicate 14 ⟨[], 0⟩) (bondMatrix 14 (antiStrandBonds 1 7)) [] [] []
        []).structureFromHBonds (fun _ _ _ _ => 0) Config.default = some m1
      ∧ m1.ladderList_ = [0]
      ∧ m1.ladders = [{ type_ := B_ANTI, start0 := ((1 : Nat) : Int),
                        end0 := ((1 : Nat) : Int) + 4, start1 := ((7 : Nat) : Int),
                        end1 := ((7 : Nat) : Int) + 4,
                        neighbor0 := none, neighbor1 := none, sheet_ := some 0,
                        isBulge_ := false }]
      ∧ m1.sheetList_ = [⟨'A', [0]⟩] :=
  scenarioB_one_ladder (fun _ _ _ _ => 0) Config.default
    (Model.mk (List.replicate 14 ⟨[], 0⟩) (bondMatrix 14 (antiStrandBonds 1 7)) [] [] [] [])
    1 7 (by decide) (by decide) (by simp) rfl (by simp [bondMatrix])
    (fun i j hi hj => bondMatrix_hBonded _ 14 (antiStrandBonds 1 7) rfl i j hi hj)
    rfl rfl rfl (by decide) (Or.inl (by decide))

/-- C37: after findTurns(3), markHelices(3), findTurns(4), markHelices(4) on residues that
carried no helix flag, neither residue 0 nor residue N-1 carries a helix flag, and every
maximal run of helix-flagged residues starts after residue 0, has length at least 3, ends
before the last residue and is followed by an unflagged residue.  Hence findHelices, applied to
this state, returns and creates exactly one helix for each maximal run of length >=
minHelixLength: it drops no such run. -/
theorem markHelices_runs (M : Model)
    (hclear : ∀ r, r < M.rArray_.length → (M.residue r).flag (R_3HELIX ||| R_4HELIX) = 0)
    (dihedral : Coord → Coord → Coord → Coord → ℚ) (cfg : Config) :
    ¬ M.markTurnsAndHelices.helixFlagged 0
    ∧ ¬ M.markTurnsAndHelices.helixFlagged (M.rArray_.length - 1)
    ∧ (∀ a b, M.markTurnsAndHelices.MaximalRun a b →
        1 ≤ a ∧ a + 2 ≤ b ∧ b + 1 < M.rArray_.length
          ∧ ¬ M.markTurnsAndHelices.helixFlagged (b + 1))
    ∧ ∃ (m1 : Model) (created : List Helix),
        M.markTurnsAndHelices.findHelices dihedral cfg = some m1
        ∧ m1.helixList_ = M.markTurnsAndHelices.helixList_ ++ created
        ∧ (∀ h ∈ created, ∃ a b : Nat, h.from_ = a ∧ h.to_ = b
            ∧ M.markTurnsAndHelices.MaximalRun a b
            ∧ (b : Int) - a + 1 ≥ cfg.minHelixLength)
        ∧ (∀ a b : Nat, M.markTurnsAndHelices.MaximalRun a b →
            (b : Int) - a + 1 ≥ cfg.minHelixLength →
            ∃ h ∈ created, h.from_ = a ∧ h.to_ = b) := by
  have hlen : M.markTurnsAndHelices.rArray_.length = M.rArray_.length :=
    (keeps_markTurnsAndHelices M).2.2.2.2.2.1
  refine ⟨?_, ?_, maximalRun_bounds M hclear, ?_⟩
  · intro h
    obtain ⟨i, n, i1, _, _, i4, _⟩ := helixFlagged_window M hclear 0 h
    omega
  · intro h
    obtain ⟨i, n, _, _, i3, _, i5, _⟩ := helixFlagged_window M hclear _ h
    omega
  · obtain ⟨m1, h1⟩ := markedHelices_return dihedral cfg M (Or.inr hclear)
    obtain ⟨created, e1, e2, e3, _⟩ :=
      findHelices_runs_aux dihedral cfg M.markTurnsAndHelices m1 h1
    refine ⟨m1, created, h1, by rw [e1], ?_, ?_⟩
    · intro h hh
      obtain ⟨a, b, f1, f2, f3, _, f5, _⟩ := e2 h hh
      exact ⟨a, b, f1, f2, f3, f5⟩
    · intro a b hrun hmin
      have := (maximalRun_bounds M hclear a b hrun).2.2.1
      exact e3 a b hrun (by rw [hlen]; exact this) hmin

theorem markHelices_runs_witness :
    ¬ helixModel12.markTurnsAndHelices.helixFlagged 0
    ∧ ¬ helixModel12.markTurnsAndHelices.helixFlagged (helixModel12.rArray_.length - 1)
    ∧ helixModel12.markTurnsAndHelices.helixFlagged 1
    ∧ helixModel12.markTurnsAndHelices.helixFlagged 10 :=
  ⟨(markHelices_runs helixModel12 (by decide) (fun _ _ _ _ => 0) Config.default).1,
    (markHelices_runs helixModel12 (by decide) (fun _ _ _ _ => 0) Config.default).2.1,
    by unfold Model.helixFlagged; decide, by unfold Model.helixFlagged; decide⟩

/-! ## The ladders of a model through findBridges and findSheets -/

theorem mergeLoop_inv (I : Model → Prop)
    (hI : ∀ m m1, m.ladderList_.Nodup → m.LaddersValid → I m → m.findBetaBulge = some m1 → I m1) :
    ∀ (fuel : Nat) (m m1 : Model), m.ladderList_.Nodup → m.LaddersValid → I m →
      Model.mergeLoop fuel m = some m1 → I m1 ∧ m1.ladderList_.Nodup ∧ m1.LaddersValid := by
  intro fuel
  induction fuel with
  | zero =>
    intro m m1 _ _ _ h
    unfold Model.mergeLoop at h
    cases h
  | succ f ih =>
    intro m m1 hnd hv hi h
    unfold Model.mergeLoop at h
    cases hb : m.findBetaBulge with
    | none =>
      rw [hb] at h
      simp only [Option.some.injEq] at h
      subst h
      exact ⟨hi, hnd, hv⟩
    | some m2 =>
      rw [hb] at h
      obtain ⟨s1, s2, _⟩ := findBetaBulge_step m m2 hnd hv hb
      exact ih m2 m1 s1 s2 (hI m m2 hnd hv hi hb) h

theorem findBetaBulge_arena (P : Ladder → Prop)
    (hmerge : ∀ l1 l2 l, P l1 → P l2 → Ladder.mergeBulge l1 l2 = some l → P l)
    (m m1 : Model) (hnd : m.ladderList_.Nodup) (hv : m.LaddersValid)
    (hP : ∀ p, p < m.ladders.length → P (m.ladder p)) (hb : m.findBetaBulge = some m1) :
    ∀ p, p < m1.ladders.length → P (m1.ladder p) := by
  obtain ⟨_, _, _, _, _, p1, p2, x, hp1, hp2, _, _, _, hm, _, _, elad⟩ :=
    findBetaBulge_step m m1 hnd hv hb
  intro p hp
  rw [elad, List.length_append, List.length_singleton] at hp
  by_cases hlt : p < m.ladders.length
  · have e : m1.ladder p = m.ladder p := by
      simp only [Model.ladder, elad]
      rw [List.getD_append _ _ _ _ hlt]
    rw [e]
    exact hP p hlt
  · have hpe : p = m.ladders.length := by omega
    subst hpe
    have e : m1.ladder m.ladders.length = x := by
      simp [Model.ladder, elad, List.getD_append_right]
    rw [e]
    exact hmerge _ _ _ (hP p1 (hv p1 hp1)) (hP p2 (hv p2 hp2)) hm

/-- The method findBridges, called on a model without ladders, returns; its ladder list has
no repeated pointer and points into the arena, and every ladder of the arena has every
property that the ladders of diagonal runs above the diagonal have and that mergeBulge
preserves. -/
theorem findBridges_ladders (cfg : Config) (m : Model) (hl : m.ladderList_ = [])
    (ha : m.ladders = []) :
    ∃ m1, m.findBridges cfg = some m1 ∧ m1.ladderList_.Nodup ∧ m1.LaddersValid
      ∧ m1.rArray_.length = m.rArray_.length ∧ m1.helixList_ = m.helixList_
      ∧ m1.sheetList_ = m.sheetList_
      ∧ ∀ P : Ladder → Prop,
          (∀ u : BridgeRun, u.i < u.j → u.j < m.rArray_.length →
            u.i + u.k < m.rArray_.length → (u.para = true → u.j + u.k < m.rArray_.length) →
            (u.para = false → u.i + u.k < u.j - u.k) → P u.ladder) →
          (∀ l1 l2 l, P l1 → P l2 → Ladder.mergeBulge l1 l2 = some l → P l) →
          ∀ p, p < m1.ladders.length → P (m1.ladder p) := by
  obtain ⟨hk, hd, hal⟩ := keeps_markBridges m
  have hN : m.markBridges.1.rArray_.length = m.rArray_.length := hk.2.2.2.2.2.1
  have hxl : m.markBridges.1.ladderList_ = [] := hk.2.2.2.1.trans hl
  have hxa : m.markBridges.1.ladders = [] := hk.2.2.1.trans ha
  have hup := markBridges_upper m
  obtain ⟨runs, s1, s2, _, _, s5, _⟩ := extractLadders_scan m.markBridges.1 m.markBridges.2
    (by rw [hN]; exact hd) (by rw [hN]; exact hal) (by rw [hN]; exact hup)
  obtain ⟨k1, k2, k3, k4⟩ := extractLadders_keeps m.markBridges.1 m.markBridges.2
  generalize he : (m.markBridges.1.extractLadders m.markBridges.2).1 = e at s1 s2 k1 k2 k3 k4
  rw [hxa, List.nil_append] at s1
  rw [hxl, hxa, List.nil_append, List.length_nil] at s2
  have end0 : e.ladderList_.Nodup := by rw [s2]; exact List.nodup_range' _ _
  have ev : e.LaddersValid := by
    intro p hp
    rw [s2, List.mem_range'_1] at hp
    rw [s1, List.length_map]
    omega
  have eP : ∀ P : Ladder → Prop,
      (∀ u : BridgeRun, u.i < u.j → u.j < m.rArray_.length →
        u.i + u.k < m.rArray_.length → (u.para = true → u.j + u.k < m.rArray_.length) →
        (u.para = false → u.i + u.k < u.j - u.k) → P u.ladder) →
      ∀ p, p < e.ladders.length → P (e.ladder p) := by
    intro P hrun p hp
    rw [s1, List.length_map] at hp
    have e1 : e.ladder p = (runs.get ⟨p, hp⟩).ladder := by
      simp only [Model.ladder, s1]
      rw [List.getD_eq_getElem?_getD, List.getElem?_map, List.getElem?_eq_getElem hp]
      rfl
    rw [e1]
    obtain ⟨⟨g1, g2, g3, g4, g5, _⟩, _⟩ := s5 _ (List.get_mem runs p hp)
    rw [hN] at g2 g3 g4
    exact hrun _ g1 g2 g3 g4 g5
  have hmerge0 : ∃ m0, (if cfg.checkBulges then Model.mergeLoop (e.ladderList_.length + 1) e
      else some e) = some m0 ∧ m0.ladderList_.Nodup ∧ m0.LaddersValid
        ∧ m0.rArray_ = e.rArray_ ∧ m0.helixList_ = e.helixList_ ∧ m0.sheetList_ = e.sheetList_
        ∧ ∀ P : Ladder → Prop,
            (∀ l1 l2 l, P l1 → P l2 → Ladder.mergeBulge l1 l2 = some l → P l) →
            (∀ p, p < e.ladders.length → P (e.ladder p)) →
            ∀ p, p < m0.ladders.length → P (m0.ladder p) := by
    by_cases hc : cfg.checkBulges = true
    · rw [if_pos hc]
      obtain ⟨m0, h1, _, e1, _, e3, e4⟩ :=
        mergeLoop_total (e.ladderList_.length + 1) e (Nat.lt_succ_self _)
      obtain ⟨_, i2, i3⟩ := mergeLoop_inv (fun _ => True) (fun _ _ _ _ _ _ => trivial)
        _ e m0 end0 ev trivial h1
      refine ⟨m0, h1, i2, i3, e1, e3, e4, ?_⟩
      intro P hmerge hP
      exact (mergeLoop_inv (fun x => ∀ p, p < x.ladders.length → P (x.ladder p))
        (fun a b hnd hv hi hb => findBetaBulge_arena P hmerge a b hnd hv hi hb)
        _ e m0 end0 ev hP h1).1
    · rw [if_neg hc]
      exact ⟨e, rfl, end0, ev, rfl, rfl, rfl, fun _ _ hP => hP⟩
  obtain ⟨m0, h0, n0, v0, r0, x0, y0, p0⟩ := hmerge0
  refine ⟨{ m0 with ladderList_ := m0.ladderList_.filter (fun p => !(m0.ladder p).tooShort cfg) },
    ?_, n0.filter _, ?_, ?_, ?_, ?_, ?_⟩
  · unfold Model.findBridges Model.mergeAndPrune
    simp only
    rw [he, h0, Option.some_bind, pruneLoop_eq cfg _ _ (Nat.lt_succ_self _)]
  · intro p hp
    exact v0 p (List.mem_filter.1 hp).1
  · show m0.rArray_.length = m.rArray_.length
    rw [r0, k1, hN]
  · show m0.helixList_ = m.helixList_
    rw [x0, k3]
    exact hk.2.1
  · show m0.sheetList_ = m.sheetList_
    rw [y0, k4]
    exact hk.2.2.2.2.1
  · intro P hrun hmerge p hp
    exact p0 P hmerge (eP P hrun) p hp

theorem setNeighbor_sameRanges (x : Ladder) (n o : Nat) : (x.setNeighbor n o).sameRanges x := by
  unfold Ladder.setNeighbor Ladder.sameRanges
  split <;> exact ⟨rfl, rfl, rfl, rfl, rfl, rfl⟩

theorem sameRanges_refl (x : Ladder) : x.sameRanges x := ⟨rfl, rfl, rfl, rfl, rfl, rfl⟩

theorem sameRanges_trans {x y z : Ladder} (h1 : x.sameRanges y) (h2 : y.sameRanges z) :
    x.sameRanges z :=
  ⟨h1.1.trans h2.1, h1.2.1.trans h2.2.1, h1.2.2.1.trans h2.2.2.1,
    h1.2.2.2.1.trans h2.2.2.2.1, h1.2.2.2.2.1.trans h2.2.2.2.2.1,
    h1.2.2.2.2.2.trans h2.2.2.2.2.2⟩

theorem assignSheet_sameRanges (m : Model) (a s p : Nat) :
    ((m.assignSheet a s).ladder p).sameRanges (m.ladder p) := by
  rw [ladder_assignSheet]
  split_ifs
  · exact ⟨rfl, rfl, rfl, rfl, rfl, rfl⟩
  · exact sameRanges_refl _

theorem link_sameRanges (m : Model) (l o0 a o1 p : Nat) :
    ((m.link l o0 a o1).ladder p).sameRanges (m.ladder p) := by
  rw [ladder_link]
  split_ifs
  · exact sameRanges_trans (setNeighbor_sameRanges _ _ _) (setNeighbor_sameRanges _ _ _)
  · exact setNeighbor_sameRanges _ _ _
  · exact setNeighbor_sameRanges _ _ _
  · exact sameRanges_refl _

/-- The steps of findSheets change neither the type nor the strand ranges of any ladder. -/
theorem sheetSteps_sameRanges {m m1 : Model} (h : SheetSteps m m1) :
    ∀ p, (m1.ladder p).sameRanges (m.ladder p) := by
  induction h with
  | refl => exact fun p => sameRanges_refl _
  | tail _ hstep ih =>
    intro p
    cases hstep with
    | start l sName _ _ _ =>
      exact sameRanges_trans (assignSheet_sameRanges _ _ _ _) (ih p)
    | link l o0 ladder o1 sheet _ _ _ _ _ _ _ _ _ =>
      exact sameRanges_trans (assignSheet_sameRanges _ _ _ _)
        (sameRanges_trans (link_sameRanges _ _ _ _ _ _) (ih p))

theorem sameRanges_fields {x y : Ladder} (h : x.sameRanges y) :
    x.type_ = y.type_ ∧ (∀ n, x.start n = y.start n) ∧ (∀ n, x.end_ n = y.end_ n) := by
  obtain ⟨h1, h2, h3, h4, h5, _⟩ := h
  refine ⟨h1, ?_, ?_⟩
  · intro n
    unfold Ladder.start
    rw [h2, h4]
  · intro n
    unfold Ladder.end_
    rw [h3, h5]

/-- The helix stage of defineSecondaryStructure returns: with a minimum helix length of at
least 3 (the default), or on a model whose residues carry no helix flag yet. -/
theorem helixStage_returns (sq : ℚ → ℚ) (d : Coord → Coord → Coord → Coord → ℚ) (cfg : Config)
    (M : Model)
    (hq : 3 ≤ cfg.minHelixLength
      ∨ ∀ r, r < M.rArray_.length → (M.residue r).flag (R_3HELIX ||| R_4HELIX) = 0) :
    ∃ ms, M.helixStage sq d cfg = some ms := by
  unfold Model.helixStage
  apply markedHelices_return
  rcases hq with h | h
  · exact Or.inl h
  · right
    intro r hr
    have hlenA : (M.addImideHydrogens sq).rArray_.length = M.rArray_.length := by
      have := congrArg List.length (addImideHydrogens_flags sq M)
      simpa using this
    have e1 : ((M.addImideHydrogens sq).findHBonds sq cfg).residue r
        = (M.addImideHydrogens sq).residue r := rfl
    have e2 : ((M.addImideHydrogens sq).residue r).flags_ = (M.residue r).flags_ :=
      residue_flags_of_map _ _ (addImideHydrogens_flags sq M) r
    have hr1 : r < M.rArray_.length := by
      rw [← hlenA]
      exact hr
    have := h r hr1
    unfold Residue.flag at this ⊢
    rw [e1, e2]
    exact this

/-- When defineSecondaryStructure returns, its helix stage has returned. -/
theorem helixStage_of_returns (sq : ℚ → ℚ) (d : Coord → Coord → Coord → Coord → ℚ)
    (cfg : Config) (M m1 : Model) (h : M.defineSecondaryStructure sq d cfg = some m1) :
    ∃ ms, M.helixStage sq d cfg = some ms := by
  have e : M.defineSecondaryStructure sq d cfg
      = (M.helixStage sq d cfg).bind (fun x => (x.findBridges cfg).bind Model.findSheets) := rfl
  rw [e] at h
  obtain ⟨ms, hms, _⟩ := Option.bind_eq_some.1 h
  exact ⟨ms, hms⟩

/-- The stages of defineSecondaryStructure on a model without ladders: the helix stage, and
when it returns, findBridges and findSheets, both of which return. -/
theorem defineSecondaryStructure_stages (sq : ℚ → ℚ)
    (d : Coord → Coord → Coord → Coord → ℚ) (cfg : Config) (M : Model)
    (hl : M.ladderList_ = []) (ha : M.ladders = []) (ms : Model)
    (hms : M.helixStage sq d cfg = some ms) :
    ∃ mb m1, ms.findBridges cfg = some mb ∧ mb.findSheets = some m1
      ∧ M.defineSecondaryStructure sq d cfg = some m1
      ∧ SheetSteps mb m1 ∧ mb.ladderList_.Nodup ∧ mb.LaddersValid
      ∧ m1.ladderList_ = mb.ladderList_
      ∧ m1.rArray_.length = M.rArray_.length
      ∧ ms.rArray_.length = M.rArray_.length
      ∧ m1.helixList_ = ms.helixList_
      ∧ mb.sheetList_ = M.sheetList_
      ∧ (∀ r, ((M.addImideHydrogens sq).findHBonds sq cfg).residue r
          = (M.addImideHydrogens sq).residue r)
      ∧ (∀ r, ((M.addImideHydrogens sq).residue r).flags_ = (M.residue r).flags_)
      ∧ (∀ P : Ladder → Prop,
          (∀ u : BridgeRun, u.i < u.j → u.j < M.rArray_.length →
            u.i + u.k < M.rArray_.length → (u.para = true → u.j + u.k < M.rArray_.length) →
            (u.para = false → u.i + u.k < u.j - u.k) → P u.ladder) →
          (∀ l1 l2 l, P l1 → P l2 → Ladder.mergeBulge l1 l2 = some l → P l) →
          ∀ p, p < mb.ladders.length → P (mb.ladder p))
      ∧ (∀ p, (m1.ladder p).sameRanges (mb.ladder p)) := by
  have hlenA : (M.addImideHydrogens sq).rArray_.length = M.rArray_.length := by
    have := congrArg List.length (addImideHydrogens_flags sq M)
    simpa using this
  obtain ⟨_, _, a3, a4⟩ := addImideHydrogens_hBond sq M
  have aa : (M.addImideHydrogens sq).ladders = M.ladders := by
    unfold Model.addImideHydrogens
    cases M.rArray_ <;> rfl
  have hk := keeps_markTurnsAndHelices ((M.addImideHydrogens sq).findHBonds sq cfg)
  have hms1 : ((M.addImideHydrogens sq).findHBonds sq cfg).markTurnsAndHelices.findHelices d cfg
      = some ms := hms
  obtain ⟨f1, _, f3, f4, f5⟩ := findHelices_keeps d cfg _ ms hms1
  have hlenS : ms.rArray_.length = M.rArray_.length := by
    rw [f1, hk.2.2.2.2.2.1]
    exact hlenA
  have hlS : ms.ladderList_ = [] := by
    rw [f4, hk.2.2.2.1]
    exact a3.trans hl
  have haS : ms.ladders = [] := by
    rw [f3, hk.2.2.1]
    exact aa.trans ha
  have hsS : ms.sheetList_ = M.sheetList_ := by
    rw [f5, hk.2.2.2.2.1]
    exact a4
  obtain ⟨mb, b1, b2, b3, b4, b5, b6, b7⟩ :=
    findBridges_ladders cfg ms hlS haS
  obtain ⟨m1, c1, c2, _⟩ := findSheets_steps mb b3
  obtain ⟨k1, _, k3⟩ := sheetSteps_keeps c2
  refine ⟨mb, m1, b1, c1, ?_, c2, b2, b3, (sheetSteps_frame c2).1, ?_, hlenS, ?_, ?_,
    fun _ => rfl, ?_, ?_, sheetSteps_sameRanges c2⟩
  · unfold Model.defineSecondaryStructure Model.structureFromHBonds
    have : (((((M.addImideHydrogens sq).findHBonds sq cfg).findTurns 3).markHelices 3).findTurns
        4).markHelices 4 = ((M.addImideHydrogens sq).findHBonds sq cfg).markTurnsAndHelices := rfl
    rw [this]
    rw [hms1, Option.some_bind, b1, Option.some_bind, c1]
  · rw [k1, b4, hlenS]
  · rw [k3, b5]
  · rw [b6, hsS]
  · intro r
    exact residue_flags_of_map _ _ (addImideHydrogens_flags sq M) r
  · intro P hrun hmerge
    rw [hlenS] at b7
    exact b7 P hrun hmerge

/-! ## Range well-formedness and the generation property -/

theorem new_wellFormed (type s1 e1 s2 e2 : Int) : (Ladder.new type s1 e1 s2 e2).WellFormed := by
  unfold Ladder.WellFormed Ladder.new Ladder.start Ladder.end_
  simp only [if_true, Nat.one_ne_zero, if_false]
  constructor <;> split_ifs <;> omega

theorem setBulge_wellFormed (x : Ladder) (h : x.WellFormed) : x.setBulge.WellFormed := h

theorem mergeBulge_wellFormed (l1 l2 l : Ladder) (h : Ladder.mergeBulge l1 l2 = some l) :
    l.WellFormed := by
  unfold Ladder.mergeBulge at h
  simp only at h
  split_ifs at h <;> cases h <;> exact setBulge_wellFormed _ (new_wellFormed _ _ _ _ _)

theorem run_generated (u : BridgeRun) (h1 : u.i < u.j)
    (hgeo : u.para = false → u.i + u.k < u.j - u.k) : u.ladder.Generated := by
  obtain ⟨_, f2, f3, f4, f5, _⟩ := run_ladder_fields u hgeo
  unfold Ladder.Generated Ladder.WellFormed
  rw [f2, f3, f4, f5]
  cases hq : u.para
  · have := hgeo hq
    simp only [Bool.false_eq_true, if_false]
    omega
  · simp only [if_true]
    omega

theorem run_inRange (u : BridgeRun) (n : Nat) (h1 : u.i < u.j) (hj : u.j < n)
    (hik : u.i + u.k < n) (hp : u.para = true → u.j + u.k < n)
    (hgeo : u.para = false → u.i + u.k < u.j - u.k) : u.ladder.InRange n := by
  obtain ⟨_, f2, f3, f4, f5, _⟩ := run_ladder_fields u hgeo
  unfold Ladder.InRange
  rw [f2, f3, f4, f5]
  cases hq : u.para
  · have := hgeo hq
    simp only [Bool.false_eq_true, if_false]
    omega
  · have := hp hq
    simp only [if_true]
    omega

theorem mergeBulge_generated (l1 l2 l : Ladder) (h1 : l1.Generated) (h2 : l2.Generated)
    (h : Ladder.mergeBulge l1 l2 = some l) : l.Generated := by
  obtain ⟨⟨a1, a2⟩, a3, a4⟩ := h1
  obtain ⟨⟨b1, b2⟩, b3, b4⟩ := h2
  unfold Ladder.mergeBulge at h
  by_cases ht : l1.type_ = l2.type_
  swap
  · rw [if_pos ht] at h; cases h
  rw [if_neg (not_not.2 ht)] at h
  unfold Ladder.Generated Ladder.WellFormed
  by_cases hs : l1.start 0 > l2.start 0
  · simp only [hs, if_true] at h
    split_ifs at h <;>
      simp only [Option.some.injEq] at h <;> subst h <;>
      simp only [Ladder.new, Ladder.setBulge, Ladder.start, Ladder.end_, if_true,
        Nat.one_ne_zero, if_false] at * <;>
      refine ⟨⟨?_, ?_⟩, ?_, ?_⟩ <;> split_ifs <;> omega
  · simp only [hs, if_false] at h
    split_ifs at h <;>
      simp only [Option.some.injEq] at h <;> subst h <;>
      simp only [Ladder.new, Ladder.setBulge, Ladder.start, Ladder.end_, if_true,
        Nat.one_ne_zero, if_false] at * <;>
      refine ⟨⟨?_, ?_⟩, ?_, ?_⟩ <;> split_ifs <;> omega

theorem mergeBulge_inRange (n : Nat) (l1 l2 l : Ladder) (h1 : l1.WellFormed ∧ l1.InRange n)
    (h2 : l2.WellFormed ∧ l2.InRange n) (h : Ladder.mergeBulge l1 l2 = some l) :
    l.WellFormed ∧ l.InRange n := by
  refine ⟨mergeBulge_wellFormed l1 l2 l h, ?_⟩
  obtain ⟨⟨a1, a2⟩, a3, a4, a5, a6⟩ := h1
  obtain ⟨⟨b1, b2⟩, b3, b4, b5, b6⟩ := h2
  unfold Ladder.mergeBulge at h
  by_cases ht : l1.type_ = l2.type_
  swap
  · rw [if_pos ht] at h; cases h
  rw [if_neg (not_not.2 ht)] at h
  unfold Ladder.InRange
  by_cases hs : l1.start 0 > l2.start 0
  · simp only [hs, if_true] at h
    split_ifs at h <;>
      simp only [Option.some.injEq] at h <;> subst h <;>
      simp only [Ladder.new, Ladder.setBulge, Ladder.start, Ladder.end_, if_true,
        Nat.one_ne_zero, if_false] at * <;>
      refine ⟨?_, ?_, ?_, ?_⟩ <;> split_ifs <;> omega
  · simp only [hs, if_false] at h
    split_ifs at h <;>
      simp only [Option.some.injEq] at h <;> subst h <;>
      simp only [Ladder.new, Ladder.setBulge, Ladder.start, Ladder.end_, if_true,
        Nat.one_ne_zero, if_false] at * <;>
      refine ⟨?_, ?_, ?_, ?_⟩ <;> split_ifs <;> omega

/-- C34: the generation property start(0) < start(1) and end(0) < end(1), with start <= end on
each strand, holds for the ladder of every diagonal run above the diagonal of the bridge
matrix, is preserved by mergeBulge, and therefore holds for every ladder of the ladder list
after defineSecondaryStructure, whether extracted or produced by a merge.
defineSecondaryStructure returns once its call of findHelices has returned, which it does with
a minimum helix length of at least 3 or on residues that carry no helix flag yet. -/
theorem ladders_generated (sq : ℚ → ℚ) (d : Coord → Coord → Coord → Coord → ℚ) (cfg : Config)
    (M : Model) (hl : M.ladderList_ = []) (ha : M.ladders = []) :
    (∀ u : BridgeRun, u.i < u.j → (u.para = false → u.i + u.k < u.j - u.k) →
        u.ladder.Generated)
    ∧ (∀ l1 l2 l, l1.Generated → l2.Generated → Ladder.mergeBulge l1 l2 = some l →
        l.Generated)
    ∧ ((3 ≤ cfg.minHelixLength
          ∨ ∀ r, r < M.rArray_.length → (M.residue r).flag (R_3HELIX ||| R_4HELIX) = 0) →
        ∃ ms, M.helixStage sq d cfg = some ms)
    ∧ ∀ ms, M.helixStage sq d cfg = some ms →
        ∃ mb m1, ms.findBridges cfg = some mb
        ∧ M.defineSecondaryStructure sq d cfg = some m1
        ∧ (∀ p ∈ mb.ladderList_, (mb.ladder p).start 0 < (mb.ladder p).start 1
            ∧ (mb.ladder p).end_ 0 < (mb.ladder p).end_ 1)
        ∧ (∀ p ∈ m1.ladderList_, (m1.ladder p).start 0 < (m1.ladder p).start 1
            ∧ (m1.ladder p).end_ 0 < (m1.ladder p).end_ 1) := by
  refine ⟨run_generated, mergeBulge_generated, helixStage_returns sq d cfg M, ?_⟩
  intro ms hms
  obtain ⟨mb, m1, s1, _, s3, _, _, s6, s7, _, _, _, _, _, _, sP, sR⟩ :=
    defineSecondaryStructure_stages sq d cfg M hl ha ms hms
  have hP := sP Ladder.Generated (fun u h1 _ _ _ h5 => run_generated u h1 h5)
    mergeBulge_generated
  refine ⟨mb, m1, s1, s3, ?_, ?_⟩
  · intro p hp
    exact (hP p (s6 p hp)).2
  · intro p hp
    rw [s7] at hp
    obtain ⟨_, e1, e2⟩ := sameRanges_fields (sR p)
    rw [e1, e1, e2, e2]
    exact (hP p (s6 p hp)).2

theorem ladders_generated_witness :
    (paraSheetModel.defineSecondaryStructure sqrtf (fun _ _ _ _ => 0) Config.default).map
        (fun m1 => m1.ladderList_.map (fun p => ((m1.ladder p).start 0, (m1.ladder p).end_ 0,
          (m1.ladder p).start 1, (m1.ladder p).end_ 1)))
      = some [(1, 3, 6, 8)]
    ∧ (∃ ms, paraSheetModel.helixStage sqrtf (fun _ _ _ _ => 0) Config.default = some ms)
    ∧ ∀ ms, paraSheetModel.helixStage sqrtf (fun _ _ _ _ => 0) Config.default = some ms →
        ∃ mb m1, ms.findBridges Config.default = some mb
        ∧ paraSheetModel.defineSecondaryStructure sqrtf (fun _ _ _ _ => 0) Config.default
          = some m1
        ∧ (∀ p ∈ mb.ladderList_, (mb.ladder p).start 0 < (mb.ladder p).start 1
            ∧ (mb.ladder p).end_ 0 < (mb.ladder p).end_ 1)
        ∧ (∀ p ∈ m1.ladderList_, (m1.ladder p).start 0 < (m1.ladder p).start 1
            ∧ (m1.ladder p).end_ 0 < (m1.ladder p).end_ 1) :=
  ⟨by decide!,
    (ladders_generated sqrtf (fun _ _ _ _ => 0) Config.default paraSheetModel rfl rfl).2.2.1
      (Or.inl (by decide)),
    (ladders_generated sqrtf (fun _ _ _ _ => 0) Config.default paraSheetModel rfl rfl).2.2.2⟩

/-- C25: every ladder made by the constructor, for any arguments, and every ladder returned by
mergeBulge has start(s) <= end(s) on both strands; and what defineSecondaryStructure, called on
a model with empty helix and ladder lists, returns is a model of the same N residues in which
every helix has 0 <= from <= to < N and every ladder of the ladder list has start <= end on
both strands and all four endpoints in [0, N).  defineSecondaryStructure returns with a minimum
helix length of at least 3 or on residues that carry no helix flag yet. -/
theorem ranges_wellFormed (sq : ℚ → ℚ) (d : Coord → Coord → Coord → Coord → ℚ) (cfg : Config)
    (M : Model) (hh : M.helixList_ = []) (hl : M.ladderList_ = []) (ha : M.ladders = []) :
    (∀ type s1 e1 s2 e2, (Ladder.new type s1 e1 s2 e2).WellFormed)
    ∧ (∀ u : BridgeRun, u.ladder.WellFormed)
    ∧ (∀ l1 l2 l, Ladder.mergeBulge l1 l2 = some l → l.WellFormed)
    ∧ ((3 ≤ cfg.minHelixLength
          ∨ ∀ r, r < M.rArray_.length → (M.residue r).flag (R_3HELIX ||| R_4HELIX) = 0) →
        ∃ m1, M.defineSecondaryStructure sq d cfg = some m1)
    ∧ ∀ m1, M.defineSecondaryStructure sq d cfg = some m1 →
        m1.rArray_.length = M.rArray_.length
        ∧ (∀ h ∈ m1.helixList_, 0 ≤ h.from_ ∧ h.from_ ≤ h.to_
            ∧ h.to_ < (M.rArray_.length : Int))
        ∧ (∀ p ∈ m1.ladderList_, (m1.ladder p).WellFormed
            ∧ 0 ≤ (m1.ladder p).start 0 ∧ (m1.ladder p).end_ 0 < (M.rArray_.length : Int)
            ∧ 0 ≤ (m1.ladder p).start 1 ∧ (m1.ladder p).end_ 1 < (M.rArray_.length : Int)) := by
  refine ⟨new_wellFormed, ?_, mergeBulge_wellFormed, ?_, ?_⟩
  · intro u
    unfold BridgeRun.ladder
    split <;> exact new_wellFormed _ _ _ _ _
  · intro hq
    obtain ⟨ms, hms⟩ := helixStage_returns sq d cfg M hq
    obtain ⟨_, m1, _, _, s3, _⟩ := defineSecondaryStructure_stages sq d cfg M hl ha ms hms
    exact ⟨m1, s3⟩
  intro m0 hm0
  obtain ⟨ms, hms⟩ := helixStage_of_returns sq d cfg M m0 hm0
  obtain ⟨mb, m1, _, _, s3, _, _, s6, s7, s8, s9, s10, _, _, _, sP, sR⟩ :=
    defineSecondaryStructure_stages sq d cfg M hl ha ms hms
  have em : m0 = m1 := Option.some.inj (hm0.symm.trans s3)
  subst em
  have hms1 : ((M.addImideHydrogens sq).findHBonds sq cfg).markTurnsAndHelices.findHelices d cfg
      = some ms := hms
  refine ⟨s8, ?_, ?_⟩
  · intro h hh1
    rw [s10] at hh1
    obtain ⟨created, e1, e2, _⟩ := findHelices_runs_aux d cfg _ ms hms1
    have hk := keeps_markTurnsAndHelices ((M.addImideHydrogens sq).findHBonds sq cfg)
    have h0 : ((M.addImideHydrogens sq).findHBonds sq cfg).markTurnsAndHelices.helixList_
        = [] := by
      rw [hk.2.1]
      exact (addImideHydrogens_hBond sq M).2.1.trans hh
    have hmem : h ∈ created := by
      have : ms.helixList_ = created := by
        rw [e1]
        show ((M.addImideHydrogens sq).findHBonds sq cfg).markTurnsAndHelices.helixList_
          ++ created = created
        rw [h0, List.nil_append]
      rw [this] at hh1
      exact hh1
    obtain ⟨a, b, f1, f2, ⟨g1, g2, _⟩, _⟩ := e2 h hmem
    have hlen : ((M.addImideHydrogens sq).findHBonds sq cfg).markTurnsAndHelices.rArray_.length
        = M.rArray_.length := by
      rw [← (findHelices_keeps d cfg _ ms hms1).1]
      exact s9
    rw [hlen] at g2
    rw [f1, f2]
    omega
  · intro p hp
    rw [s7] at hp
    have hP := sP (fun l => l.WellFormed ∧ l.InRange M.rArray_.length)
      (fun u h1 h2 h3 h4 h5 => ⟨(run_generated u h1 h5).1, run_inRange u _ h1 h2 h3 h4 h5⟩)
      (mergeBulge_inRange M.rArray_.length) p (s6 p hp)
    obtain ⟨_, e1, e2⟩ := sameRanges_fields (sR p)
    unfold Ladder.WellFormed
    rw [e1, e1, e2, e2]
    exact ⟨hP.1, hP.2⟩

theorem ranges_wellFormed_witness :
    (paraSheetModel.defineSecondaryStructure sqrtf (fun _ _ _ _ => 0) Config.default).map
        (fun m1 => (m1.helixList_, m1.ladderList_.map (fun p => ((m1.ladder p).start 0,
          (m1.ladder p).end_ 0, (m1.ladder p).start 1, (m1.ladder p).end_ 1))))
      = some ([], [(1, 3, 6, 8)])
    ∧ (∃ m1, paraSheetModel.defineSecondaryStructure sqrtf (fun _ _ _ _ => 0) Config.default
          = some m1)
    ∧ ∀ m1, paraSheetModel.defineSecondaryStructure sqrtf (fun _ _ _ _ => 0) Config.default
          = some m1 →
        m1.rArray_.length = paraSheetModel.rArray_.length
        ∧ (∀ h ∈ m1.helixList_, 0 ≤ h.from_ ∧ h.from_ ≤ h.to_
            ∧ h.to_ < (paraSheetModel.rArray_.length : Int))
        ∧ (∀ p ∈ m1.ladderList_, (m1.ladder p).WellFormed
            ∧ 0 ≤ (m1.ladder p).start 0
            ∧ (m1.ladder p).end_ 0 < (paraSheetModel.rArray_.length : Int)
            ∧ 0 ≤ (m1.ladder p).start 1
            ∧ (m1.ladder p).end_ 1 < (paraSheetModel.rArray_.length : Int)) :=
  ⟨by decide!,
    (ranges_wellFormed sqrtf (fun _ _ _ _ => 0) Config.default paraSheetModel rfl rfl
      rfl).2.2.2.1 (Or.inl (by decide)),
    (ranges_wellFormed sqrtf (fun _ _ _ _ => 0) Config.default paraSheetModel rfl rfl
      rfl).2.2.2.2⟩

/-- C36: defineSecondaryStructure, called on a model with empty helix and ladder lists whose
residues carry no helix flag, returns, and under every setting of the minimum helix length
every helix of the result starts after residue 0, has at least three residues and ends before
the last residue, so from + 3 <= N - 1: the residues from, from+1, from+2, from+3 looked up
by helixClass are valid residue indices. -/
theorem helix_lookups_in_range (sq : ℚ → ℚ) (d : Coord → Coord → Coord → Coord → ℚ)
    (cfg : Config) (M : Model) (hh : M.helixList_ = []) (hl : M.ladderList_ = [])
    (ha : M.ladders = [])
    (hclear : ∀ r, r < M.rArray_.length → (M.residue r).flag (R_3HELIX ||| R_4HELIX) = 0) :
    ∃ m1, M.defineSecondaryStructure sq d cfg = some m1
      ∧ m1.rArray_.length = M.rArray_.length
      ∧ ∀ h ∈ m1.helixList_, 1 ≤ h.from_ ∧ h.from_ + 2 ≤ h.to_
          ∧ h.to_ + 1 < (M.rArray_.length : Int)
          ∧ h.from_ + 3 ≤ (M.rArray_.length : Int) - 1
          ∧ h.from_.toNat + 3 < m1.rArray_.length := by
  obtain ⟨ms, hms⟩ := helixStage_returns sq d cfg M (Or.inr hclear)
  have hms1 : ((M.addImideHydrogens sq).findHBonds sq cfg).markTurnsAndHelices.findHelices d cfg
      = some ms := hms
  obtain ⟨mb, m1, _, _, s3, _, _, _, _, s8, s9, s10, _, s12, s13, _, _⟩ :=
    defineSecondaryStructure_stages sq d cfg M hl ha ms hms
  refine ⟨m1, s3, s8, ?_⟩
  intro h hh1
  rw [s10] at hh1
  have hlenF : ((M.addImideHydrogens sq).findHBonds sq cfg).rArray_.length
      = M.rArray_.length := by
    have := s9
    rw [(findHelices_keeps d cfg _ ms hms1).1,
      (keeps_markTurnsAndHelices ((M.addImideHydrogens sq).findHBonds sq cfg)).2.2.2.2.2.1]
      at this
    exact this
  have hclearF : ∀ r, r < ((M.addImideHydrogens sq).findHBonds sq cfg).rArray_.length →
      (((M.addImideHydrogens sq).findHBonds sq cfg).residue r).flag (R_3HELIX ||| R_4HELIX)
        = 0 := by
    intro r hr
    rw [hlenF] at hr
    have := hclear r hr
    unfold Residue.flag at this ⊢
    rw [s12 r, s13 r]
    exact this
  obtain ⟨created, e1, e2, _⟩ := findHelices_runs_aux d cfg _ ms hms1
  have hk := keeps_markTurnsAndHelices ((M.addImideHydrogens sq).findHBonds sq cfg)
  have h0 : ((M.addImideHydrogens sq).findHBonds sq cfg).markTurnsAndHelices.helixList_
      = [] := by
    rw [hk.2.1]
    exact (addImideHydrogens_hBond sq M).2.1.trans hh
  have hmem : h ∈ created := by
    have : ms.helixList_ = created := by
      rw [e1]
      show ((M.addImideHydrogens sq).findHBonds sq cfg).markTurnsAndHelices.helixList_
        ++ created = created
      rw [h0, List.nil_append]
    rw [this] at hh1
    exact hh1
  obtain ⟨a, b, f1, f2, hrun, _⟩ := e2 h hmem
  obtain ⟨b1, b2, b3, _⟩ := maximalRun_bounds _ hclearF a b hrun
  rw [hlenF] at b3
  rw [f1, f2, s8]
  omega

theorem helix_lookups_in_range_witness :
    (helixSiteModel.defineSecondaryStructure sqrtf (fun _ _ _ _ => 0) Config.default).map
        (fun m1 => m1.helixList_) = some [⟨1, 4, 0⟩]
    ∧ ∃ m1, helixSiteModel.defineSecondaryStructure sqrtf (fun _ _ _ _ => 0) Config.default
          = some m1
        ∧ m1.rArray_.length = helixSiteModel.rArray_.length
        ∧ ∀ h ∈ m1.helixList_, 1 ≤ h.from_ ∧ h.from_ + 2 ≤ h.to_
            ∧ h.to_ + 1 < (helixSiteModel.rArray_.length : Int)
            ∧ h.from_ + 3 ≤ (helixSiteModel.rArray_.length : Int) - 1
            ∧ h.from_.toNat + 3 < m1.rArray_.length :=
  ⟨by decide!,
    helix_lookups_in_range sqrtf (fun _ _ _ _ => 0) Config.default helixSiteModel rfl rfl rfl
      (by decide)⟩

/-! ## Neighbor links during findSheets -/

theorem neighbor_side (l : Ladder) (a b : Nat) (h : a = 0 ↔ b = 0) :
    l.neighbor a = l.neighbor b := by
  unfold Ladder.neighbor
  by_cases ha : a = 0
  · rw [if_pos ha, if_pos (h.1 ha)]
  · rw [if_neg ha, if_neg (fun hb => ha (h.2 hb))]

theorem strands_side (l : Ladder) (a b : Nat) (h : a = 0 ↔ b = 0) :
    l.start a = l.start b ∧ l.end_ a = l.end_ b := by
  unfold Ladder.start Ladder.end_
  by_cases ha : a = 0
  · rw [if_pos ha, if_pos (h.1 ha), if_pos ha, if_pos (h.1 ha)]
    exact ⟨rfl, rfl⟩
  · rw [if_neg ha, if_neg (fun hb => ha (h.2 hb)), if_neg ha, if_neg (fun hb => ha (h.2 hb))]
    exact ⟨rfl, rfl⟩

theorem neighbor_setNeighbor (x : Ladder) (n o a : Nat) :
    (x.setNeighbor n o).neighbor a = if (a = 0 ↔ n = 0) then some o else x.neighbor a := by
  unfold Ladder.setNeighbor Ladder.neighbor
  by_cases hn : n = 0 <;> by_cases ha : a = 0 <;> simp [hn, ha]

theorem neighbor_setSheet (x : Ladder) (s a : Nat) :
    (x.setSheet s).neighbor a = x.neighbor a := rfl

/-- The neighbor slots after the two statements of a link and the assignment of the sheet. -/
theorem link_step_neighbor (m : Model) (l o0 ladder o1 sheet : Nat)
    (hl : l < m.ladders.length) (hla : ladder < m.ladders.length) (hne : l ≠ ladder)
    (p a : Nat) :
    (((m.link l o0 ladder o1).assignSheet l sheet).ladder p).neighbor a
      = if p = l ∧ (a = 0 ↔ o0 = 0) then some ladder
        else if p = ladder ∧ (a = 0 ↔ o1 = 0) then some l
        else (m.ladder p).neighbor a := by
  rw [ladder_assignSheet, ladder_link]
  by_cases h1 : p = l
  · subst h1
    have e0 : ¬ (ladder = p) := fun h => hne h.symm
    have hlen : (m.link p o0 ladder o1).ladders.length = m.ladders.length := by
      simp [Model.link]
    have e2 : ¬ (p = ladder ∧ (a = 0 ↔ o1 = 0)) := fun h => hne h.1
    simp only [hlen, hl, e0, e2, false_and, and_true, and_self, if_true, if_false, true_and,
      neighbor_setSheet, neighbor_setNeighbor]
  · have e1 : ¬ (l = p ∧ p < (m.link l o0 ladder o1).ladders.length) := fun h => h1 h.1.symm
    have e2 : ¬ (l = p ∧ p < m.ladders.length) := fun h => h1 h.1.symm
    have e3 : ¬ (p = l ∧ (a = 0 ↔ o0 = 0)) := fun h => h1 h.1
    simp only [e1, e2, e3, if_false]
    by_cases h2 : p = ladder
    · subst h2
      simp only [hla, and_self, if_true, true_and, neighbor_setNeighbor]
    · have e4 : ¬ (ladder = p ∧ p < m.ladders.length) := fun h => h2 h.1.symm
      have e5 : ¬ (p = ladder ∧ (a = 0 ↔ o1 = 0)) := fun h => h2 h.1
      simp only [e4, e5, if_false]

/-- The neighbor slots after the creation of a sheet for a ladder. -/
theorem start_step_neighbor (m : Model) (l s : Nat) (sName : Char) (p a : Nat) :
    ((Model.assignSheet { m with sheetList_ := m.sheetList_ ++ [⟨sName, []⟩] } l s).ladder
        p).neighbor a = (m.ladder p).neighbor a := by
  rw [ladder_assignSheet]
  split_ifs <;> rfl

theorem overlaps_sides (x y : Ladder) (o0 o1 : Nat) (h : x.overlaps y = some (o0, o1)) :
    o0 ≤ 1 ∧ o1 ≤ 1 ∧ x.strandsIntersect y o0 o1 := by
  unfold Ladder.overlaps at h
  unfold Ladder.strandsIntersect
  split_ifs at h with c1 c2 c3 c4 <;> simp only [Option.some.injEq, Prod.mk.injEq] at h <;>
    obtain ⟨rfl, rfl⟩ := h
  · exact ⟨by omega, by omega, c1⟩
  · exact ⟨by omega, by omega, c2⟩
  · exact ⟨by omega, by omega, c3⟩
  · exact ⟨by omega, by omega, c4⟩

theorem strandsIntersect_of_sameRanges {x x1 y y1 : Ladder} (hx : x1.sameRanges x)
    (hy : y1.sameRanges y) (a b : Nat) (h : x.strandsIntersect y a b) :
    x1.strandsIntersect y1 a b := by
  obtain ⟨_, e1, e2⟩ := sameRanges_fields hx
  obtain ⟨_, f1, f2⟩ := sameRanges_fields hy
  unfold Ladder.strandsIntersect at h ⊢
  rw [e1, e2, f1, f2]
  exact h

theorem sheetStep_sheet_ne_none {m m1 : Model} (h : SheetStep m m1) (p : Nat)
    (hp : (m.ladder p).sheet_ ≠ none) : (m1.ladder p).sheet_ ≠ none := by
  obtain ⟨s, hs⟩ := Option.ne_none_iff_exists'.1 hp
  rw [(sheetStep_frame h).2.2 p s hs]
  simp

theorem sheetStep_sameRanges {m m1 : Model} (h : SheetStep m m1) (p : Nat) :
    (m1.ladder p).sameRanges (m.ladder p) :=
  sheetSteps_sameRanges (Relation.ReflTransGen.single h) p

theorem sheetStep_linksWellFormed {m m1 : Model} (h : SheetStep m m1)
    (hw : m.LinksWellFormed) : m1.LinksWellFormed := by
  have hsh := sheetStep_sheet_ne_none h
  have hrg := sheetStep_sameRanges h
  cases h with
  | start l sName hl hv hs =>
    intro p a q hq
    rw [start_step_neighbor] at hq
    obtain ⟨w1, w2, w3, w4, b, w5, w6⟩ := hw p a q hq
    refine ⟨w1, hsh p w2, hsh q w3, ?_, b, ?_, ?_⟩
    · intro a' ha'
      rw [start_step_neighbor] at ha'
      exact w4 a' ha'
    · rw [start_step_neighbor]
      exact w5
    · exact strandsIntersect_of_sameRanges (hrg p) (hrg q) a b w6
  | link l o0 ladder o1 sheet hl hv hla hva hs hsa hov hn0 hn1 =>
    have hne : l ≠ ladder := by
      intro h
      rw [h, hsa] at hs
      cases hs
    have hlnone : ∀ a q, (m.ladder l).neighbor a ≠ some q := by
      intro a q hq
      exact (hw l a q hq).2.1 hs
    have htol : ∀ p a, (m.ladder p).neighbor a ≠ some l := by
      intro p a hq
      exact (hw p a l hq).2.2.1 hs
    have hlsheet : (((m.link l o0 ladder o1).assignSheet l sheet).ladder l).sheet_ ≠ none := by
      rw [sheet_assignSheet]
      have : l < (m.link l o0 ladder o1).ladders.length := by
        simp [Model.link]; exact hv
      simp [this]
    have hlasheet : (((m.link l o0 ladder o1).assignSheet l sheet).ladder ladder).sheet_
        ≠ none := hsh ladder (by rw [hsa]; simp)
    obtain ⟨_, _, hint⟩ := overlaps_sides _ _ _ _ hov
    intro p a q hq
    rw [link_step_neighbor m l o0 ladder o1 sheet hv hva hne] at hq
    by_cases c1 : p = l ∧ (a = 0 ↔ o0 = 0)
    · rw [if_pos c1] at hq
      obtain ⟨rfl, ha⟩ := c1
      simp only [Option.some.injEq] at hq
      subst hq
      refine ⟨fun h => hne h.symm, hlsheet, hlasheet, ?_, o1, ?_, ?_⟩
      · intro a' ha'
        rw [link_step_neighbor m p o0 ladder o1 sheet hv hva hne] at ha'
        by_cases c : p = p ∧ (a' = 0 ↔ o0 = 0)
        · exact c.2.trans ha.symm
        · rw [if_neg c, if_neg (fun h => hne h.1)] at ha'
          exact absurd ha' (hlnone a' ladder)
      · rw [link_step_neighbor m p o0 ladder o1 sheet hv hva hne,
          if_neg (fun h => hne h.1.symm), if_pos ⟨rfl, Iff.rfl⟩]
      · apply strandsIntersect_of_sameRanges (hrg p) (hrg ladder)
        unfold Ladder.strandsIntersect at hint ⊢
        rw [(strands_side (m.ladder p) a o0 ha).1, (strands_side (m.ladder p) a o0 ha).2]
        exact hint
    · rw [if_neg c1] at hq
      by_cases c2 : p = ladder ∧ (a = 0 ↔ o1 = 0)
      · rw [if_pos c2] at hq
        obtain ⟨rfl, ha⟩ := c2
        simp only [Option.some.injEq] at hq
        subst hq
        refine ⟨hne, hlasheet, hlsheet, ?_, o0, ?_, ?_⟩
        · intro a' ha'
          rw [link_step_neighbor m l o0 p o1 sheet hv hva hne,
            if_neg (fun h => hne h.1.symm)] at ha'
          by_cases c : p = p ∧ (a' = 0 ↔ o1 = 0)
          · exact c.2.trans ha.symm
          · rw [if_neg c] at ha'
            exact absurd ha' (htol p a')
        · rw [link_step_neighbor m l o0 p o1 sheet hv hva hne, if_pos ⟨rfl, Iff.rfl⟩]
        · apply strandsIntersect_of_sameRanges (hrg p) (hrg l)
          unfold Ladder.strandsIntersect at hint ⊢
          rw [(strands_side (m.ladder p) a o1 ha).1, (strands_side (m.ladder p) a o1 ha).2]
          exact ⟨hint.2, hint.1⟩
      · rw [if_neg c2] at hq
        obtain ⟨w1, w2, w3, w4, b, w5, w6⟩ := hw p a q hq
        have hpl : p ≠ l := fun h => w2 (by rw [h]; exact hs)
        have hql : q ≠ l := fun h => w3 (by rw [h]; exact hs)
        refine ⟨w1, hsh p w2, hsh q w3, ?_, b, ?_, ?_⟩
        · intro a' ha'
          rw [link_step_neighbor m l o0 ladder o1 sheet hv hva hne,
            if_neg (fun h => hpl h.1)] at ha'
          by_cases c : p = ladder ∧ (a' = 0 ↔ o1 = 0)
          · rw [if_pos c] at ha'
            simp only [Option.some.injEq] at ha'
            exact absurd ha'.symm hql
          · rw [if_neg c] at ha'
            exact w4 a' ha'
        · rw [link_step_neighbor m l o0 ladder o1 sheet hv hva hne,
            if_neg (fun h => hql h.1)]
          by_cases c : q = ladder ∧ (b = 0 ↔ o1 = 0)
          · exfalso
            obtain ⟨rfl, hb⟩ := c
            rw [neighbor_side _ b o1 hb, hn1] at w5
            cases w5
          · rw [if_neg c]
            exact w5
        · exact strandsIntersect_of_sameRanges (hrg p) (hrg q) a b w6

theorem sheetSteps_linksWellFormed {m m1 : Model} (h : SheetSteps m m1)
    (hw : m.LinksWellFormed) : m1.LinksWellFormed := by
  induction h with
  | refl => exact hw
  | tail _ hstep ih => exact sheetStep_linksWellFormed hstep ih

/-- A step of findSheets never overwrites a neighbor slot that is set. -/
theorem sheetStep_neighbor_kept {m m1 : Model} (h : SheetStep m m1) (p a q : Nat)
    (hq : (m.ladder p).neighbor a = some q) : (m1.ladder p).neighbor a = some q := by
  cases h with
  | start l sName hl hv hs =>
    rw [start_step_neighbor]
    exact hq
  | link l o0 ladder o1 sheet hl hv hla hva hs hsa hov hn0 hn1 =>
    have hne : l ≠ ladder := by
      intro h
      rw [h, hsa] at hs
      cases hs
    rw [link_step_neighbor m l o0 ladder o1 sheet hv hva hne]
    by_cases c1 : p = l ∧ (a = 0 ↔ o0 = 0)
    · exfalso
      obtain ⟨rfl, ha⟩ := c1
      rw [neighbor_side _ a o0 ha, hn0] at hq
      cases hq
    · rw [if_neg c1]
      by_cases c2 : p = ladder ∧ (a = 0 ↔ o1 = 0)
      · exfalso
        obtain ⟨rfl, ha⟩ := c2
        rw [neighbor_side _ a o1 ha, hn1] at hq
        cases hq
      · rw [if_neg c2]
        exact hq

theorem linksWellFormed_initial (M : Model)
    (hn : ∀ p, p < M.ladders.length →
      (M.ladder p).neighbor 0 = none ∧ (M.ladder p).neighbor 1 = none) :
    M.LinksWellFormed := by
  intro p a q hq
  exfalso
  by_cases hp : p < M.ladders.length
  · obtain ⟨h0, h1⟩ := hn p hp
    by_cases ha : a = 0
    · rw [neighbor_side _ a 0 (by simp [ha]), h0] at hq
      cases hq
    · rw [neighbor_side _ a 1 (by simp [ha]), h1] at hq
      cases hq
  · have : M.ladder p = default := by
      unfold Model.ladder
      rw [List.getD_eq_getElem?_getD, List.getElem?_eq_none (by omega)]
      rfl
    rw [this, default_ladder_neighbor] at hq
    cases hq

/-- C32: on a model whose ladder list points into the arena and whose ladders have no
neighbor yet, findSheets returns, and in every state it passes through (every state reached by
its steps) the neighbor links are well formed: a neighbor is never the ladder itself, is the
neighbor on one side only, and is linked back on a side whose strand intersects the strand of
the link.  A step never overwrites a neighbor slot that is set.  And when the ladders overlap
on sides of which one is already occupied, markLadder's loop makes no link and continues the
scan with the model unchanged. -/
theorem links_wellFormed (M : Model) (hv : M.LaddersValid)
    (hn : ∀ p, p < M.ladders.length →
      (M.ladder p).neighbor 0 = none ∧ (M.ladder p).neighbor 1 = none) :
    (∃ m1, M.findSheets = some m1 ∧ SheetSteps M m1 ∧ m1.LinksWellFormed)
    ∧ (∀ m1, SheetSteps M m1 →
        ∀ p a q, (m1.ladder p).neighbor a = some q →
          q ≠ p
          ∧ (∀ a', (m1.ladder p).neighbor a' = some q → (a' = 0 ↔ a = 0))
          ∧ ∃ b, (m1.ladder q).neighbor b = some p
              ∧ (∀ b', (m1.ladder q).neighbor b' = some p → (b' = 0 ↔ b = 0))
              ∧ (m1.ladder p).strandsIntersect (m1.ladder q) a b)
    ∧ (∀ m1 m2, SheetSteps M m1 → SheetStep m1 m2 →
        ∀ p a q, (m1.ladder p).neighbor a = some q → (m2.ladder p).neighbor a = some q)
    ∧ (∀ (call : Model → Nat → Option Model) (ladder l : Nat) (rest : List Nat) (m1 : Model)
        (o0 o1 : Nat), (m1.ladder l).overlaps (m1.ladder ladder) = some (o0, o1) →
        ((m1.ladder l).neighbor o0 ≠ none ∨ (m1.ladder ladder).neighbor o1 ≠ none) →
        Model.markLoop call ladder (l :: rest) m1 = Model.markLoop call ladder rest m1) := by
  have h0 := linksWellFormed_initial M hn
  refine ⟨?_, ?_, ?_, ?_⟩
  · obtain ⟨m1, h1, hsteps, _⟩ := findSheets_steps M hv
    exact ⟨m1, h1, hsteps, sheetSteps_linksWellFormed hsteps h0⟩
  · intro m1 hsteps p a q hq
    have hw := sheetSteps_linksWellFormed hsteps h0
    obtain ⟨w1, _, _, w4, b, w5, w6⟩ := hw p a q hq
    exact ⟨w1, w4, b, w5, (hw q b p w5).2.2.2.1, w6⟩
  · intro m1 m2 _ hstep p a q hq
    exact sheetStep_neighbor_kept hstep p a q hq
  · intro call ladder l rest m1 o0 o1 hov hocc
    rw [Model.markLoop]
    split_ifs with c1
    · rfl
    · rw [hov]
      simp only
      split_ifs with c2 c3
      · rfl
      · rfl
      · exfalso
        rcases hocc with h | h
        · exact h (by simpa using c2)
        · exact h (by simpa using c3)

theorem links_wellFormed_witness :
    sheetModel3.findSheets.map (fun m => m.ladders.map (fun l => (l.neighbor0, l.neighbor1)))
      = some [(none, some 1), (some 0, none), (none, none)]
    ∧ ∃ m1, sheetModel3.findSheets = some m1 ∧ SheetSteps sheetModel3 m1
        ∧ m1.LinksWellFormed :=
  ⟨by decide,
    (links_wellFormed sheetModel3 (by unfold Model.LaddersValid; decide) (by decide)).1⟩

/-! ## Every sheet is a simple path -/

theorem nbrPair_comm (x : Ladder) (a b : Option Nat) (h : x.NbrPair a b) : x.NbrPair b a := by
  unfold Ladder.NbrPair at *
  rcases h with h | h
  · exact Or.inr h
  · exact Or.inl h

theorem headOr_append (next : Option Nat) (xs : List Nat) (p : Nat) (ys : List Nat) :
    headOr next (xs ++ p :: ys) = headOr (some p) xs := by
  cases xs <;> rfl

theorem lastOr_some (p : Nat) : ∀ xs : List Nat, ∃ z, lastOr (some p) xs = some z := by
  intro xs
  induction xs generalizing p with
  | nil => exact ⟨p, rfl⟩
  | cons x xs ih => exact ih x

theorem lastOr_eq_none (prev : Option Nat) (xs : List Nat) (h : lastOr prev xs = none) :
    xs = [] := by
  cases xs with
  | nil => rfl
  | cons x xs =>
    obtain ⟨z, hz⟩ := lastOr_some x xs
    rw [lastOr, hz] at h
    cases h

theorem headOr_eq_none (ys : List Nat) (h : headOr none ys = none) : ys = [] := by
  cases ys with
  | nil => rfl
  | cons y ys => cases h

theorem lastOr_append_singleton (prev : Option Nat) (xs : List Nat) (z : Nat) :
    lastOr prev (xs ++ [z]) = some z := by
  induction xs generalizing prev with
  | nil => rfl
  | cons x xs ih => exact ih (some x)

theorem lastOr_reverse (next : Option Nat) (rest : List Nat) :
    lastOr next rest.reverse = headOr next rest := by
  cases rest with
  | nil => rfl
  | cons q r =>
    rw [List.reverse_cons, lastOr_append_singleton]
    rfl

theorem pathSeg_append (m : Model) :
    ∀ (xs : List Nat) (prev : Option Nat) (p : Nat) (ys : List Nat) (next : Option Nat),
      PathSeg m prev (xs ++ p :: ys) next
        ↔ PathSeg m prev xs (some p) ∧ (m.ladder p).NbrPair (lastOr prev xs) (headOr next ys)
          ∧ PathSeg m (some p) ys next := by
  intro xs
  induction xs with
  | nil =>
    intro prev p ys next
    simp only [List.nil_append, PathSeg, lastOr, true_and]
  | cons x xs ih =>
    intro prev p ys next
    show ((m.ladder x).NbrPair prev (headOr next (xs ++ p :: ys))
        ∧ PathSeg m (some x) (xs ++ p :: ys) next)
      ↔ ((m.ladder x).NbrPair prev (headOr (some p) xs) ∧ PathSeg m (some x) xs (some p))
        ∧ (m.ladder p).NbrPair (lastOr (some x) xs) (headOr next ys)
        ∧ PathSeg m (some p) ys next
    rw [headOr_append, ih, and_assoc]

theorem pathSeg_congr (m m1 : Model) :
    ∀ (path : List Nat) (prev next : Option Nat),
      (∀ p ∈ path, (m1.ladder p).neighbor 0 = (m.ladder p).neighbor 0
        ∧ (m1.ladder p).neighbor 1 = (m.ladder p).neighbor 1) →
      PathSeg m prev path next → PathSeg m1 prev path next := by
  intro path
  induction path with
  | nil => intro _ _ _ _; trivial
  | cons p rest ih =>
    intro prev next h hp
    obtain ⟨h1, h2⟩ := hp
    refine ⟨?_, ih (some p) next (fun q hq => h q (List.mem_cons_of_mem _ hq)) h2⟩
    obtain ⟨e0, e1⟩ := h p (List.mem_cons_self _ _)
    unfold Ladder.NbrPair at h1 ⊢
    rw [e0, e1]
    exact h1

theorem pathSeg_reverse (m : Model) :
    ∀ (path : List Nat) (prev next : Option Nat),
      PathSeg m prev path next → PathSeg m next path.reverse prev := by
  intro path
  induction path with
  | nil => intro _ _ _; trivial
  | cons p rest ih =>
    intro prev next h
    obtain ⟨h1, h2⟩ := h
    rw [List.reverse_cons, pathSeg_append]
    refine ⟨ih (some p) next h2, ?_, trivial⟩
    rw [lastOr_reverse]
    exact nbrPair_comm _ _ _ h1

theorem nbrPair_free (x : Ladder) (a b : Option Nat) (o : Nat) (h : x.NbrPair a b)
    (hfree : x.neighbor o = none) : a = none ∨ b = none := by
  unfold Ladder.NbrPair at h
  by_cases ho : o = 0
  · rw [neighbor_side x o 0 (by simp [ho])] at hfree
    rcases h with ⟨h1, _⟩ | ⟨h1, _⟩
    · exact Or.inl (h1.symm.trans hfree)
    · exact Or.inr (h1.symm.trans hfree)
  · rw [neighbor_side x o 1 (by simp [ho])] at hfree
    rcases h with ⟨_, h1⟩ | ⟨_, h1⟩
    · exact Or.inr (h1.symm.trans hfree)
    · exact Or.inl (h1.symm.trans hfree)

/-- Filling the free slot `o` of a ladder whose neighbors are `a` and none. -/
theorem nbrPair_fill (x x1 : Ladder) (o l : Nat) (a : Option Nat) (h : x.NbrPair a none)
    (hfree : x.neighbor o = none)
    (h0 : x1.neighbor 0 = if (0 = 0 ↔ o = 0) then some l else x.neighbor 0)
    (h1 : x1.neighbor 1 = if (1 = 0 ↔ o = 0) then some l else x.neighbor 1) :
    x1.NbrPair a (some l) := by
  unfold Ladder.NbrPair at h ⊢
  by_cases ho : o = 0
  · rw [neighbor_side x o 0 (by simp [ho])] at hfree
    simp only [ho, iff_true, if_true, Nat.one_ne_zero, if_false] at h0 h1
    rw [h0, h1]
    rcases h with ⟨e1, e2⟩ | ⟨e1, e2⟩
    · right
      refine ⟨rfl, ?_⟩
      rw [e2, ← e1, hfree]
    · right
      exact ⟨rfl, e2⟩
  · rw [neighbor_side x o 1 (by simp [ho])] at hfree
    simp only [ho, iff_false, not_true_eq_false, if_false, Nat.one_ne_zero, not_false_eq_true,
      if_true] at h0 h1
    rw [h0, h1]
    rcases h with ⟨e1, e2⟩ | ⟨e1, e2⟩
    · left
      exact ⟨e1, rfl⟩
    · left
      refine ⟨?_, rfl⟩
      rw [e1, ← e2, hfree]

theorem otherNeighbor_of_nbrPair (x : Ladder) (a b : Option Nat) (h : x.NbrPair a b) :
    x.otherNeighbor a = b := by
  unfold Ladder.NbrPair Ladder.neighbor at h
  simp only [if_true, Nat.one_ne_zero, if_false] at h
  unfold Ladder.otherNeighbor
  rcases h with ⟨e1, e2⟩ | ⟨e1, e2⟩
  · rw [if_pos e1, e2]
  · by_cases hab : b = a
    · rw [if_pos (e1.trans hab), e2, hab]
    · rw [if_neg (by rw [e1]; exact hab), e1]

theorem neighborCount_of_nbrPair (x : Ladder) (a b : Option Nat) (h : x.NbrPair a b) :
    x.neighborCount = (if a.isSome then 1 else 0) + (if b.isSome then 1 else 0) := by
  unfold Ladder.NbrPair Ladder.neighbor at h
  simp only [if_true, Nat.one_ne_zero, if_false] at h
  unfold Ladder.neighborCount
  rcases h with ⟨e1, e2⟩ | ⟨e1, e2⟩
  · rw [e1, e2]
  · rw [e1, e2, Nat.add_comm]

theorem sheetStep_paths {m m1 : Model} (h : SheetStep m m1) (hc : m.SheetsConsistent)
    (hp : m.SheetsArePaths) : m1.SheetsArePaths := by
  have hsh := sheetStep_sheet_ne_none h
  obtain ⟨hu, hps⟩ := hp
  cases h with
  | start l sName hl hv hs =>
    have hfree := hu l hs
    constructor
    · intro p hpn
      rw [start_step_neighbor, start_step_neighbor]
      apply hu
      by_contra hc2
      exact hsh p hc2 hpn
    · intro s sh1 hs1
      rw [sheets_assignSheet] at hs1
      simp only at hs1
      by_cases hlt : s < m.sheetList_.length
      · rw [List.getElem?_append_left hlt] at hs1
        cases hsh0 : m.sheetList_[s]? with
        | none => rw [hsh0] at hs1; cases hs1
        | some sh =>
          rw [hsh0] at hs1
          simp only [Option.map_some', Option.some.injEq] at hs1
          rw [if_neg (by omega)] at hs1
          subst hs1
          obtain ⟨path, q1, q2, q3, q4⟩ := hps s sh hsh0
          refine ⟨path, q1, q2, q3, pathSeg_congr m _ path none none ?_ q4⟩
          intro p _
          exact ⟨start_step_neighbor _ _ _ _ _ _, start_step_neighbor _ _ _ _ _ _⟩
      · rw [List.getElem?_append_right (by omega)] at hs1
        cases hx : s - m.sheetList_.length with
        | zero =>
          rw [hx] at hs1
          simp only [List.getElem?_cons_zero, Option.map_some', Option.some.injEq] at hs1
          rw [if_pos (by omega)] at hs1
          subst hs1
          refine ⟨[l], by simp, by simp [Sheet.addLadder], List.nodup_singleton _, ?_, trivial⟩
          unfold Ladder.NbrPair
          rw [start_step_neighbor, start_step_neighbor]
          exact Or.inl hfree
        | succ k =>
          rw [hx] at hs1
          simp at hs1
  | link l o0 ladder o1 sheet hl hv hla hva hs hsa hov hn0 hn1 =>
    have hne : l ≠ ladder := by
      intro h
      rw [h, hsa] at hs
      cases hs
    have hfree := hu l hs
    have hN := link_step_neighbor m l o0 ladder o1 sheet hv hva hne
    have hlsheet : (((m.link l o0 ladder o1).assignSheet l sheet).ladder l).sheet_ ≠ none := by
      rw [sheet_assignSheet]
      have : l < (m.link l o0 ladder o1).ladders.length := by
        simp [Model.link]; exact hv
      simp [this]
    have hother : ∀ p, p ≠ l → p ≠ ladder →
        (((m.link l o0 ladder o1).assignSheet l sheet).ladder p).neighbor 0
            = (m.ladder p).neighbor 0
        ∧ (((m.link l o0 ladder o1).assignSheet l sheet).ladder p).neighbor 1
            = (m.ladder p).neighbor 1 := by
      intro p h1 h2
      rw [hN, hN, if_neg (fun h => h1 h.1), if_neg (fun h => h2 h.1),
        if_neg (fun h => h1 h.1), if_neg (fun h => h2 h.1)]
      exact ⟨rfl, rfl⟩
    have hlpair : (((m.link l o0 ladder o1).assignSheet l sheet).ladder l).NbrPair
        (some ladder) none := by
      apply nbrPair_comm
      apply nbrPair_fill (m.ladder l) _ o0 ladder none (Or.inl hfree) hn0
      · rw [hN]
        by_cases c : (0 = 0 ↔ o0 = 0)
        · rw [if_pos c, if_pos ⟨rfl, c⟩]
        · rw [if_neg c, if_neg (fun h => c h.2), if_neg (fun h => hne h.1)]
      · rw [hN]
        by_cases c : (1 = 0 ↔ o0 = 0)
        · rw [if_pos c, if_pos ⟨rfl, c⟩]
        · rw [if_neg c, if_neg (fun h => c h.2), if_neg (fun h => hne h.1)]
    have hlafill : ∀ a, (m.ladder ladder).NbrPair a none →
        (((m.link l o0 ladder o1).assignSheet l sheet).ladder ladder).NbrPair a (some l) := by
      intro a ha
      apply nbrPair_fill (m.ladder ladder) _ o1 l a ha hn1
      · rw [hN, if_neg (fun h => hne h.1.symm)]
        by_cases c : (0 = 0 ↔ o1 = 0)
        · rw [if_pos c, if_pos ⟨rfl, c⟩]
        · rw [if_neg c, if_neg (fun h => c h.2)]
      · rw [hN, if_neg (fun h => hne h.1.symm)]
        by_cases c : (1 = 0 ↔ o1 = 0)
        · rw [if_pos c, if_pos ⟨rfl, c⟩]
        · rw [if_neg c, if_neg (fun h => c h.2)]
    constructor
    · intro p hpn
      have hpm : (m.ladder p).sheet_ = none := by
        by_contra hc2
        exact hsh p hc2 hpn
      have h1 : p ≠ l := by
        intro h
        subst h
        exact hlsheet hpn
      have h2 : p ≠ ladder := by
        intro h
        rw [h, hsa] at hpm
        cases hpm
      obtain ⟨e0, e1⟩ := hother p h1 h2
      rw [e0, e1]
      exact hu p hpm
    · intro s sh1 hs1
      rw [sheets_assignSheet] at hs1
      have hsl : (m.link l o0 ladder o1).sheetList_ = m.sheetList_ := rfl
      rw [hsl] at hs1
      cases hsh0 : m.sheetList_[s]? with
      | none => rw [hsh0] at hs1; cases hs1
      | some sh =>
        rw [hsh0] at hs1
        simp only [Option.map_some', Option.some.injEq] at hs1
        obtain ⟨path, q1, q2, q3, q4⟩ := hps s sh hsh0
        have hmem : ∀ p ∈ path, (m.ladder p).sheet_ = some s := by
          intro p hp
          exact (hc.1 s sh hsh0 p (q2.mem_iff.1 hp)).2
        have hnl : ∀ p ∈ path, p ≠ l := by
          intro p hp h
          have := hmem p hp
          rw [h, hs] at this
          cases this
        by_cases hst : sheet = s
        · rw [if_pos hst] at hs1
          subst hs1
          subst hst
          have hlain : ladder ∈ path := by
            obtain ⟨sh0, h1, h2⟩ := hc.2 ladder hla sheet hsa
            rw [hsh0] at h1
            simp only [Option.some.injEq] at h1
            subst h1
            apply q2.mem_iff.2
            apply List.count_pos_iff.1
            omega
          obtain ⟨xs, ys, hxy⟩ := List.append_of_mem hlain
          rw [hxy] at q3 q4 q2 hnl
          obtain ⟨A, B, C⟩ := (pathSeg_append m xs none ladder ys none).1 q4
          have hnd := List.nodup_append.1 q3
          have hlaxs : ladder ∉ xs := by
            intro h
            exact hnd.2.2 h (List.mem_cons_self _ _)
          have hlays : ladder ∉ ys := (List.nodup_cons.1 hnd.2.1).1
          have hcongr : ∀ (zs : List Nat), (∀ p ∈ zs, p ≠ l) → ladder ∉ zs →
              ∀ p ∈ zs, (((m.link l o0 ladder o1).assignSheet l sheet).ladder p).neighbor 0
                  = (m.ladder p).neighbor 0
                ∧ (((m.link l o0 ladder o1).assignSheet l sheet).ladder p).neighbor 1
                  = (m.ladder p).neighbor 1 := by
            intro zs h1 h2 p hp
            exact hother p (h1 p hp) (fun h => h2 (by rw [← h]; exact hp))
          have hlnot : l ∉ xs ++ ladder :: ys := fun h => hnl l h rfl
          rcases nbrPair_free _ _ _ o1 B hn1 with hA | hB
          · -- the ladder is the first of the path: the new ladder goes in front
            have hxs := lastOr_eq_none none xs hA
            subst hxs
            simp only [List.nil_append] at q2 q3 hnl hlnot
            rw [lastOr] at B
            refine ⟨l :: ladder :: ys, by simp, ?_, ?_, ?_⟩
            · simp only [Sheet.addLadder]
              exact (List.perm_append_singleton l (ladder :: ys)).symm.trans
                (List.Perm.append_right [l] q2)
            · exact List.nodup_cons.2 ⟨hlnot, q3⟩
            · refine ⟨nbrPair_comm _ _ _ hlpair, ?_, ?_⟩
              · exact nbrPair_comm _ _ _ (hlafill _ (nbrPair_comm _ _ _ B))
              · exact pathSeg_congr m _ ys (some ladder) none
                  (hcongr ys (fun p hp => hnl p (List.mem_cons_of_mem _ hp)) hlays) C
          · -- the ladder is the last of the path: the new ladder goes behind
            have hys := headOr_eq_none ys hB
            subst hys
            rw [headOr] at B
            refine ⟨xs ++ ladder :: [l], by simp, ?_, ?_, ?_⟩
            · simp only [Sheet.addLadder]
              have : xs ++ ladder :: [l] = (xs ++ [ladder]) ++ [l] := by simp
              rw [this]
              exact List.Perm.append_right [l] q2
            · have : xs ++ ladder :: [l] = (xs ++ [ladder]) ++ [l] := by simp
              rw [this]
              refine List.nodup_append.2 ⟨q3, List.nodup_singleton _, ?_⟩
              intro a ha hb
              rw [List.mem_singleton] at hb
              subst hb
              exact hlnot ha
            · rw [pathSeg_append]
              refine ⟨?_, ?_, ?_, trivial⟩
              · exact pathSeg_congr m _ xs none (some ladder)
                  (hcongr xs (fun p hp => hnl p (List.mem_append_left _ hp)) hlaxs) A
              · exact hlafill _ B
              · exact hlpair
        · rw [if_neg hst] at hs1
          subst hs1
          refine ⟨path, q1, q2, q3, pathSeg_congr m _ path none none ?_ q4⟩
          intro p hp
          apply hother p (hnl p hp)
          intro h
          have := hmem p hp
          rw [h, hsa] at this
          simp only [Option.some.injEq] at this
          exact hst this

theorem sheetSteps_paths {m m1 : Model} (h : SheetSteps m m1) (hc : m.SheetsConsistent)
    (hp : m.SheetsArePaths) : m1.SheetsConsistent ∧ m1.SheetsArePaths := by
  induction h with
  | refl => exact ⟨hc, hp⟩
  | tail _ hstep ih => exact ⟨sheetStep_consistent hstep ih.1, sheetStep_paths hstep ih.1 ih.2⟩

/-- The state left by findBridges satisfies the invariants of the sheet assembly. -/
theorem paths_initial (M : Model)
    (h0 : ∀ p ∈ M.ladderList_, (M.ladder p).sheet_ = none)
    (hn : ∀ p, p < M.ladders.length →
      (M.ladder p).neighbor 0 = none ∧ (M.ladder p).neighbor 1 = none)
    (hs : M.sheetList_ = []) : M.SheetsConsistent ∧ M.SheetsArePaths := by
  refine ⟨⟨?_, ?_⟩, ⟨?_, ?_⟩⟩
  · intro s sh hsh
    rw [hs] at hsh
    simp at hsh
  · intro p hp s hps
    rw [h0 p hp] at hps
    cases hps
  · intro p _
    by_cases hp : p < M.ladders.length
    · exact hn p hp
    · have : M.ladder p = default := by
        unfold Model.ladder
        rw [List.getD_eq_getElem?_getD, List.getElem?_eq_none (by omega)]
        rfl
      rw [this]
      exact ⟨default_ladder_neighbor 0, default_ladder_neighbor 1⟩
  · intro s sh hsh
    rw [hs] at hsh
    simp at hsh

theorem pathSeg_count (m : Model) :
    ∀ (path : List Nat) (prev next : Option Nat), PathSeg m prev path next → path ≠ [] →
      (path.map (fun p => (m.ladder p).neighborCount)).sum
        = 2 * (path.length - 1) + (if prev.isSome then 1 else 0)
          + (if next.isSome then 1 else 0) := by
  intro path
  induction path with
  | nil => intro _ _ _ h; exact absurd rfl h
  | cons p rest ih =>
    intro prev next h _
    obtain ⟨h1, h2⟩ := h
    have hc := neighborCount_of_nbrPair _ _ _ h1
    cases rest with
    | nil =>
      simp only [List.map_cons, List.map_nil, List.sum_cons, List.sum_nil, List.length_singleton]
      rw [hc]
      simp only [headOr]
      omega
    | cons q r =>
      have := ih (some p) next h2 (by simp)
      simp only [List.map_cons, List.sum_cons, List.length_cons] at this ⊢
      rw [hc, this]
      simp only [headOr, Option.isSome_some, if_true]
      omega

theorem sheetWalk_path (m : Model) (fl : Nat) :
    ∀ (rest : List Nat) (p : Nat) (prev : Option Nat) (acc : List Nat) (fuel : Nat),
      PathSeg m prev (p :: rest) none → (prev ≠ none → p ≠ fl) → fl ∉ rest →
      rest.length + 2 ≤ fuel →
      sheetWalk m fl fuel (some p) prev acc = some (acc ++ p :: rest) := by
  intro rest
  induction rest with
  | nil =>
    intro p prev acc fuel h hp _ hf
    obtain ⟨h1, _⟩ := h
    obtain ⟨f, rfl⟩ : ∃ f, fuel = f + 1 := ⟨fuel - 1, by simp at hf; omega⟩
    obtain ⟨g, rfl⟩ : ∃ g, f = g + 1 := ⟨f - 1, by simp at hf; omega⟩
    rw [sheetWalk]
    rw [if_neg (fun hc => hp hc.2 hc.1), otherNeighbor_of_nbrPair _ _ _ h1]
    rfl
  | cons q r ih =>
    intro p prev acc fuel h hp hfl hf
    obtain ⟨h1, h2⟩ := h
    obtain ⟨f, rfl⟩ : ∃ f, fuel = f + 1 := ⟨fuel - 1, by simp at hf; omega⟩
    rw [sheetWalk]
    rw [if_neg (fun hc => hp hc.2 hc.1), otherNeighbor_of_nbrPair _ _ _ h1]
    simp only [headOr]
    rw [ih q (some p) (acc ++ [p]) f h2
      (fun _ hq => hfl (by rw [hq]; exact List.mem_cons_self _ _))
      (fun hq => hfl (List.mem_cons_of_mem _ hq)) (by simp at hf ⊢; omega)]
    simp

/-- The ladder returned by firstLadder for a sheet whose members form a simple path is an end
of the path. -/
theorem firstLadder_endpoint (m : Model) (sh : Sheet) (path : List Nat) (hne : path ≠ [])
    (hperm : path.Perm sh.ladderList_) (hnd : path.Nodup) (hseg : PathSeg m none path none) :
    ∃ fl, sh.firstLadder m = some fl ∧ fl ∈ sh.ladderList_
      ∧ (m.ladder fl).neighborCount ≤ 1
      ∧ ((m.ladder fl).neighborCount = 1
        ∨ ((∀ p ∈ sh.ladderList_, (m.ladder p).neighborCount ≠ 1)
          ∧ sh.ladderList_.head? = some fl))
      ∧ ∃ rest, (fl :: rest).Perm sh.ladderList_ ∧ (fl :: rest).Nodup
          ∧ PathSeg m none (fl :: rest) none := by
  unfold Sheet.firstLadder
  cases hf : sh.ladderList_.find? (fun p => (m.ladder p).neighborCount == 1) with
  | some q =>
    have hq1 : (m.ladder q).neighborCount = 1 := by
      have := List.find?_some hf
      simpa using this
    have hqL : q ∈ sh.ladderList_ := List.mem_of_find?_eq_some hf
    have hqp : q ∈ path := hperm.mem_iff.2 hqL
    obtain ⟨xs, ys, hxy⟩ := List.append_of_mem hqp
    subst hxy
    obtain ⟨A, B, C⟩ := (pathSeg_append m xs none q ys none).1 hseg
    have hcount := neighborCount_of_nbrPair _ _ _ B
    rw [hq1] at hcount
    refine ⟨q, rfl, hqL, by omega, Or.inl hq1, ?_⟩
    by_cases hA : lastOr none xs = none
    · have hxs := lastOr_eq_none none xs hA
      subst hxs
      exact ⟨ys, hperm, hnd, hseg⟩
    · have hB : headOr none ys = none := by
        cases hl : lastOr none xs with
        | none => exact absurd hl hA
        | some z =>
          rw [hl] at hcount
          cases hh : headOr none ys with
          | none => rfl
          | some y =>
            rw [hh] at hcount
            simp at hcount
      have hys := headOr_eq_none ys hB
      subst hys
      refine ⟨xs.reverse, ?_, ?_, ?_⟩
      · have : q :: xs.reverse = (xs ++ [q]).reverse := by simp
        rw [this]
        exact (List.reverse_perm _).trans hperm
      · have : q :: xs.reverse = (xs ++ [q]).reverse := by simp
        rw [this]
        exact List.nodup_reverse.2 hnd
      · have : q :: xs.reverse = (xs ++ [q]).reverse := by simp
        rw [this]
        exact pathSeg_reverse m _ none none hseg
  | none =>
    have hall : ∀ p ∈ sh.ladderList_, (m.ladder p).neighborCount ≠ 1 := by
      intro p hp hc
      have := List.find?_eq_none.1 hf p hp
      simp [hc] at this
    cases path with
    | nil => exact absurd rfl hne
    | cons a rest =>
      cases rest with
      | nil =>
        have hL : sh.ladderList_ = [a] := List.perm_singleton.1 hperm.symm
        obtain ⟨h1, _⟩ := hseg
        have hcount := neighborCount_of_nbrPair _ _ _ h1
        simp only [headOr, Option.isSome_none, Bool.false_eq_true, if_false] at hcount
        refine ⟨a, by simp [hL], by simp [hL], by omega, Or.inr ⟨hall, by simp [hL]⟩, [],
          hperm, hnd, ⟨h1, trivial⟩⟩
      | cons b r =>
        exfalso
        obtain ⟨h1, _⟩ := hseg
        have hcount := neighborCount_of_nbrPair _ _ _ h1
        simp only [headOr, Option.isSome_none, Bool.false_eq_true, if_false,
          Option.isSome_some, if_true] at hcount
        exact hall a (hperm.mem_iff.1 (List.mem_cons_self _ _)) (by omega)

/-- A step of findSheets makes a new link only between a ladder that has a sheet and a ladder
that has none. -/
theorem sheetStep_new_link {m m1 : Model} (h : SheetStep m m1) (p a q : Nat)
    (hq : (m1.ladder p).neighbor a = some q) :
    (m.ladder p).neighbor a = some q
      ∨ ((m.ladder p).sheet_ = none ∧ (m.ladder q).sheet_ ≠ none)
      ∨ ((m.ladder p).sheet_ ≠ none ∧ (m.ladder q).sheet_ = none) := by
  cases h with
  | start l sName hl hv hs =>
    rw [start_step_neighbor] at hq
    exact Or.inl hq
  | link l o0 ladder o1 sheet hl hv hla hva hs hsa hov hn0 hn1 =>
    have hne : l ≠ ladder := by
      intro h
      rw [h, hsa] at hs
      cases hs
    rw [link_step_neighbor m l o0 ladder o1 sheet hv hva hne] at hq
    by_cases c1 : p = l ∧ (a = 0 ↔ o0 = 0)
    · rw [if_pos c1] at hq
      simp only [Option.some.injEq] at hq
      subst hq
      rw [c1.1]
      exact Or.inr (Or.inl ⟨hs, by rw [hsa]; simp⟩)
    · rw [if_neg c1] at hq
      by_cases c2 : p = ladder ∧ (a = 0 ↔ o1 = 0)
      · rw [if_pos c2] at hq
        simp only [Option.some.injEq] at hq
        subst hq
        rw [c2.1]
        exact Or.inr (Or.inr ⟨by rw [hsa]; simp, hs⟩)
      · rw [if_neg c2] at hq
        exact Or.inl hq

/-- The result of findSheets on the state left by findBridges: every sheet is a simple
path. -/
theorem findSheets_paths (M : Model) (hv : M.LaddersValid)
    (h0 : ∀ p ∈ M.ladderList_, (M.ladder p).sheet_ = none)
    (hn : ∀ p, p < M.ladders.length →
      (M.ladder p).neighbor 0 = none ∧ (M.ladder p).neighbor 1 = none)
    (hs : M.sheetList_ = []) :
    ∃ m1, M.findSheets = some m1 ∧ SheetSteps M m1 ∧ m1.SheetsConsistent
      ∧ m1.SheetsArePaths := by
  obtain ⟨m1, h1, hsteps, _⟩ := findSheets_steps M hv
  obtain ⟨c0, p0⟩ := paths_initial M h0 hn hs
  obtain ⟨c1, p1⟩ := sheetSteps_paths hsteps c0 p0
  exact ⟨m1, h1, hsteps, c1, p1⟩

/-- C35: on the state left by findBridges (ladder list pointing into the arena, no sheet, no
neighbor, empty sheet list) findSheets returns, and it never closes a cycle of neighbor links:
every step makes a new link only between a ladder that has a sheet and a ladder that has none,
so the members of every sheet can be arranged without repetition in a path in which the
neighbors of each ladder are the ladder before it and the ladder after it; the neighbor counts
of the m members of a sheet add up to 2 (m - 1), that is m - 1 links; and firstLadder returns a
member with at most one neighbor, so the test neighborCount() > 1 of printSheet's cyclic case
is false. -/
theorem sheets_simple_paths (M : Model) (hv : M.LaddersValid)
    (h0 : ∀ p ∈ M.ladderList_, (M.ladder p).sheet_ = none)
    (hn : ∀ p, p < M.ladders.length →
      (M.ladder p).neighbor 0 = none ∧ (M.ladder p).neighbor 1 = none)
    (hs : M.sheetList_ = []) :
    ∃ m1, M.findSheets = some m1 ∧ SheetSteps M m1
      ∧ (∀ (s : Nat) (sh : Sheet), m1.sheetList_[s]? = some sh →
          (∃ path : List Nat, path ≠ [] ∧ path.Perm sh.ladderList_ ∧ path.Nodup
            ∧ PathSeg m1 none path none)
          ∧ (sh.ladderList_.map (fun p => (m1.ladder p).neighborCount)).sum
              = 2 * (sh.ladderList_.length - 1)
          ∧ ∃ fl, sh.firstLadder m1 = some fl ∧ fl ∈ sh.ladderList_
              ∧ (m1.ladder fl).neighborCount ≤ 1 ∧ ¬ ((m1.ladder fl).neighborCount > 1))
      ∧ (∀ m2 m3, SheetSteps M m2 → SheetStep m2 m3 →
          ∀ p a q, (m3.ladder p).neighbor a = some q →
            (m2.ladder p).neighbor a = some q
              ∨ ((m2.ladder p).sheet_ = none ∧ (m2.ladder q).sheet_ ≠ none)
              ∨ ((m2.ladder p).sheet_ ≠ none ∧ (m2.ladder q).sheet_ = none)) := by
  obtain ⟨m1, h1, hsteps, _, _, hps⟩ := findSheets_paths M hv h0 hn hs
  refine ⟨m1, h1, hsteps, ?_, ?_⟩
  · intro s sh hsh
    obtain ⟨path, q1, q2, q3, q4⟩ := hps s sh hsh
    refine ⟨⟨path, q1, q2, q3, q4⟩, ?_, ?_⟩
    · have hsum := pathSeg_count m1 path none none q4 q1
      simp only [Option.isSome_none, Bool.false_eq_true, if_false, Nat.add_zero] at hsum
      rw [← q2.length_eq, ← hsum]
      exact ((q2.map _).sum_eq).symm
    · obtain ⟨fl, f1, f2, f3, _⟩ := firstLadder_endpoint m1 sh path q1 q2 q3 q4
      exact ⟨fl, f1, f2, f3, by omega⟩
  · intro m2 m3 _ hstep p a q hq
    exact sheetStep_new_link hstep p a q hq

theorem sheets_simple_paths_witness :
    sheetModel3.findSheets.map (fun m => m.sheetList_) = some [⟨'A', [0, 1]⟩, ⟨'B', [2]⟩]
    ∧ ∃ m1, sheetModel3.findSheets = some m1 ∧ SheetSteps sheetModel3 m1
      ∧ (∀ (s : Nat) (sh : Sheet), m1.sheetList_[s]? = some sh →
          (∃ path : List Nat, path ≠ [] ∧ path.Perm sh.ladderList_ ∧ path.Nodup
            ∧ PathSeg m1 none path none)
          ∧ (sh.ladderList_.map (fun p => (m1.ladder p).neighborCount)).sum
              = 2 * (sh.ladderList_.length - 1)
          ∧ ∃ fl, sh.firstLadder m1 = some fl ∧ fl ∈ sh.ladderList_
              ∧ (m1.ladder fl).neighborCount ≤ 1 ∧ ¬ ((m1.ladder fl).neighborCount > 1))
      ∧ (∀ m2 m3, SheetSteps sheetModel3 m2 → SheetStep m2 m3 →
          ∀ p a q, (m3.ladder p).neighbor a = some q →
            (m2.ladder p).neighbor a = some q
              ∨ ((m2.ladder p).sheet_ = none ∧ (m2.ladder q).sheet_ ≠ none)
              ∨ ((m2.ladder p).sheet_ ≠ none ∧ (m2.ladder q).sheet_ = none)) :=
  ⟨by decide,
    sheets_simple_paths sheetModel3 (by unfold Model.LaddersValid; decide) (by decide)
      (by decide) rfl⟩

/-- C21: on the state left by findBridges, findSheets returns, and for every sheet of the
result the walk of printSheet and printSummary, started at firstLadder() (a member with
exactly one neighbor if the sheet has one, the head of the member list otherwise), ends within
one iteration per member plus the final test, and the ladders it stores are the members of the
sheet, each exactly once: the number of ladders walked is the ladder count of the sheet. -/
theorem sheetWalk_visits_members (M : Model) (hv : M.LaddersValid)
    (h0 : ∀ p ∈ M.ladderList_, (M.ladder p).sheet_ = none)
    (hn : ∀ p, p < M.ladders.length →
      (M.ladder p).neighbor 0 = none ∧ (M.ladder p).neighbor 1 = none)
    (hs : M.sheetList_ = []) :
    ∃ m1, M.findSheets = some m1
      ∧ ∀ (s : Nat) (sh : Sheet), m1.sheetList_[s]? = some sh →
          ∃ fl w, sh.firstLadder m1 = some fl
            ∧ ((m1.ladder fl).neighborCount = 1
              ∨ ((∀ p ∈ sh.ladderList_, (m1.ladder p).neighborCount ≠ 1)
                ∧ sh.ladderList_.head? = some fl))
            ∧ (∀ fuel, sh.ladderList_.length + 1 ≤ fuel →
                sheetWalk m1 fl fuel (some fl) none [] = some w)
            ∧ w.Perm sh.ladderList_ ∧ w.Nodup ∧ w.length = sh.ladderList_.length := by
  obtain ⟨m1, h1, _, _, _, hps⟩ := findSheets_paths M hv h0 hn hs
  refine ⟨m1, h1, ?_⟩
  intro s sh hsh
  obtain ⟨path, q1, q2, q3, q4⟩ := hps s sh hsh
  obtain ⟨fl, f1, _, _, f4, rest, r1, r2, r3⟩ := firstLadder_endpoint m1 sh path q1 q2 q3 q4
  refine ⟨fl, fl :: rest, f1, f4, ?_, r1, r2, r1.length_eq⟩
  intro fuel hf
  have hlen : (fl :: rest).length = sh.ladderList_.length := r1.length_eq
  have := sheetWalk_path m1 fl rest fl none [] fuel r3 (fun h => absurd rfl h)
    (List.nodup_cons.1 r2).1 (by simp at hlen; omega)
  simpa using this

theorem sheetWalk_visits_members_witness :
    sheetModel3.findSheets.bind (fun m => sheetWalk m 0 3 (some 0) none []) = some [0, 1]
    ∧ ∃ m1, sheetModel3.findSheets = some m1
      ∧ ∀ (s : Nat) (sh : Sheet), m1.sheetList_[s]? = some sh →
          ∃ fl w, sh.firstLadder m1 = some fl
            ∧ ((m1.ladder fl).neighborCount = 1
              ∨ ((∀ p ∈ sh.ladderList_, (m1.ladder p).neighborCount ≠ 1)
                ∧ sh.ladderList_.head? = some fl))
            ∧ (∀ fuel, sh.ladderList_.length + 1 ≤ fuel →
                sheetWalk m1 fl fuel (some fl) none [] = some w)
            ∧ w.Perm sh.ladderList_ ∧ w.Nodup ∧ w.length = sh.ladderList_.length :=
  ⟨by decide,
    sheetWalk_visits_members sheetModel3 (by unfold Model.LaddersValid; decide) (by decide)
      (by decide) rfl⟩

end Ksdssp
